import Mathlib

/-!
# Leela Zero board engine: a shallow embedding

The board classes `FastBoard`/`FullBoard` and the state class `FastState` are
embedded as pure state-passing functions.  Fixed-size C++ arrays are total
functions on indices; `unsigned short` arithmetic is reduced modulo `65536`
where the source increments, decrements or adds in place.  The two `do/while`
loops that walk a string ring take fuel (`m_vertices_number`), and return
`none` when it runs out.

`BOARD_SIZE` (from `config.h`) is a parameter; `VERTICES_NUMBER` is derived
from it as in `FastBoard.h`.  The Zobrist tables are filled from a random
generator at start-up, so they are a parameter as well.
-/

namespace LeelaZero

/-! ## Constants of `FastBoard.h` and `Zobrist.h` -/

abbrev BLACK : Nat := 0
abbrev WHITE : Nat := 1
abbrev EMPTY : Nat := 2
abbrev INVALID : Nat := 3

abbrev NO_VERTEX : Nat := 0
abbrev PASS : Int := -1
abbrev RESIGN : Int := -2

abbrev NEIGHBOR_SHIFT : Nat := 4
abbrev NEIGHBOR_MASK : Nat := (1 <<< NEIGHBOR_SHIFT) - 1

/-- Number of vertices of the letter-boxed board, `(BOARD_SIZE + 2)^2`. -/
def VERTICES_NUMBER (BOARD_SIZE : Nat) : Nat := (BOARD_SIZE + 2) * (BOARD_SIZE + 2)

/-- Bit masks to detect eyes on neighbors, `s_eye_mask`. -/
def s_eye_mask (color : Nat) : Nat := 4 * (1 <<< (NEIGHBOR_SHIFT * color))

/-- Logical negation of a colour used as an index, the C++ `!color`. -/
def notc (color : Nat) : Nat := if color = 0 then 1 else 0

abbrev ZOBRIST_EMPTY : Nat := 0x1234567887654321
abbrev ZOBRIST_BLACK_TO_MOVE : Nat := 0xABCDABCDABCDABCD

/-- The Zobrist tables, filled by `Zobrist::init_zobrist` from the random generator. -/
structure Zobrist where
  zobrist_states : Nat → Nat → Nat
  zobrist_ko_move : Nat → Nat
  zobrist_prisoners : Nat → Nat → Nat
  zobrist_passes : Nat → Nat

/-- In-place `++` on an `unsigned short`. -/
def inc16 (x : Nat) : Nat := (x + 1) % 65536

/-- In-place `--` on an `unsigned short`. -/
def dec16 (x : Nat) : Nat := (x + 65535) % 65536

/-! ## The board -/

/-- Data members of `FastBoard` together with the two hashes of `FullBoard`. -/
@[ext] structure FullBoard where
  m_state : Nat → Nat
  m_next : Nat → Nat
  m_parent : Nat → Nat
  m_liberties : Nat → Nat
  m_stones : Nat → Nat
  m_neighbors : Nat → Nat
  m_directions : Nat → Int
  m_prisoners : Nat → Nat
  m_empty_intersections : Int → Nat
  m_empty_intersections_indices : Nat → Int
  m_empty_count : Int
  m_color_to_move : Nat
  m_vertices_number : Nat
  m_board_size : Nat
  m_side_vertices : Nat
  m_hash : Nat
  m_hash_ko : Nat

/-- The vertex `vertex + m_directions[k]`. -/
def nbr (b : FullBoard) (k : Nat) (vertex : Nat) : Nat :=
  ((vertex : Int) + b.m_directions k).toNat

/-- Embedding of `FastBoard::get_vertex`. -/
def get_vertex (b : FullBoard) (x y : Nat) : Nat :=
  (y + 1) * b.m_side_vertices + (x + 1)

/-- Embedding of `FastBoard::count_neighbors`. -/
def count_neighbors (b : FullBoard) (color vertex : Nat) : Nat :=
  (b.m_neighbors vertex >>> (NEIGHBOR_SHIFT * color)) &&& NEIGHBOR_MASK

/-- Embedding of `FastBoard::count_liberties`. -/
def count_liberties (b : FullBoard) (vertex : Nat) : Nat :=
  count_neighbors b EMPTY vertex

/-- First loop of `FastBoard::reset_board`: every vertex becomes a border vertex. -/
def reset_clear (VN : Nat) (b : FullBoard) (i : Nat) : FullBoard :=
  { b with
    m_state := Function.update b.m_state i INVALID
    m_neighbors := Function.update b.m_neighbors i 0
    m_parent := Function.update b.m_parent i VN }

/-- Neighbour tally added along one axis in `FastBoard::reset_board`. -/
def reset_axis (size i : Nat) (n : Nat) : Nat :=
  if i = 0 ∨ i = size - 1 then
    (n + ((1 <<< (NEIGHBOR_SHIFT * BLACK)) ||| (1 <<< (NEIGHBOR_SHIFT * WHITE)))
       + (1 <<< (NEIGHBOR_SHIFT * EMPTY))) % 65536
  else
    (n + (2 <<< (NEIGHBOR_SHIFT * EMPTY))) % 65536

/-- Body of the nested loop of `FastBoard::reset_board` for the point `(i, j)`. -/
def reset_point (size : Nat) (b : FullBoard) (i j : Nat) : FullBoard :=
  let vertex := get_vertex b i j
  { b with
    m_state := Function.update b.m_state vertex EMPTY
    m_empty_intersections_indices :=
      Function.update b.m_empty_intersections_indices vertex (b.m_empty_count % 65536)
    m_empty_intersections := Function.update b.m_empty_intersections b.m_empty_count vertex
    m_empty_count := b.m_empty_count + 1
    m_neighbors :=
      Function.update b.m_neighbors vertex
        (reset_axis size j (reset_axis size i (b.m_neighbors vertex))) }

/-- Embedding of `FastBoard::reset_board`. -/
def FastBoard_reset_board (BOARD_SIZE : Nat) (b : FullBoard) (size : Nat) : FullBoard :=
  let VN := VERTICES_NUMBER BOARD_SIZE
  let b1 : FullBoard :=
    { b with
      m_board_size := size
      m_side_vertices := size + 2
      m_vertices_number := (size + 2) * (size + 2)
      m_color_to_move := BLACK
      m_prisoners := Function.update (Function.update b.m_prisoners BLACK 0) WHITE 0
      m_empty_count := 0
      m_directions := fun k =>
        if k = 0 then -((size + 2 : Nat) : Int)
        else if k = 1 then 1
        else if k = 2 then ((size + 2 : Nat) : Int)
        else if k = 3 then -1
        else b.m_directions k }
  let b2 := (List.range b1.m_vertices_number).foldl (reset_clear VN) b1
  let b3 := (List.range size).foldl
    (fun acc i => (List.range size).foldl (fun acc2 j => reset_point size acc2 i j) acc) b2
  { b3 with
    m_parent := Function.update b3.m_parent VN VN
    m_liberties := Function.update b3.m_liberties VN 16384
    m_next := Function.update b3.m_next VN VN }

/-- Embedding of `FullBoard::compute_hash_ko`. -/
def compute_hash_ko (Z : Zobrist) (b : FullBoard) : Nat :=
  (List.range b.m_vertices_number).foldl
    (fun result i =>
      if b.m_state i ≠ INVALID then result ^^^ Z.zobrist_states (b.m_state i) i else result)
    ZOBRIST_EMPTY

/-- Embedding of `FullBoard::compute_hash(ko_move)` (identity transform). -/
def compute_hash (Z : Zobrist) (b : FullBoard) (ko_move : Nat) : Nat :=
  let res := (List.range b.m_vertices_number).foldl
    (fun result i =>
      if b.m_state i ≠ INVALID then result ^^^ Z.zobrist_states (b.m_state i) i else result)
    ZOBRIST_EMPTY
  let res := res ^^^ Z.zobrist_prisoners 0 (b.m_prisoners 0)
  let res := res ^^^ Z.zobrist_prisoners 1 (b.m_prisoners 1)
  let res := if b.m_color_to_move = BLACK then res ^^^ ZOBRIST_BLACK_TO_MOVE else res
  res ^^^ Z.zobrist_ko_move ko_move

/-- Embedding of `FullBoard::reset_board`. -/
def reset_board (Z : Zobrist) (BOARD_SIZE : Nat) (b : FullBoard) (size : Nat) : FullBoard :=
  let b1 := FastBoard_reset_board BOARD_SIZE b size
  let b2 := { b1 with m_hash := compute_hash Z b1 NO_VERTEX }
  { b2 with m_hash_ko := compute_hash_ko Z b2 }

/-- One iteration of the direction loop shared by `add_neighbor` and `remove_neighbor`:
the neighbour tally of `ai` changes by `delta`, and the liberty count of the string
owning `ai` is adjusted once per distinct parent. -/
def neighbor_step (tally : Nat → Nat) (adjust : Nat → Nat) (vertex : Nat)
    (acc : FullBoard × List Nat) (k : Nat) : FullBoard × List Nat :=
  let b := acc.1
  let neighbor_parents := acc.2
  let ai := nbr b k vertex
  let b1 := { b with m_neighbors := Function.update b.m_neighbors ai (tally (b.m_neighbors ai)) }
  if b1.m_parent ai ∈ neighbor_parents then (b1, neighbor_parents)
  else
    ({ b1 with
       m_liberties :=
         Function.update b1.m_liberties (b1.m_parent ai) (adjust (b1.m_liberties (b1.m_parent ai))) },
     neighbor_parents ++ [b1.m_parent ai])

/-- Embedding of `FastBoard::add_neighbor`. -/
def add_neighbor (b : FullBoard) (color vertex : Nat) : FullBoard :=
  ((List.range 4).foldl
    (neighbor_step
      (fun n => (n + (1 <<< (NEIGHBOR_SHIFT * color)) + 65536
                  - (1 <<< (NEIGHBOR_SHIFT * EMPTY))) % 65536)
      dec16 vertex)
    (b, [])).1

/-- Embedding of `FastBoard::remove_neighbor`. -/
def remove_neighbor (b : FullBoard) (vertex color : Nat) : FullBoard :=
  ((List.range 4).foldl
    (neighbor_step
      (fun n => (n + (1 <<< (NEIGHBOR_SHIFT * EMPTY)) + 65536
                  - (1 <<< (NEIGHBOR_SHIFT * color))) % 65536)
      inc16 vertex)
    (b, [])).1

/-- A `do { body } while (position != stop)` walk along `m_next`, counting iterations. -/
def ring_loop (body : FullBoard → Nat → FullBoard) (stop : Nat) :
    Nat → FullBoard → Nat → Nat → Option (FullBoard × Nat)
  | 0, _, _, _ => none
  | fuel + 1, b, position, count =>
    let b1 := body b position
    let position1 := b1.m_next position
    if position1 ≠ stop then ring_loop body stop fuel b1 position1 (count + 1)
    else some (b1, count + 1)

/-- Body of the loop of `FullBoard::remove_vertices_string`. -/
def remove_body (Z : Zobrist) (VN : Nat) (color : Nat) (b : FullBoard) (position : Nat) :
    FullBoard :=
  let b1 := { b with
    m_hash := b.m_hash ^^^ Z.zobrist_states (b.m_state position) position
    m_hash_ko := b.m_hash_ko ^^^ Z.zobrist_states (b.m_state position) position }
  let b2 := { b1 with
    m_state := Function.update b1.m_state position EMPTY
    m_parent := Function.update b1.m_parent position VN }
  let b3 := remove_neighbor b2 position color
  let b4 := { b3 with
    m_empty_intersections_indices :=
      Function.update b3.m_empty_intersections_indices position (b3.m_empty_count % 65536)
    m_empty_intersections := Function.update b3.m_empty_intersections b3.m_empty_count position
    m_empty_count := b3.m_empty_count + 1 }
  { b4 with
    m_hash := b4.m_hash ^^^ Z.zobrist_states (b4.m_state position) position
    m_hash_ko := b4.m_hash_ko ^^^ Z.zobrist_states (b4.m_state position) position }

/-- Embedding of `FullBoard::remove_vertices_string`; the result carries the number of
removed stones. -/
def remove_vertices_string (Z : Zobrist) (BOARD_SIZE : Nat) (b : FullBoard) (vertex : Nat) :
    Option (FullBoard × Nat) :=
  ring_loop (remove_body Z (VERTICES_NUMBER BOARD_SIZE) (b.m_state vertex)) vertex
    b.m_vertices_number b vertex 0

/-- Inner loops of `FastBoard::merge_strings` for direction `k` of the stone
`new_position`: an empty neighbour not yet adjacent to `ip` is a new liberty. -/
def merge_liberty (ip new_position : Nat) (b : FullBoard) (k : Nat) : FullBoard :=
  let ai := nbr b k new_position
  if b.m_state ai = EMPTY then
    let found := (List.range 4).any (fun kk => decide (b.m_parent (nbr b kk ai) = ip))
    if ¬ found then
      { b with m_liberties := Function.update b.m_liberties ip (inc16 (b.m_liberties ip)) }
    else b
  else b

/-- Body of the `do/while` loop of `FastBoard::merge_strings`. -/
def merge_body (ip : Nat) (b : FullBoard) (new_position : Nat) : FullBoard :=
  let b1 := (List.range 4).foldl (merge_liberty ip new_position) b
  { b1 with m_parent := Function.update b1.m_parent new_position ip }

/-- Embedding of `FastBoard::merge_strings`. -/
def merge_strings (b : FullBoard) (ip aip : Nat) : Option FullBoard :=
  let b1 := { b with
    m_stones := Function.update b.m_stones ip ((b.m_stones ip + b.m_stones aip) % 65536) }
  match ring_loop (merge_body ip) aip b1.m_vertices_number b1 aip 0 with
  | none => none
  | some (b2, _) =>
    some { b2 with
      m_next := Function.update (Function.update b2.m_next aip (b2.m_next ip)) ip (b2.m_next aip) }

/-- Body of the direction loop of `FullBoard::update_board`; the accumulator is the board,
`captured_stones` and `captured_vtx`. -/
def update_step (Z : Zobrist) (BOARD_SIZE : Nat) (color vertex : Nat)
    (acc : FullBoard × Nat × Nat) (k : Nat) : Option (FullBoard × Nat × Nat) :=
  let b := acc.1
  let ai := nbr b k vertex
  if b.m_state ai = notc color then
    if b.m_liberties (b.m_parent ai) ≤ 0 then
      match remove_vertices_string Z BOARD_SIZE b ai with
      | none => none
      | some (b1, this_captured) => some (b1, acc.2.1 + this_captured, ai)
    else some acc
  else if b.m_state ai = color then
    let ip := b.m_parent vertex
    let aip := b.m_parent ai
    if ip ≠ aip then
      if b.m_stones ip ≥ b.m_stones aip then
        (merge_strings b ip aip).map (fun b1 => (b1, acc.2.1, acc.2.2))
      else
        (merge_strings b aip ip).map (fun b1 => (b1, acc.2.1, acc.2.2))
    else some acc
  else some acc

/-- Placement part of `FullBoard::update_board`, up to and including `add_neighbor`. -/
def update_place (Z : Zobrist) (b : FullBoard) (color vertex : Nat) : FullBoard :=
  let b1 := { b with
    m_hash := b.m_hash ^^^ Z.zobrist_states (b.m_state vertex) vertex
    m_hash_ko := b.m_hash_ko ^^^ Z.zobrist_states (b.m_state vertex) vertex }
  let b2 := { b1 with
    m_state := Function.update b1.m_state vertex color
    m_next := Function.update b1.m_next vertex vertex
    m_parent := Function.update b1.m_parent vertex vertex }
  let b3 := { b2 with
    m_liberties := Function.update b2.m_liberties vertex (count_liberties b2 vertex)
    m_stones := Function.update b2.m_stones vertex 1 }
  let b4 := { b3 with
    m_hash := b3.m_hash ^^^ Z.zobrist_states (b3.m_state vertex) vertex
    m_hash_ko := b3.m_hash_ko ^^^ Z.zobrist_states (b3.m_state vertex) vertex }
  add_neighbor b4 color vertex

/-- The direction loop of `FullBoard::update_board`. -/
def update_captures (Z : Zobrist) (BOARD_SIZE : Nat) (color vertex : Nat) (b : FullBoard) :
    Option (FullBoard × Nat × Nat) :=
  (List.range 4).foldlM (update_step Z BOARD_SIZE color vertex) (b, 0, 0)

/-- Part of `FullBoard::update_board` after the direction loop: prisoners, the list of
empty intersections, self-removal and the ko test. -/
def update_finish (Z : Zobrist) (BOARD_SIZE : Nat) (color vertex : Nat) (eye_play : Nat)
    (acc : FullBoard × Nat × Nat) : Option (FullBoard × Nat) :=
  let b := acc.1
  let captured_stones := acc.2.1
  let captured_vtx := acc.2.2
  let b1 := { b with m_hash := b.m_hash ^^^ Z.zobrist_prisoners color (b.m_prisoners color) }
  let b2 := { b1 with
    m_prisoners := Function.update b1.m_prisoners color (b1.m_prisoners color + captured_stones) }
  let b3 := { b2 with m_hash := b2.m_hash ^^^ Z.zobrist_prisoners color (b2.m_prisoners color) }
  let b4 := { b3 with m_empty_count := b3.m_empty_count - 1 }
  let last_vertex := b4.m_empty_intersections b4.m_empty_count
  let b5 := { b4 with
    m_empty_intersections_indices :=
      Function.update b4.m_empty_intersections_indices last_vertex
        (b4.m_empty_intersections_indices vertex) }
  let b6 := { b5 with
    m_empty_intersections :=
      Function.update b5.m_empty_intersections (b5.m_empty_intersections_indices vertex)
        last_vertex }
  let alive :=
    if b6.m_liberties (b6.m_parent vertex) = 0 then
      (remove_vertices_string Z BOARD_SIZE b6 vertex).map Prod.fst
    else some b6
  match alive with
  | none => none
  | some b7 =>
    if captured_stones = 1 ∧ eye_play ≠ 0 then some (b7, captured_vtx)
    else some (b7, NO_VERTEX)

/-- Embedding of `FullBoard::update_board`: the new board and the returned ko vertex. -/
def update_board (Z : Zobrist) (BOARD_SIZE : Nat) (b : FullBoard) (color vertex : Nat) :
    Option (FullBoard × Nat) :=
  let b1 := update_place Z b color vertex
  let eye_play := b1.m_neighbors vertex &&& s_eye_mask (notc color)
  match update_captures Z BOARD_SIZE color vertex b1 with
  | none => none
  | some acc => update_finish Z BOARD_SIZE color vertex eye_play acc

/-- Embedding of `FastBoard::is_suicide`. -/
def is_suicide (b : FullBoard) (vertex color : Nat) : Bool :=
  if count_liberties b vertex ≠ 0 then false
  else
    (List.range 4).all (fun k =>
      let nearby_vertex := nbr b k vertex
      let liberties := b.m_liberties (b.m_parent nearby_vertex)
      if b.m_state nearby_vertex = color then
        !decide (liberties > 1)
      else if b.m_state nearby_vertex = notc color then
        !decide (liberties ≤ 1)
      else true)

/-- Embedding of `FastBoard::is_eye`. -/
def is_eye (b : FullBoard) (vertex color : Nat) : Bool :=
  if b.m_neighbors vertex &&& s_eye_mask color = 0 then false
  else
    let diagonals : List Nat :=
      [vertex - 1 - b.m_side_vertices, vertex + 1 - b.m_side_vertices,
       vertex - 1 + b.m_side_vertices, vertex + 1 + b.m_side_vertices]
    let color_count := fun c => (diagonals.filter (fun d => b.m_state d = c)).length
    if color_count INVALID = 0 then
      if color_count (notc color) > 1 then false else true
    else
      if color_count (notc color) ≠ 0 then false else true

/-! ## Move restrictions (`AnalyzeTags`) and `FastState` -/

/-- An entry of `m_moves_to_avoid` / `m_moves_to_allow`. -/
structure MoveToAvoid where
  color : Nat
  vertex : Int
  until_move : Nat

/-- The data of `AnalyzeTags` read by `is_to_avoid`. -/
structure AnalyzeTags where
  m_moves_to_avoid : List MoveToAvoid
  m_moves_to_allow : List MoveToAvoid

/-- Embedding of `AnalyzeTags::is_to_avoid`. -/
def is_to_avoid (tags : AnalyzeTags) (color : Nat) (vertex : Int) (movenum : Nat) : Bool :=
  if tags.m_moves_to_avoid.any
      (fun move => decide (color = move.color ∧ vertex = move.vertex ∧ movenum ≤ move.until_move))
  then true
  else if vertex ≠ PASS ∧ vertex ≠ RESIGN then
    let active := tags.m_moves_to_allow.filter
      (fun move => decide (color = move.color ∧ movenum ≤ move.until_move))
    if active.any (fun move => decide (vertex = move.vertex)) then false
    else if !active.isEmpty then true
    else false
  else false

/-- Data members of `FastState`. -/
structure FastState where
  board : FullBoard
  m_move_numbers : Nat
  m_ko_move : Nat
  m_last_move : Int
  m_komi : Rat
  m_handicap : Int
  m_passes : Nat

/-- Embedding of `FastState::init_game`. -/
def init_game (Z : Zobrist) (BOARD_SIZE : Nat) (s : FastState) (board_size : Nat) (komi : Rat) :
    FastState :=
  { s with
    board := reset_board Z BOARD_SIZE s.board board_size
    m_move_numbers := 0
    m_ko_move := NO_VERTEX
    m_last_move := NO_VERTEX
    m_komi := komi
    m_handicap := 0
    m_passes := 0 }

/-- Embedding of `FastState::increment_passes`. -/
def increment_passes (s : FastState) : FastState :=
  let s1 := { s with m_passes := s.m_passes + 1 }
  if s1.m_passes > 4 then { s1 with m_passes := 4 } else s1

/-- XOR a value into the full hash of the board of a state. -/
def xor_hash (s : FastState) (h : Nat) : FastState :=
  { s with board := { s.board with m_hash := s.board.m_hash ^^^ h } }

/-- Embedding of `FastState::play_move(color, vertex)`. -/
def play_move (Z : Zobrist) (BOARD_SIZE : Nat) (s : FastState) (color : Nat) (vertex : Int) :
    Option FastState :=
  let s1 := xor_hash s (Z.zobrist_ko_move s.m_ko_move)
  let moved : Option FastState :=
    if vertex = PASS then some { s1 with m_ko_move := NO_VERTEX }
    else
      match update_board Z BOARD_SIZE s1.board color vertex.toNat with
      | none => none
      | some (b, ko) => some { s1 with board := b, m_ko_move := ko }
  match moved with
  | none => none
  | some s2 =>
    let s3 := xor_hash s2 (Z.zobrist_ko_move s2.m_ko_move)
    let s4 := { s3 with m_last_move := vertex, m_move_numbers := s3.m_move_numbers + 1 }
    let s5 := if s4.board.m_color_to_move = color then xor_hash s4 ZOBRIST_BLACK_TO_MOVE else s4
    let s6 := { s5 with board := { s5.board with m_color_to_move := notc color } }
    let s7 := xor_hash s6 (Z.zobrist_passes s6.m_passes)
    let s8 := if vertex = PASS then increment_passes s7 else { s7 with m_passes := 0 }
    some (xor_hash s8 (Z.zobrist_passes s8.m_passes))

/-- Embedding of `FastState::is_move_legal`, with the global `cfg_analyze_tags` as a parameter. -/
def is_move_legal (tags : AnalyzeTags) (s : FastState) (color : Nat) (vertex : Int) : Bool :=
  !is_to_avoid tags color vertex s.m_move_numbers &&
    (decide (vertex = PASS) || decide (vertex = RESIGN) ||
      (decide (vertex ≠ (s.m_ko_move : Int)) && decide (s.board.m_state vertex.toNat = EMPTY)
        && !is_suicide s.board vertex.toNat color))

/-! ## Specification vocabulary -/

/-- A vertex of the playable area: column and row both in `1 .. m_board_size`. -/
def onBoard (b : FullBoard) (v : Nat) : Prop :=
  1 ≤ v % b.m_side_vertices ∧ v % b.m_side_vertices ≤ b.m_board_size ∧
    1 ≤ v / b.m_side_vertices ∧ v / b.m_side_vertices ≤ b.m_board_size

instance onBoardDecidable (b : FullBoard) (v : Nat) : Decidable (onBoard b v) := by
  unfold onBoard; infer_instance

/-- Size fields and direction table as `reset_board` leaves them. -/
structure Geom (BOARD_SIZE : Nat) (b : FullBoard) : Prop where
  side_eq : b.m_side_vertices = b.m_board_size + 2
  nverts_eq : b.m_vertices_number = b.m_side_vertices * b.m_side_vertices
  size_le : b.m_board_size ≤ BOARD_SIZE
  fits : VERTICES_NUMBER BOARD_SIZE < 65536
  dir0 : b.m_directions 0 = -(b.m_side_vertices : Int)
  dir1 : b.m_directions 1 = 1
  dir2 : b.m_directions 2 = (b.m_side_vertices : Int)
  dir3 : b.m_directions 3 = -1

/-- The list `v :: r` is a cycle of `next` starting at `v`, without repetition. -/
def RingAt (next : Nat → Nat) (v : Nat) (r : List Nat) : Prop :=
  (v :: r).Nodup ∧ (v :: r).map next = r ++ [v]

/-- The vertex `e` has a neighbour whose parent is `p`. -/
def adjTo (b : FullBoard) (e p : Nat) : Prop :=
  ∃ k, k < 4 ∧ b.m_parent (nbr b k e) = p

instance adjToDecidable (b : FullBoard) (e p : Nat) : Decidable (adjTo b e p) :=
  @Nat.decidableExistsLT (fun k => b.m_parent (nbr b k e) = p) (fun _ => inferInstance) 4

/-- The liberties of the string with parent `p`: empty vertices next to a vertex whose
parent is `p`. -/
def libsOf (b : FullBoard) (p : Nat) : Finset Nat :=
  (Finset.range b.m_vertices_number).filter (fun e => b.m_state e = EMPTY ∧ adjTo b e p)

/-- Contribution of one neighbour to the packed tally: a border vertex counts as both
colours. -/
def weight (s : Nat) : Nat :=
  if s = BLACK then 1 else if s = WHITE then 16 else if s = EMPTY then 256 else 17

/-- The packed neighbour tally recomputed from the four neighbours. -/
def tallyOf (b : FullBoard) (v : Nat) : Nat :=
  weight (b.m_state (nbr b 0 v)) + weight (b.m_state (nbr b 1 v))
    + weight (b.m_state (nbr b 2 v)) + weight (b.m_state (nbr b 3 v))

/-- The loop over the vertices shared by `compute_hash_ko` and `compute_hash`. -/
def statesHash (Z : Zobrist) (st : Nat → Nat) (n : Nat) : Nat :=
  (List.range n).foldl
    (fun result i => if st i ≠ INVALID then result ^^^ Z.zobrist_states (st i) i else result)
    ZOBRIST_EMPTY

/-- The part of the full hash that the board alone determines: contents and prisoners. -/
def coreHash (Z : Zobrist) (b : FullBoard) : Nat :=
  statesHash Z b.m_state b.m_vertices_number ^^^ Z.zobrist_prisoners 0 (b.m_prisoners 0)
    ^^^ Z.zobrist_prisoners 1 (b.m_prisoners 1)

/-- Two orthogonally adjacent on-board vertices with the same parent. -/
def link (b : FullBoard) (x y : Nat) : Prop :=
  onBoard b x ∧ onBoard b y ∧ (∃ k, k < 4 ∧ y = nbr b k x) ∧ b.m_parent y = b.m_parent x

/-- Two orthogonally adjacent on-board vertices holding the same colour. -/
def sameAdj (b : FullBoard) (x y : Nat) : Prop :=
  onBoard b x ∧ onBoard b y ∧ (∃ k, k < 4 ∧ y = nbr b k x) ∧ b.m_state y = b.m_state x

/-- Board invariant.  `v` and `k` describe a stone just placed at `v` whose directions
`k, .., 3` have not been visited by the loop of `update_board` yet: same-colour
neighbours of `v` in those directions may still belong to another string.  With `k = 4`
there is no exception.  `r` is the part of the full hash owned by `FastState`. -/
structure InvX (Z : Zobrist) (BOARD_SIZE : Nat) (r : Nat) (b : FullBoard) (v k : Nat) : Prop where
  geom : Geom BOARD_SIZE b
  border : ∀ u, u < b.m_vertices_number → ¬ onBoard b u →
    b.m_state u = INVALID ∧ b.m_parent u = VERTICES_NUMBER BOARD_SIZE
  inside : ∀ u, onBoard b u → b.m_state u ≤ EMPTY
  empty_parent : ∀ u, onBoard b u → b.m_state u = EMPTY →
    b.m_parent u = VERTICES_NUMBER BOARD_SIZE
  root : ∀ u, onBoard b u → b.m_state u < 2 →
    onBoard b (b.m_parent u) ∧ b.m_state (b.m_parent u) = b.m_state u ∧
      b.m_parent (b.m_parent u) = b.m_parent u
  ring : ∀ u, onBoard b u → b.m_state u < 2 →
    ∃ l, RingAt b.m_next u l ∧
      (∀ w, w ∈ u :: l ↔ (w < b.m_vertices_number ∧ b.m_parent w = b.m_parent u)) ∧
      b.m_stones (b.m_parent u) = l.length + 1
  closed : ∀ u j, onBoard b u → j < 4 → b.m_state u < 2 →
    b.m_state (nbr b j u) = b.m_state u →
      b.m_parent (nbr b j u) = b.m_parent u ∨ (u = v ∧ k ≤ j) ∨
        (nbr b j u = v ∧ k ≤ (j + 2) % 4)
  connected : ∀ u, onBoard b u → b.m_state u < 2 →
    Relation.ReflTransGen (link b) u (b.m_parent u)
  tally : 2 ≤ b.m_board_size → ∀ u, onBoard b u → b.m_neighbors u = tallyOf b u
  libs : 2 ≤ b.m_board_size → ∀ p, onBoard b p → b.m_state p < 2 → b.m_parent p = p →
    b.m_liberties p = (libsOf b p).card
  lone : b.m_board_size = 1 → ∀ u, onBoard b u →
    b.m_neighbors u = 546 ∧ (b.m_state u < 2 → b.m_parent u = u ∧ b.m_liberties u = 2)
  hash_ko : b.m_hash_ko = statesHash Z b.m_state b.m_vertices_number
  hash : b.m_hash = coreHash Z b ^^^ r

/-- Board invariant between two calls of `update_board`. -/
def Inv (Z : Zobrist) (BOARD_SIZE : Nat) (r : Nat) (b : FullBoard) : Prop :=
  InvX Z BOARD_SIZE r b 0 4

/-- State of the loop of `remove_vertices_string` after the stones `done` of the string
with parent `p` have been taken off the board `b0`. -/
structure RemInv (Z : Zobrist) (BOARD_SIZE : Nat) (r : Nat) (b0 : FullBoard) (p : Nat)
    (done : List Nat) (b : FullBoard) : Prop where
  frame : b = { b0 with
    m_state := b.m_state, m_parent := b.m_parent, m_neighbors := b.m_neighbors,
    m_liberties := b.m_liberties, m_empty_intersections := b.m_empty_intersections,
    m_empty_intersections_indices := b.m_empty_intersections_indices,
    m_empty_count := b.m_empty_count, m_hash := b.m_hash, m_hash_ko := b.m_hash_ko }
  state_eq : ∀ u, b.m_state u = if u ∈ done then EMPTY else b0.m_state u
  parent_eq : ∀ u, b.m_parent u = if u ∈ done then VERTICES_NUMBER BOARD_SIZE else b0.m_parent u
  tally : 2 ≤ b0.m_board_size → ∀ u, onBoard b0 u → b.m_neighbors u = tallyOf b u
  libs : 2 ≤ b0.m_board_size → ∀ q, onBoard b0 q → b0.m_state q < 2 → b0.m_parent q = q →
    q ≠ p → b.m_liberties q = (libsOf b q).card
  libs_frame : ∀ q, q ≠ p → q ≠ VERTICES_NUMBER BOARD_SIZE →
    (∀ s, s ∈ done → ¬ adjTo b0 s q) → b.m_liberties q = b0.m_liberties q
  lone : b0.m_board_size = 1 → ∀ u, onBoard b0 u → b.m_neighbors u = 546
  hash_ko : b.m_hash_ko = statesHash Z b.m_state b.m_vertices_number
  hash : b.m_hash = coreHash Z b ^^^ r

/-- State of the loop of `merge_strings` after the stones `done` of the absorbed string
have been given the parent `ip`; `b1` is the board on entry to the loop. -/
structure MergeInv (b1 : FullBoard) (ip : Nat) (done : List Nat) (b : FullBoard) : Prop where
  frame : b = { b1 with m_parent := b.m_parent, m_liberties := b.m_liberties }
  parent_eq : ∀ u, b.m_parent u = if u ∈ done then ip else b1.m_parent u
  libs_ip : b.m_liberties ip = (libsOf b ip).card
  libs_other : ∀ q, q ≠ ip → b.m_liberties q = b1.m_liberties q

/-- What the direction loop of `update_board` has done to the board `bp` (the board right
after the stone of colour `c` was put on `v`) once the directions below `k` have been
visited; `cs` and `cv` are `captured_stones` and `captured_vtx`. -/
structure Track (c v : Nat) (bp b : FullBoard) (k cs cv : Nat) : Prop where
  frame : b = { bp with
    m_state := b.m_state, m_next := b.m_next, m_parent := b.m_parent,
    m_liberties := b.m_liberties, m_stones := b.m_stones, m_neighbors := b.m_neighbors,
    m_empty_intersections := b.m_empty_intersections,
    m_empty_intersections_indices := b.m_empty_intersections_indices,
    m_empty_count := b.m_empty_count, m_hash := b.m_hash, m_hash_ko := b.m_hash_ko }
  state_mono : ∀ u, b.m_state u = bp.m_state u ∨ (bp.m_state u = notc c ∧ b.m_state u = EMPTY)
  opp_keep : ∀ u, u < bp.m_vertices_number → b.m_state u = notc c →
    b.m_parent u = bp.m_parent u ∧
      b.m_liberties (bp.m_parent u) = bp.m_liberties (bp.m_parent u)
  friend_mono : ∀ x y, x < bp.m_vertices_number → y < bp.m_vertices_number →
    bp.m_state x = c → bp.m_state y = c → bp.m_parent x = bp.m_parent y →
      b.m_parent x = b.m_parent y
  whole : ∀ u w, u < bp.m_vertices_number → w < bp.m_vertices_number →
    bp.m_state u = notc c → bp.m_parent u = bp.m_parent w → b.m_state u = b.m_state w
  dead : ∀ u, u < bp.m_vertices_number → bp.m_state u = notc c → b.m_state u = EMPTY →
    bp.m_liberties (bp.m_parent u) = 0 ∧
      ∃ j, j < 4 ∧ bp.m_parent (nbr bp j v) = bp.m_parent u
  visited : ∀ j, j < k → bp.m_state (nbr bp j v) = notc c →
    bp.m_liberties (bp.m_parent (nbr bp j v)) = 0 → b.m_state (nbr bp j v) = EMPTY
  count : cs = ((Finset.range bp.m_vertices_number).filter
    (fun u => bp.m_state u = notc c ∧ b.m_state u = EMPTY)).card
  last : 0 < cs → cv < bp.m_vertices_number ∧ bp.m_state cv = notc c ∧ b.m_state cv = EMPTY

/-- The board after the prisoner count and the list of empty intersections have been
brought up to date. -/
def update_books (Z : Zobrist) (c v cs : Nat) (b : FullBoard) : FullBoard :=
  { b with
    m_hash := b.m_hash ^^^ Z.zobrist_prisoners c (b.m_prisoners c)
      ^^^ Z.zobrist_prisoners c (b.m_prisoners c + cs)
    m_prisoners := Function.update b.m_prisoners c (b.m_prisoners c + cs)
    m_empty_count := b.m_empty_count - 1
    m_empty_intersections_indices :=
      Function.update b.m_empty_intersections_indices
        (b.m_empty_intersections (b.m_empty_count - 1)) (b.m_empty_intersections_indices v)
    m_empty_intersections :=
      Function.update b.m_empty_intersections
        (Function.update b.m_empty_intersections_indices
          (b.m_empty_intersections (b.m_empty_count - 1)) (b.m_empty_intersections_indices v) v)
        (b.m_empty_intersections (b.m_empty_count - 1)) }

/-- Boards that `reset_board` followed by calls of `update_board` on empty on-board
vertices can produce.  The arrays hold `unsigned short` vertex indices, so the
configuration constant has to satisfy `VERTICES_NUMBER < 65536`; `size <= BOARD_SIZE` is
asserted by `init_game`. -/
inductive Reachable (Z : Zobrist) (BOARD_SIZE : Nat) : FullBoard → Prop
  | reset (b0 : FullBoard) (size : Nat) (hsize : size ≤ BOARD_SIZE)
      (hfit : VERTICES_NUMBER BOARD_SIZE < 65536) :
      Reachable Z BOARD_SIZE (reset_board Z BOARD_SIZE b0 size)
  | update (b : FullBoard) (color vertex : Nat) (b2 : FullBoard) (ko : Nat)
      (hb : Reachable Z BOARD_SIZE b) (hcolor : color < 2) (hon : onBoard b vertex)
      (hempty : b.m_state vertex = EMPTY)
      (hres : update_board Z BOARD_SIZE b color vertex = some (b2, ko)) :
      Reachable Z BOARD_SIZE b2

/-- A move that `play_move` may be given in a game of legal moves: a pass, or a vertex of
the array that `is_move_legal` accepts. -/
def legal_play (tags : AnalyzeTags) (s : FastState) (color : Nat) (vertex : Int) : Prop :=
  is_move_legal tags s color vertex = true ∧
    (vertex = PASS ∨ (0 ≤ vertex ∧ vertex < (s.board.m_vertices_number : Int)))

instance legal_playDecidable (tags : AnalyzeTags) (s : FastState) (color : Nat) (vertex : Int) :
    Decidable (legal_play tags s color vertex) := by
  unfold legal_play; infer_instance

/-- States of a game: `init_game` followed by legal moves of either colour played through
`play_move`. -/
inductive Game (Z : Zobrist) (BOARD_SIZE : Nat) (tags : AnalyzeTags) : FastState → Prop
  | init (s0 : FastState) (size : Nat) (komi : Rat) (hsize : size ≤ BOARD_SIZE)
      (hfit : VERTICES_NUMBER BOARD_SIZE < 65536) :
      Game Z BOARD_SIZE tags (init_game Z BOARD_SIZE s0 size komi)
  | move (s : FastState) (color : Nat) (vertex : Int) (s2 : FastState)
      (hs : Game Z BOARD_SIZE tags s) (hcolor : color < 2)
      (hlegal : legal_play tags s color vertex)
      (hres : play_move Z BOARD_SIZE s color vertex = some s2) :
      Game Z BOARD_SIZE tags s2

/-- The part of the full hash that `FastState` owns: side to move, ko point and the
number of passes. -/
def stateHash (Z : Zobrist) (s : FastState) : Nat :=
  (if s.board.m_color_to_move = BLACK then ZOBRIST_BLACK_TO_MOVE else 0)
    ^^^ Z.zobrist_ko_move s.m_ko_move
    ^^^ Z.zobrist_passes 0 ^^^ Z.zobrist_passes s.m_passes

/-- Invariant of a game state. -/
structure GInv (Z : Zobrist) (BOARD_SIZE : Nat) (s : FastState) : Prop where
  board : Inv Z BOARD_SIZE (stateHash Z s) s.board
  to_move : s.board.m_color_to_move < 2
  ko_empty : s.m_ko_move ≠ NO_VERTEX → s.board.m_state s.m_ko_move = EMPTY

/-- The vertex `w` belongs to the maximal orthogonally connected same-colour group of the
stone `u`. -/
def group (b : FullBoard) (u w : Nat) : Prop :=
  Relation.ReflTransGen (sameAdj b) u w

/-- The vertex `e` is a liberty of the string of the stone `u`: an empty on-board vertex
orthogonally adjacent to some stone of the group of `u`. -/
def isLiberty (b : FullBoard) (u e : Nat) : Prop :=
  onBoard b e ∧ b.m_state e = EMPTY ∧ ∃ w k, group b u w ∧ k < 4 ∧ nbr b k w = e

/-- The string of the stone `u` has exactly `n` distinct liberties. -/
def libCount (b : FullBoard) (u n : Nat) : Prop :=
  ∃ L : Finset Nat, (∀ e, e ∈ L ↔ isLiberty b u e) ∧ L.card = n

/-- The opposing stone `u` of the board `b` is off the board `b2`. -/
def captured (b b2 : FullBoard) (color u : Nat) : Prop :=
  onBoard b u ∧ b.m_state u = notc color ∧ b2.m_state u = EMPTY

/-- After the stone of colour `color` is put on `v`, its string would have the liberty `e`
even if nothing were captured: `e` is an empty neighbour of `v`, or a liberty other than
`v` of a string of that colour next to `v`. -/
def placedLiberty (b : FullBoard) (color v e : Nat) : Prop :=
  e ≠ v ∧ onBoard b e ∧ b.m_state e = EMPTY ∧
    ((∃ k, k < 4 ∧ nbr b k v = e) ∨
      ∃ k, k < 4 ∧ b.m_state (nbr b k v) = color ∧ isLiberty b (nbr b k v) e)

/-- Every orthogonal neighbour of `v` is a stone of colour `color` or a border vertex. -/
def enclosed (b : FullBoard) (color v : Nat) : Prop :=
  ∀ k, k < 4 → (onBoard b (nbr b k v) ∧ b.m_state (nbr b k v) = color) ∨ ¬ onBoard b (nbr b k v)

/-- The four diagonal neighbours of a vertex. -/
def diagonalsOf (b : FullBoard) (v : Nat) : List Nat :=
  [v - b.m_side_vertices - 1, v - b.m_side_vertices + 1,
   v + b.m_side_vertices - 1, v + b.m_side_vertices + 1]

/-- Number of diagonal neighbours of `v` that hold a stone of colour `color`. -/
def diagonalStones (b : FullBoard) (color v : Nat) : Nat :=
  ((diagonalsOf b v).filter (fun d => decide (onBoard b d ∧ b.m_state d = color))).length

/-- Number of diagonal neighbours of `v` that are off the board. -/
def diagonalsOff (b : FullBoard) (v : Nat) : Nat :=
  ((diagonalsOf b v).filter (fun d => decide (¬ onBoard b d))).length

/-- The stages of `update_board(c, v)` on the board `b0`: `bp` is the board after the
placement, `b4` the board after the direction loop, which captured `cs` stones, the last
of them at `cv`. -/
structure Placed (Z : Zobrist) (BOARD_SIZE : Nat) (r c v : Nat) (b0 bp b4 : FullBoard)
    (cs cv : Nat) : Prop where
  inv0 : Inv Z BOARD_SIZE r b0
  on_v : onBoard b0 v
  empty_v : b0.m_state v = EMPTY
  color : c < 2
  invp : InvX Z BOARD_SIZE r bp v 0
  state_p : bp.m_state = Function.update b0.m_state v c
  parent_p : bp.m_parent = Function.update b0.m_parent v v
  dirs_p : bp.m_directions = b0.m_directions
  nverts_p : bp.m_vertices_number = b0.m_vertices_number
  side_p : bp.m_side_vertices = b0.m_side_vertices
  size_p : bp.m_board_size = b0.m_board_size
  inv4 : InvX Z BOARD_SIZE r b4 v 4
  track : Track c v bp b4 4 cs cv

/-! ## Concrete positions -/

/-- Zobrist tables whose entries differ from one another within each table. -/
def exampleZ : Zobrist :=
  ⟨fun s i => 4 * i + s + 1, fun i => 1000 + i, fun c n => 2000 + 2 * n + c, fun n => 5000 + n⟩

/-- A board object before `reset_board`: every member is zero. -/
def blank : FullBoard :=
  ⟨fun _ => 0, fun _ => 0, fun _ => 0, fun _ => 0, fun _ => 0, fun _ => 0, fun _ => 0,
   fun _ => 0, fun _ => 0, fun _ => 0, 0, 0, 0, 0, 0, 0, 0⟩

/-- A state object before `init_game`. -/
def blankState : FastState := ⟨blank, 0, 0, 0, 0, 0, 0⟩

/-- No move restrictions. -/
def noTags : AnalyzeTags := ⟨[], []⟩

/-- The state after `play_move(color, vertex)`, with `BOARD_SIZE = 19`. -/
def playOn (s : FastState) (color : Nat) (vertex : Int) : FastState :=
  (play_move exampleZ 19 s color vertex).getD blankState

/-- The board after `update_board(color, vertex)`, with `BOARD_SIZE = 19`. -/
def boardAfter (b : FullBoard) (color vertex : Nat) : FullBoard :=
  ((update_board exampleZ 19 b color vertex).getD (blank, 0)).1

/-- The empty board with a single point, `reset_board(1)`; the point is vertex 4. -/
def point1 : FullBoard := reset_board exampleZ 19 blank 1

/-- A black stone on the board with a single point. -/
def stone1 : FullBoard := boardAfter point1 BLACK 4

/-- The empty 3x3 board; its corner `(0, 0)` is vertex 6. -/
def empty3 : FullBoard := reset_board exampleZ 19 blank 3

/-- A black stone on `(1, 0)` of the 3x3 board. -/
def stone3 : FullBoard := boardAfter empty3 BLACK 7

/-- Black on `(1, 0)`, White on the corner `(0, 0)`: the white stone is in atari. -/
def atari3 : FullBoard := boardAfter stone3 WHITE 6

/-- A game on the 3x3 board. -/
def game0 : FastState := init_game exampleZ 19 blankState 3 (15 / 2)

/-- Black plays `(1, 0)`. -/
def game1 : FastState := playOn game0 BLACK 7

/-- White plays the corner `(0, 0)`. -/
def game2 : FastState := playOn game1 WHITE 6

/-- White plays `(0, 2)`. -/
def game3 : FastState := playOn game2 WHITE 16

/-- White plays `(1, 1)`: Black can now take the corner stone by playing `(0, 1)`. -/
def game4 : FastState := playOn game3 WHITE 12

/-- Black takes the corner stone with `(0, 1)`, vertex 11. -/
def game5 : FastState := playOn game4 BLACK 11

/-- Black passes on the empty board. -/
def passed : FastState := playOn game0 BLACK PASS

/-! ## Text coordinates (`FastBoard::move_to_text`, `FastBoard::text_to_move`)

A `std::string` is a list of characters; `tolower`, `isalpha` and `isdigit` are those of
the "C" locale. -/

/-- The C function `tolower`. -/
def tolower (c : Char) : Char :=
  if 'A' ≤ c ∧ c ≤ 'Z' then Char.ofNat (c.toNat + 32) else c

/-- The C function `isalpha`. -/
def isalpha (c : Char) : Bool :=
  decide (('a' ≤ c ∧ c ≤ 'z') ∨ ('A' ≤ c ∧ c ≤ 'Z'))

/-- The C function `isdigit`. -/
def isdigit (c : Char) : Bool :=
  decide ('0' ≤ c ∧ c ≤ '9')

/-- Conversion of an `int` to `char`: the value modulo 256. -/
def int_to_char (n : Int) : Char := Char.ofNat (n % 256).toNat

/-- Embedding of `FastBoard::move_to_text`. -/
def move_to_text (b : FullBoard) (move : Int) : List Char :=
  let column : Int := Int.tmod move b.m_side_vertices - 1
  let row : Int := Int.tdiv move b.m_side_vertices - 1
  if 0 ≤ move ∧ move ≤ b.m_vertices_number then
    int_to_char (if column < 8 then 65 + column else 65 + column + 1)
      :: (if 0 ≤ row + 1 then Nat.toDigits 10 (row + 1).toNat
          else '-' :: Nat.toDigits 10 (-(row + 1)).toNat)
  else if move = PASS then ['p', 'a', 's', 's']
  else if move = RESIGN then ['r', 'e', 's', 'i', 'g', 'n']
  else ['e', 'r', 'r', 'o', 'r']

/-- The letter of the column with index `x`: `A` to `H` for 0 to 7, from `J` on for 8 and
above. -/
def columnLetter (x : Nat) : Char := Char.ofNat (if x < 8 then 65 + x else 66 + x)

/-- The value of the longest prefix of decimal digits, most significant digit first. -/
def digits_value : List Char → Nat → Nat
  | [], acc => acc
  | c :: rest, acc => if isdigit c then digits_value rest (10 * acc + (c.toNat - 48)) else acc

/-- Extraction of an `int` from a stream whose text starts with a digit: the digits are
read as far as they go, and a value beyond `INT_MAX` is stored as `INT_MAX`. -/
def stream_int (text : List Char) : Int :=
  if digits_value text 0 > 2147483647 then 2147483647 else digits_value text 0

/-- Embedding of `FastBoard::text_to_move`. -/
def text_to_move (b : FullBoard) (text : List Char) : Int :=
  let move := text.map tolower
  if move = ['p', 'a', 's', 's'] then PASS
  else if move = ['r', 'e', 's', 'i', 'g', 'n'] then RESIGN
  else
    match move with
    | c0 :: c1 :: rest =>
      if !isalpha c0 || !isdigit c1 || c0 == 'i' then (NO_VERTEX : Int)
      else
        let column : Int := (c0.toNat : Int) - 97
        let column : Int := if c0 > 'i' then column - 1 else column
        let row : Int := stream_int (c1 :: rest) - 1
        if row ≥ b.m_board_size ∨ column ≥ b.m_board_size then (NO_VERTEX : Int)
        else (row + 1) * b.m_side_vertices + (column + 1)
    | _ => (NO_VERTEX : Int)

/-! ## The assertions of `FastBoard::get_vertex` -/

/-- The assertions of `FastBoard::get_vertex(x, y)`: the four at its head and the one on
the vertex that it returns. -/
def get_vertex_asserts (BOARD_SIZE : Nat) (b : FullBoard) (x y : Int) : Bool :=
  decide (x ≥ 0 ∧ x < BOARD_SIZE) && decide (y ≥ 0 ∧ y < BOARD_SIZE) &&
    decide (x ≥ 0 ∧ x < b.m_board_size) && decide (y ≥ 0 ∧ y < b.m_board_size) &&
    decide ((y + 1) * b.m_side_vertices + (x + 1) ≥ 0 ∧
      (y + 1) * b.m_side_vertices + (x + 1) < b.m_vertices_number)

/-- The arguments `(column, row)` of the call of `get_vertex` at the end of
`FastBoard::text_to_move`; `none` when `text_to_move` returns before that call. -/
def text_to_move_call (b : FullBoard) (text : List Char) : Option (Int × Int) :=
  let move := text.map tolower
  if move = ['p', 'a', 's', 's'] then none
  else if move = ['r', 'e', 's', 'i', 'g', 'n'] then none
  else
    match move with
    | c0 :: c1 :: rest =>
      if !isalpha c0 || !isdigit c1 || c0 == 'i' then none
      else
        let column : Int := (c0.toNat : Int) - 97
        let column : Int := if c0 > 'i' then column - 1 else column
        let row : Int := stream_int (c1 :: rest) - 1
        if row ≥ b.m_board_size ∨ column ≥ b.m_board_size then none
        else some (column, row)
    | _ => none

/-- `FastBoard::text_to_move` with the assertions of the call of `get_vertex` at its end:
`none` when one of them fails. -/
def text_to_move_checked (BOARD_SIZE : Nat) (b : FullBoard) (text : List Char) : Option Int :=
  if (text_to_move_call b text).all (fun xy => get_vertex_asserts BOARD_SIZE b xy.1 xy.2) then
    some (text_to_move b text)
  else none

/-- The assertions of `FastBoard::get_state(vertex)`. -/
def get_state_asserts (BOARD_SIZE : Nat) (b : FullBoard) (vertex : Int) : Bool :=
  decide (vertex ≥ 0 ∧ vertex < VERTICES_NUMBER BOARD_SIZE) &&
    decide (vertex ≥ 0 ∧ vertex < b.m_vertices_number)

/-! ## Single precision arithmetic -/

/-- Rounding to the nearest integer, a tie going to the even one. -/
def round_half_even (r : Rat) : Int :=
  let f := Int.floor r
  let d := r - f
  if d < 1 / 2 then f else if 1 / 2 < d then f + 1 else if f % 2 = 0 then f else f + 1

/-- The `float` nearest to a real number: 24 significant bits, a tie going to the even
significand.  The exponent has no bound here, which is exact for magnitudes between
`2 ^ (-126)` and `2 ^ 128`: the conversions of a `size_t` or an `int` and their quotients
are in that range, and a sum or difference of two `float` values below `2 ^ (-126)` is
exact in both. -/
def to_float (x : Rat) : Rat :=
  if x = 0 then 0
  else
    let e := Int.log 2 |x|
    (round_half_even (x * 2 ^ (23 - e)) : Rat) * 2 ^ (e - 23)

/-! ## Area scoring (`FastBoard::compute_reach_color`, `FastBoard::area_score`) -/

/-- Body of the first loops of `compute_reach_color` for the point `(i, j)`; the
accumulator is `reachable`, `counted_vertices` and `vertex_queue`. -/
def reach_seed (b : FullBoard) (color : Nat) (acc : Nat × (Nat → Bool) × List Nat)
    (i j : Nat) : Nat × (Nat → Bool) × List Nat :=
  let vertex := get_vertex b i j
  if b.m_state vertex = color then
    (acc.1 + 1, Function.update acc.2.1 vertex true, acc.2.2 ++ [vertex])
  else acc

/-- Body of the direction loop inside the `while` loop of `compute_reach_color`. -/
def reach_step (b : FullBoard) (vertex : Nat) (acc : Nat × (Nat → Bool) × List Nat)
    (k : Nat) : Nat × (Nat → Bool) × List Nat :=
  let neighbor := nbr b k vertex
  if !acc.2.1 neighbor && decide (b.m_state neighbor = EMPTY) then
    (acc.1 + 1, Function.update acc.2.1 neighbor true, acc.2.2 ++ [neighbor])
  else acc

/-- The `while (!vertex_queue.empty())` loop of `compute_reach_color`, with fuel. -/
def reach_loop (b : FullBoard) : Nat → Nat × (Nat → Bool) × List Nat → Option Nat
  | _, (reachable, _, []) => some reachable
  | 0, (_, _, _ :: _) => none
  | fuel + 1, (reachable, counted, vertex :: queue) =>
    reach_loop b fuel ((List.range 4).foldl (reach_step b vertex) (reachable, counted, queue))

/-- Embedding of `FastBoard::compute_reach_color`.  A vertex enters the queue when its
flag in `counted_vertices` is set, so the loop body runs at most `m_vertices_number`
times. -/
def compute_reach_color (b : FullBoard) (color : Nat) : Option Nat :=
  let seeds := (List.range b.m_board_size).foldl
    (fun acc i => (List.range b.m_board_size).foldl (fun acc2 j => reach_seed b color acc2 i j) acc)
    (0, fun _ => false, [])
  reach_loop b b.m_vertices_number seeds

/-- Embedding of `FastBoard::area_score`: `static_cast<float>(black - white) - komi` in
single precision.  The difference of the two counts is converted to `float` and the
subtraction is rounded to the nearest `float`; `komi` is a finite `float`, so that the
result is finite, and a result below `2 ^ (-126)` in magnitude is exact. -/
def area_score (b : FullBoard) (komi : Rat) : Option Rat :=
  match compute_reach_color b WHITE with
  | none => none
  | some white =>
    match compute_reach_color b BLACK with
    | none => none
    | some black =>
      some (to_float (to_float ((((black : Int) - (white : Int) : Int) : Rat)) - komi))

/-- One step of a path through empty vertices: `y` is an empty on-board vertex next
to `x`. -/
def emptyStep (b : FullBoard) (x y : Nat) : Prop :=
  onBoard b y ∧ b.m_state y = EMPTY ∧ ∃ k, k < 4 ∧ y = nbr b k x

/-- The vertex `u` counts for `color`: it holds a stone of that colour, or it is empty
and joined to a stone of that colour by a path of orthogonally adjacent empty vertices. -/
def reaches (b : FullBoard) (color u : Nat) : Prop :=
  ∃ s, onBoard b s ∧ b.m_state s = color ∧ Relation.ReflTransGen (emptyStep b) s u

/-- The number `R(color)` of vertices that count for `color` is `n`. -/
def reachCount (b : FullBoard) (color n : Nat) : Prop :=
  ∃ S : Finset Nat, (∀ u, u ∈ S ↔ reaches b color u) ∧ S.card = n

/-- The number of neutral empty intersections, counted for neither colour, is `n`. -/
def neutralCount (b : FullBoard) (n : Nat) : Prop :=
  ∃ S : Finset Nat, (∀ u, u ∈ S ↔ (onBoard b u ∧ b.m_state u = EMPTY ∧
    ¬ reaches b BLACK u ∧ ¬ reaches b WHITE u)) ∧ S.card = n

/-- The number of empty intersections counted for both colours is `n`. -/
def sharedCount (b : FullBoard) (n : Nat) : Prop :=
  ∃ S : Finset Nat, (∀ u, u ∈ S ↔ (b.m_state u = EMPTY ∧
    reaches b BLACK u ∧ reaches b WHITE u)) ∧ S.card = n

/-- A board with the geometry of `reset_board` whose border vertices are INVALID. -/
structure Framed (BOARD_SIZE : Nat) (b : FullBoard) : Prop where
  geom : Geom BOARD_SIZE b
  border : ∀ u, u < b.m_vertices_number → ¬ onBoard b u → b.m_state u = INVALID

/-- State of the loops of `compute_reach_color`: `v` is the vertex taken from the queue
last, of which the directions below `k` have been looked at. -/
structure ReachInv (b : FullBoard) (color v k : Nat) (reachable : Nat) (counted : Nat → Bool)
    (queue : List Nat) : Prop where
  count : reachable =
    ((Finset.range b.m_vertices_number).filter (fun u => counted u = true)).card
  sound : ∀ u, counted u = true → reaches b color u
  seeds : ∀ s, onBoard b s → b.m_state s = color → counted s = true
  queued : ∀ u, u ∈ queue → counted u = true
  nodup : queue.Nodup
  closed : ∀ x, counted x = true → x ∉ queue →
    ∀ j, j < 4 → (x = v → j < k) → b.m_state (nbr b j x) = EMPTY → counted (nbr b j x) = true

/-! ## `KoState` and `GameState`

The clock of `GameState` (`m_time_control`) is left out: none of the functions embedded
here reads it. -/

/-- Data members of `KoState`: the base class `FastState` and the ko hash history. -/
structure KoState where
  fast : FastState
  m_ko_hash_history : List Nat

/-- Embedding of `KoState::init_game`. -/
def KoState.init_game (Z : Zobrist) (BOARD_SIZE : Nat) (s : KoState) (board_size : Nat)
    (komi : Rat) : KoState :=
  let fast := LeelaZero.init_game Z BOARD_SIZE s.fast board_size komi
  { fast := fast, m_ko_hash_history := [fast.board.m_hash_ko] }

/-- Embedding of `KoState::super_ko`: the search starts one entry after the most recent
one. -/
def KoState.super_ko (s : KoState) : Bool :=
  decide (s.fast.board.m_hash_ko ∈ s.m_ko_hash_history.reverse.drop 1)

/-- Embedding of `KoState::play_move(color, vertex)`. -/
def KoState.play_move (Z : Zobrist) (BOARD_SIZE : Nat) (s : KoState) (color : Nat)
    (vertex : Int) : Option KoState :=
  let moved : Option FastState :=
    if vertex ≠ RESIGN then LeelaZero.play_move Z BOARD_SIZE s.fast color vertex
    else some s.fast
  moved.map (fun fast =>
    { fast := fast, m_ko_hash_history := s.m_ko_hash_history ++ [fast.board.m_hash_ko] })

/-- Data members of `GameState`: the base class `KoState`, the snapshots (a null pointer
is `none`) and who resigned. -/
structure GameState where
  ko : KoState
  game_history : List (Option KoState)
  m_resigned : Nat

/-- The call `std::vector::resize` on the snapshots: new entries are null pointers. -/
def resize_history (history : List (Option KoState)) (n : Nat) : List (Option KoState) :=
  history.take n ++ List.replicate (n - history.length) none

/-- Embedding of `GameState::init_game`. -/
def GameState.init_game (Z : Zobrist) (BOARD_SIZE : Nat) (g : GameState) (size : Nat)
    (komi : Rat) : GameState :=
  let ko := KoState.init_game Z BOARD_SIZE g.ko size komi
  { ko := ko, game_history := [some ko], m_resigned := EMPTY }

/-- Embedding of `GameState::play_move(color, vertex)`. -/
def GameState.play_move (Z : Zobrist) (BOARD_SIZE : Nat) (g : GameState) (color : Nat)
    (vertex : Int) : Option GameState :=
  let moved : Option GameState :=
    if vertex = RESIGN then some { g with m_resigned := color }
    else (KoState.play_move Z BOARD_SIZE g.ko color vertex).map (fun ko => { g with ko := ko })
  moved.map (fun g1 =>
    { g1 with
      game_history := resize_history g1.game_history g1.ko.fast.m_move_numbers ++ [some g1.ko] })

/-- Embedding of `GameState::undo_move`; `none` stands for the use of a snapshot that is
not there. -/
def GameState.undo_move (g : GameState) : Option (Bool × GameState) :=
  if g.ko.fast.m_move_numbers ≤ 0 then some (false, g)
  else
    match g.game_history.get? (g.ko.fast.m_move_numbers - 1) with
    | some (some ko) => some (true, { g with ko := ko })
    | _ => none

/-- Embedding of `GameState::forward_move`. -/
def GameState.forward_move (g : GameState) : Option (Bool × GameState) :=
  if g.game_history.length ≤ g.ko.fast.m_move_numbers + 1 then some (false, g)
  else
    match g.game_history.get? (g.ko.fast.m_move_numbers + 1) with
    | some (some ko) => some (true, { g with ko := ko })
    | _ => none

/-- Embedding of `FullBoard::set_to_move`. -/
def set_to_move (b : FullBoard) (to_move : Nat) : FullBoard :=
  { b with
    m_hash := if b.m_color_to_move ≠ to_move then b.m_hash ^^^ ZOBRIST_BLACK_TO_MOVE else b.m_hash
    m_color_to_move := to_move }

/-- The part of `GameState::play_text` after the colour has been read; `none` when an
assertion of `get_vertex` (inside `text_to_move`) or of `get_state` fails, or `play_move`
does not return. -/
def play_text_move (Z : Zobrist) (BOARD_SIZE : Nat) (g : GameState) (player : Nat)
    (vertex : List Char) : Option (Bool × GameState) :=
  (text_to_move_checked BOARD_SIZE g.ko.fast.board vertex).bind (fun move =>
    if move = (NO_VERTEX : Int) then some (false, g)
    else if move ≠ PASS ∧ move ≠ RESIGN ∧
        get_state_asserts BOARD_SIZE g.ko.fast.board move = false then none
    else if move ≠ PASS ∧ move ≠ RESIGN ∧ g.ko.fast.board.m_state move.toNat ≠ EMPTY then
      some (false, g)
    else
      let g1 : GameState :=
        { g with ko := { g.ko with fast := { g.ko.fast with
            board := set_to_move g.ko.fast.board player } } }
      (GameState.play_move Z BOARD_SIZE g1 g1.ko.fast.board.m_color_to_move move).map
        (fun g2 => (true, g2)))

/-- Embedding of `GameState::play_text`, with the assertions of the board accessors that
it calls. -/
def GameState.play_text (Z : Zobrist) (BOARD_SIZE : Nat) (g : GameState) (color : List Char)
    (vertex : List Char) : Option (Bool × GameState) :=
  let color := color.map tolower
  if color = ['w'] ∨ color = ['w', 'h', 'i', 't', 'e'] then
    play_text_move Z BOARD_SIZE g WHITE vertex
  else if color = ['b'] ∨ color = ['b', 'l', 'a', 'c', 'k'] then
    play_text_move Z BOARD_SIZE g BLACK vertex
  else some (false, g)

/-- A move that `play_move` can be given: a pass, a resignation, or an empty vertex of
the array (the precondition asserted by `update_board`). -/
def playable (s : FastState) (vertex : Int) : Prop :=
  vertex = PASS ∨ vertex = RESIGN ∨
    (0 ≤ vertex ∧ vertex < (s.board.m_vertices_number : Int) ∧
      s.board.m_state vertex.toNat = EMPTY)

instance playableDecidable (s : FastState) (vertex : Int) : Decidable (playable s vertex) := by
  unfold playable; infer_instance

/-- States of a `KoState` game: `init_game` followed by `play_move` calls; the list holds
the boards of the positions of the game, the initial one first, the current one last. -/
inductive KoGame (Z : Zobrist) (BOARD_SIZE : Nat) : KoState → List FullBoard → Prop
  | init (s0 : KoState) (size : Nat) (komi : Rat) (hsize : size ≤ BOARD_SIZE)
      (hfit : VERTICES_NUMBER BOARD_SIZE < 65536) :
      KoGame Z BOARD_SIZE (KoState.init_game Z BOARD_SIZE s0 size komi)
        [(KoState.init_game Z BOARD_SIZE s0 size komi).fast.board]
  | move (s : KoState) (boards : List FullBoard) (color : Nat) (vertex : Int) (s2 : KoState)
      (hs : KoGame Z BOARD_SIZE s boards) (hcolor : color < 2)
      (hplay : playable s.fast vertex)
      (hres : KoState.play_move Z BOARD_SIZE s color vertex = some s2) :
      KoGame Z BOARD_SIZE s2 (boards ++ [s2.fast.board])

/-- States of a `GameState`: `init_game` followed by calls of `play_move`, `undo_move`
and `forward_move`. -/
inductive Played (Z : Zobrist) (BOARD_SIZE : Nat) : GameState → Prop
  | init (g0 : GameState) (size : Nat) (komi : Rat) (hsize : size ≤ BOARD_SIZE)
      (hfit : VERTICES_NUMBER BOARD_SIZE < 65536) :
      Played Z BOARD_SIZE (GameState.init_game Z BOARD_SIZE g0 size komi)
  | move (g : GameState) (color : Nat) (vertex : Int) (g2 : GameState)
      (hg : Played Z BOARD_SIZE g) (hcolor : color < 2) (hplay : playable g.ko.fast vertex)
      (hres : GameState.play_move Z BOARD_SIZE g color vertex = some g2) :
      Played Z BOARD_SIZE g2
  | undo (g : GameState) (r : Bool) (g2 : GameState) (hg : Played Z BOARD_SIZE g)
      (hres : GameState.undo_move g = some (r, g2)) : Played Z BOARD_SIZE g2
  | forward (g : GameState) (r : Bool) (g2 : GameState) (hg : Played Z BOARD_SIZE g)
      (hres : GameState.forward_move g = some (r, g2)) : Played Z BOARD_SIZE g2

/-- Invariant of a `GameState`: the snapshot at index `i` has move number `i`, the one at
the current move number is the current `KoState`, and no snapshot is a null pointer. -/
structure HInv (Z : Zobrist) (BOARD_SIZE : Nat) (g : GameState) : Prop where
  current : g.game_history.get? g.ko.fast.m_move_numbers = some (some g.ko)
  snaps : ∀ i x, g.game_history.get? i = some x →
    ∃ ko, x = some ko ∧ ko.fast.m_move_numbers = i ∧ GInv Z BOARD_SIZE ko.fast

/-! ## Tree reuse in `UCTSearch`

The class `UCTNode` is not among the sources at hand: the node type and the three
operations used by `update_root` are parameters.  The futures that destroy old roots on
other threads are left out. -/

/-- The conversion of an unsigned value to `int`. -/
def to_int (n : Nat) : Int :=
  if n % 2 ^ 32 < 2 ^ 31 then ((n % 2 ^ 32 : Nat) : Int) else ((n % 2 ^ 32 : Nat) : Int) - 2 ^ 32

/-- The difference of two `size_t` values. -/
def size_t_sub (a b : Nat) : Nat :=
  (a % 2 ^ 64 + (2 ^ 64 - b % 2 ^ 64)) % 2 ^ 64

/-- The operations of `UCTNode` used by `update_root`: the node made by
`std::make_unique<UCTNode>(FastBoard::PASS, 0.0f)`, `find_child` (a null pointer is `none`)
and `count_nodes_and_clear_expand_state`, which returns the count and leaves a changed
node. -/
structure NodeOps (Node : Type) where
  fresh : Node
  find_child : Node → Int → Option Node
  count_nodes_and_clear_expand_state : Node → Nat × Node

/-- Data members of `UCTSearch` used by `update_root`; a null pointer is `none`. -/
structure UCTSearch (Node : Type) where
  m_root_state : GameState
  m_last_root_state : Option GameState
  m_root : Option Node
  m_nodes : Int
  m_playouts : Int

/-- The loop `for (i = 0; i < depth; i++) test->undo_move();`. -/
def undo_times : Nat → GameState → Option GameState
  | 0, test => some test
  | n + 1, test => (GameState.undo_move test).bind (fun r => undo_times n r.2)

/-- The loop of `advance_to_new_root_state` that replays moves: the result holds whether
the loop ran to its end, `test`, `m_root` and `m_last_root_state`. -/
def replay_moves {Node : Type} (ops : NodeOps Node) (Z : Zobrist) (BOARD_SIZE : Nat) :
    Nat → GameState → Node → GameState → Option (Bool × GameState × Option Node × GameState)
  | 0, test, root, last => some (true, test, some root, last)
  | n + 1, test, root, last =>
    match GameState.forward_move test with
    | none => none
    | some (_, test1) =>
      let move := test1.ko.fast.m_last_move
      match ops.find_child root move with
      | none => some (false, test1, none, last)
      | some child =>
        match GameState.play_move Z BOARD_SIZE last last.ko.fast.board.m_color_to_move move with
        | none => none
        | some last1 => replay_moves ops Z BOARD_SIZE n test1 child last1

/-- Embedding of `UCTSearch::advance_to_new_root_state`. -/
def advance_to_new_root_state {Node : Type} (ops : NodeOps Node) (Z : Zobrist)
    (BOARD_SIZE : Nat) (s : UCTSearch Node) : Option (Bool × UCTSearch Node) :=
  match s.m_root, s.m_last_root_state with
  | some root, some last =>
    if s.m_root_state.ko.fast.m_komi ≠ last.ko.fast.m_komi then some (false, s)
    else
      let depth := to_int (size_t_sub s.m_root_state.ko.fast.m_move_numbers
        last.ko.fast.m_move_numbers)
      if depth < 0 then some (false, s)
      else
        match undo_times depth.toNat s.m_root_state with
        | none => none
        | some test =>
          if last.ko.fast.board.m_hash ≠ test.ko.fast.board.m_hash then some (false, s)
          else
            match replay_moves ops Z BOARD_SIZE depth.toNat test root last with
            | none => none
            | some (done, test1, root1, last1) =>
              let s1 := { s with m_root := root1, m_last_root_state := some last1 }
              if !done then some (false, s1)
              else if last1.ko.fast.board.m_hash ≠ test1.ko.fast.board.m_hash then
                some (false, s1)
              else some (true, s1)
  | _, _ => some (false, s)

/-- Embedding of `UCTSearch::update_root`; `NDEBUG` tells whether the debug block that
counts the nodes of the old root is compiled out. -/
def update_root {Node : Type} (ops : NodeOps Node) (Z : Zobrist) (BOARD_SIZE : Nat)
    (NDEBUG : Bool) (s : UCTSearch Node) : Option (UCTSearch Node) :=
  let s0 := { s with m_playouts := 0 }
  let counted : Option (UCTSearch Node) :=
    if NDEBUG then some s0
    else
      match s0.m_root with
      | none => none
      | some root =>
        some { s0 with m_root := some (ops.count_nodes_and_clear_expand_state root).2 }
  counted.bind (fun s1 =>
    (advance_to_new_root_state ops Z BOARD_SIZE s1).map (fun r =>
      let root : Node :=
        match r.1, r.2.m_root with
        | true, some node => node
        | _, _ => ops.fresh
      let result := ops.count_nodes_and_clear_expand_state root
      { r.2 with m_root := some result.2, m_last_root_state := none,
                 m_nodes := to_int result.1 }))

/-! ## More concrete positions -/

/-- Black on `(1, 0)`, White on the corner `(0, 0)`, then two passes: every empty point
of the 3x3 board is next to a chain of empty points that touches both colours. -/
def dame : FastState := playOn (playOn game2 BLACK PASS) WHITE PASS

/-- A `KoState` object before `init_game`. -/
def blankKo : KoState := ⟨blankState, []⟩

/-- A `GameState` object before `init_game`. -/
def blankGame : GameState := ⟨blankKo, [], 0⟩

/-- A game on the 3x3 board. -/
def match0 : GameState := GameState.init_game exampleZ 19 blankGame 3 (15 / 2)

/-- The state after `GameState::play_move(color, vertex)`, with `BOARD_SIZE = 19`. -/
def moveOn (g : GameState) (color : Nat) (vertex : Int) : GameState :=
  (GameState.play_move exampleZ 19 g color vertex).getD blankGame

/-- Black plays `(1, 0)`. -/
def match1 : GameState := moveOn match0 BLACK 7

/-- Black plays `(0, 1)`: a white stone on the corner `(0, 0)`, vertex 6, would have no
liberty and would capture nothing. -/
def match2 : GameState := moveOn match1 BLACK 11

/-- Nodes without children for a search; counting leaves the node as it is. -/
def leafOps : NodeOps Nat := ⟨0, fun _ _ => none, fun node => (1, node)⟩

/-- A search on the game `match1` whose saved root state `match2` is one move ahead. -/
def search1 : UCTSearch Nat := ⟨match1, some match2, some 5, 0, 0⟩

/-! ## Child slots (`UCTNodePointer`)

The word `m_data` of a slot is a `Nat` below `2 ^ 64`; a `float` is its 32-bit pattern.
The class `UCTNode` is not among the sources at hand: a pointer is the address it was
built from, and what the proxies read from an inflated node comes from a table indexed
by the address. -/

/-- The tag of a slot that has been moved from or released. -/
def UCTNodePointer.INVALID : Nat := 2

/-- The tag of a slot that holds a pointer. -/
def UCTNodePointer.POINTER : Nat := 1

/-- The tag of a slot that holds a vertex and a policy. -/
def UCTNodePointer.UNINFLATED : Nat := 0

/-- Embedding of `UCTNodePointer::is_inflated(v)`. -/
def UCTNodePointer.is_inflated (v : Nat) : Bool :=
  v &&& 3 == UCTNodePointer.POINTER

/-- Embedding of `UCTNodePointer::read_ptr`: the address `v & ~0x3`. -/
def UCTNodePointer.read_ptr (v : Nat) : Nat :=
  v &&& (2 ^ 64 - 1 - 3)

/-- The conversion of an unsigned value to `std::int16_t`. -/
def to_int16 (n : Nat) : Int :=
  if n % 2 ^ 16 < 2 ^ 15 then ((n % 2 ^ 16 : Nat) : Int) else ((n % 2 ^ 16 : Nat) : Int) - 2 ^ 16

/-- Embedding of `UCTNodePointer::read_vertex`. -/
def UCTNodePointer.read_vertex (v : Nat) : Int :=
  to_int16 (v >>> 16)

/-- Embedding of `UCTNodePointer::read_policy`: the bit pattern of the result. -/
def UCTNodePointer.read_policy (v : Nat) : Nat :=
  (v >>> 32) % 2 ^ 32

/-- The value that the constructor `UCTNodePointer(vertex, policy)` stores in `m_data`;
`policy` is the bit pattern of the float. -/
def UCTNodePointer.pack (vertex : Int) (policy : Nat) : Nat :=
  (((policy % 2 ^ 32) <<< 32) ||| ((vertex % 2 ^ 16).toNat <<< 16)) % 2 ^ 64

/-- What the proxies of `UCTNodePointer` read from the node at an address. -/
structure NodeTable where
  valid : Nat → Bool
  get_visits : Nat → Int
  get_policy : Nat → Nat
  active : Nat → Bool
  get_move : Nat → Int

/-- Embedding of `UCTNodePointer::valid`. -/
def UCTNodePointer.valid (nodes : NodeTable) (m_data : Nat) : Bool :=
  if UCTNodePointer.is_inflated m_data then nodes.valid (UCTNodePointer.read_ptr m_data)
  else true

/-- Embedding of `UCTNodePointer::get_visits`. -/
def UCTNodePointer.get_visits (nodes : NodeTable) (m_data : Nat) : Int :=
  if UCTNodePointer.is_inflated m_data then nodes.get_visits (UCTNodePointer.read_ptr m_data)
  else 0

/-- Embedding of `UCTNodePointer::get_policy`: the bit pattern of the result. -/
def UCTNodePointer.get_policy (nodes : NodeTable) (m_data : Nat) : Nat :=
  if UCTNodePointer.is_inflated m_data then nodes.get_policy (UCTNodePointer.read_ptr m_data)
  else UCTNodePointer.read_policy m_data

/-- Embedding of `UCTNodePointer::active`. -/
def UCTNodePointer.active (nodes : NodeTable) (m_data : Nat) : Bool :=
  if UCTNodePointer.is_inflated m_data then nodes.active (UCTNodePointer.read_ptr m_data)
  else true

/-- Embedding of `UCTNodePointer::get_move`. -/
def UCTNodePointer.get_move (nodes : NodeTable) (m_data : Nat) : Int :=
  if UCTNodePointer.is_inflated m_data then nodes.get_move (UCTNodePointer.read_ptr m_data)
  else UCTNodePointer.read_vertex m_data

/-- A table for a tree without inflated nodes. -/
def noNodes : NodeTable := ⟨fun _ => false, fun _ => 0, fun _ => 0, fun _ => false, fun _ => 0⟩

/-! ## The evaluator cache (`NNCache`)

The map `m_cache` is a function from hashes to stored results, the deque `m_order` a list
with the oldest entry first.  The mutex is left out: each call runs alone. -/

/-- The struct `NNCache::Netresult`; the floats are rationals. -/
structure Netresult where
  policy : List Rat
  policy_pass : Rat
  score : Rat

/-- Data members of `NNCache`. -/
structure NNCache where
  m_size : Nat
  m_hits : Int
  m_lookups : Int
  m_inserts : Int
  m_cache : Nat → Option Netresult
  m_order : List Nat

/-- The constructor `NNCache(int size)`: the `int` is converted to `size_t`. -/
def NNCache.create (size : Int) : NNCache :=
  { m_size := (size % 2 ^ 64).toNat, m_hits := 0, m_lookups := 0, m_inserts := 0,
    m_cache := fun _ => none, m_order := [] }

/-- Embedding of `NNCache::insert`. -/
def NNCache.insert (c : NNCache) (hash : Nat) (result : Netresult) : NNCache :=
  if (c.m_cache hash).isSome then c
  else
    let c1 : NNCache :=
      { c with
        m_cache := Function.update c.m_cache hash (some result)
        m_order := c.m_order ++ [hash]
        m_inserts := c.m_inserts + 1 }
    if c1.m_order.length > c1.m_size then
      match c1.m_order with
      | [] => c1
      | front :: rest =>
        { c1 with m_cache := Function.update c1.m_cache front none, m_order := rest }
    else c1

/-- Embedding of `NNCache::lookup`: the boolean, the output argument `result` after the
call, and the cache after the call. -/
def NNCache.lookup (c : NNCache) (hash : Nat) (result : Netresult) :
    Bool × Netresult × NNCache :=
  let c1 : NNCache := { c with m_lookups := c.m_lookups + 1 }
  match c1.m_cache hash with
  | none => (false, result, c1)
  | some entry => (true, entry, { c1 with m_hits := c1.m_hits + 1 })

/-- The loop of `NNCache::resize`: the oldest entries are removed until the count is at
most `m_size`. -/
def NNCache.resize_loop (m_size : Nat) :
    (Nat → Option Netresult) → List Nat → (Nat → Option Netresult) × List Nat
  | cache, [] => (cache, [])
  | cache, front :: rest =>
    if (front :: rest).length > m_size then
      NNCache.resize_loop m_size (Function.update cache front none) rest
    else (cache, front :: rest)

/-- Embedding of `NNCache::resize`. -/
def NNCache.resize (c : NNCache) (size : Int) : NNCache :=
  let m_size := (size % 2 ^ 64).toNat
  let trimmed := NNCache.resize_loop m_size c.m_cache c.m_order
  { c with m_size := m_size, m_cache := trimmed.1, m_order := trimmed.2 }

/-- Embedding of `NNCache::clear`. -/
def NNCache.clear (c : NNCache) : NNCache :=
  { c with m_cache := fun _ => none, m_order := [] }

/-- A call on the cache. -/
inductive CacheCall where
  | insert (hash : Nat) (result : Netresult)
  | lookup (hash : Nat) (result : Netresult)
  | resize (size : Int)
  | clear

/-- The cache after a call. -/
def NNCache.call (c : NNCache) : CacheCall → NNCache
  | CacheCall.insert hash result => c.insert hash result
  | CacheCall.lookup hash result => (c.lookup hash result).2.2
  | CacheCall.resize size => c.resize size
  | CacheCall.clear => c.clear

/-- The cache after a sequence of calls. -/
def NNCache.run (c : NNCache) : List CacheCall → NNCache
  | [] => c
  | call :: calls => NNCache.run (c.call call) calls

/-- The caches that a program can hold: constructed and then used through the public
member functions. -/
def Cached (c : NNCache) : Prop :=
  ∃ size calls, c = NNCache.run (NNCache.create size) calls

/-- Invariant of the cache: the deque lists the hashes of the map, each once, and holds
at most `m_size` of them. -/
structure CacheInv (c : NNCache) : Prop where
  keys : ∀ hash, (c.m_cache hash).isSome = true ↔ hash ∈ c.m_order
  nodup : c.m_order.Nodup
  bound : c.m_order.length ≤ c.m_size

/-- A result of the evaluator. -/
def result1 : Netresult := ⟨[1 / 2, 1 / 2], 0, 1⟩

/-- Another result of the evaluator. -/
def result2 : Netresult := ⟨[1 / 4, 3 / 4], 0, -1⟩

/-- A cache for two entries that holds the hashes 10 and 20. -/
def cache2 : NNCache :=
  NNCache.run (NNCache.create 2) [CacheCall.insert 10 result1, CacheCall.insert 20 result2]

/-! ## Memory limits (`GTP::set_max_memory`)

Values of `size_t` are naturals below `2 ^ 64`.  The constant `MiB`, the function
`remove_overhead` and the size `NNCache::ENTRY_SIZE` (which depends on `BOARD_SIZE`) are
not among the sources at hand and are parameters, as is the value of
`get_base_memory()`, which depends on the loaded network. -/

/-- The constant `NNCache::MIN_CACHE_COUNT`. -/
def MIN_CACHE_COUNT : Int := 6000

/-- The constant `UCTSearch::MIN_TREE_SPACE`. -/
def MIN_TREE_SPACE : Nat := 100000000

/-- The constant `UCTSearch::DEFAULT_MAX_MEMORY` where pointers have 8 bytes. -/
def DEFAULT_MAX_MEMORY : Nat := 5200000000

/-- What `set_max_memory` takes from elsewhere. -/
structure MemoryEnv where
  MiB : Nat
  remove_overhead : Nat → Nat
  ENTRY_SIZE : Nat
  base_memory : Nat

/-- The configuration that `set_max_memory` writes: three globals and the cache of the
network. -/
structure MemoryConfig where
  cfg_max_memory : Nat
  cfg_max_tree_size : Nat
  cfg_max_cache_ratio_percent : Int
  nn_cache : NNCache

/-- Embedding of `GTP::set_max_memory`: the returned pair and the configuration after the
call. -/
def set_max_memory (env : MemoryEnv) (config : MemoryConfig) (max_memory : Nat)
    (cache_size_ratio_percent : Int) : (Bool × List Char) × MemoryConfig :=
  let max_memory := if max_memory = 0 then DEFAULT_MAX_MEMORY else max_memory
  let base_memory := env.base_memory
  if max_memory < base_memory then
    ((false, "Not enough memory for network. ".data ++ Nat.toDigits 10 (base_memory / env.MiB)
      ++ " MiB required.".data), config)
  else
    let max_memory_for_search := size_t_sub max_memory base_memory
    let max_cache_size :=
      (max_memory_for_search * (cache_size_ratio_percent % 2 ^ 64).toNat) % 2 ^ 64 / 100
    let max_cache_count := to_int (env.remove_overhead max_cache_size / env.ENTRY_SIZE)
    if max_cache_count < MIN_CACHE_COUNT then
      ((false, "Not enough memory for cache.".data), config)
    else
      let max_tree_size := size_t_sub max_memory_for_search max_cache_size
      if max_tree_size < MIN_TREE_SPACE then
        ((false, "Not enough memory for search tree.".data), config)
      else
        ((true, "Setting max tree size to ".data ++ Nat.toDigits 10 (max_tree_size / env.MiB)
          ++ " MiB and cache size to ".data ++ Nat.toDigits 10 (max_cache_size / env.MiB)
          ++ " MiB.".data),
         { cfg_max_memory := max_memory
           cfg_max_cache_ratio_percent := cache_size_ratio_percent
           cfg_max_tree_size := env.remove_overhead max_tree_size
           nn_cache := config.nn_cache.resize max_cache_count })

/-- The memory left for the search tree and the cache: the requested maximum, or the
default when the request is 0, less the base memory of the network. -/
def searchMemory (env : MemoryEnv) (max_memory : Nat) : Nat :=
  (if max_memory = 0 then DEFAULT_MAX_MEMORY else max_memory) - env.base_memory

/-- The share of the cache in bytes. -/
def cacheBytes (env : MemoryEnv) (max_memory : Nat) (percent : Int) : Nat :=
  searchMemory env max_memory * percent.toNat / 100

/-- The resulting number of cache entries, as the `int` it is stored in. -/
def cacheCount (env : MemoryEnv) (max_memory : Nat) (percent : Int) : Int :=
  to_int (env.remove_overhead (cacheBytes env max_memory percent) / env.ENTRY_SIZE)

/-- The remaining tree space in bytes. -/
def treeSpace (env : MemoryEnv) (max_memory : Nat) (percent : Int) : Nat :=
  searchMemory env max_memory - cacheBytes env max_memory percent

/-- An environment: one sixteenth of overhead, entries of 1500 bytes, a network of
100 MiB. -/
def env1 : MemoryEnv := ⟨1048576, fun s => s * 15 / 16, 1500, 104857600⟩

/-- The configuration at the start of the program. -/
def config1 : MemoryConfig := ⟨5200000000, 5200000000, 10, NNCache.create 150000⟩

/-! ## Tree size bookkeeping of `UCTNodePointer`

The heap holds the counter `m_tree_size`, the addresses of the `UCTNodePointer` objects
that are alive, and the word `m_data` of each.  The sizes `sizeof(UCTNodePointer)` and
`sizeof(UCTNode)` are parameters.  A `delete` of a node runs the destructor of `UCTNode`,
which is not among the sources at hand; the destructions of the child slots of the node
are calls of their own here.  A failed assertion is `none`. -/

/-- The counter and the slots. -/
structure SlotHeap where
  m_tree_size : Nat
  live : List Nat
  m_data : Nat → Nat

/-- Embedding of `UCTNodePointer::increment_tree_size`. -/
def increment_tree_size (h : SlotHeap) (size : Nat) : SlotHeap :=
  { h with m_tree_size := (h.m_tree_size + size) % 2 ^ 64 }

/-- Embedding of `UCTNodePointer::decrement_tree_size`. -/
def decrement_tree_size (h : SlotHeap) (size : Nat) : Option SlotHeap :=
  if h.m_tree_size ≥ size then some { h with m_tree_size := size_t_sub h.m_tree_size size }
  else none

/-- Embedding of the constructor `UCTNodePointer(vertex, policy)` for the object at the
address `slot`. -/
def slot_construct (SP : Nat) (h : SlotHeap) (slot : Nat) (vertex : Int) (policy : Nat) :
    SlotHeap :=
  increment_tree_size
    { h with live := slot :: h.live
             m_data := Function.update h.m_data slot (UCTNodePointer.pack vertex policy) } SP

/-- Embedding of the move constructor `UCTNodePointer(UCTNodePointer&& n)` for the object
at the address `slot`, whose member `m_data` starts as `INVALID`. -/
def slot_move_construct (SP : Nat) (h : SlotHeap) (slot n : Nat) : SlotHeap :=
  let d0 := Function.update h.m_data slot UCTNodePointer.INVALID
  let nv := d0 n
  let d1 := Function.update d0 n UCTNodePointer.INVALID
  let d2 := Function.update d1 slot nv
  increment_tree_size { h with live := slot :: h.live, m_data := d2 } SP

/-- Embedding of the move assignment `operator=(UCTNodePointer&& n)` on the object at the
address `slot`. -/
def slot_move_assign (SN : Nat) (h : SlotHeap) (slot n : Nat) : Option SlotHeap :=
  let nv := h.m_data n
  let d1 := Function.update h.m_data n UCTNodePointer.INVALID
  let v := d1 slot
  let d2 := Function.update d1 slot nv
  if UCTNodePointer.is_inflated v then decrement_tree_size { h with m_data := d2 } SN
  else some { h with m_data := d2 }

/-- Embedding of `UCTNodePointer::release`: the heap and the returned address. -/
def slot_release (SN : Nat) (h : SlotHeap) (slot : Nat) : Option (SlotHeap × Nat) :=
  let v := h.m_data slot
  (decrement_tree_size
    { h with m_data := Function.update h.m_data slot UCTNodePointer.INVALID } SN).map
    (fun h2 => (h2, UCTNodePointer.read_ptr v))

/-- Embedding of `UCTNodePointer::inflate` when no other thread runs: `address` is what
`new UCTNode` returns. -/
def slot_inflate (SN : Nat) (h : SlotHeap) (slot address : Nat) : Option SlotHeap :=
  let v := h.m_data slot
  if UCTNodePointer.is_inflated v then some h
  else if address &&& 3 = 0 then
    some (increment_tree_size
      { h with m_data := Function.update h.m_data slot (address ||| UCTNodePointer.POINTER) }
      SN)
  else none

/-- Embedding of the destructor `~UCTNodePointer` of the object at the address `slot`. -/
def slot_destroy (SP SN : Nat) (h : SlotHeap) (slot : Nat) : Option SlotHeap :=
  let sz := SP
  let v := h.m_data slot
  let sz := if UCTNodePointer.is_inflated v then (sz + SN) % 2 ^ 64 else sz
  decrement_tree_size { h with live := h.live.erase slot } sz

/-- The number of live slots that own an inflated node. -/
def inflatedCount (h : SlotHeap) : Nat :=
  h.live.countP (fun slot => UCTNodePointer.is_inflated (h.m_data slot))

/-- The heaps of a sequential run of slot operations from the start of the program: a
constructor runs at an address where no slot is alive, every other operation on a live
slot, `release` on an inflated slot, and the memory in use fits the address space. -/
inductive Slots (SP SN : Nat) : SlotHeap → Prop
  | start : Slots SP SN ⟨0, [], fun _ => UCTNodePointer.INVALID⟩
  | construct (h : SlotHeap) (slot : Nat) (vertex : Int) (policy : Nat)
      (hs : Slots SP SN h) (hfresh : slot ∉ h.live)
      (hfit : SP * (h.live.length + 1) + SN * inflatedCount h < 2 ^ 64) :
      Slots SP SN (slot_construct SP h slot vertex policy)
  | move_construct (h : SlotHeap) (slot n : Nat) (hs : Slots SP SN h)
      (hfresh : slot ∉ h.live) (hn : n ∈ h.live)
      (hfit : SP * (h.live.length + 1) + SN * inflatedCount h < 2 ^ 64) :
      Slots SP SN (slot_move_construct SP h slot n)
  | move_assign (h : SlotHeap) (slot n : Nat) (h2 : SlotHeap) (hs : Slots SP SN h)
      (hslot : slot ∈ h.live) (hn : n ∈ h.live)
      (hres : slot_move_assign SN h slot n = some h2) : Slots SP SN h2
  | release (h : SlotHeap) (slot : Nat) (h2 : SlotHeap) (address : Nat) (hs : Slots SP SN h)
      (hslot : slot ∈ h.live) (hinf : UCTNodePointer.is_inflated (h.m_data slot) = true)
      (hres : slot_release SN h slot = some (h2, address)) : Slots SP SN h2
  | inflate (h : SlotHeap) (slot address : Nat) (h2 : SlotHeap) (hs : Slots SP SN h)
      (hslot : slot ∈ h.live)
      (hfit : UCTNodePointer.is_inflated (h.m_data slot) = false →
        SP * h.live.length + SN * (inflatedCount h + 1) < 2 ^ 64)
      (hres : slot_inflate SN h slot address = some h2) : Slots SP SN h2
  | destroy (h : SlotHeap) (slot : Nat) (h2 : SlotHeap) (hs : Slots SP SN h)
      (hslot : slot ∈ h.live) (hres : slot_destroy SP SN h slot = some h2) : Slots SP SN h2

/-- Invariant of the heap. -/
structure SlotInv (SP SN : Nat) (h : SlotHeap) : Prop where
  nodup : h.live.Nodup
  size : h.m_tree_size = SP * h.live.length + SN * inflatedCount h
  fits : h.m_tree_size < 2 ^ 64

/-- The heap at the start of the program. -/
def heap0 : SlotHeap := ⟨0, [], fun _ => UCTNodePointer.INVALID⟩

/-- One slot at the address 100, constructed for a pass with the policy `0.5f`; slots
have 8 bytes. -/
def heap1 : SlotHeap := slot_construct 8 heap0 100 PASS 1056964608

/-- The slot at the address 100 inflated with a node of 96 bytes at the address 4096. -/
def heap2 : SlotHeap := (slot_inflate 96 heap1 100 4096).getD heap0

/-! ## Concurrent calls of `UCTNodePointer::inflate` on one slot

The threads interleave at the atomic operations: the load of `m_data`, the allocation
by `new`, `compare_exchange_strong`, the addition to `m_tree_size` and `delete`.  The
node is the address that `new` returns: it has no two low bits, fits 64 bits and is not
the address of a node that is alive.  What `new UCTNode` stores in the node is left
out. -/

/-- Where a thread is in `inflate`: before the load; before `new`, with the word it has
loaded; before `compare_exchange_strong(v, v2)`; before `increment_tree_size` after a
success; before `delete read_ptr(v2)` after a failure; after its return. -/
inductive InflatePc where
  | load
  | allocate (v : Nat)
  | exchange (v v2 : Nat)
  | increment
  | discard (v2 : Nat)
  | returned

/-- The slot, the counter, the nodes that are alive and the threads. -/
structure InflateState where
  m_data : Nat
  m_tree_size : Nat
  nodes : List Nat
  pc : Nat → InflatePc

/-- One atomic step of the thread `t` in `inflate`; `address` is what `new` returns if
the step is the allocation.  There is no step after the return, and none when `new` has
no such address to give. -/
def inflate_step (SN : Nat) (s : InflateState) (t address : Nat) : Option InflateState :=
  match s.pc t with
  | InflatePc.load =>
    if UCTNodePointer.is_inflated s.m_data then
      some { s with pc := Function.update s.pc t InflatePc.returned }
    else some { s with pc := Function.update s.pc t (InflatePc.allocate s.m_data) }
  | InflatePc.allocate v =>
    if address &&& 3 = 0 ∧ address < 2 ^ 64 ∧ address ∉ s.nodes then
      some { s with
        nodes := address :: s.nodes
        pc := Function.update s.pc t (InflatePc.exchange v (address ||| UCTNodePointer.POINTER)) }
    else none
  | InflatePc.exchange v v2 =>
    if s.m_data = v then
      some { s with m_data := v2, pc := Function.update s.pc t InflatePc.increment }
    else some { s with pc := Function.update s.pc t (InflatePc.discard v2) }
  | InflatePc.increment =>
    some { s with
      m_tree_size := (s.m_tree_size + SN) % 2 ^ 64
      pc := Function.update s.pc t InflatePc.returned }
  | InflatePc.discard v2 =>
    some { s with
      nodes := s.nodes.erase (UCTNodePointer.read_ptr v2)
      pc := Function.update s.pc t InflatePc.load }
  | InflatePc.returned => none

/-- The state after the steps of a schedule: each entry names the thread that takes the
next step and the address that `new` would return; `none` when an entry names a thread
that has no step, or a thread that did not call `inflate`. -/
def inflate_run (N SN : Nat) : InflateState → List (Nat × Nat) → Option InflateState
  | s, [] => some s
  | s, (t, address) :: rest =>
    if t < N then
      match inflate_step SN s t address with
      | none => none
      | some s2 => inflate_run N SN s2 rest
    else none

/-- The state in which the threads call `inflate`. -/
def inflate_start (m_data m_tree_size : Nat) (nodes : List Nat) : InflateState :=
  ⟨m_data, m_tree_size, nodes, fun _ => InflatePc.load⟩

/-- The node that a thread has allocated and neither installed nor deleted. -/
def heldNode : InflatePc → Option Nat
  | InflatePc.exchange _ v2 => some (UCTNodePointer.read_ptr v2)
  | InflatePc.discard v2 => some (UCTNodePointer.read_ptr v2)
  | _ => none

/-- A bound on the steps that a thread still takes. -/
def stepsLeft (inflated : Bool) : InflatePc → Nat
  | InflatePc.load => if inflated then 1 else 5
  | InflatePc.allocate _ => 4
  | InflatePc.exchange _ _ => 3
  | InflatePc.increment => 1
  | InflatePc.discard _ => 2
  | InflatePc.returned => 0

/-- The sum of the bounds over the threads. -/
def stepsLeftAll (N : Nat) (s : InflateState) : Nat :=
  ((List.range N).map (fun t => stepsLeft (UCTNodePointer.is_inflated s.m_data) (s.pc t))).sum

/-- Invariant of the concurrent calls: `v0`, `T0` and `A0` are the word of the slot, the
counter and the nodes at the start. -/
structure InflateInv (N SN v0 T0 : Nat) (A0 : List Nat) (s : InflateState) : Prop where
  first : UCTNodePointer.is_inflated s.m_data = false →
    s.m_data = v0 ∧ s.m_tree_size = T0 ∧
      ∀ t, t < N → s.pc t ≠ InflatePc.increment ∧ s.pc t ≠ InflatePc.returned ∧
        ∀ v2, s.pc t ≠ InflatePc.discard v2
  second : UCTNodePointer.is_inflated s.m_data = true →
    s.m_data = UCTNodePointer.read_ptr s.m_data ||| UCTNodePointer.POINTER ∧
    UCTNodePointer.read_ptr s.m_data ∉ A0 ∧
    (((∃ w, w < N ∧ s.pc w = InflatePc.increment ∧
        ∀ t, t < N → s.pc t = InflatePc.increment → t = w) ∧ s.m_tree_size = T0) ∨
      ((∀ t, t < N → s.pc t ≠ InflatePc.increment) ∧
        s.m_tree_size = (T0 + SN) % 2 ^ 64))
  locals : ∀ t, t < N →
    (∀ v, s.pc t = InflatePc.allocate v → v = v0) ∧
    (∀ v v2, s.pc t = InflatePc.exchange v v2 → v = v0)
  held : ∀ t, t < N → ∀ a, heldNode (s.pc t) = some a →
    a &&& 3 = 0 ∧ a < 2 ^ 64 ∧ a ∉ A0 ∧
      (UCTNodePointer.is_inflated s.m_data = true → a ≠ UCTNodePointer.read_ptr s.m_data) ∧
      (s.pc t = InflatePc.exchange v0 (a ||| UCTNodePointer.POINTER) ∨
        s.pc t = InflatePc.discard (a ||| UCTNodePointer.POINTER)) ∧
      ∀ t2, t2 < N → heldNode (s.pc t2) = some a → t2 = t
  nodup : s.nodes.Nodup
  nodes : ∀ a, a ∈ s.nodes ↔
    (a ∈ A0 ∨ (UCTNodePointer.is_inflated s.m_data = true ∧
        a = UCTNodePointer.read_ptr s.m_data) ∨
      ∃ t, t < N ∧ heldNode (s.pc t) = some a)

/-- Three threads call `inflate` on the slot of `heap1`. -/
def race0 : InflateState := inflate_start (UCTNodePointer.pack PASS 1056964608) 8 []

/-- The schedule in which all three threads load and allocate before the first
exchanges. -/
def schedule3 : List (Nat × Nat) :=
  [(0, 0), (1, 0), (2, 0), (0, 4096), (1, 8192), (2, 12288), (1, 0), (0, 0), (2, 0),
   (0, 0), (2, 0), (1, 0), (0, 0), (2, 0)]

/-! ## `UCTSearch::get_min_psa_ratio` -/

/-- Embedding of `UCTSearch::get_min_psa_ratio`; `tree_size` is what
`UCTNodePointer::get_tree_size()` returns.  With a budget of zero the quotient is not a
number (no comparison holds) or infinite (every comparison holds). -/
def get_min_psa_ratio (tree_size cfg_max_tree_size : Nat) : Rat :=
  if cfg_max_tree_size = 0 then (if tree_size = 0 then 0 else 2)
  else
    let mem_full := to_float (to_float tree_size / to_float cfg_max_tree_size)
    if mem_full > 1 / 2 then
      if mem_full > to_float (19 / 20) then
        if mem_full ≥ 1 then 2 else to_float (1 / 100)
      else to_float (1 / 1000)
    else 0

/-! ## The children of the root: `prune_non_contenders` and `get_best_move` -/

/-- What `UCTSearch` reads of a child of the root through the accessors of `UCTNode`; the
sources of `UCTNode` are not at hand, so the values that the accessors return are the
data here. -/
structure RootChild where
  valid : Bool
  get_visits : Int
  get_move : Int
  first_visit : Bool
  get_eval_lcb : Nat → Rat
  get_raw_eval : Nat → Rat

/-- Embedding of `UCTSearch::est_playouts_left`; `root_visits` is `m_root->get_visits()`.
The result is `none` when the conversion of the estimate to `int` is out of range, which
is undefined. -/
def est_playouts_left (m_playouts m_max_playouts m_max_visits root_visits
    elapsed_centiseconds time_for_move : Int) : Option Int :=
  let playouts := m_playouts
  let playouts_left := max 0 (min (m_max_playouts - playouts) (m_max_visits - root_visits))
  if elapsed_centiseconds < 100 ∨ playouts < 100 then some playouts_left
  else
    let playout_rate := to_float (to_float playouts / to_float elapsed_centiseconds)
    let time_left := max 0 (time_for_move - elapsed_centiseconds)
    let estimate := Int.ceil (to_float (playout_rate * to_float time_left))
    if estimate < 2 ^ 31 then some (min playouts_left estimate) else none

/-- The first loop of `prune_non_contenders`, on the pair `(lcb_max, n_first)`. -/
def prune_bounds (color : Nat) : List RootChild → Rat × Int → Rat × Int
  | [], bounds => bounds
  | node :: rest, (lcb_max, n_first) =>
    if node.valid then
      let visits := node.get_visits
      let lcb_max := if visits > 0 then max lcb_max (node.get_eval_lcb color) else lcb_max
      prune_bounds color rest (lcb_max, max n_first visits)
    else prune_bounds color rest (lcb_max, n_first)

/-- The local `prune_this_node` of the second loop of `prune_non_contenders`. -/
def prune_this_node (color : Nat) (lcb_max : Rat) (min_required_visits : Int)
    (node : RootChild) : Bool :=
  let visits := node.get_visits
  let has_enough_visits := decide (visits ≥ min_required_visits)
  let high_score := if visits > 0 then decide (node.get_raw_eval color ≥ lcb_max) else false
  !(has_enough_visits || high_score)

/-- The second loop of `prune_non_contenders`: for every child the argument of the call
of `set_active` on it (`none` when there is no call), and `pruned_nodes`. -/
def prune_loop (color : Nat) (lcb_max : Rat) (min_required_visits : Int) (prune : Bool) :
    List RootChild → Nat → List (Option Bool) × Nat
  | [], pruned_nodes => ([], pruned_nodes)
  | node :: rest, pruned_nodes =>
    if node.valid then
      let p := prune_this_node color lcb_max min_required_visits node
      let r := prune_loop color lcb_max min_required_visits prune rest
        (if p then pruned_nodes + 1 else pruned_nodes)
      ((if prune then some (!p) else none) :: r.1, r.2)
    else
      let r := prune_loop color lcb_max min_required_visits prune rest pruned_nodes
      (none :: r.1, r.2)

/-- Embedding of `UCTSearch::prune_non_contenders` on the children of the root: the count
that it returns and the calls of `set_active`; `none` when the final assertion fails or
`est_playouts_left` is undefined. -/
def prune_non_contenders (m_playouts m_max_playouts m_max_visits root_visits : Int)
    (children : List RootChild) (color : Nat) (elapsed_centiseconds time_for_move : Int)
    (prune : Bool) : Option (Nat × List (Option Bool)) :=
  let bounds := prune_bounds color children (0, 0)
  match est_playouts_left m_playouts m_max_playouts m_max_visits root_visits
      elapsed_centiseconds time_for_move with
  | none => none
  | some est =>
    let min_required_visits := bounds.2 - est
    let r := prune_loop color bounds.1 min_required_visits prune children 0
    if r.2 < children.length then some (r.2, r.1) else none

/-- A leader with 100 visits. -/
def leaderChild : RootChild := ⟨true, 100, 6, false, fun _ => 1 / 2, fun _ => 3 / 5⟩

/-- A child with one visit whose raw evaluation is above the bound of the leader and
whose own bound is below it. -/
def otherChild : RootChild := ⟨true, 1, 7, false, fun _ => 1 / 10, fun _ => 11 / 20⟩

/-- A child with one visit and a low evaluation. -/
def weakChild : RootChild := ⟨true, 1, 8, false, fun _ => 1 / 10, fun _ => 1 / 5⟩

/-- The pass flags of `UCTSearch`. -/
def NORMAL : Nat := 0

def NO_PASS : Nat := 1 <<< 0

def NO_RESIGN : Nat := 1 <<< 1

/-- Embedding of `FastState::final_score`:
`board.area_score(get_komi() + static_cast<float>(get_handicap()))`, the sum in single
precision. -/
def final_score (s : FastState) : Option Rat :=
  area_score s.board (to_float (s.m_komi + to_float (s.m_handicap : Rat)))

/-- The operations of `UCTNode` that reorder the children of the root; their sources are
not at hand, so they are parameters. -/
structure RootOps where
  sort_children : Nat → Rat → List RootChild → List RootChild
  randomize_first_proportionally : List RootChild → List RootChild

/-- Modelled from the spec: `UCTNode::get_no_pass_child` gives the best non-pass child,
that is the first child in the order of the children whose move is not a pass, and a null
pointer (`none`) when every child is a pass.  The call passes the state of the root, to
which the spec gives no role. -/
def get_no_pass_child (_state : GameState) (children : List RootChild) : Option RootChild :=
  children.find? (fun c => decide (c.get_move ≠ PASS))

/-- The children of the root after the first lines of `get_best_move`: sorted, and
reordered by `randomize_first_proportionally` in the early game. -/
def ranked_children (ops : RootOps) (cfg_lcb_min_visit_ratio : Rat) (cfg_random_cnt : Int)
    (m_root_state : GameState) (children : List RootChild) : List RootChild :=
  let color := m_root_state.ko.fast.board.m_color_to_move
  let max_visits := children.foldl (fun m node => max m node.get_visits) 0
  let sorted := ops.sort_children color
    (to_float (cfg_lcb_min_visit_ratio * to_float max_visits)) children
  let move_number := to_int m_root_state.ko.fast.m_move_numbers
  if move_number < cfg_random_cnt then ops.randomize_first_proportionally sorted else sorted

/-- Embedding of `UCTSearch::get_best_move`; `none` when the root has no child (the
assertion on `first_child`) or the score is not computed.  The assignments to `best_eval`
after the first are left out: it is read in the last test only, where it still has its
first value. -/
def get_best_move (ops : RootOps) (tags : AnalyzeTags) (cfg_lcb_min_visit_ratio : Rat)
    (cfg_random_cnt : Int) (cfg_dumb_pass : Bool) (m_root_state : GameState)
    (children : List RootChild) (passflag : Nat) : Option Int :=
  let color := m_root_state.ko.fast.board.m_color_to_move
  let ranked := ranked_children ops cfg_lcb_min_visit_ratio cfg_random_cnt m_root_state children
  match ranked.head? with
  | none => none
  | some first_child =>
    let best_move := first_child.get_move
    let best_eval : Rat :=
      if first_child.first_visit then 1 / 2 else first_child.get_raw_eval color
    if passflag &&& NO_PASS ≠ 0 then
      if best_move = PASS then
        match get_no_pass_child m_root_state ranked with
        | some no_pass => some no_pass.get_move
        | none => some best_move
      else some best_move
    else if !cfg_dumb_pass then
      match final_score m_root_state.ko.fast with
      | none => none
      | some score =>
        let relative_score : Rat := (if color = BLACK then 1 else -1) * score
        if best_move = PASS then
          if relative_score < 0 then
            match get_no_pass_child m_root_state ranked with
            | some nopass => some nopass.get_move
            | none => some best_move
          else if relative_score > 0 then
            match get_no_pass_child m_root_state ranked with
            | some nopass =>
              if !nopass.first_visit && decide (nopass.get_raw_eval color > relative_score)
              then some nopass.get_move else some best_move
            | none => some best_move
          else
            match get_no_pass_child m_root_state ranked with
            | some nopass =>
              if !nopass.first_visit && decide (nopass.get_raw_eval color > 0)
              then some nopass.get_move else some best_move
            | none => some best_move
        else if m_root_state.ko.fast.m_last_move = PASS then
          if !is_move_legal tags m_root_state.ko.fast color PASS then some best_move
          else if relative_score < 0 then some best_move
          else if relative_score > 0 then
            match get_no_pass_child m_root_state ranked with
            | some nopass =>
              if !nopass.first_visit then
                if nopass.get_raw_eval color > relative_score then some nopass.get_move
                else some best_move
              else some PASS
            | none => some PASS
          else if best_eval < 0 then some PASS
          else some best_move
        else some best_move
    else some best_move

/-- Operations that leave the order of the children as it is. -/
def keepOrder : RootOps := ⟨fun _ _ children => children, fun children => children⟩

/-- A pass with 100 visits. -/
def passChild : RootChild := ⟨true, 100, PASS, false, fun _ => 1 / 2, fun _ => 3 / 5⟩

/-! ## Sequences of moves -/

/-- The calls `play_move(color, vertex)` of a list, one after the other. -/
def play_moves (Z : Zobrist) (BOARD_SIZE : Nat) : FastState → List (Nat × Int) → Option FastState
  | s, [] => some s
  | s, (color, vertex) :: rest =>
    match play_move Z BOARD_SIZE s color vertex with
    | none => none
    | some s2 => play_moves Z BOARD_SIZE s2 rest

/-- The number of consecutive passes at the end of a list of moves. -/
def trailing_passes (moves : List (Nat × Int)) : Nat :=
  (moves.reverse.takeWhile (fun m => decide (m.2 = PASS))).length

/-- Every move of the list is a legal move of either colour in the state in which it is
played. -/
def legal_moves (tags : AnalyzeTags) (Z : Zobrist) (BOARD_SIZE : Nat) :
    FastState → List (Nat × Int) → Prop
  | _, [] => True
  | s, (color, vertex) :: rest =>
    color < 2 ∧ legal_play tags s color vertex ∧
      ∀ s2, play_move Z BOARD_SIZE s color vertex = some s2 →
        legal_moves tags Z BOARD_SIZE s2 rest

/-- The game on the 3x3 board after a pass by Black: White is to move and is ahead by
the komi. -/
def passedMatch : GameState := moveOn match0 BLACK PASS

/-! ## More operations of `GameState` -/

/-- Embedding of `FastState::reset_game`. -/
def reset_game (Z : Zobrist) (BOARD_SIZE : Nat) (s : FastState) : FastState :=
  { s with
    board := reset_board Z BOARD_SIZE s.board s.board.m_board_size
    m_move_numbers := 0
    m_ko_move := NO_VERTEX
    m_last_move := NO_VERTEX
    m_passes := 0
    m_handicap := 0 }

/-- Embedding of `KoState::reset_game`. -/
def KoState.reset_game (Z : Zobrist) (BOARD_SIZE : Nat) (s : KoState) : KoState :=
  let fast := LeelaZero.reset_game Z BOARD_SIZE s.fast
  { fast := fast, m_ko_hash_history := [fast.board.m_hash_ko] }

/-- Embedding of `GameState::reset_game`. -/
def GameState.reset_game (Z : Zobrist) (BOARD_SIZE : Nat) (g : GameState) : GameState :=
  let ko := KoState.reset_game Z BOARD_SIZE g.ko
  { ko := ko, game_history := [some ko], m_resigned := EMPTY }

/-- Embedding of `GameState::clear_game_history`. -/
def GameState.clear_game_history (g : GameState) : GameState :=
  let ko : KoState := { g.ko with fast := { g.ko.fast with m_move_numbers := 0 } }
  { g with ko := ko, game_history := [some ko] }

/-- Embedding of `GameState::rewind`; `none` stands for the use of a snapshot that is not
there. -/
def GameState.rewind (g : GameState) : Option GameState :=
  match g.game_history.get? 0 with
  | some (some ko) => some { g with ko := ko }
  | _ => none

/-- Embedding of `GameState::get_past_board`; `none` when an assertion fails or the
snapshot is a null pointer. -/
def GameState.get_past_board (g : GameState) (moves_ago : Int) : Option FullBoard :=
  if moves_ago ≥ 0 ∧ moves_ago.toNat % 2 ^ 32 ≤ g.ko.fast.m_move_numbers then
    if g.ko.fast.m_move_numbers + 1 ≤ g.game_history.length then
      match g.game_history.get? (g.ko.fast.m_move_numbers - moves_ago.toNat) with
      | some (some ko) => some ko.fast.board
      | _ => none
    else none
  else none

/-- The bounds of the fixed handicap. -/
def FIXED_HANDICAP_MIN : Int := 2

def FIXED_HANDICAP_MAX : Int := 9

/-- Embedding of `GameState::valid_handicap`. -/
def GameState.valid_handicap (g : GameState) (handicap : Int) : Bool :=
  let board_size := g.ko.fast.board.m_board_size
  if handicap < FIXED_HANDICAP_MIN ∨ handicap > FIXED_HANDICAP_MAX then false
  else if board_size % 2 = 0 ∧ handicap > 4 then false
  else if board_size = 7 ∧ handicap > 4 then false
  else if board_size < 7 ∧ handicap > 0 then false
  else true

/-- One guarded call `play_move(FastBoard::BLACK, board.get_vertex(x, y))` of
`place_fixed_handicap`. -/
def handicap_stone (Z : Zobrist) (BOARD_SIZE : Nat) (g : Option GameState) (wanted : Bool)
    (x y : Nat) : Option GameState :=
  if wanted then
    g.bind (fun g1 =>
      GameState.play_move Z BOARD_SIZE g1 BLACK (get_vertex g1.ko.fast.board x y : Nat))
  else g

/-- Embedding of `GameState::place_fixed_handicap`.  The coordinates are not negative
once `valid_handicap` holds, which needs a board of size 7 at least. -/
def GameState.place_fixed_handicap (Z : Zobrist) (BOARD_SIZE : Nat) (g : GameState)
    (handicap : Int) : Option (Bool × GameState) :=
  if !g.valid_handicap handicap then some (false, g)
  else
    let board_size := g.ko.fast.board.m_board_size
    let high := if board_size ≥ 13 then 3 else 2
    let mid := board_size / 2
    let low := board_size - 1 - high
    let g1 := handicap_stone Z BOARD_SIZE (some g) (decide (handicap ≥ 2)) low low
    let g2 := handicap_stone Z BOARD_SIZE g1 (decide (handicap ≥ 2)) high high
    let g3 := handicap_stone Z BOARD_SIZE g2 (decide (handicap ≥ 3)) high low
    let g4 := handicap_stone Z BOARD_SIZE g3 (decide (handicap ≥ 4)) low high
    let g5 := handicap_stone Z BOARD_SIZE g4 (decide (handicap ≥ 5 ∧ handicap % 2 = 1)) mid mid
    let g6 := handicap_stone Z BOARD_SIZE g5 (decide (handicap ≥ 6)) low mid
    let g7 := handicap_stone Z BOARD_SIZE g6 (decide (handicap ≥ 6)) high mid
    let g8 := handicap_stone Z BOARD_SIZE g7 (decide (handicap ≥ 8)) mid low
    let g9 := handicap_stone Z BOARD_SIZE g8 (decide (handicap ≥ 8)) mid high
    g9.map (fun g10 =>
      let g11 : GameState :=
        { g10 with ko := { g10.ko with fast := { g10.ko.fast with
            board := set_to_move g10.ko.fast.board WHITE } } }
      let g12 := g11.clear_game_history
      (true, { g12 with ko := { g12.ko with fast := { g12.ko.fast with
          m_handicap := handicap } } }))

/-- The game on the 7x7 board after `init_game`. -/
def match7 : GameState := GameState.init_game exampleZ 19 blankGame 7 (15 / 2)

/-- The game on the 7x7 board after `place_fixed_handicap(2)`. -/
def handicap7 : GameState :=
  ((GameState.place_fixed_handicap exampleZ 19 match7 2).getD (false, blankGame)).2

/-- States of a `GameState` under all its operations: `init_game` followed by calls of
`play_move` (a resignation included), `play_text`, `undo_move`, `forward_move`, `rewind`,
`clear_game_history`, `place_fixed_handicap` and `reset_game` that return. -/
inductive Navigated (Z : Zobrist) (BOARD_SIZE : Nat) : GameState → Prop
  | init (g0 : GameState) (size : Nat) (komi : Rat) :
      Navigated Z BOARD_SIZE (GameState.init_game Z BOARD_SIZE g0 size komi)
  | move (g : GameState) (color : Nat) (vertex : Int) (g2 : GameState)
      (hg : Navigated Z BOARD_SIZE g)
      (hres : GameState.play_move Z BOARD_SIZE g color vertex = some g2) :
      Navigated Z BOARD_SIZE g2
  | text (g : GameState) (color vertex : List Char) (r : Bool) (g2 : GameState)
      (hg : Navigated Z BOARD_SIZE g)
      (hres : GameState.play_text Z BOARD_SIZE g color vertex = some (r, g2)) :
      Navigated Z BOARD_SIZE g2
  | undo (g : GameState) (r : Bool) (g2 : GameState) (hg : Navigated Z BOARD_SIZE g)
      (hres : GameState.undo_move g = some (r, g2)) : Navigated Z BOARD_SIZE g2
  | forward (g : GameState) (r : Bool) (g2 : GameState) (hg : Navigated Z BOARD_SIZE g)
      (hres : GameState.forward_move g = some (r, g2)) : Navigated Z BOARD_SIZE g2
  | rewind (g g2 : GameState) (hg : Navigated Z BOARD_SIZE g)
      (hres : GameState.rewind g = some g2) : Navigated Z BOARD_SIZE g2
  | clear (g : GameState) (hg : Navigated Z BOARD_SIZE g) :
      Navigated Z BOARD_SIZE g.clear_game_history
  | handicap (g : GameState) (handicap : Int) (r : Bool) (g2 : GameState)
      (hg : Navigated Z BOARD_SIZE g)
      (hres : GameState.place_fixed_handicap Z BOARD_SIZE g handicap = some (r, g2)) :
      Navigated Z BOARD_SIZE g2
  | reset (g : GameState) (hg : Navigated Z BOARD_SIZE g) :
      Navigated Z BOARD_SIZE (GameState.reset_game Z BOARD_SIZE g)

/-- Invariant of the snapshots: the move number is an index of the snapshots, and the
snapshot at an index is there and has that index as its move number. -/
structure NavInv (g : GameState) : Prop where
  index : g.ko.fast.m_move_numbers < g.game_history.length
  snaps : ∀ i, i < g.game_history.length →
    ∃ ko, g.game_history.get? i = some (some ko) ∧ ko.fast.m_move_numbers = i

/-! ## `UCTSearch::play_simulation`

The class `UCTNode` is not among the sources at hand: a node is its address, the state of
all nodes is a value of a type `Tree`, and the member functions of `UCTNode` that
`play_simulation` calls are parameters.  The calls that change a node are also written
to a log, in the order in which they are made. -/

/-- The class `SearchResult`; the `float` is a rational. -/
structure SearchResult where
  m_valid : Bool
  m_eval : Rat

/-- The result made by `SearchResult() = default`. -/
def SearchResult.invalid : SearchResult := ⟨false, 0⟩

/-- Embedding of `SearchResult::from_eval`. -/
def SearchResult.from_eval (eval : Rat) : SearchResult := ⟨true, eval⟩

/-- Embedding of `SearchResult::from_score`. -/
def SearchResult.from_score (board_score : Rat) : SearchResult := ⟨true, board_score⟩

/-- The member functions of `UCTNode` called by `play_simulation`; `create_children`
gives its return value, the evaluation that it stores through its reference argument and
the new state of the nodes; `tree_size` is `UCTNodePointer::get_tree_size()`. -/
structure SimOps (Tree : Type) where
  virtual_loss : Tree → Nat → Tree
  expandable : Tree → Nat → Bool
  has_children : Tree → Nat → Bool
  create_children : Tree → Nat → GameState → Rat → Bool × Rat × Tree
  uct_select_child : Tree → Nat → Nat → Bool → Nat × Tree
  get_move : Tree → Nat → Int
  invalidate : Tree → Nat → Tree
  update : Tree → Nat → Rat → Tree
  virtual_loss_undo : Tree → Nat → Tree
  tree_size : Tree → Nat

/-- A call of a member function of `UCTNode` that changes a node. -/
inductive SimCall where
  | virtual_loss (node : Nat)
  | create_children (node : Nat)
  | uct_select_child (node : Nat)
  | invalidate (node : Nat)
  | update (node : Nat) (eval : Rat)
  | virtual_loss_undo (node : Nat)

/-- The first part of `play_simulation`, up to the end of the block
`if (node->expandable())`: the result so far, the nodes and the log. -/
def simulation_expand {Tree : Type} (ops : SimOps Tree) (cfg_max_tree_size : Nat)
    (current_state : GameState) (node : Nat) (tree : Tree) (log : List SimCall) :
    Option (SearchResult × Tree × List SimCall) :=
  let result := SearchResult.invalid
  let tree1 := ops.virtual_loss tree node
  let log1 := log ++ [SimCall.virtual_loss node]
  if ops.expandable tree1 node then
    if current_state.ko.fast.m_passes ≥ 2 then
      (final_score current_state.ko.fast).map
        (fun score => (SearchResult.from_score score, tree1, log1))
    else
      let had_children := ops.has_children tree1 node
      let created := ops.create_children tree1 node current_state
        (get_min_psa_ratio (ops.tree_size tree1) cfg_max_tree_size)
      some (if !had_children && created.1 then SearchResult.from_eval created.2.1 else result,
        created.2.2, log1 ++ [SimCall.create_children node])
  else some (result, tree1, log1)

/-- The last part of `play_simulation`, from `if (result.valid())` on. -/
def simulation_finish {Tree : Type} (ops : SimOps Tree) (node : Nat)
    (r : SearchResult × GameState × Tree × List SimCall) :
    SearchResult × GameState × Tree × List SimCall :=
  let result := r.1
  let updated : Tree × List SimCall :=
    if result.m_valid then
      (ops.update r.2.2.1 node result.m_eval, r.2.2.2 ++ [SimCall.update node result.m_eval])
    else (r.2.2.1, r.2.2.2)
  (result, r.2.1, ops.virtual_loss_undo updated.1 node,
    updated.2 ++ [SimCall.virtual_loss_undo node])

/-- Embedding of `UCTSearch::play_simulation`: the result, `current_state`, the nodes and
the log; `root` is `m_root.get()`.  The first argument bounds the depth of the recursion,
and the result is `none` when the bound is reached or a callee does not return. -/
def play_simulation {Tree : Type} (ops : SimOps Tree) (Z : Zobrist) (BOARD_SIZE : Nat)
    (cfg_max_tree_size : Nat) (root : Nat) :
    Nat → GameState → Nat → Tree → List SimCall →
      Option (SearchResult × GameState × Tree × List SimCall)
  | 0, _, _, _, _ => none
  | fuel + 1, current_state, node, tree, log =>
    let color := current_state.ko.fast.board.m_color_to_move
    match simulation_expand ops cfg_max_tree_size current_state node tree log with
    | none => none
    | some (result, tree3, log3) =>
      let descended : Option (SearchResult × GameState × Tree × List SimCall) :=
        if ops.has_children tree3 node && !result.m_valid then
          let selected := ops.uct_select_child tree3 node color (decide (node = root))
          let next := selected.1
          let tree4 := selected.2
          let log4 := log3 ++ [SimCall.uct_select_child node]
          let move := ops.get_move tree4 next
          match GameState.play_move Z BOARD_SIZE current_state color move with
          | none => none
          | some state1 =>
            if move ≠ PASS ∧ state1.ko.super_ko = true then
              some (result, state1, ops.invalidate tree4 next, log4 ++ [SimCall.invalidate next])
            else play_simulation ops Z BOARD_SIZE cfg_max_tree_size root fuel state1 next tree4 log4
        else some (result, current_state, tree3, log3)
      descended.map (simulation_finish ops node)

/-- The game on the 2x2 board after `init_game`. -/
def match2x2 : GameState := GameState.init_game exampleZ 19 blankGame 2 (15 / 2)

/-- Six moves on the 2x2 board: Black `(0, 0)`, White `(1, 0)`, Black `(0, 1)`, White
`(1, 1)` taking two stones, Black `(0, 0)`, White `(0, 1)` taking one.  A black stone on
`(0, 0)`, vertex 5, now takes the three white stones and brings back the position after
the first move. -/
def cycle2x2 : GameState :=
  moveOn (moveOn (moveOn (moveOn (moveOn (moveOn match2x2 BLACK 5) WHITE 6) BLACK 9) WHITE 10)
    BLACK 5) WHITE 9

/-- Nodes for a simulation: the node 0 has been expanded and has the child 1, whose move
is the vertex 5; the state of the nodes is the list of the invalidated nodes. -/
def cycleOps : SimOps (List Nat) :=
  { virtual_loss := fun tree _ => tree
    expandable := fun _ _ => false
    has_children := fun _ node => decide (node = 0)
    create_children := fun tree _ _ _ => (false, 0, tree)
    uct_select_child := fun tree _ _ _ => (1, tree)
    get_move := fun _ _ => 5
    invalidate := fun tree node => node :: tree
    update := fun tree _ _ => tree
    virtual_loss_undo := fun tree _ => tree
    tree_size := fun _ => 0 }

/-- The state after `KoState::play_move(color, vertex)`, with `BOARD_SIZE = 19`. -/
def koOn (s : KoState) (color : Nat) (vertex : Int) : KoState :=
  (KoState.play_move exampleZ 19 s color vertex).getD blankKo

/-- A `KoState` game on the 2x2 board, after `init_game`. -/
def ko0 : KoState := KoState.init_game exampleZ 19 blankKo 2 (15 / 2)

/-- Black plays `(0, 0)`, vertex 5. -/
def ko1 : KoState := koOn ko0 BLACK 5

/-- White plays `(1, 0)`, vertex 6. -/
def ko2 : KoState := koOn ko1 WHITE 6

/-- Black plays `(0, 1)`, vertex 9. -/
def ko3 : KoState := koOn ko2 BLACK 9

/-- White plays `(1, 1)`, vertex 10, and takes the two black stones. -/
def ko4 : KoState := koOn ko3 WHITE 10

/-- Black plays `(0, 0)` again. -/
def ko5 : KoState := koOn ko4 BLACK 5

/-- White plays `(0, 1)` and takes the black stone. -/
def ko6 : KoState := koOn ko5 WHITE 9

/-- Black plays `(0, 0)`, takes the three white stones and brings back the position after
the first move. -/
def ko7 : KoState := koOn ko6 BLACK 5

/-- Every stone on the board belongs to a string that has a liberty. -/
def Alive (b : FullBoard) : Prop :=
  ∀ u, onBoard b u → b.m_state u < 2 → ∃ e, isLiberty b u e

/-- The part of `FullBoard::update_board` after the direction loop, with its two
assertions: the result is `none` also when `assert(captured_stones == 0)` fails before the
self-removal, or when
`assert(get_state(captured_vtx) == EMPTY && !is_suicide(captured_vtx, !color))` fails
before the ko vertex is returned. -/
def update_finish_checked (Z : Zobrist) (BOARD_SIZE : Nat) (color vertex : Nat) (eye_play : Nat)
    (acc : FullBoard × Nat × Nat) : Option (FullBoard × Nat) :=
  let b := acc.1
  let captured_stones := acc.2.1
  let captured_vtx := acc.2.2
  let b1 := { b with m_hash := b.m_hash ^^^ Z.zobrist_prisoners color (b.m_prisoners color) }
  let b2 := { b1 with
    m_prisoners := Function.update b1.m_prisoners color (b1.m_prisoners color + captured_stones) }
  let b3 := { b2 with m_hash := b2.m_hash ^^^ Z.zobrist_prisoners color (b2.m_prisoners color) }
  let b4 := { b3 with m_empty_count := b3.m_empty_count - 1 }
  let last_vertex := b4.m_empty_intersections b4.m_empty_count
  let b5 := { b4 with
    m_empty_intersections_indices :=
      Function.update b4.m_empty_intersections_indices last_vertex
        (b4.m_empty_intersections_indices vertex) }
  let b6 := { b5 with
    m_empty_intersections :=
      Function.update b5.m_empty_intersections (b5.m_empty_intersections_indices vertex)
        last_vertex }
  let alive :=
    if b6.m_liberties (b6.m_parent vertex) = 0 then
      if captured_stones = 0 then
        (remove_vertices_string Z BOARD_SIZE b6 vertex).map Prod.fst
      else none
    else some b6
  match alive with
  | none => none
  | some b7 =>
    if captured_stones = 1 ∧ eye_play ≠ 0 then
      if b7.m_state captured_vtx = EMPTY ∧ is_suicide b7 captured_vtx (notc color) = false then
        some (b7, captured_vtx)
      else none
    else some (b7, NO_VERTEX)

/-- Embedding of `FullBoard::update_board` with its assertions: the result is `none` also
when an assertion fails.  The vertex is an index of the arrays, so that
`assert(vertex != FastBoard::PASS)` holds by the type. -/
def update_board_checked (Z : Zobrist) (BOARD_SIZE : Nat) (b : FullBoard) (color vertex : Nat) :
    Option (FullBoard × Nat) :=
  if b.m_state vertex ≠ EMPTY then none
  else
    let b1 := update_place Z b color vertex
    let eye_play := b1.m_neighbors vertex &&& s_eye_mask (notc color)
    match update_captures Z BOARD_SIZE color vertex b1 with
    | none => none
    | some acc => update_finish_checked Z BOARD_SIZE color vertex eye_play acc

/-! ## Theorems -/

/-! ### Walking a ring -/

theorem ring_loop_list (body : FullBoard → Nat → FullBoard) (stop : Nat)
    (hnext : ∀ b p, (body b p).m_next = b.m_next) :
    ∀ (r : List Nat) (p : Nat) (b : FullBoard) (fuel cnt : Nat),
      (p :: r).map b.m_next = r ++ [stop] → stop ∉ r → (p :: r).length ≤ fuel →
      ring_loop body stop fuel b p cnt = some ((p :: r).foldl body b, cnt + (p :: r).length) := by
  intro r
  induction r with
  | nil =>
    intro p b fuel cnt hmap _ hfuel
    obtain ⟨f, rfl⟩ : ∃ f, fuel = f + 1 := ⟨fuel - 1, by simp at hfuel; omega⟩
    simp at hmap
    simp [ring_loop, hnext, hmap]
  | cons q r ih =>
    intro p b fuel cnt hmap hstop hfuel
    obtain ⟨f, rfl⟩ : ∃ f, fuel = f + 1 := ⟨fuel - 1, by simp at hfuel; omega⟩
    simp only [List.map_cons, List.cons_append, List.cons.injEq] at hmap
    obtain ⟨hq, hrest⟩ := hmap
    have hqs : q ≠ stop := fun h => hstop (by simp [h])
    have hstop2 : stop ∉ r := fun h => hstop (by simp [h])
    have hfuel2 : (q :: r).length ≤ f := by simp at hfuel ⊢; omega
    have hmap2 : (q :: r).map (body b p).m_next = r ++ [stop] := by
      rw [hnext]; simpa using hrest
    have := ih q (body b p) f (cnt + 1) hmap2 hstop2 hfuel2
    simp only [ring_loop, hnext, hq, ne_eq, hqs, not_false_eq_true, if_true]
    rw [this]
    simp only [List.foldl_cons, List.length_cons, Option.some.injEq, Prod.mk.injEq, true_and]
    omega

theorem RingAt.rotate {next : Nat → Nat} {a : Nat} {r : List Nat} (h : RingAt next a r)
    {v : Nat} (hv : v ∈ a :: r) :
    ∃ r2, RingAt next v r2 ∧ (v :: r2).Perm (a :: r) := by
  obtain ⟨hnd, hmap⟩ := h
  obtain ⟨s, t, hst⟩ := List.append_of_mem hv
  cases s with
  | nil =>
    simp at hst
    obtain ⟨rfl, rfl⟩ := hst
    exact ⟨r, ⟨hnd, hmap⟩, List.Perm.refl _⟩
  | cons a2 s2 =>
    simp only [List.cons_append, List.cons.injEq] at hst
    obtain ⟨rfl, rfl⟩ := hst
    refine ⟨t ++ a :: s2, ⟨?_, ?_⟩, ?_⟩
    · have : (v :: (t ++ a :: s2)).Perm (a :: (s2 ++ v :: t)) := by
        have h1 : (v :: (t ++ a :: s2)) = (v :: t) ++ (a :: s2) := by simp
        have h2 : (a :: (s2 ++ v :: t)) = (a :: s2) ++ (v :: t) := by simp
        rw [h1, h2]; exact List.perm_append_comm
      exact (List.Perm.nodup_iff this).mpr hnd
    · have h1 : (a :: (s2 ++ v :: t)).map next = (a :: s2).map next ++ (v :: t).map next := by
        simp
      have h2 : (s2 ++ v :: t) ++ [a] = (s2 ++ [v]) ++ (t ++ [a]) := by simp
      rw [h1, h2] at hmap
      have hlen : ((a :: s2).map next).length = (s2 ++ [v]).length := by simp
      obtain ⟨e1, e2⟩ := List.append_inj hmap hlen
      have h3 : (v :: (t ++ a :: s2)).map next = (v :: t).map next ++ (a :: s2).map next := by
        simp
      rw [h3, e1, e2]; simp
    · have h1 : (v :: (t ++ a :: s2)) = (v :: t) ++ (a :: s2) := by simp
      have h2 : (a :: (s2 ++ v :: t)) = (a :: s2) ++ (v :: t) := by simp
      rw [h1, h2]; exact List.perm_append_comm

theorem RingAt.splice {next : Nat → Nat} {a c : Nat} {r1 r2 : List Nat}
    (h1 : RingAt next a r1) (h2 : RingAt next c r2)
    (hdis : ∀ x, x ∈ a :: r1 → x ∉ c :: r2) :
    RingAt (Function.update (Function.update next c (next a)) a (next c)) a (r2 ++ c :: r1) := by
  obtain ⟨hnd1, hmap1⟩ := h1
  obtain ⟨hnd2, hmap2⟩ := h2
  have hac : a ≠ c := fun h => hdis a (by simp) (by simp [h])
  constructor
  · have hp : (a :: (r2 ++ c :: r1)).Perm ((a :: r1) ++ (c :: r2)) := by
      have e1 : (a :: (r2 ++ c :: r1)) = [a] ++ ((r2 ++ [c]) ++ r1) := by simp
      have e2 : ((a :: r1) ++ (c :: r2)) = [a] ++ (r1 ++ (c :: r2)) := by simp
      rw [e1, e2]
      refine List.Perm.append_left _ ?_
      refine (List.perm_append_comm).trans ?_
      refine List.Perm.append_left _ ?_
      exact List.perm_append_comm.trans (by simp)
    refine (List.Perm.nodup_iff hp).mpr ?_
    exact List.Nodup.append hnd1 hnd2 (fun x hx1 hx2 => hdis x hx1 hx2)
  · set next2 := Function.update (Function.update next c (next a)) a (next c) with hn2
    have ha : next2 a = next c := by simp [hn2]
    have hc : next2 c = next a := by simp [hn2, Function.update_apply, hac.symm]
    have hother : ∀ x, x ≠ a → x ≠ c → next2 x = next x := by
      intro x hxa hxc; simp [hn2, Function.update_apply, hxa, hxc]
    have hr1 : r1.map next2 = r1.map next := by
      apply List.map_congr_left
      intro x hx
      apply hother
      · intro h; subst h; exact (List.nodup_cons.mp hnd1).1 hx
      · intro h; subst h; exact hdis x (by simp [hx]) (by simp)
    have hr2 : r2.map next2 = r2.map next := by
      apply List.map_congr_left
      intro x hx
      apply hother
      · intro h; subst h; exact hdis x (by simp) (by simp [hx])
      · intro h; subst h; exact (List.nodup_cons.mp hnd2).1 hx
    simp only [List.map_cons] at hmap1 hmap2
    simp only [List.map_cons, List.map_append, ha, hc, hr1, hr2]
    have e : next c :: (r2.map next ++ next a :: r1.map next)
        = (next c :: r2.map next) ++ (next a :: r1.map next) := by simp
    rw [e, hmap1, hmap2]; simp

/-! ### The hash of the board contents -/

theorem statesHash_succ (Z : Zobrist) (st : Nat → Nat) (n : Nat) :
    statesHash Z st (n + 1) =
      if st n ≠ INVALID then statesHash Z st n ^^^ Z.zobrist_states (st n) n
      else statesHash Z st n := by
  simp [statesHash, List.range_succ]

theorem statesHash_congr (Z : Zobrist) (st st2 : Nat → Nat) (n : Nat)
    (h : ∀ i, i < n → st i = st2 i) : statesHash Z st n = statesHash Z st2 n := by
  induction n with
  | zero => rfl
  | succ n ih =>
    rw [statesHash_succ, statesHash_succ, ih (fun i hi => h i (by omega)), h n (by omega)]

theorem statesHash_update (Z : Zobrist) (st : Nat → Nat) (n s x : Nat) (hs : s < n)
    (h1 : st s ≠ INVALID) (h2 : x ≠ INVALID) :
    statesHash Z (Function.update st s x) n =
      statesHash Z st n ^^^ Z.zobrist_states (st s) s ^^^ Z.zobrist_states x s := by
  induction n with
  | zero => omega
  | succ n ih =>
    rw [statesHash_succ, statesHash_succ]
    by_cases hsn : s = n
    · subst hsn
      have e : statesHash Z (Function.update st s x) s = statesHash Z st s :=
        statesHash_congr Z _ _ _ (fun i hi => by simp [Function.update_apply]; omega)
      simp only [Function.update_same, ne_eq, h2, not_false_eq_true, if_true, h1, e]
      rw [Nat.xor_assoc, Nat.xor_assoc, ← Nat.xor_assoc (Z.zobrist_states (st s) s),
        Nat.xor_self, Nat.zero_xor]
    · have hlt : s < n := by omega
      rw [ih hlt]
      have e : Function.update st s x n = st n := by
        simp [Function.update_apply]; omega
      rw [e]
      split
      · ac_rfl
      · rfl

theorem compute_hash_ko_eq (Z : Zobrist) (b : FullBoard) :
    compute_hash_ko Z b = statesHash Z b.m_state b.m_vertices_number := rfl

theorem compute_hash_eq (Z : Zobrist) (b : FullBoard) (ko : Nat) :
    compute_hash Z b ko =
      (if b.m_color_to_move = BLACK then coreHash Z b ^^^ ZOBRIST_BLACK_TO_MOVE
        else coreHash Z b) ^^^ Z.zobrist_ko_move ko := by
  simp only [compute_hash, coreHash, statesHash]

/-! ### Geometry of the letter-boxed board -/

theorem nbr_congr {b b2 : FullBoard} (h : b2.m_directions = b.m_directions) (k v : Nat) :
    nbr b2 k v = nbr b k v := by
  simp [nbr, h]

theorem Geom.nbr0 {BS : Nat} {b : FullBoard} (g : Geom BS b) (v : Nat) :
    nbr b 0 v = v - b.m_side_vertices := by
  simp only [nbr, g.dir0]; omega

theorem Geom.nbr1 {BS : Nat} {b : FullBoard} (g : Geom BS b) (v : Nat) :
    nbr b 1 v = v + 1 := by
  simp only [nbr, g.dir1]; omega

theorem Geom.nbr2 {BS : Nat} {b : FullBoard} (g : Geom BS b) (v : Nat) :
    nbr b 2 v = v + b.m_side_vertices := by
  simp only [nbr, g.dir2]; omega

theorem Geom.nbr3 {BS : Nat} {b : FullBoard} (g : Geom BS b) (v : Nat) :
    nbr b 3 v = v - 1 := by
  simp only [nbr, g.dir3]; omega

theorem Geom.nverts_le {BS : Nat} {b : FullBoard} (g : Geom BS b) :
    b.m_vertices_number ≤ VERTICES_NUMBER BS := by
  rw [g.nverts_eq, g.side_eq, VERTICES_NUMBER]
  have := g.size_le
  exact Nat.mul_le_mul (by omega) (by omega)

theorem Geom.onBoard_bounds {BS : Nat} {b : FullBoard} (g : Geom BS b) {v : Nat}
    (h : onBoard b v) :
    b.m_side_vertices + 1 ≤ v ∧ v + b.m_side_vertices + 1 < b.m_vertices_number ∧
      3 ≤ b.m_side_vertices := by
  obtain ⟨h1, h2, h3, h4⟩ := h
  have hs := g.side_eq
  have hv := Nat.div_add_mod v b.m_side_vertices
  have hn := g.nverts_eq
  have e1 : b.m_side_vertices * 1 ≤ b.m_side_vertices * (v / b.m_side_vertices) :=
    Nat.mul_le_mul_left _ h3
  have e2 : b.m_side_vertices * (v / b.m_side_vertices) ≤ b.m_side_vertices * b.m_board_size :=
    Nat.mul_le_mul_left _ h4
  have e3 : b.m_side_vertices * b.m_side_vertices
      = b.m_side_vertices * b.m_board_size + 2 * b.m_side_vertices := by
    rw [hs]; ring
  refine ⟨by omega, by omega, by omega⟩

theorem Geom.onBoard_lt {BS : Nat} {b : FullBoard} (g : Geom BS b) {v : Nat}
    (h : onBoard b v) : v < b.m_vertices_number := by
  have := g.onBoard_bounds h; omega

theorem Geom.onBoard_ne_VN {BS : Nat} {b : FullBoard} (g : Geom BS b) {v : Nat}
    (h : onBoard b v) : v ≠ VERTICES_NUMBER BS := by
  have := g.onBoard_lt h; have := g.nverts_le; omega

theorem Geom.nbr_lt {BS : Nat} {b : FullBoard} (g : Geom BS b) {v k : Nat}
    (h : onBoard b v) (hk : k < 4) : nbr b k v < b.m_vertices_number := by
  have := g.onBoard_bounds h
  interval_cases k
  · rw [g.nbr0]; omega
  · rw [g.nbr1]; omega
  · rw [g.nbr2]; omega
  · rw [g.nbr3]; omega

theorem Geom.nbr_ne_self {BS : Nat} {b : FullBoard} (g : Geom BS b) {v k : Nat}
    (h : onBoard b v) (hk : k < 4) : nbr b k v ≠ v := by
  have := g.onBoard_bounds h
  interval_cases k
  · rw [g.nbr0]; omega
  · rw [g.nbr1]; omega
  · rw [g.nbr2]; omega
  · rw [g.nbr3]; omega

theorem Geom.nbr_opp {BS : Nat} {b : FullBoard} (g : Geom BS b) {v k : Nat}
    (h : onBoard b v) (hk : k < 4) : nbr b ((k + 2) % 4) (nbr b k v) = v := by
  have := g.onBoard_bounds h
  interval_cases k
  · show nbr b 2 (nbr b 0 v) = v
    rw [g.nbr0, g.nbr2]; omega
  · show nbr b 3 (nbr b 1 v) = v
    rw [g.nbr1, g.nbr3]; omega
  · show nbr b 0 (nbr b 2 v) = v
    rw [g.nbr2, g.nbr0]; omega
  · show nbr b 1 (nbr b 3 v) = v
    rw [g.nbr3, g.nbr1]; omega

theorem Geom.nbr_inj {BS : Nat} {b : FullBoard} (g : Geom BS b) {v j k : Nat}
    (h : onBoard b v) (hj : j < 4) (hk : k < 4) (e : nbr b j v = nbr b k v) : j = k := by
  have := g.onBoard_bounds h
  interval_cases j <;> interval_cases k <;>
    simp only [g.nbr0, g.nbr1, g.nbr2, g.nbr3] at e <;> omega

theorem Geom.nbr_nodup {BS : Nat} {b : FullBoard} (g : Geom BS b) {v : Nat}
    (h : onBoard b v) : ((List.range 4).map (fun k => nbr b k v)).Nodup := by
  refine List.Nodup.map_on ?_ (List.nodup_range 4)
  intro j hj k hk e
  exact g.nbr_inj h (List.mem_range.mp hj) (List.mem_range.mp hk) e

/-- A vertex of the array is on the board exactly when its neighbour says so. -/
theorem Geom.adj_symm {BS : Nat} {b : FullBoard} (g : Geom BS b) {u w : Nat}
    (hu : onBoard b u) (h : ∃ k, k < 4 ∧ w = nbr b k u) : ∃ k, k < 4 ∧ u = nbr b k w := by
  obtain ⟨k, hk, rfl⟩ := h
  exact ⟨(k + 2) % 4, Nat.mod_lt _ (by decide), (g.nbr_opp hu hk).symm⟩

/-! ### The direction loop of `add_neighbor` and `remove_neighbor` -/

theorem neighbor_fold (tally adjust : Nat → Nat) (vertex : Nat) :
    ∀ (ks : List Nat) (b : FullBoard) (nps : List Nat),
      (ks.map (fun k => nbr b k vertex)).Nodup →
      ∃ b2 nps2, ks.foldl (neighbor_step tally adjust vertex) (b, nps) = (b2, nps2) ∧
        b2 = { b with m_neighbors := b2.m_neighbors, m_liberties := b2.m_liberties } ∧
        (∀ w, (∃ k, k ∈ ks ∧ w = nbr b k vertex) → b2.m_neighbors w = tally (b.m_neighbors w)) ∧
        (∀ w, (¬ ∃ k, k ∈ ks ∧ w = nbr b k vertex) → b2.m_neighbors w = b.m_neighbors w) ∧
        (∀ q, q ∉ nps → (∃ k, k ∈ ks ∧ b.m_parent (nbr b k vertex) = q) →
          b2.m_liberties q = adjust (b.m_liberties q)) ∧
        (∀ q, (q ∈ nps ∨ ¬ ∃ k, k ∈ ks ∧ b.m_parent (nbr b k vertex) = q) →
          b2.m_liberties q = b.m_liberties q) ∧
        (∀ q, q ∈ nps2 ↔ (q ∈ nps ∨ ∃ k, k ∈ ks ∧ b.m_parent (nbr b k vertex) = q)) := by
  intro ks
  induction ks with
  | nil =>
    intro b nps _
    exact ⟨b, nps, rfl, rfl, by simp, by simp, by simp, by simp, by simp⟩
  | cons k ks ih =>
    intro b nps hnd
    simp only [List.map_cons, List.nodup_cons, List.mem_map, not_exists, not_and] at hnd
    obtain ⟨hk, hnd⟩ := hnd
    -- the board and the list of parents after this iteration
    obtain ⟨b1, nps1, hstep, hdir, hpar, hfr1, hnb1, hlib1, hnps1⟩ :
        ∃ b1 nps1, neighbor_step tally adjust vertex (b, nps) k = (b1, nps1) ∧
          b1.m_directions = b.m_directions ∧ b1.m_parent = b.m_parent ∧
          b1 = { b with m_neighbors := b1.m_neighbors, m_liberties := b1.m_liberties } ∧
          b1.m_neighbors = Function.update b.m_neighbors (nbr b k vertex)
            (tally (b.m_neighbors (nbr b k vertex))) ∧
          b1.m_liberties = (if b.m_parent (nbr b k vertex) ∈ nps then b.m_liberties
            else Function.update b.m_liberties (b.m_parent (nbr b k vertex))
              (adjust (b.m_liberties (b.m_parent (nbr b k vertex))))) ∧
          nps1 = (if b.m_parent (nbr b k vertex) ∈ nps then nps
            else nps ++ [b.m_parent (nbr b k vertex)]) := by
      refine ⟨(neighbor_step tally adjust vertex (b, nps) k).1,
        (neighbor_step tally adjust vertex (b, nps) k).2, rfl, ?_, ?_, ?_, ?_, ?_, ?_⟩ <;>
      by_cases hmem : b.m_parent (nbr b k vertex) ∈ nps <;>
      simp [neighbor_step, hmem]
    have hnbr1 : ∀ j x, nbr b1 j x = nbr b j x := fun j x => nbr_congr hdir j x
    have hnd1 : (ks.map (fun j => nbr b1 j vertex)).Nodup := by
      simpa [hnbr1] using hnd
    obtain ⟨b2, nps2, hf, hfr, hn1, hn2, hl1, hl2, hm⟩ := ih b1 nps1 hnd1
    simp only [hnbr1, hpar] at hn1 hn2 hl1 hl2 hm
    refine ⟨b2, nps2, by rw [List.foldl_cons, hstep, hf], ?_, ?_, ?_, ?_, ?_, ?_⟩
    · rw [hfr, hfr1]
    · rintro w ⟨j, hj, rfl⟩
      rcases List.mem_cons.mp hj with rfl | hj
      · rw [hn2 _ (by rintro ⟨i, hi, e⟩; exact hk i hi e.symm), hnb1]
        simp
      · rw [hn1 _ ⟨j, hj, rfl⟩, hnb1]
        have : nbr b j vertex ≠ nbr b k vertex := fun e => hk j hj e
        simp [Function.update_apply, this]
    · intro w hw
      have hwk : w ≠ nbr b k vertex := fun e => hw ⟨k, by simp, e⟩
      rw [hn2 _ (by rintro ⟨i, hi, e⟩; exact hw ⟨i, by simp [hi], e⟩), hnb1]
      simp [Function.update_apply, hwk]
    · rintro q hq ⟨j, hj, e⟩
      by_cases hmem : b.m_parent (nbr b k vertex) ∈ nps
      · simp only [hmem, if_true] at hlib1 hnps1
        subst hnps1
        rcases List.mem_cons.mp hj with rfl | hj
        · exact absurd (e ▸ hmem) hq
        · rw [hl1 q hq ⟨j, hj, e⟩, hlib1]
      · simp only [hmem, if_false] at hlib1 hnps1
        subst hnps1
        by_cases hqp : q = b.m_parent (nbr b k vertex)
        · rw [hl2 q (Or.inl (by simp [hqp])), hlib1, hqp]
          simp
        · rcases List.mem_cons.mp hj with rfl | hj
          · exact absurd e.symm hqp
          · rw [hl1 q (by simp [hq, hqp]) ⟨j, hj, e⟩, hlib1]
            simp [Function.update_apply, hqp]
    · intro q hq
      by_cases hmem : b.m_parent (nbr b k vertex) ∈ nps
      · simp only [hmem, if_true] at hlib1 hnps1
        subst hnps1
        rw [hl2 q (by
          rcases hq with hq | hq
          · exact Or.inl hq
          · right; rintro ⟨i, hi, e⟩; exact hq ⟨i, by simp [hi], e⟩), hlib1]
      · simp only [hmem, if_false] at hlib1 hnps1
        subst hnps1
        have hqp : q ≠ b.m_parent (nbr b k vertex) := by
          rintro rfl
          rcases hq with hq | hq
          · exact hmem hq
          · exact hq ⟨k, by simp, rfl⟩
        rw [hl2 q (by
          rcases hq with hq | hq
          · exact Or.inl (by simp [hq])
          · right; rintro ⟨i, hi, e⟩; exact hq ⟨i, by simp [hi], e⟩), hlib1]
        simp [Function.update_apply, hqp]
    · intro q
      rw [hm, hnps1]
      by_cases hmem : b.m_parent (nbr b k vertex) ∈ nps
      · simp only [hmem, if_true]
        constructor
        · rintro (h | ⟨i, hi, e⟩)
          · exact Or.inl h
          · exact Or.inr ⟨i, by simp [hi], e⟩
        · rintro (h | ⟨i, hi, e⟩)
          · exact Or.inl h
          · rcases List.mem_cons.mp hi with rfl | hi
            · left; rw [← e]; exact hmem
            · exact Or.inr ⟨i, hi, e⟩
      · simp only [hmem, if_false]
        constructor
        · rintro (h | ⟨i, hi, e⟩)
          · rcases List.mem_append.mp h with h | h
            · exact Or.inl h
            · simp at h; exact Or.inr ⟨k, by simp, h.symm⟩
          · exact Or.inr ⟨i, by simp [hi], e⟩
        · rintro (h | ⟨i, hi, e⟩)
          · exact Or.inl (by simp [h])
          · rcases List.mem_cons.mp hi with rfl | hi
            · left; simp [← e]
            · exact Or.inr ⟨i, hi, e⟩

theorem neighbor_range4 {BS : Nat} {b : FullBoard} (g : Geom BS b) (tally adjust : Nat → Nat)
    {s : Nat} (hs : onBoard b s) :
    ∃ b2, ((List.range 4).foldl (neighbor_step tally adjust s) (b, [])).1 = b2 ∧
      b2 = { b with m_neighbors := b2.m_neighbors, m_liberties := b2.m_liberties } ∧
      (∀ w, (∃ k, k < 4 ∧ w = nbr b k s) → b2.m_neighbors w = tally (b.m_neighbors w)) ∧
      (∀ w, (¬ ∃ k, k < 4 ∧ w = nbr b k s) → b2.m_neighbors w = b.m_neighbors w) ∧
      (∀ q, adjTo b s q → b2.m_liberties q = adjust (b.m_liberties q)) ∧
      (∀ q, ¬ adjTo b s q → b2.m_liberties q = b.m_liberties q) := by
  obtain ⟨b2, nps2, hf, hfr, hn1, hn2, hl1, hl2, _⟩ :=
    neighbor_fold tally adjust s (List.range 4) b [] (g.nbr_nodup hs)
  refine ⟨b2, by rw [hf], hfr, ?_, ?_, ?_, ?_⟩
  · rintro w ⟨k, hk, e⟩
    exact hn1 w ⟨k, List.mem_range.mpr hk, e⟩
  · intro w hw
    apply hn2
    rintro ⟨k, hk, e⟩
    exact hw ⟨k, List.mem_range.mp hk, e⟩
  · rintro q ⟨k, hk, e⟩
    exact hl1 q (by simp) ⟨k, List.mem_range.mpr hk, e⟩
  · intro q hq
    apply hl2
    right
    rintro ⟨k, hk, e⟩
    exact hq ⟨k, List.mem_range.mp hk, e⟩

/-! ### Liberty sets and tallies under point updates -/

theorem mem_libsOf {b : FullBoard} {p e : Nat} :
    e ∈ libsOf b p ↔ e < b.m_vertices_number ∧ b.m_state e = EMPTY ∧ adjTo b e p := by
  simp [libsOf]

theorem libsOf_card_le (b : FullBoard) (p : Nat) : (libsOf b p).card ≤ b.m_vertices_number := by
  have := Finset.card_filter_le (Finset.range b.m_vertices_number)
    (fun e => b.m_state e = EMPTY ∧ adjTo b e p)
  simpa [libsOf] using this

theorem adjTo_congr {b b2 : FullBoard} (hd : b2.m_directions = b.m_directions) {e q : Nat}
    (hp : ∀ k, k < 4 → (b2.m_parent (nbr b k e) = q ↔ b.m_parent (nbr b k e) = q)) :
    adjTo b2 e q ↔ adjTo b e q := by
  unfold adjTo
  constructor
  · rintro ⟨k, hk, h⟩
    rw [nbr_congr hd] at h
    exact ⟨k, hk, (hp k hk).mp h⟩
  · rintro ⟨k, hk, h⟩
    exact ⟨k, hk, by rw [nbr_congr hd]; exact (hp k hk).mpr h⟩

theorem weight_le (s : Nat) : weight s ≤ 256 := by
  unfold weight; split_ifs <;> omega

theorem weight_pos (s : Nat) : 1 ≤ weight s := by
  unfold weight; split_ifs <;> omega

theorem tallyOf_le (b : FullBoard) (u : Nat) : tallyOf b u ≤ 1024 := by
  unfold tallyOf
  have := weight_le (b.m_state (nbr b 0 u))
  have := weight_le (b.m_state (nbr b 1 u))
  have := weight_le (b.m_state (nbr b 2 u))
  have := weight_le (b.m_state (nbr b 3 u))
  omega

/-- Changing the state of `s` moves the tally of each neighbour of `s` by the difference
of the weights, and leaves every other tally alone. -/
theorem tallyOf_update {BS : Nat} {b b2 : FullBoard} (g : Geom BS b)
    (hd : b2.m_directions = b.m_directions) {s x : Nat} (hs : onBoard b s)
    (hst : b2.m_state = Function.update b.m_state s x) {u : Nat} (hu : onBoard b u) :
    ((∃ k, k < 4 ∧ u = nbr b k s) →
      tallyOf b2 u + weight (b.m_state s) = tallyOf b u + weight x) ∧
    ((¬ ∃ k, k < 4 ∧ u = nbr b k s) → tallyOf b2 u = tallyOf b u) := by
  have hn : ∀ j, nbr b2 j u = nbr b j u := fun j => nbr_congr hd j u
  constructor
  · rintro ⟨k, hk, rfl⟩
    -- `s` is the neighbour of `u` in the opposite direction, and in no other
    have hopp := g.nbr_opp hs hk
    have hne : ∀ j, j < 4 → j ≠ (k + 2) % 4 → nbr b j (nbr b k s) ≠ s := by
      intro j hj hjk e
      exact hjk (g.nbr_inj hu hj (Nat.mod_lt _ (by decide)) (e.trans hopp.symm))
    interval_cases k
    · have h2 : nbr b 2 (nbr b 0 s) = s := hopp
      simp only [tallyOf, hn, hst, Function.update_apply, hne 0 (by decide) (by decide),
        hne 1 (by decide) (by decide), hne 3 (by decide) (by decide), h2, if_true, if_false]
      omega
    · have h2 : nbr b 3 (nbr b 1 s) = s := hopp
      simp only [tallyOf, hn, hst, Function.update_apply, hne 0 (by decide) (by decide),
        hne 1 (by decide) (by decide), hne 2 (by decide) (by decide), h2, if_true, if_false]
      omega
    · have h2 : nbr b 0 (nbr b 2 s) = s := hopp
      simp only [tallyOf, hn, hst, Function.update_apply, hne 2 (by decide) (by decide),
        hne 1 (by decide) (by decide), hne 3 (by decide) (by decide), h2, if_true, if_false]
      omega
    · have h2 : nbr b 1 (nbr b 3 s) = s := hopp
      simp only [tallyOf, hn, hst, Function.update_apply, hne 0 (by decide) (by decide),
        hne 2 (by decide) (by decide), hne 3 (by decide) (by decide), h2, if_true, if_false]
      omega
  · intro hno
    have hne : ∀ j, j < 4 → nbr b j u ≠ s := by
      intro j hj e
      apply hno
      exact ⟨(j + 2) % 4, Nat.mod_lt _ (by decide), by rw [← e, g.nbr_opp hu hj]⟩
    simp only [tallyOf, hn, hst, Function.update_apply, hne 0 (by decide), hne 1 (by decide),
      hne 2 (by decide), hne 3 (by decide), if_false]

/-! ### Removing a string -/

theorem Geom.congr {BS : Nat} {b b2 : FullBoard} (g : Geom BS b)
    (h1 : b2.m_side_vertices = b.m_side_vertices) (h2 : b2.m_board_size = b.m_board_size)
    (h3 : b2.m_vertices_number = b.m_vertices_number) (h4 : b2.m_directions = b.m_directions) :
    Geom BS b2 :=
  ⟨by rw [h1, h2]; exact g.side_eq, by rw [h3, h1]; exact g.nverts_eq, by rw [h2]; exact g.size_le,
    g.fits, by rw [h4, h1]; exact g.dir0, by rw [h4]; exact g.dir1,
    by rw [h4, h1]; exact g.dir2, by rw [h4]; exact g.dir3⟩

theorem onBoard_congr {b b2 : FullBoard}
    (h1 : b2.m_side_vertices = b.m_side_vertices) (h2 : b2.m_board_size = b.m_board_size)
    (u : Nat) : onBoard b2 u ↔ onBoard b u := by
  simp [onBoard, h1, h2]

theorem remove_body_spec {BS : Nat} {b : FullBoard} (g : Geom BS b) (Z : Zobrist)
    (VN col : Nat) {s : Nat} (hs : onBoard b s) :
    ∃ b2, remove_body Z VN col b s = b2 ∧
      b2 = { b with
        m_state := b2.m_state, m_parent := b2.m_parent, m_neighbors := b2.m_neighbors,
        m_liberties := b2.m_liberties, m_empty_intersections := b2.m_empty_intersections,
        m_empty_intersections_indices := b2.m_empty_intersections_indices,
        m_empty_count := b2.m_empty_count, m_hash := b2.m_hash, m_hash_ko := b2.m_hash_ko } ∧
      b2.m_state = Function.update b.m_state s EMPTY ∧
      b2.m_parent = Function.update b.m_parent s VN ∧
      (∀ w, (∃ k, k < 4 ∧ w = nbr b k s) → b2.m_neighbors w =
        (b.m_neighbors w + (1 <<< (NEIGHBOR_SHIFT * EMPTY)) + 65536
          - (1 <<< (NEIGHBOR_SHIFT * col))) % 65536) ∧
      (∀ w, (¬ ∃ k, k < 4 ∧ w = nbr b k s) → b2.m_neighbors w = b.m_neighbors w) ∧
      (∀ q, adjTo b s q → b2.m_liberties q = inc16 (b.m_liberties q)) ∧
      (∀ q, ¬ adjTo b s q → b2.m_liberties q = b.m_liberties q) ∧
      b2.m_hash_ko = b.m_hash_ko ^^^ Z.zobrist_states (b.m_state s) s
        ^^^ Z.zobrist_states EMPTY s ∧
      b2.m_hash = b.m_hash ^^^ Z.zobrist_states (b.m_state s) s
        ^^^ Z.zobrist_states EMPTY s := by
  -- the board handed to `remove_neighbor`
  obtain ⟨b1, hb1⟩ : ∃ b1 : FullBoard, b1 = { b with
      m_hash := b.m_hash ^^^ Z.zobrist_states (b.m_state s) s
      m_hash_ko := b.m_hash_ko ^^^ Z.zobrist_states (b.m_state s) s
      m_state := Function.update b.m_state s EMPTY
      m_parent := Function.update b.m_parent s VN } := ⟨_, rfl⟩
  have g1 : Geom BS b1 := g.congr (by rw [hb1]) (by rw [hb1]) (by rw [hb1]) (by rw [hb1])
  have hs1 : onBoard b1 s := (onBoard_congr (by rw [hb1]) (by rw [hb1]) s).mpr hs
  have hn1 : ∀ j x, nbr b1 j x = nbr b j x := fun j x => nbr_congr (by rw [hb1]) j x
  obtain ⟨b3, hb3, hfr, hnb1, hnb2, hl1, hl2⟩ := neighbor_range4 g1
    (fun n => (n + (1 <<< (NEIGHBOR_SHIFT * EMPTY)) + 65536
                  - (1 <<< (NEIGHBOR_SHIFT * col))) % 65536) inc16 hs1
  have hadj : ∀ q, adjTo b1 s q ↔ adjTo b s q := by
    intro q
    apply adjTo_congr (by rw [hb1])
    intro k hk
    have : nbr b k s ≠ s := g.nbr_ne_self hs hk
    rw [hb1]
    simp [Function.update_apply, this]
  have hrb : remove_neighbor b1 s col = b3 := hb3
  have hres : remove_body Z VN col b s = { b3 with
      m_empty_intersections_indices :=
        Function.update b3.m_empty_intersections_indices s (b3.m_empty_count % 65536)
      m_empty_intersections := Function.update b3.m_empty_intersections b3.m_empty_count s
      m_empty_count := b3.m_empty_count + 1
      m_hash := b3.m_hash ^^^ Z.zobrist_states (b3.m_state s) s
      m_hash_ko := b3.m_hash_ko ^^^ Z.zobrist_states (b3.m_state s) s } := by
    rw [← hrb, hb1]; rfl
  have e_state : b3.m_state = Function.update b.m_state s EMPTY := by rw [hfr, hb1]
  have e_parent : b3.m_parent = Function.update b.m_parent s VN := by rw [hfr, hb1]
  have e_hash : b3.m_hash = b.m_hash ^^^ Z.zobrist_states (b.m_state s) s := by rw [hfr, hb1]
  have e_hash_ko : b3.m_hash_ko = b.m_hash_ko ^^^ Z.zobrist_states (b.m_state s) s := by
    rw [hfr, hb1]
  have e_nb : b1.m_neighbors = b.m_neighbors := by rw [hb1]
  have e_lib : b1.m_liberties = b.m_liberties := by rw [hb1]
  rw [hres]
  refine ⟨_, rfl, ?_, ?_, ?_, ?_, ?_, ?_, ?_, ?_, ?_⟩
  · ext1 <;> first | rfl | (rw [hfr, hb1])
  · exact e_state
  · exact e_parent
  · intro w hw
    show b3.m_neighbors w = _
    rw [hnb1 w (by simpa [hn1] using hw), e_nb]
  · intro w hw
    show b3.m_neighbors w = _
    rw [hnb2 w (by simpa [hn1] using hw), e_nb]
  · intro q hq
    show b3.m_liberties q = _
    rw [hl1 q ((hadj q).mpr hq), e_lib]
  · intro q hq
    show b3.m_liberties q = _
    rw [hl2 q (fun h => hq ((hadj q).mp h)), e_lib]
  · show b3.m_hash_ko ^^^ Z.zobrist_states (b3.m_state s) s = _
    rw [e_hash_ko, e_state]; simp
  · show b3.m_hash ^^^ Z.zobrist_states (b3.m_state s) s = _
    rw [e_hash, e_state]; simp

theorem adjTo_update_parent {b b2 : FullBoard} (hd : b2.m_directions = b.m_directions)
    {s x q : Nat} (hp : b2.m_parent = Function.update b.m_parent s x) (hx : x ≠ q)
    (hs : b.m_parent s ≠ q) (e : Nat) : adjTo b2 e q ↔ adjTo b e q := by
  apply adjTo_congr hd
  intro k _
  rw [hp, Function.update_apply]
  split
  · rename_i h; rw [h]; exact ⟨fun h2 => absurd h2 hx, fun h2 => absurd h2 hs⟩
  · rfl

/-- Taking the stone `s` off the board gives the liberty `s` to every other string next
to it. -/
theorem libsOf_remove {BS : Nat} {b b2 : FullBoard} (g : Geom BS b)
    (hd : b2.m_directions = b.m_directions) (hn : b2.m_vertices_number = b.m_vertices_number)
    {s x q : Nat} (hs : onBoard b s) (hst : b2.m_state = Function.update b.m_state s EMPTY)
    (hp : b2.m_parent = Function.update b.m_parent s x) (hx : x ≠ q) (hsq : b.m_parent s ≠ q)
    (hse : b.m_state s ≠ EMPTY) :
    (adjTo b s q → (libsOf b2 q).card = (libsOf b q).card + 1) ∧
    (¬ adjTo b s q → (libsOf b2 q).card = (libsOf b q).card) := by
  have hadj := adjTo_update_parent hd hp hx hsq
  have hsn : s ∉ libsOf b q := by
    rw [mem_libsOf]; intro h; exact hse h.2.1
  constructor
  · intro ha
    have : libsOf b2 q = insert s (libsOf b q) := by
      ext e
      rw [Finset.mem_insert, mem_libsOf, mem_libsOf, hn, hst, hadj, Function.update_apply]
      by_cases hes : e = s
      · subst hes
        simp [g.onBoard_lt hs, ha]
      · simp [hes]
    rw [this, Finset.card_insert_of_not_mem hsn]
  · intro ha
    have : libsOf b2 q = libsOf b q := by
      ext e
      rw [mem_libsOf, mem_libsOf, hn, hst, hadj, Function.update_apply]
      by_cases hes : e = s
      · subst hes
        simp [ha, hse]
      · simp [hes]
    rw [this]

theorem RemInv.rside {Z : Zobrist} {BS r p : Nat} {b0 b : FullBoard} {done : List Nat}
    (h : RemInv Z BS r b0 p done b) : b.m_side_vertices = b0.m_side_vertices := by
  rw [h.frame]

theorem RemInv.rsize {Z : Zobrist} {BS r p : Nat} {b0 b : FullBoard} {done : List Nat}
    (h : RemInv Z BS r b0 p done b) : b.m_board_size = b0.m_board_size := by
  rw [h.frame]

theorem RemInv.rnverts {Z : Zobrist} {BS r p : Nat} {b0 b : FullBoard} {done : List Nat}
    (h : RemInv Z BS r b0 p done b) : b.m_vertices_number = b0.m_vertices_number := by
  rw [h.frame]

theorem RemInv.rdirs {Z : Zobrist} {BS r p : Nat} {b0 b : FullBoard} {done : List Nat}
    (h : RemInv Z BS r b0 p done b) : b.m_directions = b0.m_directions := by
  rw [h.frame]

theorem RemInv.next {Z : Zobrist} {BS r p : Nat} {b0 b : FullBoard} {done : List Nat}
    (h : RemInv Z BS r b0 p done b) : b.m_next = b0.m_next := by
  rw [h.frame]

theorem RemInv.stones {Z : Zobrist} {BS r p : Nat} {b0 b : FullBoard} {done : List Nat}
    (h : RemInv Z BS r b0 p done b) : b.m_stones = b0.m_stones := by
  rw [h.frame]

theorem RemInv.prisoners {Z : Zobrist} {BS r p : Nat} {b0 b : FullBoard} {done : List Nat}
    (h : RemInv Z BS r b0 p done b) : b.m_prisoners = b0.m_prisoners := by
  rw [h.frame]

theorem onBoard_unique {b : FullBoard} (h1 : b.m_board_size = 1)
    (hside : b.m_side_vertices = b.m_board_size + 2) {u w : Nat}
    (hu : onBoard b u) (hw : onBoard b w) : u = w := by
  unfold onBoard at hu hw
  rw [hside, h1] at hu hw
  omega

theorem shift_color {col : Nat} (h : col < 2) : 1 <<< (NEIGHBOR_SHIFT * col) = weight col := by
  interval_cases col <;> rfl

theorem RemInv.rinit {Z : Zobrist} {BS r v k : Nat} {b0 : FullBoard}
    (inv : InvX Z BS r b0 v k) (p : Nat) : RemInv Z BS r b0 p [] b0 :=
  ⟨rfl, by simp, by simp, inv.tally, fun h q hq hs hr _ => inv.libs h q hq hs hr,
    fun _ _ _ _ => rfl, fun h u hu => (inv.lone h u hu).1, inv.hash_ko, inv.hash⟩

theorem RemInv.rstep {Z : Zobrist} {BS r p : Nat} {b0 b : FullBoard} {done : List Nat}
    (g0 : Geom BS b0) (h : RemInv Z BS r b0 p done b) {s : Nat}
    (hs : onBoard b0 s) (hsp : b0.m_parent s = p) (hst : b0.m_state s < 2) (hsd : s ∉ done) :
    RemInv Z BS r b0 p (done ++ [s])
      (remove_body Z (VERTICES_NUMBER BS) (b0.m_state s) b s) := by
  have g : Geom BS b := g0.congr h.rside h.rsize h.rnverts h.rdirs
  have hsb : onBoard b s := (onBoard_congr h.rside h.rsize s).mpr hs
  have hob : ∀ u, onBoard b u ↔ onBoard b0 u := onBoard_congr h.rside h.rsize
  have hnb : ∀ j x, nbr b j x = nbr b0 j x := nbr_congr h.rdirs
  have hss : b.m_state s = b0.m_state s := by rw [h.state_eq, if_neg hsd]
  have hps : b.m_parent s = p := by rw [h.parent_eq, if_neg hsd, hsp]
  obtain ⟨b2, hb2, hfr, e_st, e_par, hn1, hn2, hl1, hl2, e_hk, e_h⟩ :=
    remove_body_spec g Z (VERTICES_NUMBER BS) (b0.m_state s) hsb
  rw [hb2]
  have hd2 : b2.m_directions = b.m_directions := by rw [hfr]
  have hnv2 : b2.m_vertices_number = b.m_vertices_number := by rw [hfr]
  have hfr0 := h.frame
  refine ⟨?_, ?_, ?_, ?_, ?_, ?_, ?_, ?_, ?_⟩
  · ext1 <;> first | rfl | (rw [hfr, hfr0])
  · intro u
    rw [e_st, Function.update_apply, h.state_eq]
    by_cases hus : u = s
    · simp [hus]
    · simp [hus]
  · intro u
    rw [e_par, Function.update_apply, h.parent_eq]
    by_cases hus : u = s
    · simp [hus]
    · simp [hus]
  · intro hsz u hu
    have hub : onBoard b u := (hob u).mpr hu
    have ht := tallyOf_update g hd2 hsb e_st hub
    have hw := shift_color hst
    have hle := tallyOf_le b2 u
    by_cases hadj : ∃ k, k < 4 ∧ u = nbr b k s
    · rw [hn1 u hadj, h.tally hsz u hu, hw]
      have := ht.1 hadj
      rw [hss] at this
      have e256 : (1 : Nat) <<< (NEIGHBOR_SHIFT * EMPTY) = 256 := rfl
      have hwe : weight EMPTY = 256 := rfl
      rw [e256]
      omega
    · rw [hn2 u hadj, h.tally hsz u hu, ht.2 hadj]
  · intro hsz q hq hqs hqr hqp
    have hqV : VERTICES_NUMBER BS ≠ q := fun e => g0.onBoard_ne_VN hq e.symm
    have hsq : b.m_parent s ≠ q := by rw [hps]; exact fun e => hqp e.symm
    have hse : b.m_state s ≠ EMPTY := by rw [hss]; show b0.m_state s ≠ 2; omega
    have hl := libsOf_remove g hd2 hnv2 hsb e_st e_par hqV hsq hse
    have hc := libsOf_card_le b2 q
    have hnle := g0.nverts_le
    have hfit := g0.fits
    rw [hnv2, h.rnverts] at hc
    by_cases hadj : adjTo b s q
    · rw [hl1 q hadj, h.libs hsz q hq hqs hqr hqp, hl.1 hadj, inc16]
      rw [hl.1 hadj] at hc
      omega
    · rw [hl2 q hadj, h.libs hsz q hq hqs hqr hqp, hl.2 hadj]
  · intro q hqp hqV hno
    have hadj : ¬ adjTo b s q := by
      rintro ⟨k, hk, e⟩
      apply hno s (by simp)
      refine ⟨k, hk, ?_⟩
      rw [hnb, h.parent_eq] at e
      split at e
      · exact absurd e.symm hqV
      · exact e
    rw [hl2 q hadj]
    exact h.libs_frame q hqp hqV (fun t ht => hno t (by simp [ht]))
  · intro h1 u hu
    have hus : u = s := onBoard_unique h1 g0.side_eq hu hs
    have hadj : ¬ ∃ k, k < 4 ∧ u = nbr b k s := by
      rintro ⟨k, hk, e⟩
      rw [hus] at e
      exact g.nbr_ne_self hsb hk e.symm
    rw [hn2 u hadj]
    exact h.lone h1 u hu
  · rw [e_hk, h.hash_ko, hnv2, e_st]
    rw [statesHash_update Z b.m_state _ s EMPTY (by rw [h.rnverts]; exact g0.onBoard_lt hs)
      (by rw [hss]; show b0.m_state s ≠ 3; omega) (by decide)]
  · have hpr : b2.m_prisoners = b.m_prisoners := by rw [hfr]
    rw [e_h, h.hash]
    simp only [coreHash, hnv2, e_st, hpr]
    rw [statesHash_update Z b.m_state _ s EMPTY (by rw [h.rnverts]; exact g0.onBoard_lt hs)
      (by rw [hss]; show b0.m_state s ≠ 3; omega) (by decide)]
    ac_rfl

theorem RemInv.rfold {Z : Zobrist} {BS r p col : Nat} {b0 : FullBoard} (g0 : Geom BS b0) :
    ∀ (L done : List Nat) (b : FullBoard), RemInv Z BS r b0 p done b →
      (∀ s, s ∈ L → onBoard b0 s ∧ b0.m_parent s = p ∧ b0.m_state s = col ∧ s ∉ done) →
      col < 2 → L.Nodup →
      RemInv Z BS r b0 p (done ++ L) (L.foldl (remove_body Z (VERTICES_NUMBER BS) col) b) := by
  intro L
  induction L with
  | nil => intro done b h _ _ _; simpa using h
  | cons s L ih =>
    intro done b h hL hcol hnd
    obtain ⟨hs, hsp, hsc, hsd⟩ := hL s (by simp)
    have hstep := RemInv.rstep g0 h hs hsp (by rw [hsc]; exact hcol) hsd
    rw [hsc] at hstep
    have := ih (done ++ [s]) _ hstep (by
      intro t ht
      obtain ⟨h1, h2, h3, h4⟩ := hL t (by simp [ht])
      refine ⟨h1, h2, h3, ?_⟩
      simp only [List.mem_append, List.mem_singleton, not_or]
      refine ⟨h4, ?_⟩
      rintro rfl
      exact (List.nodup_cons.mp hnd).1 ht) hcol (List.nodup_cons.mp hnd).2
    simpa using this

theorem link_parent {b : FullBoard} {x y : Nat} (h : Relation.ReflTransGen (link b) x y) :
    b.m_parent y = b.m_parent x := by
  induction h with
  | refl => rfl
  | tail _ hl ih => rw [hl.2.2.2, ih]

/-- String members are on the board. -/
theorem InvX.member_onBoard {Z : Zobrist} {BS r v k : Nat} {b : FullBoard}
    (inv : InvX Z BS r b v k) {p w : Nat} (hp : onBoard b p)
    (hw : w < b.m_vertices_number) (hwp : b.m_parent w = p) : onBoard b w := by
  by_contra hno
  have := (inv.border w hw hno).2
  rw [hwp] at this
  exact inv.geom.onBoard_ne_VN hp this

theorem InvX.member_stone {Z : Zobrist} {BS r v k : Nat} {b : FullBoard}
    (inv : InvX Z BS r b v k) {p w : Nat} (hp : onBoard b p)
    (hw : w < b.m_vertices_number) (hwp : b.m_parent w = p) : b.m_state w < 2 := by
  have hob := inv.member_onBoard hp hw hwp
  have h2 := inv.inside w hob
  by_contra hno
  have : b.m_state w = EMPTY := by show b.m_state w = 2; have : b.m_state w ≤ 2 := h2; omega
  have := inv.empty_parent w hob this
  rw [hwp] at this
  exact inv.geom.onBoard_ne_VN hp this

theorem RemInv.final {Z : Zobrist} {BS r v k a : Nat} {b0 b : FullBoard} {l : List Nat}
    (inv : InvX Z BS r b0 v k) (ha : onBoard b0 a) (hst : b0.m_state a < 2)
    (hmem : ∀ w, w ∈ a :: l ↔ (w < b0.m_vertices_number ∧ b0.m_parent w = b0.m_parent a))
    (h : RemInv Z BS r b0 (b0.m_parent a) (a :: l) b) : InvX Z BS r b v k := by
  have g0 := inv.geom
  have g : Geom BS b := g0.congr h.rside h.rsize h.rnverts h.rdirs
  have hob : ∀ u, onBoard b u ↔ onBoard b0 u := onBoard_congr h.rside h.rsize
  have hnb : ∀ j x, nbr b j x = nbr b0 j x := nbr_congr h.rdirs
  obtain ⟨hp, hps, hpp⟩ := inv.root a ha hst
  have hpV : b0.m_parent a ≠ VERTICES_NUMBER BS := g0.onBoard_ne_VN hp
  -- a stone that is still there was not in the removed string
  have keep : ∀ u, u < b0.m_vertices_number → b.m_state u ≠ EMPTY →
      u ∉ a :: l ∧ b.m_state u = b0.m_state u ∧ b.m_parent u = b0.m_parent u ∧
        b0.m_parent u ≠ b0.m_parent a := by
    intro u hu hne
    have hnd : u ∉ a :: l := by
      intro hin
      have := h.state_eq u
      rw [if_pos hin] at this
      exact hne this
    refine ⟨hnd, by rw [h.state_eq u, if_neg hnd], by rw [h.parent_eq u, if_neg hnd], ?_⟩
    intro e
    exact hnd ((hmem u).mpr ⟨hu, e⟩)
  have keep2 : ∀ u, u ∉ a :: l →
      b.m_state u = b0.m_state u ∧ b.m_parent u = b0.m_parent u := by
    intro u hnd
    exact ⟨by rw [h.state_eq u, if_neg hnd], by rw [h.parent_eq u, if_neg hnd]⟩
  have done_on : ∀ u, u ∈ a :: l → onBoard b0 u := by
    intro u hu
    obtain ⟨h1, h2⟩ := (hmem u).mp hu
    exact inv.member_onBoard hp h1 h2
  have root_out : ∀ u, onBoard b0 u → b.m_state u < 2 → b0.m_parent u ∉ a :: l := by
    intro u hu hs hin
    obtain ⟨hnd, e1, _, hne⟩ := keep u (g0.onBoard_lt hu) (by show b.m_state u ≠ 2; omega)
    obtain ⟨_, _, hqq⟩ := inv.root u hu (by rw [← e1]; exact hs)
    have := ((hmem _).mp hin).2
    rw [hqq] at this
    exact hne this
  refine ⟨g, ?_, ?_, ?_, ?_, ?_, ?_, ?_, ?_, ?_, ?_, h.hash_ko, h.hash⟩
  · intro u hu hno
    rw [h.rnverts] at hu
    rw [hob] at hno
    have hnd : u ∉ a :: l := fun hin => hno (done_on u hin)
    rw [(keep2 u hnd).1, (keep2 u hnd).2]
    exact inv.border u hu hno
  · intro u hu
    rw [hob] at hu
    rw [h.state_eq u]
    split
    · exact le_refl _
    · exact inv.inside u hu
  · intro u hu he
    rw [hob] at hu
    rw [h.parent_eq u]
    split
    · rfl
    · rename_i hnd
      rw [(keep2 u hnd).1] at he
      exact inv.empty_parent u hu he
  · intro u hu hs
    rw [hob] at hu
    obtain ⟨hnd, e1, e2, hne⟩ := keep u (g0.onBoard_lt hu) (by show b.m_state u ≠ 2; omega)
    obtain ⟨hq, hqs, hqq⟩ := inv.root u hu (by rw [← e1]; exact hs)
    have hqnd := root_out u hu hs
    rw [e2, hob, (keep2 _ hqnd).1, (keep2 _ hqnd).2, e1]
    exact ⟨hq, hqs, hqq⟩
  · intro u hu hs
    rw [hob] at hu
    obtain ⟨hnd, e1, e2, hne⟩ := keep u (g0.onBoard_lt hu) (by show b.m_state u ≠ 2; omega)
    obtain ⟨hq, hqs, hqq⟩ := inv.root u hu (by rw [← e1]; exact hs)
    obtain ⟨lu, hring, hmu, hstones⟩ := inv.ring u hu (by rw [← e1]; exact hs)
    refine ⟨lu, by rw [h.next]; exact hring, ?_, by rw [h.stones, e2]; exact hstones⟩
    intro w
    rw [hmu w, h.rnverts, e2]
    constructor
    · rintro ⟨hw, hwp⟩
      have hwnd : w ∉ a :: l := by
        intro hin
        have := ((hmem w).mp hin).2
        rw [hwp] at this
        exact hne this
      exact ⟨hw, by rw [(keep2 w hwnd).2]; exact hwp⟩
    · rintro ⟨hw, hwp⟩
      refine ⟨hw, ?_⟩
      rw [h.parent_eq w] at hwp
      split at hwp
      · exact absurd hwp.symm (g0.onBoard_ne_VN hq)
      · exact hwp
  · intro u j hu hj hs hsame
    rw [hob] at hu
    obtain ⟨hnd, e1, e2, hne⟩ := keep u (g0.onBoard_lt hu) (by show b.m_state u ≠ 2; omega)
    rw [hnb] at hsame ⊢
    obtain ⟨_, e3, e4, _⟩ := keep (nbr b0 j u) (g0.nbr_lt hu hj)
      (by rw [hsame]; show b.m_state u ≠ 2; omega)
    rw [e3, e1] at hsame
    rw [e4, e2]
    exact inv.closed u j hu hj (by rw [← e1]; exact hs) hsame
  · intro u hu hs
    rw [hob] at hu
    obtain ⟨hnd, e1, e2, hne⟩ := keep u (g0.onBoard_lt hu) (by show b.m_state u ≠ 2; omega)
    have hc := inv.connected u hu (by rw [← e1]; exact hs)
    rw [e2]
    -- every vertex of the path has the parent of `u`, so none was removed
    have lift : ∀ x y, Relation.ReflTransGen (link b0) x y → b0.m_parent x = b0.m_parent u →
        Relation.ReflTransGen (link b) x y := by
      intro x y hxy
      induction hxy with
      | refl => intro _; exact Relation.ReflTransGen.refl
      | tail hxz hzy ih =>
        intro hx
        refine Relation.ReflTransGen.tail (ih hx) ?_
        rename_i z y
        have hz : b0.m_parent z = b0.m_parent u := by rw [link_parent hxz, hx]
        have hy : b0.m_parent y = b0.m_parent u := by rw [hzy.2.2.2, hz]
        have hznd : z ∉ a :: l := fun hin => hne (by rw [← hz]; exact ((hmem z).mp hin).2)
        have hynd : y ∉ a :: l := fun hin => hne (by rw [← hy]; exact ((hmem y).mp hin).2)
        obtain ⟨k2, hk2, hk3⟩ := hzy.2.2.1
        refine ⟨(hob z).mpr hzy.1, (hob y).mpr hzy.2.1, ⟨k2, hk2, by rw [hnb]; exact hk3⟩, ?_⟩
        rw [(keep2 y hynd).2, (keep2 z hznd).2]
        exact hzy.2.2.2
    exact lift u _ hc rfl
  · intro hsz u hu
    rw [h.rsize] at hsz
    rw [hob] at hu
    exact h.tally hsz u hu
  · intro hsz q hq hqs hqr
    rw [h.rsize] at hsz
    rw [hob] at hq
    obtain ⟨hnd, e1, e2, hne⟩ := keep q (g0.onBoard_lt hq) (by show b.m_state q ≠ 2; omega)
    rw [e2] at hqr
    refine h.libs hsz q hq (by rw [← e1]; exact hqs) hqr ?_
    intro e
    rw [← e, hqr] at hne
    exact hne rfl
  · intro h1 u hu
    rw [h.rsize] at h1
    rw [hob] at hu
    refine ⟨h.lone h1 u hu, ?_⟩
    intro hs
    obtain ⟨hnd, _⟩ := keep u (g0.onBoard_lt hu) (by show b.m_state u ≠ 2; omega)
    have : u = a := onBoard_unique h1 g0.side_eq hu ha
    exact absurd (by simp [this]) hnd

theorem neighbor_fold_next (tally adjust : Nat → Nat) (vertex : Nat) :
    ∀ (ks : List Nat) (acc : FullBoard × List Nat),
      (ks.foldl (neighbor_step tally adjust vertex) acc).1.m_next = acc.1.m_next := by
  intro ks
  induction ks with
  | nil => intro acc; rfl
  | cons k ks ih =>
    intro acc
    rw [List.foldl_cons, ih]
    simp only [neighbor_step]
    split <;> rfl

theorem remove_body_next (Z : Zobrist) (VN col : Nat) (b : FullBoard) (p : Nat) :
    (remove_body Z VN col b p).m_next = b.m_next := by
  simp only [remove_body, remove_neighbor, neighbor_fold_next]

theorem nodup_length_le {l : List Nat} {n : Nat} (hnd : l.Nodup) (h : ∀ x, x ∈ l → x < n) :
    l.length ≤ n := by
  have hs : l ⊆ List.range n := fun x hx => List.mem_range.mpr (h x hx)
  have := (List.subperm_of_subset hnd hs).length_le
  simpa using this

/-- On a board that satisfies the invariant, `remove_vertices_string` terminates, takes
exactly the string of `a` off the board and re-establishes the invariant. -/
theorem remove_vertices_string_spec {Z : Zobrist} {BS r v k a : Nat} {b0 : FullBoard}
    (inv : InvX Z BS r b0 v k) (ha : onBoard b0 a) (hst : b0.m_state a < 2) :
    ∃ b l, remove_vertices_string Z BS b0 a = some (b, l.length + 1) ∧
      (a :: l).Nodup ∧
      (∀ w, w ∈ a :: l ↔ (w < b0.m_vertices_number ∧ b0.m_parent w = b0.m_parent a)) ∧
      RemInv Z BS r b0 (b0.m_parent a) (a :: l) b ∧ InvX Z BS r b v k := by
  obtain ⟨l, hring, hmem, _⟩ := inv.ring a ha hst
  obtain ⟨hp, hps, hpp⟩ := inv.root a ha hst
  have hlen : (a :: l).length ≤ b0.m_vertices_number :=
    nodup_length_le hring.1 (fun x hx => ((hmem x).mp hx).1)
  have hloop := ring_loop_list (remove_body Z (VERTICES_NUMBER BS) (b0.m_state a)) a
    (remove_body_next Z _ _) l a b0 b0.m_vertices_number 0 hring.2
    (List.nodup_cons.mp hring.1).1 hlen
  have hfold := @RemInv.rfold Z BS r (b0.m_parent a) (b0.m_state a) b0
    inv.geom (a :: l) [] b0 (RemInv.rinit inv _) (by
      intro s hs
      obtain ⟨h1, h2⟩ := (hmem s).mp hs
      have hso := inv.member_onBoard hp h1 h2
      have hss := inv.member_stone hp h1 h2
      refine ⟨hso, h2, ?_, by simp⟩
      rw [← (inv.root s hso hss).2.1, h2, hps]) hst hring.1
  rw [List.nil_append] at hfold
  refine ⟨_, l, ?_, hring.1, hmem, hfold, RemInv.final inv ha hst hmem hfold⟩
  rw [remove_vertices_string, hloop]
  simp

/-! ### Merging two strings -/

theorem merge_found (b : FullBoard) (ip ai : Nat) :
    ((List.range 4).any (fun kk => decide (b.m_parent (nbr b kk ai) = ip))) = true ↔
      adjTo b ai ip := by
  simp [adjTo, List.any_eq_true]

theorem merge_liberty_fold (ip s : Nat) :
    ∀ (ks : List Nat) (b : FullBoard),
      ∃ b2, ks.foldl (merge_liberty ip s) b = b2 ∧
        b2 = { b with m_liberties := b2.m_liberties } ∧
        (∀ q, q ≠ ip → b2.m_liberties q = b.m_liberties q) ∧
        (b.m_liberties ip + (ks.filter (fun k => decide (b.m_state (nbr b k s) = EMPTY ∧
              ¬ adjTo b (nbr b k s) ip))).length < 65536 →
          b2.m_liberties ip = b.m_liberties ip +
            (ks.filter (fun k => decide (b.m_state (nbr b k s) = EMPTY ∧
              ¬ adjTo b (nbr b k s) ip))).length) := by
  intro ks
  induction ks with
  | nil => intro b; exact ⟨b, rfl, rfl, fun _ _ => rfl, fun _ => by simp⟩
  | cons k ks ih =>
    intro b
    obtain ⟨b1, hb1, hfr1, ho1, hl1⟩ : ∃ b1, merge_liberty ip s b k = b1 ∧
        b1 = { b with m_liberties := b1.m_liberties } ∧
        (∀ q, q ≠ ip → b1.m_liberties q = b.m_liberties q) ∧
        b1.m_liberties ip = (if b.m_state (nbr b k s) = EMPTY ∧ ¬ adjTo b (nbr b k s) ip
          then inc16 (b.m_liberties ip) else b.m_liberties ip) := by
      refine ⟨_, rfl, ?_, ?_, ?_⟩
      · simp only [merge_liberty]
        split <;> [split; skip] <;> rfl
      · intro q hq
        simp only [merge_liberty]
        split <;> [split; skip] <;> simp [Function.update_apply, hq]
      · simp only [merge_liberty]
        by_cases h1 : b.m_state (nbr b k s) = EMPTY
        · by_cases h2 : adjTo b (nbr b k s) ip
          · have := (merge_found b ip (nbr b k s)).mpr h2
            simp [h1, h2, this]
          · have : ¬ ((List.range 4).any
                (fun kk => decide (b.m_parent (nbr b kk (nbr b k s)) = ip))) = true :=
              fun h => h2 ((merge_found b ip _).mp h)
            simp [h1, h2, this]
        · simp [h1]
    obtain ⟨b2, hb2, hfr2, ho2, hl2⟩ := ih b1
    have hd : b1.m_directions = b.m_directions := by rw [hfr1]
    have hst : b1.m_state = b.m_state := by rw [hfr1]
    have hpar : b1.m_parent = b.m_parent := by rw [hfr1]
    have hn : ∀ j x, nbr b1 j x = nbr b j x := nbr_congr hd
    have hadj : ∀ e, adjTo b1 e ip ↔ adjTo b e ip := by
      intro e; apply adjTo_congr hd; intro j _; rw [hpar]
    refine ⟨b2, by rw [List.foldl_cons, hb1, hb2], by rw [hfr2, hfr1], ?_, ?_⟩
    · intro q hq; rw [ho2 q hq, ho1 q hq]
    · intro hlt
      simp only [hn, hst, hadj] at hl2
      rw [List.filter_cons] at hlt ⊢
      by_cases hc : b.m_state (nbr b k s) = EMPTY ∧ ¬ adjTo b (nbr b k s) ip
      · simp only [hc, and_self, not_false_eq_true, if_true, decide_True, List.length_cons]
          at hlt hl1 ⊢
        have e1 : b1.m_liberties ip = b.m_liberties ip + 1 := by
          rw [hl1]; unfold inc16; omega
        rw [hl2 (by rw [e1]; omega), e1]
        omega
      · simp only [hc, if_false, decide_False] at hlt hl1 ⊢
        rw [hl2 (by rw [hl1]; simpa using hlt), hl1]
        simp

/-- Giving the stone `s` the parent `ip` adds the empty neighbours of `s` to the liberties
of `ip`. -/
theorem libsOf_merge {BS : Nat} {b b2 : FullBoard} (g : Geom BS b)
    (hd : b2.m_directions = b.m_directions) (hn : b2.m_vertices_number = b.m_vertices_number)
    {s ip : Nat} (hs : onBoard b s) (hst : b2.m_state = b.m_state)
    (hp : b2.m_parent = Function.update b.m_parent s ip)
    (hon : ∀ e, e < b.m_vertices_number → b.m_state e = EMPTY → onBoard b e) :
    (libsOf b2 ip).card = (libsOf b ip).card +
      ((List.range 4).filter (fun k => decide (b.m_state (nbr b k s) = EMPTY ∧
        ¬ adjTo b (nbr b k s) ip))).length := by
  set ks := (List.range 4).filter (fun k => decide (b.m_state (nbr b k s) = EMPTY ∧
        ¬ adjTo b (nbr b k s) ip)) with hks
  have hnd : (ks.map (fun k => nbr b k s)).Nodup := by
    refine List.Nodup.map_on ?_ ((List.nodup_range 4).filter _)
    intro i hi j hj e
    exact g.nbr_inj hs (List.mem_range.mp (List.mem_of_mem_filter hi))
      (List.mem_range.mp (List.mem_of_mem_filter hj)) e
  have hunion : libsOf b2 ip = libsOf b ip ∪ (ks.map (fun k => nbr b k s)).toFinset := by
    ext e
    rw [Finset.mem_union, mem_libsOf, mem_libsOf, hn, hst, List.mem_toFinset, List.mem_map]
    constructor
    · rintro ⟨he, hee, k, hk, hpk⟩
      by_cases hadj : adjTo b e ip
      · exact Or.inl ⟨he, hee, hadj⟩
      · right
        rw [nbr_congr hd, hp, Function.update_apply] at hpk
        have heo := hon e he hee
        split at hpk
        · rename_i hes
          refine ⟨(k + 2) % 4, ?_, ?_⟩
          · rw [hks, List.mem_filter, List.mem_range]
            refine ⟨Nat.mod_lt _ (by decide), ?_⟩
            rw [← hes, g.nbr_opp heo hk]
            simp [hee, hadj]
          · rw [← hes, g.nbr_opp heo hk]
        · exact absurd ⟨k, hk, hpk⟩ hadj
    · rintro (⟨he, hee, k, hk, hpk⟩ | ⟨k, hk, rfl⟩)
      · refine ⟨he, hee, k, hk, ?_⟩
        rw [nbr_congr hd, hp, Function.update_apply]
        split
        · rfl
        · exact hpk
      · rw [hks, List.mem_filter, List.mem_range] at hk
        obtain ⟨hk4, hc⟩ := hk
        simp only [decide_eq_true_eq] at hc
        refine ⟨g.nbr_lt hs hk4, hc.1, (k + 2) % 4, Nat.mod_lt _ (by decide), ?_⟩
        rw [nbr_congr hd, g.nbr_opp hs hk4, hp]
        simp
  have hdisj : Disjoint (libsOf b ip) (ks.map (fun k => nbr b k s)).toFinset := by
    rw [Finset.disjoint_left]
    intro e he1 he2
    rw [List.mem_toFinset, List.mem_map] at he2
    obtain ⟨k, hk, rfl⟩ := he2
    rw [hks, List.mem_filter] at hk
    have hc := hk.2
    simp only [decide_eq_true_eq] at hc
    exact hc.2 (mem_libsOf.mp he1).2.2
  rw [hunion, Finset.card_union_of_disjoint hdisj, List.toFinset_card_of_nodup hnd,
    List.length_map]

theorem merge_body_next (ip : Nat) (b : FullBoard) (p : Nat) :
    (merge_body ip b p).m_next = b.m_next := by
  obtain ⟨b2, hb2, hfr, _, _⟩ := merge_liberty_fold ip p (List.range 4) b
  simp only [merge_body, hb2]
  rw [hfr]

theorem MergeInv.minit {b1 : FullBoard} {ip : Nat}
    (h : b1.m_liberties ip = (libsOf b1 ip).card) : MergeInv b1 ip [] b1 :=
  ⟨rfl, by simp, h, fun _ _ => rfl⟩

theorem MergeInv.mstep {BS : Nat} {b1 b : FullBoard} {ip : Nat} {done : List Nat}
    (g1 : Geom BS b1) (h : MergeInv b1 ip done b) {s : Nat} (hs : onBoard b1 s)
    (hon : ∀ e, e < b1.m_vertices_number → b1.m_state e = EMPTY → onBoard b1 e) :
    MergeInv b1 ip (done ++ [s]) (merge_body ip b s) := by
  have hside : b.m_side_vertices = b1.m_side_vertices := by rw [h.frame]
  have hsize : b.m_board_size = b1.m_board_size := by rw [h.frame]
  have hnv : b.m_vertices_number = b1.m_vertices_number := by rw [h.frame]
  have hdir : b.m_directions = b1.m_directions := by rw [h.frame]
  have hstate : b.m_state = b1.m_state := by rw [h.frame]
  have g : Geom BS b := g1.congr hside hsize hnv hdir
  have hsb : onBoard b s := (onBoard_congr hside hsize s).mpr hs
  obtain ⟨b2, hb2, hfr, ho, hl⟩ := merge_liberty_fold ip s (List.range 4) b
  have hres : merge_body ip b s = { b2 with m_parent := Function.update b2.m_parent s ip } := by
    simp only [merge_body, hb2]
  rw [hres]
  have hfr0 := h.frame
  have hpar2 : b2.m_parent = b.m_parent := by rw [hfr]
  obtain ⟨b3, hb3⟩ : ∃ b3 : FullBoard, b3 = { b2 with m_parent := Function.update b2.m_parent s ip } :=
    ⟨_, rfl⟩
  rw [← hb3]
  have hcard := @libsOf_merge BS b b3 g (by rw [hb3, hfr]) (by rw [hb3, hfr]) s ip hsb
    (by rw [hb3, hfr]) (by rw [hb3, hpar2]) (by
      intro e he hee
      rw [hnv] at he; rw [hstate] at hee
      exact (onBoard_congr hside hsize e).mpr (hon e he hee))
  refine ⟨?_, ?_, ?_, ?_⟩
  · rw [hb3]; ext1 <;> first | rfl | (rw [hfr, hfr0])
  · intro u
    rw [hb3]
    show Function.update b2.m_parent s ip u = _
    rw [hpar2, Function.update_apply, h.parent_eq]
    by_cases hus : u = s
    · simp [hus]
    · simp [hus]
  · have hle := libsOf_card_le b3 ip
    have e3 : b3.m_vertices_number = b1.m_vertices_number := by rw [hb3, hfr, hfr0]
    have hnle := g1.nverts_le
    have hfit := g1.fits
    rw [e3, hcard] at hle
    have e4 : b3.m_liberties = b2.m_liberties := by rw [hb3]
    rw [e4, hl (by rw [h.libs_ip]; omega), hcard, h.libs_ip]
  · intro q hq
    have e4 : b3.m_liberties = b2.m_liberties := by rw [hb3]
    rw [e4, ho q hq, h.libs_other q hq]

theorem MergeInv.mfold {BS : Nat} {b1 : FullBoard} {ip : Nat} (g1 : Geom BS b1)
    (hon : ∀ e, e < b1.m_vertices_number → b1.m_state e = EMPTY → onBoard b1 e) :
    ∀ (L done : List Nat) (b : FullBoard), MergeInv b1 ip done b →
      (∀ s, s ∈ L → onBoard b1 s) →
      MergeInv b1 ip (done ++ L) (L.foldl (merge_body ip) b) := by
  intro L
  induction L with
  | nil => intro done b h _; simpa using h
  | cons s L ih =>
    intro done b h hL
    have := ih (done ++ [s]) _ (MergeInv.mstep g1 h (hL s (by simp)) hon)
      (fun t ht => hL t (by simp [ht]))
    simpa using this

theorem libsOf_congr {b b2 : FullBoard} {p : Nat}
    (hn : b2.m_vertices_number = b.m_vertices_number) (hs : b2.m_state = b.m_state)
    (hd : b2.m_directions = b.m_directions)
    (hp : ∀ w, b2.m_parent w = p ↔ b.m_parent w = p) : libsOf b2 p = libsOf b p := by
  ext e
  rw [mem_libsOf, mem_libsOf, hn, hs, adjTo_congr hd (fun k _ => hp _)]

theorem RingAt.rcongr {next next2 : Nat → Nat} {v : Nat} {r : List Nat}
    (h : RingAt next v r) (he : ∀ x, x ∈ v :: r → next2 x = next x) : RingAt next2 v r := by
  refine ⟨h.1, ?_⟩
  rw [← h.2]
  exact List.map_congr_left he

theorem link_symm {BS : Nat} {b : FullBoard} (g : Geom BS b) {x y : Nat} (h : link b x y) :
    link b y x := by
  obtain ⟨hx, hy, hk, hp⟩ := h
  exact ⟨hy, hx, g.adj_symm hx hk, hp.symm⟩

theorem link_path_symm {BS : Nat} {b : FullBoard} (g : Geom BS b) {x y : Nat}
    (h : Relation.ReflTransGen (link b) x y) : Relation.ReflTransGen (link b) y x := by
  induction h with
  | refl => exact Relation.ReflTransGen.refl
  | tail _ hl ih => exact Relation.ReflTransGen.head (link_symm g hl) ih

theorem onBoard_size_pos {b : FullBoard} {u : Nat} (h : onBoard b u) : 1 ≤ b.m_board_size := by
  unfold onBoard at h; omega

theorem two_le_size {BS : Nat} {b : FullBoard} (g : Geom BS b) {u w : Nat}
    (hu : onBoard b u) (hw : onBoard b w) (hne : u ≠ w) : 2 ≤ b.m_board_size := by
  have h1 := onBoard_size_pos hu
  by_contra hlt
  have : b.m_board_size = 1 := by omega
  exact hne (onBoard_unique this g.side_eq hu hw)

/-- On a board that satisfies the invariant, `merge_strings` terminates and joins the
strings of the two distinct roots `ip` and `aip`, which touch somewhere. -/
theorem merge_strings_spec {Z : Zobrist} {BS r v k ip aip : Nat} {b0 : FullBoard}
    (inv : InvX Z BS r b0 v k)
    (hip : onBoard b0 ip) (hips : b0.m_state ip < 2) (hipr : b0.m_parent ip = ip)
    (haip : onBoard b0 aip) (haips : b0.m_state aip < 2) (haipr : b0.m_parent aip = aip)
    (hne : ip ≠ aip) (hcol : b0.m_state ip = b0.m_state aip)
    (htouch : ∃ x y, onBoard b0 x ∧ onBoard b0 y ∧ (∃ j, j < 4 ∧ y = nbr b0 j x) ∧
      b0.m_parent x = ip ∧ b0.m_parent y = aip) :
    ∃ b, merge_strings b0 ip aip = some b ∧ InvX Z BS r b v k ∧
      b = { b0 with m_parent := b.m_parent, m_liberties := b.m_liberties,
                    m_stones := b.m_stones, m_next := b.m_next } ∧
      (∀ u, b.m_parent u =
        if u < b0.m_vertices_number ∧ b0.m_parent u = aip then ip else b0.m_parent u) ∧
      (∀ q, q ≠ ip → b.m_liberties q = b0.m_liberties q) := by
  have g0 := inv.geom
  have hsz : 2 ≤ b0.m_board_size := two_le_size g0 hip haip hne
  obtain ⟨l1, hring1, hmem1, hst1⟩ := inv.ring ip hip hips
  obtain ⟨l2, hring2, hmem2, hst2⟩ := inv.ring aip haip haips
  rw [hipr] at hmem1 hst1
  rw [haipr] at hmem2 hst2
  -- the board on entry to the loop
  obtain ⟨b1, hb1⟩ : ∃ b1 : FullBoard, b1 = { b0 with
      m_stones := Function.update b0.m_stones ip ((b0.m_stones ip + b0.m_stones aip) % 65536) } :=
    ⟨_, rfl⟩
  have g1 : Geom BS b1 := g0.congr (by rw [hb1]) (by rw [hb1]) (by rw [hb1]) (by rw [hb1])
  have hob1 : ∀ u, onBoard b1 u ↔ onBoard b0 u := onBoard_congr (by rw [hb1]) (by rw [hb1])
  have hlen : (aip :: l2).length ≤ b1.m_vertices_number := by
    rw [hb1]; exact nodup_length_le hring2.1 (fun x hx => ((hmem2 x).mp hx).1)
  have hloop := ring_loop_list (merge_body ip) aip (merge_body_next ip) l2 aip b1
    b1.m_vertices_number 0 (by rw [hb1]; exact hring2.2) (List.nodup_cons.mp hring2.1).1 hlen
  have hinit : b1.m_liberties ip = (libsOf b1 ip).card := by
    have : libsOf b1 ip = libsOf b0 ip :=
      libsOf_congr (by rw [hb1]) (by rw [hb1]) (by rw [hb1]) (fun w => by rw [hb1])
    rw [this, hb1]
    exact inv.libs hsz ip hip hips hipr
  have hon : ∀ e, e < b1.m_vertices_number → b1.m_state e = EMPTY → onBoard b1 e := by
    intro e he hee
    rw [hb1] at he hee
    rw [hob1]
    by_contra hno
    have := (inv.border e he hno).1
    rw [this] at hee
    exact absurd hee (by decide)
  have hfold := MergeInv.mfold g1 hon (aip :: l2) [] b1 (MergeInv.minit hinit) (by
    intro s hs
    rw [hob1]
    exact inv.member_onBoard haip ((hmem2 s).mp hs).1 ((hmem2 s).mp hs).2)
  rw [List.nil_append] at hfold
  obtain ⟨b2, hb2⟩ : ∃ b2, b2 = (aip :: l2).foldl (merge_body ip) b1 := ⟨_, rfl⟩
  rw [← hb2] at hfold hloop
  have hfr2 := hfold.frame
  have hres : merge_strings b0 ip aip = some { b2 with
      m_next := Function.update (Function.update b2.m_next aip (b2.m_next ip)) ip
        (b2.m_next aip) } := by
    have hnv1 : b1.m_vertices_number = b0.m_vertices_number := by rw [hb1]
    rw [hnv1] at hloop
    simp only [merge_strings, ← hb1, hloop]
  obtain ⟨b, hb⟩ : ∃ b : FullBoard, b = { b2 with
      m_next := Function.update (Function.update b2.m_next aip (b2.m_next ip)) ip
        (b2.m_next aip) } := ⟨_, rfl⟩
  rw [← hb] at hres
  -- the fields of the result
  have e_state : b.m_state = b0.m_state := by rw [hb, hfr2, hb1]
  have e_nv : b.m_vertices_number = b0.m_vertices_number := by rw [hb, hfr2, hb1]
  have e_side : b.m_side_vertices = b0.m_side_vertices := by rw [hb, hfr2, hb1]
  have e_size : b.m_board_size = b0.m_board_size := by rw [hb, hfr2, hb1]
  have e_dir : b.m_directions = b0.m_directions := by rw [hb, hfr2, hb1]
  have e_nb : b.m_neighbors = b0.m_neighbors := by rw [hb, hfr2, hb1]
  have e_pris : b.m_prisoners = b0.m_prisoners := by rw [hb, hfr2, hb1]
  have e_hash : b.m_hash = b0.m_hash := by rw [hb, hfr2, hb1]
  have e_hash_ko : b.m_hash_ko = b0.m_hash_ko := by rw [hb, hfr2, hb1]
  have e_stones : b.m_stones =
      Function.update b0.m_stones ip ((b0.m_stones ip + b0.m_stones aip) % 65536) := by
    rw [hb, hfr2, hb1]
  have e_next : b.m_next =
      Function.update (Function.update b0.m_next aip (b0.m_next ip)) ip (b0.m_next aip) := by
    rw [hb, hfr2, hb1]
  have e_par : ∀ u, b.m_parent u = if u ∈ aip :: l2 then ip else b0.m_parent u := by
    intro u
    have := hfold.parent_eq u
    rw [hb1] at this
    rw [hb]; exact this
  have e_lib_o : ∀ q, q ≠ ip → b.m_liberties q = b0.m_liberties q := by
    intro q hq
    have := hfold.libs_other q hq
    rw [hb1] at this
    rw [hb]; exact this
  have e_lib_ip : b.m_liberties ip = (libsOf b ip).card := by
    have : libsOf b ip = libsOf b2 ip :=
      libsOf_congr (by rw [hb]) (by rw [hb]) (by rw [hb]) (fun w => by rw [hb])
    rw [this, hb]
    exact hfold.libs_ip
  have g : Geom BS b := g0.congr e_side e_size e_nv e_dir
  have hob : ∀ u, onBoard b u ↔ onBoard b0 u := onBoard_congr e_side e_size
  have hnb : ∀ j x, nbr b j x = nbr b0 j x := nbr_congr e_dir
  have hipV : ip ≠ VERTICES_NUMBER BS := g0.onBoard_ne_VN hip
  have hip_out : ip ∉ aip :: l2 := by
    intro hin
    have := ((hmem2 ip).mp hin).2
    rw [hipr] at this
    exact hne this
  -- parents that were equal stay equal
  have par_mono : ∀ x y, x < b0.m_vertices_number → y < b0.m_vertices_number →
      b0.m_parent x = b0.m_parent y → b.m_parent x = b.m_parent y := by
    intro x y hx hy e
    rw [e_par, e_par]
    have : x ∈ aip :: l2 ↔ y ∈ aip :: l2 := by rw [hmem2, hmem2, e]; simp [hx, hy]
    by_cases hxin : x ∈ aip :: l2
    · rw [if_pos hxin, if_pos (this.mp hxin)]
    · rw [if_neg hxin, if_neg (fun h => hxin (this.mpr h)), e]
  have link_mono : ∀ x y, link b0 x y → link b x y := by
    rintro x y ⟨hx, hy, ⟨j, hj, e⟩, hp⟩
    exact ⟨(hob x).mpr hx, (hob y).mpr hy, ⟨j, hj, by rw [hnb]; exact e⟩,
      par_mono y x (g0.onBoard_lt hy) (g0.onBoard_lt hx) hp⟩
  have path_mono : ∀ x y, Relation.ReflTransGen (link b0) x y →
      Relation.ReflTransGen (link b) x y := by
    intro x y h
    exact Relation.ReflTransGen.mono link_mono h
  -- the merged ring
  have hdis : ∀ x, x ∈ ip :: l1 → x ∉ aip :: l2 := by
    intro x h1 h2
    have := ((hmem1 x).mp h1).2
    rw [((hmem2 x).mp h2).2] at this
    exact hne this.symm
  have hmerged : RingAt b.m_next ip (l2 ++ aip :: l1) := by
    rw [e_next]; exact RingAt.splice hring1 hring2 hdis
  have hmerged_mem : ∀ w, w ∈ ip :: (l2 ++ aip :: l1) ↔
      (w < b0.m_vertices_number ∧ b.m_parent w = ip) := by
    intro w
    have e1 : w ∈ ip :: (l2 ++ aip :: l1) ↔ (w ∈ ip :: l1 ∨ w ∈ aip :: l2) := by
      simp only [List.mem_cons, List.mem_append]; tauto
    rw [e1, hmem1, e_par]
    by_cases hin : w ∈ aip :: l2
    · have h2 := (hmem2 w).mp hin
      simp only [hin, or_true, if_true, h2.1, and_self]
    · simp only [hin, or_false, if_false]
  refine ⟨b, hres, ?_, ?_, ?_, e_lib_o⟩
  · refine ⟨g, ?_, ?_, ?_, ?_, ?_, ?_, ?_, ?_, ?_, ?_, ?_, ?_⟩
    · intro u hu hno
      rw [e_nv] at hu; rw [hob] at hno
      rw [e_state, e_par]
      have hout : u ∉ aip :: l2 := fun hin =>
        hno (inv.member_onBoard haip ((hmem2 u).mp hin).1 ((hmem2 u).mp hin).2)
      rw [if_neg hout]
      exact inv.border u hu hno
    · intro u hu
      rw [hob] at hu; rw [e_state]; exact inv.inside u hu
    · intro u hu he
      rw [hob] at hu; rw [e_state] at he
      rw [e_par]
      have hout : u ∉ aip :: l2 := by
        intro hin
        have := inv.member_stone haip ((hmem2 u).mp hin).1 ((hmem2 u).mp hin).2
        rw [he] at this
        exact absurd this (by decide)
      rw [if_neg hout]
      exact inv.empty_parent u hu he
    · intro u hu hs
      rw [hob] at hu; rw [e_state] at hs
      obtain ⟨hq, hqs, hqq⟩ := inv.root u hu hs
      rw [e_state, hob]
      by_cases hin : u ∈ aip :: l2
      · have hup := ((hmem2 u).mp hin).2
        rw [e_par u, if_pos hin, e_par ip, if_neg hip_out]
        refine ⟨hip, ?_, hipr⟩
        rw [hcol, ← hup]; exact hqs
      · rw [e_par u, if_neg hin]
        have hqout : b0.m_parent u ∉ aip :: l2 := by
          intro h2
          have := ((hmem2 _).mp h2).2
          rw [hqq] at this
          exact hin ((hmem2 u).mpr ⟨g0.onBoard_lt hu, this⟩)
        rw [e_par _, if_neg hqout]
        exact ⟨hq, hqs, hqq⟩
    · intro u hu hs
      rw [hob] at hu; rw [e_state] at hs
      obtain ⟨hq, hqs, hqq⟩ := inv.root u hu hs
      by_cases hm : b.m_parent u = ip
      · have hu_in := (hmerged_mem u).mpr ⟨g0.onBoard_lt hu, hm⟩
        obtain ⟨lu, hru, hperm⟩ := hmerged.rotate hu_in
        refine ⟨lu, hru, ?_, ?_⟩
        · intro w
          rw [hperm.mem_iff, hmerged_mem, e_nv, hm]
        · have hlenp := hperm.length_eq
          have hnd : (ip :: (l2 ++ aip :: l1)).Nodup := hmerged.1
          have hbound := nodup_length_le hnd (fun x hx => ((hmerged_mem x).mp hx).1)
          have hnle := g0.nverts_le
          have hfit := g0.fits
          rw [hm, e_stones]
          simp only [Function.update_same]
          rw [hst1, hst2]
          simp only [List.length_cons, List.length_append] at hlenp hbound
          omega
      · obtain ⟨lu, hru, hmu, hsu⟩ := inv.ring u hu hs
        have hu_out : u ∉ aip :: l2 := by
          intro hin
          apply hm
          rw [e_par, if_pos hin]
        have hpu : b.m_parent u = b0.m_parent u := by rw [e_par, if_neg hu_out]
        have hq_ip : b0.m_parent u ≠ ip := by rw [← hpu]; exact hm
        have hq_aip : b0.m_parent u ≠ aip := by
          intro h
          exact hu_out ((hmem2 u).mpr ⟨g0.onBoard_lt hu, h⟩)
        refine ⟨lu, hru.rcongr ?_, ?_, ?_⟩
        · intro x hx
          have hxp := ((hmu x).mp hx).2
          have hx1 : x ≠ ip := by
            rintro rfl; rw [hipr] at hxp; exact hq_ip hxp.symm
          have hx2 : x ≠ aip := by
            rintro rfl; rw [haipr] at hxp; exact hq_aip hxp.symm
          rw [e_next]
          simp [Function.update_apply, hx1, hx2]
        · intro w
          rw [hmu w, e_nv, hpu, e_par]
          constructor
          · rintro ⟨h1, h2⟩
            refine ⟨h1, ?_⟩
            rw [if_neg (fun hin => hq_aip (by rw [← h2]; exact ((hmem2 w).mp hin).2)), h2]
          · rintro ⟨h1, h2⟩
            refine ⟨h1, ?_⟩
            split at h2
            · exact absurd h2.symm hq_ip
            · exact h2
        · rw [hpu, e_stones]
          simp only [Function.update_apply, hq_ip, if_false]
          exact hsu
    · intro u j hu hj hs hsame
      rw [hob] at hu; rw [e_state] at hs; rw [hnb, e_state] at hsame
      rw [hnb]
      rcases inv.closed u j hu hj hs hsame with h | h | h
      · exact Or.inl (par_mono _ _ (g0.nbr_lt hu hj) (g0.onBoard_lt hu) h)
      · exact Or.inr (Or.inl h)
      · exact Or.inr (Or.inr h)
    · intro u hu hs
      rw [hob] at hu; rw [e_state] at hs
      have hc := path_mono _ _ (inv.connected u hu hs)
      by_cases hin : u ∈ aip :: l2
      · -- through the point where the two strings touch
        obtain ⟨x, y, hx, hy, hxy, hxp, hyp⟩ := htouch
        have hup := ((hmem2 u).mp hin).2
        rw [hup] at hc
        rw [e_par u, if_pos hin]
        have hxs := inv.member_stone hip (g0.onBoard_lt hx) hxp
        have hys := inv.member_stone haip (g0.onBoard_lt hy) hyp
        have c1 := path_mono _ _ (inv.connected x hx hxs)
        have c2 := path_mono _ _ (inv.connected y hy hys)
        rw [hxp] at c1; rw [hyp] at c2
        have hy_in : y ∈ aip :: l2 := (hmem2 y).mpr ⟨g0.onBoard_lt hy, hyp⟩
        have hx_out : x ∉ aip :: l2 := by
          intro h
          have := ((hmem2 x).mp h).2
          rw [hxp] at this
          exact hne this
        have hl : link b y x := by
          refine ⟨(hob y).mpr hy, (hob x).mpr hx, ?_, ?_⟩
          · obtain ⟨j, hj, e⟩ := g0.adj_symm hx hxy
            exact ⟨j, hj, by rw [hnb]; exact e⟩
          · rw [e_par x, if_neg hx_out, e_par y, if_pos hy_in, hxp]
        exact (hc.trans (link_path_symm g c2)).trans
          ((Relation.ReflTransGen.single hl).trans c1)
      · rw [e_par u, if_neg hin]
        exact hc
    · intro _ u hu
      rw [hob] at hu
      rw [e_nb, inv.tally hsz u hu]
      simp only [tallyOf, hnb, e_state]
    · intro _ q hq hqs hqr
      rw [hob] at hq; rw [e_state] at hqs
      by_cases hqip : q = ip
      · rw [hqip]; exact e_lib_ip
      · have hq_out : q ∉ aip :: l2 := by
          intro hin
          rw [e_par, if_pos hin] at hqr
          exact hqip hqr.symm
        rw [e_par, if_neg hq_out] at hqr
        have hq_aip : q ≠ aip := by
          rintro rfl
          exact hq_out (by simp)
        have : libsOf b q = libsOf b0 q := by
          apply libsOf_congr e_nv e_state e_dir
          intro w
          rw [e_par]
          split
          · rename_i hin
            have := ((hmem2 w).mp hin).2
            rw [this]
            exact ⟨fun h => absurd h.symm hqip, fun h => absurd h.symm hq_aip⟩
          · rfl
        rw [e_lib_o q hqip, this]
        exact inv.libs hsz q hq hqs hqr
    · intro h1
      rw [e_size] at h1
      omega
    · rw [e_hash_ko, e_nv, e_state]; exact inv.hash_ko
    · rw [e_hash]
      simp only [coreHash, e_nv, e_state, e_pris]
      exact inv.hash
  · rw [hb]; ext1 <;> first | rfl | (rw [hfr2, hb1])
  · intro u
    rw [e_par]
    by_cases hin : u ∈ aip :: l2
    · rw [if_pos hin, if_pos ((hmem2 u).mp hin)]
    · rw [if_neg hin, if_neg (fun h => hin ((hmem2 u).mpr h))]

/-! ### Placing the stone -/

theorem count_liberties_eq (b : FullBoard) (v : Nat) :
    count_liberties b v = b.m_neighbors v / 256 % 16 := by
  have h : NEIGHBOR_MASK = 2 ^ 4 - 1 := rfl
  have h2 : NEIGHBOR_SHIFT * EMPTY = 8 := rfl
  rw [count_liberties, count_neighbors, h, h2, Nat.and_pow_two_sub_one_eq_mod,
    Nat.shiftRight_eq_div_pow]

theorem tally_empties (b : FullBoard) (v : Nat) :
    tallyOf b v / 256 % 16 =
      ((List.range 4).filter (fun k => decide (b.m_state (nbr b k v) = EMPTY))).length := by
  have hr : List.range 4 = [0, 1, 2, 3] := rfl
  have hw : ∀ s, (s = EMPTY ∧ weight s = 256) ∨ (s ≠ EMPTY ∧ weight s ≤ 17) := by
    intro s
    unfold weight
    by_cases h : s = EMPTY
    · left; subst h; exact ⟨rfl, rfl⟩
    · right; refine ⟨h, ?_⟩; split_ifs <;> omega
  have hE : weight EMPTY = 256 := rfl
  rw [hr, tallyOf]
  rcases hw (b.m_state (nbr b 0 v)) with ⟨h0, w0⟩ | ⟨h0, w0⟩ <;>
  rcases hw (b.m_state (nbr b 1 v)) with ⟨h1, w1⟩ | ⟨h1, w1⟩ <;>
  rcases hw (b.m_state (nbr b 2 v)) with ⟨h2, w2⟩ | ⟨h2, w2⟩ <;>
  rcases hw (b.m_state (nbr b 3 v)) with ⟨h3, w3⟩ | ⟨h3, w3⟩ <;>
  simp only [List.filter, h0, h1, h2, h3, decide_True, decide_False, List.length_cons,
    List.length_nil] <;> omega

/-- No vertex has an empty vertex as its parent. -/
theorem InvX.no_child {Z : Zobrist} {BS r v k : Nat} {b : FullBoard}
    (inv : InvX Z BS r b v k) {e w : Nat} (he : onBoard b e) (hee : b.m_state e = EMPTY)
    (hw : w < b.m_vertices_number) : b.m_parent w ≠ e := by
  intro h
  have := inv.member_stone he hw h
  have hr := (inv.root w (inv.member_onBoard he hw h) this).2.1
  rw [h, hee] at hr
  rw [← hr] at this
  exact absurd this (by decide)

theorem InvX.empty_onBoard {Z : Zobrist} {BS r v k : Nat} {b : FullBoard}
    (inv : InvX Z BS r b v k) {e : Nat} (he : e < b.m_vertices_number)
    (hee : b.m_state e = EMPTY) : onBoard b e := by
  by_contra hno
  have := (inv.border e he hno).1
  rw [this] at hee
  exact absurd hee (by decide)

/-- The liberties of a freshly placed single stone are its empty neighbours. -/
theorem libsOf_single {BS : Nat} {b : FullBoard} (g : Geom BS b) {v : Nat} (hv : onBoard b v)
    (hpar : ∀ w, w < b.m_vertices_number → (b.m_parent w = v ↔ w = v))
    (hon : ∀ e, e < b.m_vertices_number → b.m_state e = EMPTY → onBoard b e) :
    (libsOf b v).card =
      ((List.range 4).filter (fun k => decide (b.m_state (nbr b k v) = EMPTY))).length := by
  set ks := (List.range 4).filter (fun k => decide (b.m_state (nbr b k v) = EMPTY)) with hks
  have hnd : (ks.map (fun k => nbr b k v)).Nodup := by
    refine List.Nodup.map_on ?_ ((List.nodup_range 4).filter _)
    intro i hi j hj e
    exact g.nbr_inj hv (List.mem_range.mp (List.mem_of_mem_filter hi))
      (List.mem_range.mp (List.mem_of_mem_filter hj)) e
  have : libsOf b v = (ks.map (fun k => nbr b k v)).toFinset := by
    ext e
    rw [mem_libsOf, List.mem_toFinset, List.mem_map]
    constructor
    · rintro ⟨he, hee, k, hk, hpk⟩
      have heo := hon e he hee
      have hkv : nbr b k e = v := (hpar _ (g.nbr_lt heo hk)).mp hpk
      refine ⟨(k + 2) % 4, ?_, ?_⟩
      · rw [hks, List.mem_filter, List.mem_range]
        refine ⟨Nat.mod_lt _ (by decide), ?_⟩
        rw [← hkv, g.nbr_opp heo hk]
        simp [hee]
      · rw [← hkv, g.nbr_opp heo hk]
    · rintro ⟨k, hk, rfl⟩
      rw [hks, List.mem_filter, List.mem_range] at hk
      obtain ⟨hk4, hc⟩ := hk
      simp only [decide_eq_true_eq] at hc
      refine ⟨g.nbr_lt hv hk4, hc, (k + 2) % 4, Nat.mod_lt _ (by decide), ?_⟩
      rw [g.nbr_opp hv hk4]
      exact (hpar v (g.onBoard_lt hv)).mpr rfl
  rw [this, List.toFinset_card_of_nodup hnd, List.length_map]

/-- Placing a stone on the empty vertex `v` takes the liberty `v` from every string next
to it. -/
theorem libsOf_place {b b2 : FullBoard}
    (hd : b2.m_directions = b.m_directions) (hn : b2.m_vertices_number = b.m_vertices_number)
    {v c q : Nat} (hvn : v < b.m_vertices_number) (hve : b.m_state v = EMPTY) (hc : c ≠ EMPTY)
    (hst : b2.m_state = Function.update b.m_state v c)
    (hp : b2.m_parent = Function.update b.m_parent v v) (hvq : v ≠ q)
    (hpq : b.m_parent v ≠ q) :
    (adjTo b v q → (libsOf b2 q).card + 1 = (libsOf b q).card) ∧
    (¬ adjTo b v q → (libsOf b2 q).card = (libsOf b q).card) := by
  have hadj := adjTo_update_parent hd hp hvq hpq
  constructor
  · intro ha
    have hin : v ∈ libsOf b q := mem_libsOf.mpr ⟨hvn, hve, ha⟩
    have : libsOf b2 q = (libsOf b q).erase v := by
      ext e
      rw [Finset.mem_erase, mem_libsOf, mem_libsOf, hn, hst, hadj, Function.update_apply]
      by_cases hes : e = v
      · subst hes; simp [hc]
      · simp [hes]
    rw [this, Finset.card_erase_of_mem hin]
    have := Finset.card_pos.mpr ⟨v, hin⟩
    omega
  · intro ha
    have : libsOf b2 q = libsOf b q := by
      ext e
      rw [mem_libsOf, mem_libsOf, hn, hst, hadj, Function.update_apply]
      by_cases hes : e = v
      · subst hes; simp [hc, ha]
      · simp [hes]
    rw [this]

/-- The first half of `update_board`: the stone is on the board as a string of its own,
and every invariant holds except that same-colour neighbours are not merged yet. -/
theorem update_place_spec {Z : Zobrist} {BS r v0 v c : Nat} {b0 : FullBoard}
    (inv : InvX Z BS r b0 v0 4) (hv : onBoard b0 v) (hve : b0.m_state v = EMPTY)
    (hc : c < 2) :
    ∃ b, update_place Z b0 c v = b ∧ InvX Z BS r b v 0 ∧
      b.m_state = Function.update b0.m_state v c ∧
      b.m_parent = Function.update b0.m_parent v v ∧
      b.m_neighbors v = b0.m_neighbors v ∧
      b = { b0 with
        m_state := b.m_state, m_next := b.m_next, m_parent := b.m_parent,
        m_liberties := b.m_liberties, m_stones := b.m_stones, m_neighbors := b.m_neighbors,
        m_hash := b.m_hash, m_hash_ko := b.m_hash_ko } := by
  have g0 := inv.geom
  have hvn := g0.onBoard_lt hv
  have hvV : v ≠ VERTICES_NUMBER BS := g0.onBoard_ne_VN hv
  have hpv : b0.m_parent v = VERTICES_NUMBER BS := inv.empty_parent v hv hve
  have hcE : c ≠ EMPTY := by show c ≠ 2; omega
  -- the board handed to `add_neighbor`
  obtain ⟨b4, hb4⟩ : ∃ b4 : FullBoard, b4 = { b0 with
      m_hash := b0.m_hash ^^^ Z.zobrist_states (b0.m_state v) v ^^^ Z.zobrist_states c v
      m_hash_ko := b0.m_hash_ko ^^^ Z.zobrist_states (b0.m_state v) v ^^^ Z.zobrist_states c v
      m_state := Function.update b0.m_state v c
      m_next := Function.update b0.m_next v v
      m_parent := Function.update b0.m_parent v v
      m_liberties := Function.update b0.m_liberties v (b0.m_neighbors v / 256 % 16)
      m_stones := Function.update b0.m_stones v 1 } := ⟨_, rfl⟩
  have g4 : Geom BS b4 := g0.congr (by rw [hb4]) (by rw [hb4]) (by rw [hb4]) (by rw [hb4])
  have hv4 : onBoard b4 v := (onBoard_congr (by rw [hb4]) (by rw [hb4]) v).mpr hv
  have hn4 : ∀ j x, nbr b4 j x = nbr b0 j x := fun j x => nbr_congr (by rw [hb4]) j x
  obtain ⟨b, hbdef, hfr, hnb1, hnb2, hl1, hl2⟩ := neighbor_range4 g4
    (fun n => (n + (1 <<< (NEIGHBOR_SHIFT * c)) + 65536
                  - (1 <<< (NEIGHBOR_SHIFT * EMPTY))) % 65536) dec16 hv4
  have hres : update_place Z b0 c v = b := by
    rw [← hbdef, hb4]
    simp only [update_place, add_neighbor, count_liberties_eq, Function.update_same]
  have e_state : b.m_state = Function.update b0.m_state v c := by rw [hfr, hb4]
  have e_par : b.m_parent = Function.update b0.m_parent v v := by rw [hfr, hb4]
  have e_next : b.m_next = Function.update b0.m_next v v := by rw [hfr, hb4]
  have e_stones : b.m_stones = Function.update b0.m_stones v 1 := by rw [hfr, hb4]
  have e_nv : b.m_vertices_number = b0.m_vertices_number := by rw [hfr, hb4]
  have e_side : b.m_side_vertices = b0.m_side_vertices := by rw [hfr, hb4]
  have e_size : b.m_board_size = b0.m_board_size := by rw [hfr, hb4]
  have e_dir : b.m_directions = b0.m_directions := by rw [hfr, hb4]
  have e_pris : b.m_prisoners = b0.m_prisoners := by rw [hfr, hb4]
  have e_hash : b.m_hash =
      b0.m_hash ^^^ Z.zobrist_states (b0.m_state v) v ^^^ Z.zobrist_states c v := by
    rw [hfr, hb4]
  have e_hash_ko : b.m_hash_ko =
      b0.m_hash_ko ^^^ Z.zobrist_states (b0.m_state v) v ^^^ Z.zobrist_states c v := by
    rw [hfr, hb4]
  have e_nb4 : b4.m_neighbors = b0.m_neighbors := by rw [hb4]
  have e_lib4 : b4.m_liberties = Function.update b0.m_liberties v (b0.m_neighbors v / 256 % 16) := by
    rw [hb4]
  have g : Geom BS b := g0.congr e_side e_size e_nv e_dir
  have hob : ∀ u, onBoard b u ↔ onBoard b0 u := onBoard_congr e_side e_size
  have hnb : ∀ j x, nbr b j x = nbr b0 j x := nbr_congr e_dir
  have hadj4 : ∀ q, adjTo b4 v q ↔ adjTo b0 v q := by
    intro q
    apply adjTo_congr (by rw [hb4])
    intro k hk
    have : nbr b0 k v ≠ v := g0.nbr_ne_self hv hk
    rw [hb4]
    simp [Function.update_apply, this]
  have hnot_nbr : ¬ ∃ k, k < 4 ∧ v = nbr b4 k v := by
    rintro ⟨k, hk, e⟩
    rw [hn4] at e
    exact g0.nbr_ne_self hv hk e.symm
  have e_nbv : b.m_neighbors v = b0.m_neighbors v := by rw [hnb2 v hnot_nbr, e_nb4]
  have no_child : ∀ w, w < b0.m_vertices_number → b0.m_parent w ≠ v :=
    fun w hw => inv.no_child hv hve hw
  have hnadj_v : ¬ adjTo b0 v v := by
    rintro ⟨k, hk, e⟩
    exact no_child _ (g0.nbr_lt hv hk) e
  -- stones other than `v` are the old stones
  have old : ∀ u, u ≠ v → b.m_state u = b0.m_state u ∧ b.m_parent u = b0.m_parent u := by
    intro u hu
    rw [e_state, e_par]
    simp [Function.update_apply, hu]
  have stone_ne : ∀ u, b0.m_state u < 2 → u ≠ v := by
    rintro u hu rfl
    rw [hve] at hu
    exact absurd hu (by decide)
  have root_ne : ∀ u, onBoard b0 u → b0.m_state u < 2 → b0.m_parent u ≠ v :=
    fun u hu _ => no_child u (g0.onBoard_lt hu)
  refine ⟨b, hres, ?_, e_state, e_par, e_nbv, ?_⟩
  · refine ⟨g, ?_, ?_, ?_, ?_, ?_, ?_, ?_, ?_, ?_, ?_, ?_, ?_⟩
    · intro u hu hno
      rw [e_nv] at hu; rw [hob] at hno
      have huv : u ≠ v := by rintro rfl; exact hno hv
      rw [(old u huv).1, (old u huv).2]
      exact inv.border u hu hno
    · intro u hu
      rw [hob] at hu
      by_cases huv : u = v
      · rw [huv, e_state]; simp only [Function.update_same]; show c ≤ 2; omega
      · rw [(old u huv).1]; exact inv.inside u hu
    · intro u hu he
      rw [hob] at hu
      have huv : u ≠ v := by
        rintro rfl
        rw [e_state] at he
        simp only [Function.update_same] at he
        exact hcE he
      rw [(old u huv).1] at he
      rw [(old u huv).2]
      exact inv.empty_parent u hu he
    · intro u hu hs
      rw [hob] at hu
      by_cases huv : u = v
      · subst huv
        have e1 : b.m_parent u = u := by rw [e_par]; simp
        rw [e1, hob]
        exact ⟨hu, rfl, e1⟩
      · rw [(old u huv).1] at hs
        obtain ⟨hq, hqs, hqq⟩ := inv.root u hu hs
        have hqv := root_ne u hu hs
        rw [(old u huv).2, hob, (old _ hqv).1, (old _ hqv).2, (old u huv).1]
        exact ⟨hq, hqs, hqq⟩
    · intro u hu hs
      rw [hob] at hu
      by_cases huv : u = v
      · subst huv
        have e1 : b.m_parent u = u := by rw [e_par]; simp
        refine ⟨[], ⟨by simp, by rw [e_next]; simp⟩, ?_, by rw [e1, e_stones]; simp⟩
        intro w
        rw [e1, e_nv, e_par, Function.update_apply]
        constructor
        · intro hw
          simp only [List.mem_singleton] at hw
          subst hw
          simp [hvn]
        · rintro ⟨hw, hwp⟩
          split at hwp
          · rename_i h; simp [h]
          · exact absurd hwp (no_child w hw)
      · rw [(old u huv).1] at hs
        obtain ⟨lu, hru, hmu, hsu⟩ := inv.ring u hu hs
        have hqv := root_ne u hu hs
        have hmem_ne : ∀ x, x ∈ u :: lu → x ≠ v := by
          rintro x hx rfl
          have := ((hmu x).mp hx).2
          rw [hpv] at this
          exact g0.onBoard_ne_VN (inv.root u hu hs).1 this.symm
        refine ⟨lu, hru.rcongr ?_, ?_, ?_⟩
        · intro x hx
          rw [e_next]; simp [Function.update_apply, hmem_ne x hx]
        · intro w
          rw [hmu w, e_nv, (old u huv).2]
          by_cases hwv : w = v
          · subst hwv
            have e1 : b.m_parent w = w := by rw [e_par]; simp
            rw [e1, hpv]
            constructor
            · rintro ⟨_, h⟩
              exact absurd h.symm (g0.onBoard_ne_VN (inv.root u hu hs).1)
            · rintro ⟨_, h⟩
              exact absurd h.symm hqv
          · rw [(old w hwv).2]
        · rw [(old u huv).2, e_stones]
          simp only [Function.update_apply, hqv, if_false]
          exact hsu
    · intro u j hu hj hs hsame
      rw [hob] at hu
      rw [hnb] at hsame ⊢
      by_cases huv : u = v
      · exact Or.inr (Or.inl ⟨huv, Nat.zero_le _⟩)
      · by_cases hjv : nbr b0 j u = v
        · exact Or.inr (Or.inr ⟨hjv, Nat.zero_le _⟩)
        · left
          rw [(old u huv).1] at hs
          rw [(old u huv).1, (old _ hjv).1] at hsame
          rw [(old u huv).2, (old _ hjv).2]
          rcases inv.closed u j hu hj hs hsame with h | h | h
          · exact h
          · omega
          · have := Nat.mod_lt (j + 2) (show 4 > 0 by decide)
            omega
    · intro u hu hs
      rw [hob] at hu
      by_cases huv : u = v
      · subst huv
        have e1 : b.m_parent u = u := by rw [e_par]; simp
        rw [e1]
      · rw [(old u huv).1] at hs
        have hc0 := inv.connected u hu hs
        rw [(old u huv).2]
        have lift : ∀ x y, Relation.ReflTransGen (link b0) x y → b0.m_state x < 2 →
            Relation.ReflTransGen (link b) x y ∧ b0.m_state y < 2 := by
          intro x y hxy
          induction hxy with
          | refl => intro hx; exact ⟨Relation.ReflTransGen.refl, hx⟩
          | tail hxz hzy ih =>
            intro hx
            rename_i z y
            obtain ⟨ih1, hzs⟩ := ih hx
            have hys : b0.m_state y < 2 := by
              have h1 := (inv.root z hzy.1 hzs).2.1
              have hyst := inv.member_stone (inv.root z hzy.1 hzs).1 (g0.onBoard_lt hzy.2.1)
                hzy.2.2.2
              exact hyst
            refine ⟨Relation.ReflTransGen.tail ih1 ?_, hys⟩
            obtain ⟨k2, hk2, hk3⟩ := hzy.2.2.1
            refine ⟨(hob z).mpr hzy.1, (hob y).mpr hzy.2.1, ⟨k2, hk2, by rw [hnb]; exact hk3⟩, ?_⟩
            rw [(old y (stone_ne y hys)).2, (old z (stone_ne z hzs)).2]
            exact hzy.2.2.2
        exact (lift u _ hc0 hs).1
    · intro hsz u hu
      rw [e_size] at hsz
      rw [hob] at hu
      have ht := tallyOf_update g0 e_dir hv e_state hu
      have hw := shift_color hc
      have hle := tallyOf_le b u
      have e256 : (1 : Nat) <<< (NEIGHBOR_SHIFT * EMPTY) = 256 := rfl
      have hwe : weight EMPTY = 256 := rfl
      by_cases hadj : ∃ k, k < 4 ∧ u = nbr b0 k v
      · rw [hnb1 u (by simpa [hn4] using hadj), e_nb4, inv.tally hsz u hu, hw, e256]
        have := ht.1 hadj
        rw [hve] at this
        omega
      · rw [hnb2 u (by simpa [hn4] using hadj), e_nb4, inv.tally hsz u hu, ht.2 hadj]
    · intro hsz q hq hqs hqr
      rw [e_size] at hsz
      rw [hob] at hq
      by_cases hqv : q = v
      · subst hqv
        rw [hl2 q (fun h => hnadj_v ((hadj4 q).mp h)), e_lib4]
        simp only [Function.update_same]
        rw [inv.tally hsz q hq, tally_empties]
        have hsingle := libsOf_single g ((hob q).mpr hq) (by
            intro w hw
            rw [e_nv] at hw
            rw [e_par, Function.update_apply]
            constructor
            · intro h
              split at h
              · assumption
              · exact absurd h (no_child w hw)
            · intro h; simp [h]) (by
            intro e he hee
            rw [e_nv] at he
            rw [hob]
            by_cases hev : e = q
            · rw [hev]; exact hq
            · rw [(old e hev).1] at hee
              exact inv.empty_onBoard he hee)
        rw [hsingle]
        congr 1
        apply List.filter_congr
        intro k hk
        have hk4 := List.mem_range.mp hk
        rw [hnb, (old _ (g0.nbr_ne_self hq hk4)).1]
      · rw [(old q hqv).1] at hqs
        rw [(old q hqv).2] at hqr
        have hqV : b0.m_parent v ≠ q := by rw [hpv]; exact fun e => g0.onBoard_ne_VN hq e.symm
        have hl := libsOf_place e_dir e_nv hvn hve hcE e_state e_par (Ne.symm hqv) hqV
        have h0 := inv.libs hsz q hq hqs hqr
        have e4 : b4.m_liberties q = b0.m_liberties q := by
          rw [e_lib4]; simp [Function.update_apply, hqv]
        have hcard := libsOf_card_le b0 q
        have hnle := g0.nverts_le
        have hfit := g0.fits
        by_cases hadj : adjTo b0 v q
        · rw [hl1 q ((hadj4 q).mpr hadj), e4, h0, dec16]
          have := hl.1 hadj
          omega
        · rw [hl2 q (fun h => hadj ((hadj4 q).mp h)), e4, h0, hl.2 hadj]
    · intro h1 u hu
      rw [e_size] at h1
      rw [hob] at hu
      have huv : u = v := onBoard_unique h1 g0.side_eq hu hv
      subst huv
      refine ⟨by rw [e_nbv]; exact (inv.lone h1 u hu).1, ?_⟩
      intro _
      refine ⟨by rw [e_par]; simp, ?_⟩
      rw [hl2 u (fun h => hnadj_v ((hadj4 u).mp h)), e_lib4]
      simp only [Function.update_same]
      rw [(inv.lone h1 u hu).1]
    · rw [e_hash_ko, e_nv, e_state, inv.hash_ko]
      rw [statesHash_update Z b0.m_state _ v c hvn (by rw [hve]; decide)
        (by show c ≠ 3; omega)]
    · rw [e_hash, inv.hash]
      simp only [coreHash, e_nv, e_state, e_pris]
      rw [statesHash_update Z b0.m_state _ v c hvn (by rw [hve]; decide)
        (by show c ≠ 3; omega)]
      ac_rfl
  · ext1 <;> first | rfl | (rw [hfr, hb4])

/-! ### The direction loop of `update_board` -/

theorem notc_lt {c : Nat} : notc c < 2 := by
  unfold notc; split <;> omega

theorem notc_ne {c : Nat} : notc c ≠ c := by
  unfold notc; split <;> omega

/-- Once direction `k` has been dealt with, the exception for it can be dropped. -/
theorem InvX.advance {Z : Zobrist} {BS r v k : Nat} {b : FullBoard}
    (inv : InvX Z BS r b v k) (hv : onBoard b v) (hk : k < 4)
    (h : b.m_state (nbr b k v) = b.m_state v → b.m_parent (nbr b k v) = b.m_parent v) :
    InvX Z BS r b v (k + 1) := by
  refine ⟨inv.geom, inv.border, inv.inside, inv.empty_parent, inv.root, inv.ring, ?_,
    inv.connected, inv.tally, inv.libs, inv.lone, inv.hash_ko, inv.hash⟩
  intro u j hu hj hs hsame
  rcases inv.closed u j hu hj hs hsame with h1 | ⟨h1, h2⟩ | ⟨h1, h2⟩
  · exact Or.inl h1
  · by_cases hjk : j = k
    · subst hjk; subst h1
      exact Or.inl (h hsame)
    · exact Or.inr (Or.inl ⟨h1, by omega⟩)
  · by_cases hjk : (j + 2) % 4 = k
    · left
      have hu2 : nbr b k v = u := by
        rw [← h1, ← hjk]; exact inv.geom.nbr_opp hu hj
      rw [h1] at hsame ⊢
      rw [← hu2] at hsame ⊢
      exact (h hsame.symm).symm
    · exact Or.inr (Or.inr ⟨h1, by omega⟩)

theorem Track.init {Z : Zobrist} {BS r c v : Nat} {bp : FullBoard}
    (invp : InvX Z BS r bp v 0) : Track c v bp bp 0 0 0 := by
  have hne : notc c ≠ EMPTY := by have := @notc_lt c; show notc c ≠ 2; omega
  refine ⟨rfl, fun _ => Or.inl rfl, fun _ _ _ => ⟨rfl, rfl⟩, fun _ _ _ _ _ _ h => h, ?_, ?_,
    ?_, ?_, ?_⟩
  · intro u w hu hw hus hp
    have hlt : bp.m_state u < 2 := by rw [hus]; exact notc_lt
    have huo : onBoard bp u := by
      by_contra hno
      have := (invp.border u hu hno).1
      rw [this] at hlt
      exact absurd hlt (by decide)
    obtain ⟨hq, hqs, _⟩ := invp.root u huo hlt
    have hws := invp.member_stone hq hw hp.symm
    have hwo := invp.member_onBoard hq hw hp.symm
    rw [← hqs, hp, (invp.root w hwo hws).2.1]
  · intro u _ h1 h2
    rw [h1] at h2
    exact absurd h2 hne
  · intro j hj; omega
  · symm
    rw [Finset.card_eq_zero, Finset.filter_eq_empty_iff]
    rintro u _ ⟨h1, h2⟩
    rw [h1] at h2
    exact hne h2
  · intro h; omega

theorem Track.nverts {c v k cs cv : Nat} {bp b : FullBoard} (t : Track c v bp b k cs cv) :
    b.m_vertices_number = bp.m_vertices_number := by rw [t.frame]

theorem Track.side {c v k cs cv : Nat} {bp b : FullBoard} (t : Track c v bp b k cs cv) :
    b.m_side_vertices = bp.m_side_vertices := by rw [t.frame]

theorem Track.size {c v k cs cv : Nat} {bp b : FullBoard} (t : Track c v bp b k cs cv) :
    b.m_board_size = bp.m_board_size := by rw [t.frame]

theorem Track.dirs {c v k cs cv : Nat} {bp b : FullBoard} (t : Track c v bp b k cs cv) :
    b.m_directions = bp.m_directions := by rw [t.frame]

theorem Track.state_v {c v k cs cv : Nat} {bp b : FullBoard} (t : Track c v bp b k cs cv)
    (hvs : bp.m_state v = c) : b.m_state v = c := by
  rcases t.state_mono v with h | ⟨h, _⟩
  · rw [h, hvs]
  · rw [hvs] at h; exact absurd h.symm notc_ne

/-- Nothing happens in direction `k`. -/
theorem Track.skip {Z : Zobrist} {BS r c v k cs cv : Nat} {bp b : FullBoard}
    (inv : InvX Z BS r b v k) (t : Track c v bp b k cs cv)
    (hv : onBoard bp v) (hvs : bp.m_state v = c) (hk : k < 4)
    (h1 : ¬ (b.m_state (nbr b k v) = notc c ∧ b.m_liberties (b.m_parent (nbr b k v)) ≤ 0))
    (h2 : ¬ (b.m_state (nbr b k v) = c ∧ b.m_parent v ≠ b.m_parent (nbr b k v))) :
    update_step Z BS c v (b, cs, cv) k = some (b, cs, cv) ∧
      InvX Z BS r b v (k + 1) ∧ Track c v bp b (k + 1) cs cv := by
  have hvb : onBoard b v := (onBoard_congr t.side t.size v).mpr hv
  have hsv := t.state_v hvs
  refine ⟨?_, ?_, ?_⟩
  · simp only [update_step]
    by_cases ho : b.m_state (nbr b k v) = notc c
    · have : ¬ b.m_liberties (b.m_parent (nbr b k v)) ≤ 0 := fun h => h1 ⟨ho, h⟩
      simp [ho, this]
    · by_cases hf : b.m_state (nbr b k v) = c
      · have : b.m_parent v = b.m_parent (nbr b k v) := by
          by_contra hne; exact h2 ⟨hf, hne⟩
        have hcn : c ≠ notc c := Ne.symm notc_ne
        simp [hf, hcn, this]
      · simp [ho, hf]
  · apply inv.advance hvb hk
    intro hs
    rw [hsv] at hs
    by_contra hne
    exact h2 ⟨hs, fun e => hne e.symm⟩
  · refine ⟨t.frame, t.state_mono, t.opp_keep, t.friend_mono, t.whole, t.dead, ?_, t.count,
      t.last⟩
    intro j hj hjs hjl
    by_cases hjk : j = k
    · subst hjk
      have hlt := inv.geom.nbr_lt hvb hk
      rw [nbr_congr t.dirs, t.nverts] at hlt
      rcases t.state_mono (nbr bp j v) with h | ⟨_, h⟩
      · exfalso
        rw [hjs] at h
        obtain ⟨e1, e2⟩ := t.opp_keep _ hlt h
        apply h1
        rw [nbr_congr t.dirs]
        refine ⟨h, ?_⟩
        rw [e1, e2, hjl]
      · exact h
    · exact t.visited j (by omega) hjs hjl

theorem InvX.stone_onBoard {Z : Zobrist} {BS r v k : Nat} {b : FullBoard}
    (inv : InvX Z BS r b v k) {u : Nat} (hu : u < b.m_vertices_number)
    (hs : b.m_state u < 2) : onBoard b u := by
  by_contra hno
  have := (inv.border u hu hno).1
  rw [this] at hs
  exact absurd hs (by decide)

/-- The string in direction `k` is captured. -/
theorem Track.capture {Z : Zobrist} {BS r c v k cs cv : Nat} {bp b : FullBoard}
    (inv : InvX Z BS r b v k) (t : Track c v bp b k cs cv) (hc : c < 2)
    (hv : onBoard bp v) (hvs : bp.m_state v = c) (hk : k < 4)
    (ho : b.m_state (nbr b k v) = notc c)
    (hl : b.m_liberties (b.m_parent (nbr b k v)) ≤ 0) :
    ∃ b2 n2, update_step Z BS c v (b, cs, cv) k = some (b2, cs + n2, nbr b k v) ∧
      InvX Z BS r b2 v (k + 1) ∧ Track c v bp b2 (k + 1) (cs + n2) (nbr b k v) := by
  have g := inv.geom
  have hvb : onBoard b v := (onBoard_congr t.side t.size v).mpr hv
  have hsv := t.state_v hvs
  have hai_lt := g.nbr_lt hvb hk
  have hai_s : b.m_state (nbr b k v) < 2 := by rw [ho]; exact notc_lt
  have hai := inv.stone_onBoard hai_lt hai_s
  obtain ⟨b2, l, hrem, hnd, hmem, hR, inv2⟩ := remove_vertices_string_spec inv hai hai_s
  have hnE : notc c ≠ EMPTY := by have := @notc_lt c; show notc c ≠ 2; omega
  have hcE : c ≠ EMPTY := by show c ≠ 2; omega
  have hnv := t.nverts
  obtain ⟨hp, hps, hpp⟩ := inv.root _ hai hai_s
  -- members of the captured string are opposing stones
  have mem_opp : ∀ u, u ∈ nbr b k v :: l → u < b.m_vertices_number ∧ onBoard b u ∧
      b.m_state u = notc c ∧ b.m_parent u = b.m_parent (nbr b k v) := by
    intro u hu
    obtain ⟨h1, h2⟩ := (hmem u).mp hu
    have huo := inv.member_onBoard hp h1 h2
    have hus := inv.member_stone hp h1 h2
    refine ⟨h1, huo, ?_, h2⟩
    rw [← (inv.root u huo hus).2.1, h2, hps, ho]
  have st_in : ∀ u, u ∈ nbr b k v :: l → b2.m_state u = EMPTY := by
    intro u hu; rw [hR.state_eq, if_pos hu]
  have st_out : ∀ u, u ∉ nbr b k v :: l → b2.m_state u = b.m_state u := by
    intro u hu; rw [hR.state_eq, if_neg hu]
  have par_out : ∀ u, u ∉ nbr b k v :: l → b2.m_parent u = b.m_parent u := by
    intro u hu; rw [hR.parent_eq, if_neg hu]
  have out_of_state : ∀ u, b.m_state u ≠ notc c → u ∉ nbr b k v :: l :=
    fun u hu hin => hu (mem_opp u hin).2.2.1
  have hv_out : v ∉ nbr b k v :: l := out_of_state v (by rw [hsv]; exact Ne.symm notc_ne)
  have hres : update_step Z BS c v (b, cs, cv) k = some (b2, cs + (l.length + 1), nbr b k v) := by
    simp only [update_step, ho, hl, if_true, hrem]
  refine ⟨b2, l.length + 1, hres, ?_, ?_⟩
  · have hvb2 : onBoard b2 v := (onBoard_congr hR.rside hR.rsize v).mpr hvb
    apply inv2.advance hvb2 hk
    intro hs
    exfalso
    rw [nbr_congr hR.rdirs, st_in _ (by simp), st_out v hv_out, hsv] at hs
    exact hcE hs.symm
  · have hfr := hR.frame
    have hfr0 := t.frame
    refine ⟨?_, ?_, ?_, ?_, ?_, ?_, ?_, ?_, ?_⟩
    · ext1 <;> first | rfl | (rw [hfr, hfr0])
    · intro u
      by_cases hin : u ∈ nbr b k v :: l
      · right
        refine ⟨?_, st_in u hin⟩
        rcases t.state_mono u with h | ⟨h, _⟩
        · rw [← h]; exact (mem_opp u hin).2.2.1
        · exact h
      · rw [st_out u hin]; exact t.state_mono u
    · intro u hu hus
      have hout : u ∉ nbr b k v :: l := by
        intro hin
        rw [st_in u hin] at hus
        exact hnE hus.symm
      rw [st_out u hout] at hus
      obtain ⟨e1, e2⟩ := t.opp_keep u hu hus
      rw [par_out u hout]
      refine ⟨e1, ?_⟩
      rw [← e2]
      have hus2 : b.m_state u < 2 := by rw [hus]; exact notc_lt
      have huo := inv.stone_onBoard (by rw [hnv]; exact hu) hus2
      obtain ⟨hq, hqs, hqq⟩ := inv.root u huo hus2
      rw [← e1]
      apply hR.libs_frame _ _ (g.onBoard_ne_VN hq)
      · rintro s hs ⟨j, hj, e⟩
        obtain ⟨hs1, hso, hss, hsp⟩ := mem_opp s hs
        have hwl := g.nbr_lt hso hj
        have hws := inv.member_stone hq hwl e
        have hwo := inv.member_onBoard hq hwl e
        have hwst : b.m_state (nbr b j s) = b.m_state s := by
          rw [← (inv.root _ hwo hws).2.1, e, hqs, hus, hss]
        rcases inv.closed s j hso hj (by rw [hss]; exact notc_lt) hwst with h | ⟨h, _⟩ | ⟨h, _⟩
        · rw [e, hsp] at h
          exact hout ((hmem u).mpr ⟨by rw [hnv]; exact hu, h⟩)
        · rw [h, hsv] at hss
          exact notc_ne hss.symm
        · rw [h, hsv] at hwst
          rw [hss] at hwst
          exact notc_ne hwst.symm
      · intro e
        exact hout ((hmem u).mpr ⟨by rw [hnv]; exact hu, e⟩)
    · intro x y hx hy hxs hys hxy
      have hxb : b.m_state x = c := by
        rcases t.state_mono x with h | ⟨h, _⟩
        · rw [h, hxs]
        · rw [hxs] at h; exact absurd h.symm notc_ne
      have hyb : b.m_state y = c := by
        rcases t.state_mono y with h | ⟨h, _⟩
        · rw [h, hys]
        · rw [hys] at h; exact absurd h.symm notc_ne
      rw [par_out x (out_of_state x (by rw [hxb]; exact Ne.symm notc_ne)),
        par_out y (out_of_state y (by rw [hyb]; exact Ne.symm notc_ne))]
      exact t.friend_mono x y hx hy hxs hys hxy
    · intro u w hu hw hus hp2
      have ih := t.whole u w hu hw hus hp2
      by_cases hub : b.m_state u = notc c
      · have hwb : b.m_state w = notc c := by rw [← ih]; exact hub
        obtain ⟨e1, _⟩ := t.opp_keep u hu hub
        obtain ⟨e2, _⟩ := t.opp_keep w hw hwb
        have hiff : u ∈ nbr b k v :: l ↔ w ∈ nbr b k v :: l := by
          rw [hmem, hmem, e1, e2, hp2, hnv]
          simp [hu, hw]
        by_cases hin : u ∈ nbr b k v :: l
        · rw [st_in u hin, st_in w (hiff.mp hin)]
        · rw [st_out u hin, st_out w (fun h => hin (hiff.mpr h)), ih]
      · have hue : b.m_state u = EMPTY := by
          rcases t.state_mono u with h | ⟨_, h⟩
          · rw [h, hus] at hub; exact absurd rfl hub
          · exact h
        have hwe : b.m_state w = EMPTY := by rw [← ih]; exact hue
        rw [st_out u (out_of_state u hub), st_out w (out_of_state w (by rw [hwe]; exact Ne.symm hnE)),
          ih]
    · intro u hu hus hue
      by_cases hub : b.m_state u = EMPTY
      · exact t.dead u hu hus hub
      · have hin : u ∈ nbr b k v :: l := by
          by_contra hout
          rw [st_out u hout] at hue
          exact hub hue
        obtain ⟨_, _, hss, hsp⟩ := mem_opp u hin
        obtain ⟨e1, _⟩ := t.opp_keep u hu hss
        obtain ⟨e2, e3⟩ := t.opp_keep (nbr b k v) (by rw [← hnv]; exact hai_lt) ho
        refine ⟨?_, k, hk, ?_⟩
        · rw [← e1, hsp, e2, ← e3, ← e2]
          omega
        · rw [← nbr_congr t.dirs, ← e2, ← e1, hsp]
    · intro j hj hjs hjl
      by_cases hjk : j = k
      · subst hjk
        rw [← nbr_congr t.dirs]
        exact st_in _ (by simp)
      · have := t.visited j (by omega) hjs hjl
        by_cases hin : nbr bp j v ∈ nbr b k v :: l
        · exact st_in _ hin
        · rw [st_out _ hin]; exact this
    · rw [t.count]
      have hset : (Finset.range bp.m_vertices_number).filter
          (fun u => bp.m_state u = notc c ∧ b2.m_state u = EMPTY) =
          (Finset.range bp.m_vertices_number).filter
            (fun u => bp.m_state u = notc c ∧ b.m_state u = EMPTY) ∪
          (nbr b k v :: l).toFinset := by
        ext u
        simp only [Finset.mem_union, Finset.mem_filter, Finset.mem_range, List.mem_toFinset]
        constructor
        · rintro ⟨h1, h2, h3⟩
          by_cases hin : u ∈ nbr b k v :: l
          · exact Or.inr hin
          · rw [st_out u hin] at h3
            exact Or.inl ⟨h1, h2, h3⟩
        · rintro (⟨h1, h2, h3⟩ | hin)
          · refine ⟨h1, h2, ?_⟩
            by_cases hin : u ∈ nbr b k v :: l
            · exact st_in u hin
            · rw [st_out u hin]; exact h3
          · obtain ⟨h1, _, hss, _⟩ := mem_opp u hin
            refine ⟨by rw [← hnv]; exact h1, ?_, st_in u hin⟩
            rcases t.state_mono u with h | ⟨h, _⟩
            · rw [← h]; exact hss
            · exact h
      have hdisj : Disjoint ((Finset.range bp.m_vertices_number).filter
            (fun u => bp.m_state u = notc c ∧ b.m_state u = EMPTY))
          (nbr b k v :: l).toFinset := by
        rw [Finset.disjoint_left]
        intro u h1 h2
        simp only [Finset.mem_filter] at h1
        rw [List.mem_toFinset] at h2
        have := (mem_opp u h2).2.2.1
        rw [h1.2.2] at this
        exact hnE this.symm
      rw [hset, Finset.card_union_of_disjoint hdisj, List.toFinset_card_of_nodup hnd]
      simp
    · intro _
      refine ⟨by rw [← hnv]; exact hai_lt, ?_, st_in _ (by simp)⟩
      rcases t.state_mono (nbr b k v) with h | ⟨h, _⟩
      · rw [← h]; exact ho
      · exact h

/-- The effect of `merge_strings b I A` in direction `k`, whichever of the two strings is
the absorbing one. -/
theorem Track.merge_core {Z : Zobrist} {BS r c v k cs cv I A : Nat} {bp b : FullBoard}
    (inv : InvX Z BS r b v k) (t : Track c v bp b k cs cv) (hc : c < 2)
    (hv : onBoard bp v) (hvs : bp.m_state v = c) (hk : k < 4)
    (hf : b.m_state (nbr b k v) = c)
    (hI : onBoard b I) (hIs : b.m_state I = c) (hIr : b.m_parent I = I)
    (hA : onBoard b A) (hAs : b.m_state A = c) (hAr : b.m_parent A = A) (hne : I ≠ A)
    (hends : (b.m_parent v = I ∧ b.m_parent (nbr b k v) = A) ∨
      (b.m_parent v = A ∧ b.m_parent (nbr b k v) = I)) :
    ∃ b2, merge_strings b I A = some b2 ∧
      InvX Z BS r b2 v (k + 1) ∧ Track c v bp b2 (k + 1) cs cv := by
  have g := inv.geom
  have hvb : onBoard b v := (onBoard_congr t.side t.size v).mpr hv
  have hsv := t.state_v hvs
  have hai_lt := g.nbr_lt hvb hk
  have hai := inv.stone_onBoard hai_lt (by rw [hf]; exact hc)
  have hcE : c ≠ EMPTY := by show c ≠ 2; omega
  have hnv := t.nverts
  have htouch : ∃ x y, onBoard b x ∧ onBoard b y ∧ (∃ j, j < 4 ∧ y = nbr b j x) ∧
      b.m_parent x = I ∧ b.m_parent y = A := by
    rcases hends with ⟨h1, h2⟩ | ⟨h1, h2⟩
    · exact ⟨v, nbr b k v, hvb, hai, ⟨k, hk, rfl⟩, h1, h2⟩
    · exact ⟨nbr b k v, v, hai, hvb,
        ⟨(k + 2) % 4, Nat.mod_lt _ (by decide), (g.nbr_opp hvb hk).symm⟩, h2, h1⟩
  obtain ⟨b2, hres, inv2, hfr, hpar, hlib⟩ := merge_strings_spec inv hI (by rw [hIs]; exact hc) hIr
    hA (by rw [hAs]; exact hc) hAr hne (by rw [hIs, hAs]) htouch
  have e_state : b2.m_state = b.m_state := by rw [hfr]
  have e_dir : b2.m_directions = b.m_directions := by rw [hfr]
  have e_side : b2.m_side_vertices = b.m_side_vertices := by rw [hfr]
  have e_size : b2.m_board_size = b.m_board_size := by rw [hfr]
  have par_v : b2.m_parent v = I := by
    rw [hpar]
    rcases hends with ⟨h1, _⟩ | ⟨h1, _⟩
    · rw [if_neg (by rw [h1]; rintro ⟨_, h⟩; exact hne h), h1]
    · rw [if_pos ⟨g.onBoard_lt hvb, h1⟩]
  have par_ai : b2.m_parent (nbr b k v) = I := by
    rw [hpar]
    rcases hends with ⟨_, h2⟩ | ⟨_, h2⟩
    · rw [if_pos ⟨hai_lt, h2⟩]
    · rw [if_neg (by rw [h2]; rintro ⟨_, h⟩; exact hne h), h2]
  -- an opposing stone is in neither string
  have opp_par : ∀ u, u < b.m_vertices_number → b.m_state u = notc c →
      b2.m_parent u = b.m_parent u ∧ b.m_parent u ≠ I := by
    intro u hu hus
    have hus2 : b.m_state u < 2 := by rw [hus]; exact notc_lt
    have huo := inv.stone_onBoard hu hus2
    have hq := (inv.root u huo hus2).2.1
    have hqA : b.m_parent u ≠ A := by
      intro e; rw [e, hAs, hus] at hq; exact notc_ne hq.symm
    have hqI : b.m_parent u ≠ I := by
      intro e; rw [e, hIs, hus] at hq; exact notc_ne hq.symm
    refine ⟨?_, hqI⟩
    rw [hpar, if_neg (by rintro ⟨_, h⟩; exact hqA h)]
  refine ⟨b2, hres, ?_, ?_⟩
  · have hvb2 : onBoard b2 v := (onBoard_congr e_side e_size v).mpr hvb
    apply inv2.advance hvb2 hk
    intro _
    rw [nbr_congr e_dir, par_ai, par_v]
  · have hfr0 := t.frame
    refine ⟨?_, ?_, ?_, ?_, ?_, ?_, ?_, ?_, ?_⟩
    · ext1 <;> first | rfl | (rw [hfr, hfr0])
    · intro u; rw [e_state]; exact t.state_mono u
    · intro u hu hus
      rw [e_state] at hus
      obtain ⟨e1, e2⟩ := t.opp_keep u hu hus
      obtain ⟨e3, e4⟩ := opp_par u (by rw [hnv]; exact hu) hus
      rw [e3]
      refine ⟨e1, ?_⟩
      rw [hlib _ (by rw [← e1]; exact e4), e2]
    · intro x y hx hy hxs hys hxy
      have ih := t.friend_mono x y hx hy hxs hys hxy
      rw [hpar, hpar, ih, hnv]
      simp only [hx, hy, true_and]
    · intro u w hu hw hus hp2
      rw [e_state]; exact t.whole u w hu hw hus hp2
    · intro u hu hus hue
      rw [e_state] at hue; exact t.dead u hu hus hue
    · intro j hj hjs hjl
      rw [e_state]
      by_cases hjk : j = k
      · subst hjk
        exfalso
        rw [nbr_congr t.dirs] at hf
        rcases t.state_mono (nbr bp j v) with h | ⟨_, h⟩
        · rw [hf, hjs] at h; exact notc_ne h.symm
        · rw [hf] at h; exact hcE h
      · exact t.visited j (by omega) hjs hjl
    · rw [e_state]; exact t.count
    · rw [e_state]; exact t.last

/-- The string in direction `k` has the colour of the stone and another parent: the two
strings are merged. -/
theorem Track.merge {Z : Zobrist} {BS r c v k cs cv : Nat} {bp b : FullBoard}
    (inv : InvX Z BS r b v k) (t : Track c v bp b k cs cv) (hc : c < 2)
    (hv : onBoard bp v) (hvs : bp.m_state v = c) (hk : k < 4)
    (hf : b.m_state (nbr b k v) = c)
    (hne : b.m_parent v ≠ b.m_parent (nbr b k v)) :
    ∃ b2, update_step Z BS c v (b, cs, cv) k = some (b2, cs, cv) ∧
      InvX Z BS r b2 v (k + 1) ∧ Track c v bp b2 (k + 1) cs cv := by
  have g := inv.geom
  have hvb : onBoard b v := (onBoard_congr t.side t.size v).mpr hv
  have hsv := t.state_v hvs
  have hai_lt := g.nbr_lt hvb hk
  have hai_s : b.m_state (nbr b k v) < 2 := by rw [hf]; exact hc
  have hai := inv.stone_onBoard hai_lt hai_s
  obtain ⟨h1, h2, h3⟩ := inv.root v hvb (by rw [hsv]; exact hc)
  obtain ⟨h4, h5, h6⟩ := inv.root _ hai hai_s
  rw [hsv] at h2
  rw [hf] at h5
  have hcn : c ≠ notc c := Ne.symm notc_ne
  by_cases hge : b.m_stones (b.m_parent v) ≥ b.m_stones (b.m_parent (nbr b k v))
  · obtain ⟨b2, hres, inv2, t2⟩ := Track.merge_core inv t hc hv hvs hk hf h1 h2 h3 h4 h5 h6 hne
      (Or.inl ⟨rfl, rfl⟩)
    refine ⟨b2, ?_, inv2, t2⟩
    simp only [update_step, hf, hcn, if_false, if_true, ne_eq, hne, not_false_eq_true, hge, hres,
      Option.map_some']
  · obtain ⟨b2, hres, inv2, t2⟩ := Track.merge_core inv t hc hv hvs hk hf h4 h5 h6 h1 h2 h3
      (Ne.symm hne) (Or.inr ⟨rfl, rfl⟩)
    refine ⟨b2, ?_, inv2, t2⟩
    simp only [update_step, hf, hcn, if_false, if_true, ne_eq, hne, not_false_eq_true, hge, hres,
      Option.map_some']

/-- One iteration of the direction loop. -/
theorem update_step_spec {Z : Zobrist} {BS r c v k cs cv : Nat} {bp b : FullBoard}
    (inv : InvX Z BS r b v k) (t : Track c v bp b k cs cv) (hc : c < 2)
    (hv : onBoard bp v) (hvs : bp.m_state v = c) (hk : k < 4) :
    ∃ b2 cs2 cv2, update_step Z BS c v (b, cs, cv) k = some (b2, cs2, cv2) ∧
      InvX Z BS r b2 v (k + 1) ∧ Track c v bp b2 (k + 1) cs2 cv2 := by
  by_cases h1 : b.m_state (nbr b k v) = notc c ∧ b.m_liberties (b.m_parent (nbr b k v)) ≤ 0
  · obtain ⟨b2, n2, h⟩ := Track.capture inv t hc hv hvs hk h1.1 h1.2
    exact ⟨b2, _, _, h⟩
  · by_cases h2 : b.m_state (nbr b k v) = c ∧ b.m_parent v ≠ b.m_parent (nbr b k v)
    · obtain ⟨b2, h⟩ := Track.merge inv t hc hv hvs hk h2.1 h2.2
      exact ⟨b2, _, _, h⟩
    · exact ⟨b, cs, cv, Track.skip inv t hv hvs hk h1 h2⟩

/-- The whole direction loop. -/
theorem update_captures_spec {Z : Zobrist} {BS r c v : Nat} {bp : FullBoard}
    (invp : InvX Z BS r bp v 0) (hc : c < 2) (hv : onBoard bp v) (hvs : bp.m_state v = c) :
    ∃ b cs cv, update_captures Z BS c v bp = some (b, cs, cv) ∧
      InvX Z BS r b v 4 ∧ Track c v bp b 4 cs cv := by
  have t0 : Track c v bp bp 0 0 0 := Track.init invp
  obtain ⟨b1, cs1, cv1, e1, i1, t1⟩ := update_step_spec invp t0 hc hv hvs (by decide)
  obtain ⟨b2, cs2, cv2, e2, i2, t2⟩ := update_step_spec i1 t1 hc hv hvs (by decide)
  obtain ⟨b3, cs3, cv3, e3, i3, t3⟩ := update_step_spec i2 t2 hc hv hvs (by decide)
  obtain ⟨b4, cs4, cv4, e4, i4, t4⟩ := update_step_spec i3 t3 hc hv hvs (by decide)
  refine ⟨b4, cs4, cv4, ?_, i4, t4⟩
  have hr : List.range 4 = [0, 1, 2, 3] := rfl
  simp only [update_captures, hr, List.foldlM, e1, e2, e3, e4, Option.bind_eq_bind,
    Option.some_bind, Option.pure_def]

/-! ### The end of `update_board` -/

theorem xor_cancel_mid (s a b r a2 : Nat) :
    (s ^^^ a ^^^ b ^^^ r) ^^^ a ^^^ a2 = s ^^^ a2 ^^^ b ^^^ r := by
  have : (s ^^^ a ^^^ b ^^^ r) ^^^ a ^^^ a2 = (s ^^^ a2 ^^^ b ^^^ r) ^^^ (a ^^^ a) := by ac_rfl
  rw [this, Nat.xor_self, Nat.xor_zero]

theorem xor_cancel_mid2 (s a b r b2 : Nat) :
    (s ^^^ a ^^^ b ^^^ r) ^^^ b ^^^ b2 = s ^^^ a ^^^ b2 ^^^ r := by
  have : (s ^^^ a ^^^ b ^^^ r) ^^^ b ^^^ b2 = (s ^^^ a ^^^ b2 ^^^ r) ^^^ (b ^^^ b) := by ac_rfl
  rw [this, Nat.xor_self, Nat.xor_zero]

theorem update_books_inv {Z : Zobrist} {BS r c v k cs : Nat} {b : FullBoard}
    (inv : InvX Z BS r b v k) (hc : c < 2) : InvX Z BS r (update_books Z c v cs b) v k := by
  refine ⟨⟨inv.geom.side_eq, inv.geom.nverts_eq, inv.geom.size_le, inv.geom.fits, inv.geom.dir0,
    inv.geom.dir1, inv.geom.dir2, inv.geom.dir3⟩, inv.border, inv.inside, inv.empty_parent,
    inv.root, inv.ring, inv.closed, inv.connected, inv.tally, inv.libs, inv.lone, inv.hash_ko, ?_⟩
  show b.m_hash ^^^ Z.zobrist_prisoners c (b.m_prisoners c)
      ^^^ Z.zobrist_prisoners c (b.m_prisoners c + cs) =
    statesHash Z b.m_state b.m_vertices_number
      ^^^ Z.zobrist_prisoners 0 (Function.update b.m_prisoners c (b.m_prisoners c + cs) 0)
      ^^^ Z.zobrist_prisoners 1 (Function.update b.m_prisoners c (b.m_prisoners c + cs) 1) ^^^ r
  rw [inv.hash, coreHash]
  interval_cases c
  · simp only [Function.update_same, Function.update_apply, if_neg (show (1 : Nat) ≠ 0 by decide)]
    exact xor_cancel_mid _ _ _ _ _
  · simp only [Function.update_same, Function.update_apply, if_neg (show (0 : Nat) ≠ 1 by decide)]
    exact xor_cancel_mid2 _ _ _ _ _

theorem update_finish_spec {Z : Zobrist} {BS r c v cs cv eye : Nat} {b : FullBoard}
    (inv : InvX Z BS r b v 4) (hc : c < 2) (hv : onBoard b v) (hvs : b.m_state v = c) :
    ∃ b2, update_finish Z BS c v eye (b, cs, cv) =
        some (b2, if cs = 1 ∧ eye ≠ 0 then cv else NO_VERTEX) ∧
      InvX Z BS r b2 v 4 ∧
      ((b.m_liberties (b.m_parent v) ≠ 0 ∧ b2 = update_books Z c v cs b) ∨
       (b.m_liberties (b.m_parent v) = 0 ∧ ∃ l, (v :: l).Nodup ∧
          (∀ w, w ∈ v :: l ↔ (w < b.m_vertices_number ∧ b.m_parent w = b.m_parent v)) ∧
          RemInv Z BS r (update_books Z c v cs b) (b.m_parent v) (v :: l) b2)) := by
  have inv6 : InvX Z BS r (update_books Z c v cs b) v 4 := update_books_inv inv hc
  have e1 : (update_books Z c v cs b).m_liberties = b.m_liberties := rfl
  have e2 : (update_books Z c v cs b).m_parent = b.m_parent := rfl
  by_cases hl : b.m_liberties (b.m_parent v) = 0
  · obtain ⟨b2, l, hrem, hnd, hmem, hR, inv2⟩ :=
      @remove_vertices_string_spec Z BS r v 4 v _ inv6 hv (by
        rw [show (update_books Z c v cs b).m_state v = b.m_state v from rfl, hvs]; exact hc)
    refine ⟨b2, ?_, inv2, Or.inr ⟨hl, l, hnd, hmem, hR⟩⟩
    simp only [update_books] at hrem
    simp only [update_finish, Function.update_same, hl, if_true, hrem, Option.map_some']
    split <;> rfl
  · refine ⟨update_books Z c v cs b, ?_, inv6, Or.inl ⟨hl, rfl⟩⟩
    simp only [update_finish, update_books, Function.update_same, hl, if_false]
    split <;> rfl

/-- With no direction left to visit, the invariant does not depend on the vertex. -/
theorem InvX.rebase {Z : Zobrist} {BS r v : Nat} {b : FullBoard} (inv : InvX Z BS r b v 4)
    (v2 : Nat) : InvX Z BS r b v2 4 := by
  refine ⟨inv.geom, inv.border, inv.inside, inv.empty_parent, inv.root, inv.ring, ?_,
    inv.connected, inv.tally, inv.libs, inv.lone, inv.hash_ko, inv.hash⟩
  intro u j hu hj hs hsame
  rcases inv.closed u j hu hj hs hsame with h | ⟨_, h⟩ | ⟨_, h⟩
  · exact Or.inl h
  · omega
  · have := Nat.mod_lt (j + 2) (show 4 > 0 by decide); omega

theorem InvX.toInv {Z : Zobrist} {BS r v : Nat} {b : FullBoard} (inv : InvX Z BS r b v 4) :
    Inv Z BS r b := inv.rebase 0

/-- Adjacent stones of one colour belong to one string. -/
theorem Inv.closed4 {Z : Zobrist} {BS r v : Nat} {b : FullBoard} (inv : InvX Z BS r b v 4)
    {u j : Nat} (hu : onBoard b u) (hj : j < 4) (hs : b.m_state u < 2)
    (hsame : b.m_state (nbr b j u) = b.m_state u) : b.m_parent (nbr b j u) = b.m_parent u := by
  rcases inv.closed u j hu hj hs hsame with h | ⟨_, h⟩ | ⟨_, h⟩
  · exact h
  · omega
  · have := Nat.mod_lt (j + 2) (show 4 > 0 by decide); omega

/-- The three stages of `update_board` on a board that satisfies the invariant: the
placement, the direction loop, and the final bookkeeping with the self-removal. -/
theorem update_board_spec {Z : Zobrist} {BS r c v : Nat} {b0 : FullBoard}
    (inv : Inv Z BS r b0) (hv : onBoard b0 v) (hve : b0.m_state v = EMPTY) (hc : c < 2) :
    ∃ bp b4 cs cv b2,
      update_place Z b0 c v = bp ∧ InvX Z BS r bp v 0 ∧
      bp.m_state = Function.update b0.m_state v c ∧
      bp.m_parent = Function.update b0.m_parent v v ∧
      bp = { b0 with
        m_state := bp.m_state, m_next := bp.m_next, m_parent := bp.m_parent,
        m_liberties := bp.m_liberties, m_stones := bp.m_stones, m_neighbors := bp.m_neighbors,
        m_hash := bp.m_hash, m_hash_ko := bp.m_hash_ko } ∧
      InvX Z BS r b4 v 4 ∧ Track c v bp b4 4 cs cv ∧
      update_board Z BS b0 c v =
        some (b2, if cs = 1 ∧ (b0.m_neighbors v &&& s_eye_mask (notc c)) ≠ 0 then cv
          else NO_VERTEX) ∧
      Inv Z BS r b2 ∧
      ((b4.m_liberties (b4.m_parent v) ≠ 0 ∧ b2 = update_books Z c v cs b4) ∨
       (b4.m_liberties (b4.m_parent v) = 0 ∧ ∃ l, (v :: l).Nodup ∧
          (∀ w, w ∈ v :: l ↔ (w < b4.m_vertices_number ∧ b4.m_parent w = b4.m_parent v)) ∧
          RemInv Z BS r (update_books Z c v cs b4) (b4.m_parent v) (v :: l) b2)) := by
  obtain ⟨bp, hbp, invp, e_st, e_par, e_nb, hfr⟩ := update_place_spec inv hv hve hc
  have hvp : onBoard bp v := (onBoard_congr (by rw [hfr]) (by rw [hfr]) v).mpr hv
  have hvs : bp.m_state v = c := by rw [e_st]; simp
  obtain ⟨b4, cs, cv, hcap, inv4, t4⟩ := update_captures_spec invp hc hvp hvs
  have hv4 : onBoard b4 v := (onBoard_congr t4.side t4.size v).mpr hvp
  obtain ⟨b2, hfin, inv2, halt⟩ := @update_finish_spec Z BS r c v cs cv
    (b0.m_neighbors v &&& s_eye_mask (notc c)) b4 inv4 hc hv4 (t4.state_v hvs)
  refine ⟨bp, b4, cs, cv, b2, hbp, invp, e_st, e_par, hfr, inv4, t4, ?_, inv2.toInv, halt⟩
  simp only [update_board, hbp, hcap, e_nb, hfin]

/-- Totality of `update_board`, with the invariant re-established. -/
theorem update_board_inv {Z : Zobrist} {BS r c v : Nat} {b0 : FullBoard}
    (inv : Inv Z BS r b0) (hv : onBoard b0 v) (hve : b0.m_state v = EMPTY) (hc : c < 2) :
    ∃ b2 ko, update_board Z BS b0 c v = some (b2, ko) ∧ Inv Z BS r b2 := by
  obtain ⟨_, _, _, _, b2, _, _, _, _, _, _, _, h, hi, _⟩ := update_board_spec inv hv hve hc
  exact ⟨b2, _, h, hi⟩

/-! ### `reset_board` establishes the invariant -/

theorem reset_clear_fold (VN : Nat) (b : FullBoard) (n : Nat) :
    ∃ b2, (List.range n).foldl (reset_clear VN) b = b2 ∧
      b2 = { b with m_state := b2.m_state, m_neighbors := b2.m_neighbors,
                    m_parent := b2.m_parent } ∧
      (∀ u, u < n → b2.m_state u = INVALID ∧ b2.m_neighbors u = 0 ∧ b2.m_parent u = VN) ∧
      (∀ u, n ≤ u → b2.m_state u = b.m_state u ∧ b2.m_neighbors u = b.m_neighbors u ∧
        b2.m_parent u = b.m_parent u) := by
  induction n with
  | zero => exact ⟨b, rfl, rfl, fun u hu => by omega, fun u _ => ⟨rfl, rfl, rfl⟩⟩
  | succ n ih =>
    obtain ⟨b1, h1, hfr, hin, hout⟩ := ih
    refine ⟨reset_clear VN b1 n, by rw [List.range_succ, List.foldl_append, h1]; rfl, ?_, ?_, ?_⟩
    · simp only [reset_clear]; rw [hfr]
    · intro u hu
      simp only [reset_clear, Function.update_apply]
      by_cases e : u = n
      · simp [e]
      · simp only [e, if_false]; exact hin u (by omega)
    · intro u hu
      have e : u ≠ n := by omega
      simp only [reset_clear, Function.update_apply, e, if_false]
      exact hout u (by omega)

theorem reset_point_frame (size : Nat) (b : FullBoard) (i j : Nat) :
    reset_point size b i j = { b with
      m_state := (reset_point size b i j).m_state,
      m_neighbors := (reset_point size b i j).m_neighbors,
      m_empty_intersections := (reset_point size b i j).m_empty_intersections,
      m_empty_intersections_indices := (reset_point size b i j).m_empty_intersections_indices,
      m_empty_count := (reset_point size b i j).m_empty_count } := rfl

/-- The inner loop of `reset_board` for the column `i`. -/
theorem reset_inner (size i : Nat) (b : FullBoard) (hside : 0 < b.m_side_vertices) (m : Nat) :
    ∃ b2, (List.range m).foldl (fun acc2 j => reset_point size acc2 i j) b = b2 ∧
      b2 = { b with
        m_state := b2.m_state, m_neighbors := b2.m_neighbors,
        m_empty_intersections := b2.m_empty_intersections,
        m_empty_intersections_indices := b2.m_empty_intersections_indices,
        m_empty_count := b2.m_empty_count } ∧
      (∀ u, (∀ j, j < m → u ≠ get_vertex b i j) →
        b2.m_state u = b.m_state u ∧ b2.m_neighbors u = b.m_neighbors u) ∧
      (∀ j, j < m → b2.m_state (get_vertex b i j) = EMPTY ∧
        b2.m_neighbors (get_vertex b i j) =
          reset_axis size j (reset_axis size i (b.m_neighbors (get_vertex b i j)))) := by
  induction m with
  | zero => exact ⟨b, rfl, rfl, fun u _ => ⟨rfl, rfl⟩, fun j hj => by omega⟩
  | succ m ih =>
    obtain ⟨b1, h1, hfr, hout, hin⟩ := ih
    have hs1 : b1.m_side_vertices = b.m_side_vertices := by rw [hfr]
    have hgv : ∀ x y, get_vertex b1 x y = get_vertex b x y := by
      intro x y; simp only [get_vertex, hs1]
    have hinj : ∀ j j2, get_vertex b i j = get_vertex b i j2 → j = j2 := by
      intro j j2 e
      simp only [get_vertex] at e
      have : (j + 1) * b.m_side_vertices = (j2 + 1) * b.m_side_vertices := by omega
      have := Nat.eq_of_mul_eq_mul_right hside this
      omega
    refine ⟨reset_point size b1 i m, by rw [List.range_succ, List.foldl_append, h1]; rfl,
      ?_, ?_, ?_⟩
    · rw [reset_point_frame]; rw [hfr]
    · intro u hu
      have e : u ≠ get_vertex b1 i m := by rw [hgv]; exact hu m (by omega)
      simp only [reset_point, Function.update_apply, e, if_false]
      exact hout u (fun j hj => hu j (by omega))
    · intro j hj
      by_cases e : j = m
      · subst e
        have hold := hout (get_vertex b i j) (fun j2 hj2 e2 => by
          have := hinj _ _ e2; omega)
        simp only [reset_point, hgv, Function.update_same, hold.2, true_and]
      · have hne : get_vertex b i j ≠ get_vertex b1 i m := by
          rw [hgv]; intro e2; exact e (hinj _ _ e2)
        simp only [reset_point, Function.update_apply, hne, if_false]
        exact hin j (by omega)

/-- The nested loop of `reset_board`. -/
theorem reset_outer (size : Nat) (b : FullBoard) (hside : b.m_side_vertices = size + 2)
    (m : Nat) (hm : m ≤ size) :
    ∃ b2, (List.range m).foldl
        (fun acc i => (List.range size).foldl (fun acc2 j => reset_point size acc2 i j) acc) b
          = b2 ∧
      b2 = { b with
        m_state := b2.m_state, m_neighbors := b2.m_neighbors,
        m_empty_intersections := b2.m_empty_intersections,
        m_empty_intersections_indices := b2.m_empty_intersections_indices,
        m_empty_count := b2.m_empty_count } ∧
      (∀ u, (∀ i j, i < m → j < size → u ≠ get_vertex b i j) →
        b2.m_state u = b.m_state u ∧ b2.m_neighbors u = b.m_neighbors u) ∧
      (∀ i j, i < m → j < size → b2.m_state (get_vertex b i j) = EMPTY ∧
        b2.m_neighbors (get_vertex b i j) =
          reset_axis size j (reset_axis size i (b.m_neighbors (get_vertex b i j)))) := by
  induction m with
  | zero => exact ⟨b, rfl, rfl, fun u _ => ⟨rfl, rfl⟩, fun i j hi => by omega⟩
  | succ m ih =>
    obtain ⟨b1, h1, hfr, hout, hin⟩ := ih (by omega)
    have hs1 : b1.m_side_vertices = b.m_side_vertices := by rw [hfr]
    have hgv : ∀ x y, get_vertex b1 x y = get_vertex b x y := by
      intro x y; simp only [get_vertex, hs1]
    obtain ⟨b2, h2, hfr2, hout2, hin2⟩ := reset_inner size m b1 (by rw [hs1, hside]; omega) size
    have hinj : ∀ i j i2 j2, i < size → i2 < size →
        get_vertex b i j = get_vertex b i2 j2 → i = i2 ∧ j = j2 := by
      intro i j i2 j2 hi hi2 e
      simp only [get_vertex, hside] at e
      have e1 := congrArg (fun x => x % (size + 2)) e
      have e2 := congrArg (fun x => x / (size + 2)) e
      simp only [Nat.mul_add_mod_of_lt (show i + 1 < size + 2 by omega),
        Nat.mul_add_mod_of_lt (show i2 + 1 < size + 2 by omega)] at e1
      have hd : ∀ a c, c < size + 2 → (a * (size + 2) + c) / (size + 2) = a := by
        intro a c hc
        rw [Nat.mul_comm, Nat.mul_add_div (by omega), Nat.div_eq_of_lt hc, Nat.add_zero]
      simp only [hd _ _ (show i + 1 < size + 2 by omega),
        hd _ _ (show i2 + 1 < size + 2 by omega)] at e2
      omega
    refine ⟨b2, by rw [List.range_succ, List.foldl_append, h1]; simpa using h2, ?_, ?_, ?_⟩
    · rw [hfr2, hfr]
    · intro u hu
      have := hout2 u (fun j hj => by rw [hgv]; exact hu m j (by omega) hj)
      rw [this.1, this.2]
      exact hout u (fun i j hi hj => hu i j (by omega) hj)
    · intro i j hi hj
      by_cases e : i = m
      · subst e
        have hold := hout (get_vertex b i j) (fun i2 j2 hi2 hj2 e2 => by
          have := hinj _ _ _ _ (by omega) (by omega) e2; omega)
        have := hin2 j hj
        rw [hgv] at this
        rw [this.1, this.2, hold.2]
        exact ⟨rfl, rfl⟩
      · have := hout2 (get_vertex b i j) (fun j2 hj2 e2 => by
          rw [hgv] at e2
          have := hinj _ _ _ _ (by omega) (by omega) e2; omega)
        rw [this.1, this.2]
        exact hin i j (by omega) hj

theorem div_mod_coords (s a c : Nat) (hc : c < s) :
    (a * s + c) / s = a ∧ (a * s + c) % s = c := by
  constructor
  · rw [Nat.mul_comm, Nat.mul_add_div (by omega), Nat.div_eq_of_lt hc, Nat.add_zero]
  · exact Nat.mul_add_mod_of_lt hc

theorem onBoard_coords {b : FullBoard} (a c : Nat) (hc : c < b.m_side_vertices) :
    onBoard b (a * b.m_side_vertices + c) ↔
      (1 ≤ c ∧ c ≤ b.m_board_size ∧ 1 ≤ a ∧ a ≤ b.m_board_size) := by
  obtain ⟨h1, h2⟩ := div_mod_coords b.m_side_vertices a c hc
  simp only [onBoard, h1, h2]

theorem coords_lt {s a c : Nat} (ha : a < s) (hc : c < s) : a * s + c < s * s := by
  have : (a + 1) * s ≤ s * s := Nat.mul_le_mul_right s (by omega)
  have e : (a + 1) * s = a * s + s := by ring
  omega

/-- The fields of the board after `FastBoard::reset_board`. -/
theorem FastBoard_reset_board_spec (BS : Nat) (b : FullBoard) (size : Nat) (hsz : size ≤ BS) :
    ∃ R, FastBoard_reset_board BS b size = R ∧
      R.m_board_size = size ∧ R.m_side_vertices = size + 2 ∧
      R.m_vertices_number = (size + 2) * (size + 2) ∧
      R.m_directions 0 = -((size + 2 : Nat) : Int) ∧ R.m_directions 1 = 1 ∧
      R.m_directions 2 = ((size + 2 : Nat) : Int) ∧ R.m_directions 3 = -1 ∧
      R.m_color_to_move = BLACK ∧ R.m_prisoners 0 = 0 ∧ R.m_prisoners 1 = 0 ∧
      (∀ a c, a < size + 2 → c < size + 2 →
        (1 ≤ c ∧ c ≤ size ∧ 1 ≤ a ∧ a ≤ size) →
          R.m_state (a * (size + 2) + c) = EMPTY ∧
          R.m_neighbors (a * (size + 2) + c) =
            reset_axis size (a - 1) (reset_axis size (c - 1) 0)) ∧
      (∀ a c, a < size + 2 → c < size + 2 →
        ¬ (1 ≤ c ∧ c ≤ size ∧ 1 ≤ a ∧ a ≤ size) →
          R.m_state (a * (size + 2) + c) = INVALID) ∧
      (∀ u, u < (size + 2) * (size + 2) → R.m_parent u = VERTICES_NUMBER BS) := by
  -- the board after the scalar assignments
  obtain ⟨b1, hb1⟩ : ∃ b1 : FullBoard, b1 = { b with
      m_board_size := size
      m_side_vertices := size + 2
      m_vertices_number := (size + 2) * (size + 2)
      m_color_to_move := BLACK
      m_prisoners := Function.update (Function.update b.m_prisoners BLACK 0) WHITE 0
      m_empty_count := 0
      m_directions := fun k =>
        if k = 0 then -((size + 2 : Nat) : Int)
        else if k = 1 then 1
        else if k = 2 then ((size + 2 : Nat) : Int)
        else if k = 3 then -1
        else b.m_directions k } := ⟨_, rfl⟩
  obtain ⟨b2, h2, hfr2, hin2, _⟩ :=
    reset_clear_fold (VERTICES_NUMBER BS) b1 ((size + 2) * (size + 2))
  have hs2 : b2.m_side_vertices = size + 2 := by rw [hfr2, hb1]
  obtain ⟨b3, h3, hfr3, hout3, hin3⟩ := reset_outer size b2 hs2 size (le_refl _)
  have hres : FastBoard_reset_board BS b size = { b3 with
      m_parent := Function.update b3.m_parent (VERTICES_NUMBER BS) (VERTICES_NUMBER BS)
      m_liberties := Function.update b3.m_liberties (VERTICES_NUMBER BS) 16384
      m_next := Function.update b3.m_next (VERTICES_NUMBER BS) (VERTICES_NUMBER BS) } := by
    have e1 : b1.m_vertices_number = (size + 2) * (size + 2) := by rw [hb1]
    simp only [FastBoard_reset_board, ← hb1, e1, h2, h3]
  have hgv : ∀ x y, get_vertex b2 x y = (y + 1) * (size + 2) + (x + 1) := by
    intro x y; simp only [get_vertex, hs2]
  have hVN : (size + 2) * (size + 2) ≤ VERTICES_NUMBER BS := by
    unfold VERTICES_NUMBER; exact Nat.mul_le_mul (by omega) (by omega)
  refine ⟨_, hres, ?_, ?_, ?_, ?_, ?_, ?_, ?_, ?_, ?_, ?_, ?_, ?_, ?_⟩
  · show b3.m_board_size = size
    rw [hfr3, hfr2, hb1]
  · show b3.m_side_vertices = size + 2
    rw [hfr3, hfr2, hb1]
  · show b3.m_vertices_number = _
    rw [hfr3, hfr2, hb1]
  · show b3.m_directions 0 = _
    rw [hfr3, hfr2, hb1]; simp
  · show b3.m_directions 1 = _
    rw [hfr3, hfr2, hb1]; simp
  · show b3.m_directions 2 = _
    rw [hfr3, hfr2, hb1]; simp
  · show b3.m_directions 3 = _
    rw [hfr3, hfr2, hb1]; simp
  · show b3.m_color_to_move = _
    rw [hfr3, hfr2, hb1]
  · show b3.m_prisoners 0 = 0
    rw [hfr3, hfr2, hb1]; simp [Function.update_apply]
  · show b3.m_prisoners 1 = 0
    rw [hfr3, hfr2, hb1]; simp [Function.update_apply]
  · intro a c ha hc hon
    show b3.m_state _ = EMPTY ∧ b3.m_neighbors _ = _
    have := hin3 (c - 1) (a - 1) (by omega) (by omega)
    rw [hgv] at this
    have e : (a - 1 + 1) * (size + 2) + (c - 1 + 1) = a * (size + 2) + c := by
      have h1 : a - 1 + 1 = a := by omega
      have h2 : c - 1 + 1 = c := by omega
      rw [h1, h2]
    rw [e] at this
    refine ⟨this.1, ?_⟩
    rw [this.2, (hin2 _ (coords_lt ha hc)).2.1]
  · intro a c ha hc hon
    show b3.m_state _ = INVALID
    have := hout3 (a * (size + 2) + c) (by
      intro i j hi hj e
      rw [hgv] at e
      have e1 := congrArg (fun x => x % (size + 2)) e
      have e2 := congrArg (fun x => x / (size + 2)) e
      simp only [(div_mod_coords (size + 2) a c hc).1, (div_mod_coords (size + 2) a c hc).2,
        (div_mod_coords (size + 2) (j + 1) (i + 1) (by omega)).1,
        (div_mod_coords (size + 2) (j + 1) (i + 1) (by omega)).2] at e1 e2
      omega)
    rw [this.1]
    exact (hin2 _ (coords_lt ha hc)).1
  · intro u hu
    show Function.update b3.m_parent (VERTICES_NUMBER BS) (VERTICES_NUMBER BS) u = _
    have e : u ≠ VERTICES_NUMBER BS := by omega
    rw [Function.update_apply, if_neg e]
    have : b3.m_parent = b2.m_parent := by rw [hfr3]
    rw [this]
    exact (hin2 u hu).2.2

theorem reset_axis_val {size i : Nat} (hsz : 2 ≤ size) :
    ∀ x, x ≤ 512 → reset_axis size i x =
      x + (if i = 0 then 17 else 256) + (if i = size - 1 then 17 else 256) := by
  have e17 : ((1 : Nat) <<< (NEIGHBOR_SHIFT * BLACK)) ||| (1 <<< (NEIGHBOR_SHIFT * WHITE)) = 17 :=
    by decide
  have e256 : (1 : Nat) <<< (NEIGHBOR_SHIFT * EMPTY) = 256 := by decide
  have e512 : (2 : Nat) <<< (NEIGHBOR_SHIFT * EMPTY) = 512 := by decide
  have key : ∀ x, x ≤ 512 → reset_axis size i x =
      x + (if i = 0 then 17 else 256) + (if i = size - 1 then 17 else 256) := by
    intro x hx
    simp only [reset_axis, e17, e256, e512]
    by_cases h0 : i = 0
    · have : i ≠ size - 1 := by omega
      simp only [h0, true_or, if_true]
      rw [if_neg (by omega)]
      omega
    · by_cases h1 : i = size - 1
      · simp only [h0, h1, or_true, if_true, if_false]
        rw [if_neg (by omega)]
        omega
      · simp only [h0, h1, or_self, if_false]
        omega
  exact key

theorem tally_reset_arith (size a c : Nat) (h2 : 2 ≤ size) (hc1 : 1 ≤ c) (hc2 : c ≤ size)
    (ha1 : 1 ≤ a) (ha2 : a ≤ size) :
    0 + (if c - 1 = 0 then 17 else 256) + (if c - 1 = size - 1 then 17 else 256)
      + (if a - 1 = 0 then 17 else 256) + (if a - 1 = size - 1 then 17 else 256) =
    (if 1 ≤ c ∧ c ≤ size ∧ 1 ≤ a - 1 ∧ a - 1 ≤ size then 256 else 17)
      + (if 1 ≤ c + 1 ∧ c + 1 ≤ size ∧ 1 ≤ a ∧ a ≤ size then 256 else 17)
      + (if 1 ≤ c ∧ c ≤ size ∧ 1 ≤ a + 1 ∧ a + 1 ≤ size then 256 else 17)
      + (if 1 ≤ c - 1 ∧ c - 1 ≤ size ∧ 1 ≤ a ∧ a ≤ size then 256 else 17) := by
  have e0 : (1 ≤ c ∧ c ≤ size ∧ 1 ≤ a - 1 ∧ a - 1 ≤ size) ↔ ¬ a = 1 := by omega
  have e1 : (1 ≤ c + 1 ∧ c + 1 ≤ size ∧ 1 ≤ a ∧ a ≤ size) ↔ ¬ c = size := by omega
  have e2 : (1 ≤ c ∧ c ≤ size ∧ 1 ≤ a + 1 ∧ a + 1 ≤ size) ↔ ¬ a = size := by omega
  have e3 : (1 ≤ c - 1 ∧ c - 1 ≤ size ∧ 1 ≤ a ∧ a ≤ size) ↔ ¬ c = 1 := by omega
  have f0 : c - 1 = 0 ↔ c = 1 := by omega
  have f1 : c - 1 = size - 1 ↔ c = size := by omega
  have f2 : a - 1 = 0 ↔ a = 1 := by omega
  have f3 : a - 1 = size - 1 ↔ a = size := by omega
  simp only [e0, e1, e2, e3, f0, f1, f2, f3, ite_not]
  omega

/-- The board after `reset_board` satisfies the invariant; every point is empty. -/
theorem reset_board_inv (Z : Zobrist) (BS : Nat) (b : FullBoard) (size : Nat)
    (hsz : size ≤ BS) (hfit : VERTICES_NUMBER BS < 65536) :
    Inv Z BS (ZOBRIST_BLACK_TO_MOVE ^^^ Z.zobrist_ko_move NO_VERTEX) (reset_board Z BS b size) ∧
      (reset_board Z BS b size).m_board_size = size ∧
      (reset_board Z BS b size).m_color_to_move = BLACK ∧
      (reset_board Z BS b size).m_prisoners 0 = 0 ∧
      (reset_board Z BS b size).m_prisoners 1 = 0 ∧
      (∀ u, onBoard (reset_board Z BS b size) u → (reset_board Z BS b size).m_state u = EMPTY) := by
  obtain ⟨R0, hR0, e_size, e_side, e_nv, d0, d1, d2, d3, e_col, e_p0, e_p1, h_in, h_out, h_par⟩ :=
    FastBoard_reset_board_spec BS b size hsz
  obtain ⟨R, hR⟩ : ∃ R : FullBoard, R = { R0 with
      m_hash := compute_hash Z R0 NO_VERTEX
      m_hash_ko := statesHash Z R0.m_state R0.m_vertices_number } := ⟨_, rfl⟩
  have hres : reset_board Z BS b size = R := by
    rw [hR]; simp only [reset_board, hR0, compute_hash_ko_eq]
  rw [hres]
  have r_size : R.m_board_size = size := by rw [hR]; exact e_size
  have r_side : R.m_side_vertices = size + 2 := by rw [hR]; exact e_side
  have r_nv : R.m_vertices_number = (size + 2) * (size + 2) := by rw [hR]; exact e_nv
  have r_state : R.m_state = R0.m_state := by rw [hR]
  have r_par : R.m_parent = R0.m_parent := by rw [hR]
  have r_nb : R.m_neighbors = R0.m_neighbors := by rw [hR]
  have g : Geom BS R := by
    refine ⟨by rw [r_side, r_size], by rw [r_nv, r_side], by rw [r_size]; exact hsz, hfit,
      ?_, ?_, ?_, ?_⟩
    · rw [r_side, hR]; exact d0
    · rw [hR]; exact d1
    · rw [r_side, hR]; exact d2
    · rw [hR]; exact d3
  -- every vertex of the array in coordinates
  have coords : ∀ u, u < (size + 2) * (size + 2) →
      u / (size + 2) < size + 2 ∧ u % (size + 2) < size + 2 ∧
      u = u / (size + 2) * (size + 2) + u % (size + 2) := by
    intro u hu
    refine ⟨Nat.div_lt_of_lt_mul hu, Nat.mod_lt _ (by omega), ?_⟩
    have := Nat.div_add_mod u (size + 2)
    rw [Nat.mul_comm] at this
    exact this.symm
  have on_iff : ∀ u, onBoard R u ↔ (1 ≤ u % (size + 2) ∧ u % (size + 2) ≤ size ∧
      1 ≤ u / (size + 2) ∧ u / (size + 2) ≤ size) := by
    intro u; simp only [onBoard, r_side, r_size]
  have st_on : ∀ u, onBoard R u → R.m_state u = EMPTY ∧
      R.m_neighbors u = reset_axis size (u / (size + 2) - 1)
        (reset_axis size (u % (size + 2) - 1) 0) := by
    intro u hu
    have hlt := g.onBoard_lt hu
    rw [r_nv] at hlt
    obtain ⟨ha, hc, e⟩ := coords u hlt
    have := h_in _ _ ha hc ((on_iff u).mp hu)
    rw [← e] at this
    rw [r_state, r_nb]; exact this
  have st_off : ∀ u, u < (size + 2) * (size + 2) → ¬ onBoard R u → R.m_state u = INVALID := by
    intro u hlt hu
    obtain ⟨ha, hc, e⟩ := coords u hlt
    have := h_out _ _ ha hc (fun h => hu ((on_iff u).mpr h))
    rw [← e] at this
    rw [r_state]; exact this
  have nostone : ∀ u, onBoard R u → ¬ R.m_state u < 2 := by
    intro u hu h; rw [(st_on u hu).1] at h; exact absurd h (by decide)
  -- the state of a neighbour in coordinates
  have st_coord : ∀ a c, a < size + 2 → c < size + 2 →
      R.m_state (a * (size + 2) + c) =
        if 1 ≤ c ∧ c ≤ size ∧ 1 ≤ a ∧ a ≤ size then EMPTY else INVALID := by
    intro a c ha hc
    rw [r_state]
    split
    · rename_i h; exact (h_in a c ha hc h).1
    · rename_i h; exact h_out a c ha hc h
  refine ⟨⟨g, ?_, ?_, ?_, ?_, ?_, ?_, ?_, ?_, ?_, ?_, ?_, ?_⟩, r_size, by rw [hR]; exact e_col,
    by rw [hR]; exact e_p0, by rw [hR]; exact e_p1, fun u hu => (st_on u hu).1⟩
  · intro u hu hno
    rw [r_nv] at hu
    exact ⟨st_off u hu hno, by rw [r_par]; exact h_par u hu⟩
  · intro u hu; rw [(st_on u hu).1]
  · intro u hu _
    have := g.onBoard_lt hu
    rw [r_nv] at this
    rw [r_par]; exact h_par u this
  · intro u hu hs; exact absurd hs (nostone u hu)
  · intro u hu hs; exact absurd hs (nostone u hu)
  · intro u j hu _ hs; exact absurd hs (nostone u hu)
  · intro u hu hs; exact absurd hs (nostone u hu)
  · intro h2 u hu
    rw [r_size] at h2
    have hb := (on_iff u).mp hu
    have hlt := g.onBoard_lt hu
    rw [r_nv] at hlt
    obtain ⟨ha, hc, e⟩ := coords u hlt
    generalize hA : u / (size + 2) = a at *
    generalize hC : u % (size + 2) = c at *
    have ax1 := @reset_axis_val size (c - 1) h2 0 (by omega)
    have ax2 := @reset_axis_val size (a - 1) h2
      (reset_axis size (c - 1) 0) (by rw [ax1]; split <;> split <;> omega)
    rw [(st_on u hu).2, hA, hC, ax2, ax1]
    have n0 : nbr R 0 u = (a - 1) * (size + 2) + c := by
      rw [g.nbr0, r_side, e]
      have : a = (a - 1) + 1 := by omega
      conv_lhs => rw [this]
      rw [Nat.add_mul]; omega
    have n1 : nbr R 1 u = a * (size + 2) + (c + 1) := by rw [g.nbr1, e]; omega
    have n2 : nbr R 2 u = (a + 1) * (size + 2) + c := by
      rw [g.nbr2, r_side, e, Nat.add_mul]; omega
    have n3 : nbr R 3 u = a * (size + 2) + (c - 1) := by rw [g.nbr3, e]; omega
    simp only [tallyOf, n0, n1, n2, n3]
    rw [st_coord _ _ (by omega) (by omega), st_coord _ _ (by omega) (by omega),
      st_coord _ _ (by omega) (by omega), st_coord _ _ (by omega) (by omega)]
    have wE : weight EMPTY = 256 := rfl
    have wI : weight INVALID = 17 := rfl
    have wif : ∀ (p : Prop) [Decidable p],
        weight (if p then EMPTY else INVALID) = if p then 256 else 17 := by
      intro p _; split <;> rfl
    simp only [wif]
    exact tally_reset_arith size a c h2 hb.1 hb.2.1 hb.2.2.1 hb.2.2.2
  · intro _ p hp hs; exact absurd hs (nostone p hp)
  · intro h1 u hu
    rw [r_size] at h1
    subst h1
    refine ⟨?_, fun hs => absurd hs (nostone u hu)⟩
    have hb := (on_iff u).mp hu
    rw [(st_on u hu).2]
    have ha : u / (1 + 2) = 1 := by omega
    have hc : u % (1 + 2) = 1 := by omega
    rw [ha, hc]
    have e : reset_axis 1 (1 - 1) (reset_axis 1 (1 - 1) 0) = 546 := by decide
    exact e
  · rw [hR]
  · rw [hR]
    show compute_hash Z R0 NO_VERTEX = coreHash Z R0 ^^^ _
    rw [compute_hash_eq, e_col]
    simp only [if_true]
    ac_rfl

/-! ### Reachable boards, groups and liberties -/

theorem Reachable.inv {Z : Zobrist} {BS : Nat} {b : FullBoard} (h : Reachable Z BS b) :
    ∃ r, Inv Z BS r b := by
  induction h with
  | reset b0 size hsize hfit => exact ⟨_, (reset_board_inv Z BS b0 size hsize hfit).1⟩
  | update b c v b2 ko _ hc hon he hres ih =>
    obtain ⟨r, inv⟩ := ih
    obtain ⟨b3, ko3, h3, inv3⟩ := update_board_inv inv hon he hc
    rw [hres] at h3
    cases h3
    exact ⟨r, inv3⟩

theorem InvX.link_sameAdj {Z : Zobrist} {BS r v k : Nat} {b : FullBoard}
    (inv : InvX Z BS r b v k) {x y : Nat} (hx : b.m_state x < 2) (h : link b x y) :
    sameAdj b x y ∧ b.m_state y < 2 := by
  obtain ⟨hox, hoy, hk, hp⟩ := h
  have rx := inv.root x hox hx
  have hys : b.m_state y < 2 := inv.member_stone rx.1 (inv.geom.onBoard_lt hoy) hp
  have ry := inv.root y hoy hys
  refine ⟨⟨hox, hoy, hk, ?_⟩, hys⟩
  rw [← ry.2.1, hp, rx.2.1]

theorem InvX.path_group {Z : Zobrist} {BS r v k : Nat} {b : FullBoard}
    (inv : InvX Z BS r b v k) {x y : Nat} (hx : b.m_state x < 2)
    (h : Relation.ReflTransGen (link b) x y) : group b x y ∧ b.m_state y < 2 := by
  induction h with
  | refl => exact ⟨Relation.ReflTransGen.refl, hx⟩
  | tail _ hl ih =>
    have := inv.link_sameAdj ih.2 hl
    exact ⟨Relation.ReflTransGen.tail ih.1 this.1, this.2⟩

/-- Stones of one group share colour and parent. -/
theorem group_parent {Z : Zobrist} {BS r v : Nat} {b : FullBoard} (inv : InvX Z BS r b v 4)
    {u w : Nat} (hu : onBoard b u) (hs : b.m_state u < 2) (h : group b u w) :
    onBoard b w ∧ b.m_state w = b.m_state u ∧ b.m_parent w = b.m_parent u := by
  induction h with
  | refl => exact ⟨hu, rfl, rfl⟩
  | tail _ hl ih =>
    obtain ⟨hox, hoy, ⟨j, hj, rfl⟩, hst⟩ := hl
    refine ⟨hoy, by rw [hst, ih.2.1], ?_⟩
    rw [Inv.closed4 inv hox hj (by rw [ih.2.1]; exact hs) hst, ih.2.2]

/-- The group of a stone is the set of vertices that share its parent. -/
theorem group_iff {Z : Zobrist} {BS r v : Nat} {b : FullBoard} (inv : InvX Z BS r b v 4)
    {u : Nat} (hu : onBoard b u) (hs : b.m_state u < 2) (w : Nat) :
    group b u w ↔ (w < b.m_vertices_number ∧ b.m_parent w = b.m_parent u) := by
  constructor
  · intro h
    have := group_parent inv hu hs h
    exact ⟨inv.geom.onBoard_lt this.1, this.2.2⟩
  · rintro ⟨hw, hp⟩
    have ru := inv.root u hu hs
    have how := inv.member_onBoard ru.1 hw hp
    have hws := inv.member_stone ru.1 hw hp
    have p1 := (inv.path_group hs (inv.connected u hu hs)).1
    have hps : b.m_state (b.m_parent u) < 2 := by rw [ru.2.1]; exact hs
    have p2 := link_path_symm inv.geom (inv.connected w how hws)
    rw [hp] at p2
    exact Relation.ReflTransGen.trans p1 (inv.path_group hps p2).1

theorem isLiberty_iff {Z : Zobrist} {BS r v : Nat} {b : FullBoard} (inv : InvX Z BS r b v 4)
    {u : Nat} (hu : onBoard b u) (hs : b.m_state u < 2) (e : Nat) :
    isLiberty b u e ↔ e ∈ libsOf b (b.m_parent u) := by
  rw [mem_libsOf]
  constructor
  · rintro ⟨hoe, hee, w, k, hg, hk, rfl⟩
    have gp := group_parent inv hu hs hg
    refine ⟨inv.geom.onBoard_lt hoe, hee, (k + 2) % 4, Nat.mod_lt _ (by decide), ?_⟩
    rw [inv.geom.nbr_opp gp.1 hk, gp.2.2]
  · rintro ⟨he, hee, k, hk, hp⟩
    have hoe := inv.empty_onBoard he hee
    refine ⟨hoe, hee, nbr b k e, (k + 2) % 4, ?_, Nat.mod_lt _ (by decide),
      inv.geom.nbr_opp hoe hk⟩
    exact (group_iff inv hu hs _).mpr ⟨inv.geom.nbr_lt hoe hk, hp⟩

theorem libCount_card {Z : Zobrist} {BS r v : Nat} {b : FullBoard} (inv : InvX Z BS r b v 4)
    {u : Nat} (hu : onBoard b u) (hs : b.m_state u < 2) (n : Nat) :
    libCount b u n ↔ (libsOf b (b.m_parent u)).card = n := by
  constructor
  · rintro ⟨L, hL, hn⟩
    have : L = libsOf b (b.m_parent u) := by
      ext e; rw [hL, isLiberty_iff inv hu hs]
    rw [← this, hn]
  · intro h
    exact ⟨libsOf b (b.m_parent u), fun e => (isLiberty_iff inv hu hs e).symm, h⟩

/-- On a board of size at least two the liberty counter of a string is its number of
liberties. -/
theorem libCount_iff {Z : Zobrist} {BS r v : Nat} {b : FullBoard} (inv : InvX Z BS r b v 4)
    (h2 : 2 ≤ b.m_board_size) {u : Nat} (hu : onBoard b u) (hs : b.m_state u < 2) (n : Nat) :
    libCount b u n ↔ b.m_liberties (b.m_parent u) = n := by
  have ru := inv.root u hu hs
  rw [libCount_card inv hu hs,
    inv.libs h2 (b.m_parent u) ru.1 (by rw [ru.2.1]; exact hs) ru.2.2]

/-! ### The two queries `is_suicide` and `is_eye` -/

theorem is_suicide_iff (b : FullBoard) (v c : Nat) :
    is_suicide b v c = true ↔
      count_liberties b v = 0 ∧
        ∀ k, k < 4 →
          (b.m_state (nbr b k v) = c → b.m_liberties (b.m_parent (nbr b k v)) ≤ 1) ∧
          (b.m_state (nbr b k v) = notc c → 2 ≤ b.m_liberties (b.m_parent (nbr b k v))) := by
  have hcn : c ≠ notc c := Ne.symm notc_ne
  unfold is_suicide
  by_cases h0 : count_liberties b v = 0
  · simp only [h0, ne_eq, not_true_eq_false, if_false, List.all_eq_true, List.mem_range,
      true_and]
    refine forall_congr' fun k => forall_congr' fun _ => ?_
    by_cases h1 : b.m_state (nbr b k v) = c
    · have h2 : b.m_state (nbr b k v) ≠ notc c := by rw [h1]; exact hcn
      simp [h1, h2, hcn]
    · by_cases h2 : b.m_state (nbr b k v) = notc c
      · simp [h1, h2, notc_ne]
        omega
      · simp [h1, h2]
  · simp [h0]

theorem no_empty_iff {b : FullBoard} {v : Nat} (ht : b.m_neighbors v = tallyOf b v) :
    count_liberties b v = 0 ↔ ∀ k, k < 4 → b.m_state (nbr b k v) ≠ EMPTY := by
  rw [count_liberties_eq, ht, tally_empties, List.length_eq_zero, List.filter_eq_nil_iff]
  simp only [List.mem_range, decide_eq_true_eq]

theorem and_four (x : Nat) : x &&& 4 ≠ 0 ↔ x / 4 % 2 = 1 := by
  have h := Nat.and_two_pow x 2
  have e : (2 : Nat) ^ 2 = 4 := rfl
  rw [e, Nat.testBit_to_div_mod, e] at h
  rw [h]
  by_cases hx : x / 4 % 2 = 1 <;> simp [hx]

theorem and_sixtyfour (x : Nat) : x &&& 64 ≠ 0 ↔ x / 64 % 2 = 1 := by
  have h := Nat.and_two_pow x 6
  have e : (2 : Nat) ^ 6 = 64 := rfl
  rw [e, Nat.testBit_to_div_mod, e] at h
  rw [h]
  by_cases hx : x / 64 % 2 = 1 <;> simp [hx]

/-- The eye-mask test on a tally: all four neighbours are of colour `c` or border. -/
theorem eye_mask_iff (b : FullBoard) (v : Nat) {c : Nat} (hc : c < 2) :
    tallyOf b v &&& s_eye_mask c ≠ 0 ↔
      ∀ k, k < 4 → b.m_state (nbr b k v) = c ∨ 3 ≤ b.m_state (nbr b k v) := by
  have hall : (∀ k, k < 4 → b.m_state (nbr b k v) = c ∨ 3 ≤ b.m_state (nbr b k v)) ↔
      ((b.m_state (nbr b 0 v) = c ∨ 3 ≤ b.m_state (nbr b 0 v)) ∧
       (b.m_state (nbr b 1 v) = c ∨ 3 ≤ b.m_state (nbr b 1 v)) ∧
       (b.m_state (nbr b 2 v) = c ∨ 3 ≤ b.m_state (nbr b 2 v)) ∧
       (b.m_state (nbr b 3 v) = c ∨ 3 ≤ b.m_state (nbr b 3 v))) := by
    constructor
    · intro h; exact ⟨h 0 (by decide), h 1 (by decide), h 2 (by decide), h 3 (by decide)⟩
    · rintro ⟨h0, h1, h2, h3⟩ k hk
      interval_cases k
      · exact h0
      · exact h1
      · exact h2
      · exact h3
  rw [hall, tallyOf]
  interval_cases c
  · have hw : ∀ s, ((s = 0 ∨ 3 ≤ s) ∧ (weight s = 1 ∨ weight s = 17)) ∨
        (¬ (s = 0 ∨ 3 ≤ s) ∧ (weight s = 16 ∨ weight s = 256)) := by
      intro s; unfold weight
      by_cases h0 : s = 0
      · left; subst h0; simp
      · by_cases h1 : s = 1
        · right; subst h1; simp
        · by_cases h2 : s = 2
          · right; subst h2; simp
          · left; simp only [h0, h1, h2, if_false]; exact ⟨Or.inr (by omega), Or.inr trivial⟩
    have hm : s_eye_mask 0 = 4 := rfl
    rw [hm, and_four]
    rcases hw (b.m_state (nbr b 0 v)) with ⟨g0, a0⟩ | ⟨g0, a0⟩ <;>
    rcases hw (b.m_state (nbr b 1 v)) with ⟨g1, a1⟩ | ⟨g1, a1⟩ <;>
    rcases hw (b.m_state (nbr b 2 v)) with ⟨g2, a2⟩ | ⟨g2, a2⟩ <;>
    rcases hw (b.m_state (nbr b 3 v)) with ⟨g3, a3⟩ | ⟨g3, a3⟩ <;>
    simp only [g0, g1, g2, g3, true_and, and_true, and_false, false_and, iff_true,
      iff_false] <;> omega
  · have hw : ∀ s, ((s = 1 ∨ 3 ≤ s) ∧ (weight s = 16 ∨ weight s = 17)) ∨
        (¬ (s = 1 ∨ 3 ≤ s) ∧ (weight s = 1 ∨ weight s = 256)) := by
      intro s; unfold weight
      by_cases h0 : s = 0
      · right; subst h0; simp
      · by_cases h1 : s = 1
        · left; subst h1; simp
        · by_cases h2 : s = 2
          · right; subst h2; simp
          · left; simp only [h0, h1, h2, if_false]; exact ⟨Or.inr (by omega), Or.inr trivial⟩
    have hm : s_eye_mask 1 = 64 := rfl
    rw [hm, and_sixtyfour]
    rcases hw (b.m_state (nbr b 0 v)) with ⟨g0, a0⟩ | ⟨g0, a0⟩ <;>
    rcases hw (b.m_state (nbr b 1 v)) with ⟨g1, a1⟩ | ⟨g1, a1⟩ <;>
    rcases hw (b.m_state (nbr b 2 v)) with ⟨g2, a2⟩ | ⟨g2, a2⟩ <;>
    rcases hw (b.m_state (nbr b 3 v)) with ⟨g3, a3⟩ | ⟨g3, a3⟩ <;>
    simp only [g0, g1, g2, g3, true_and, and_true, and_false, false_and, iff_true,
      iff_false] <;>
    rcases a0 with a0 | a0 <;> rcases a1 with a1 | a1 <;> rcases a2 with a2 | a2 <;>
    rcases a3 with a3 | a3 <;> rw [a0, a1, a2, a3] <;> decide

/-! ### What `update_board` does to the stones -/

theorem libsOf_place_erase {b b2 : FullBoard}
    (hd : b2.m_directions = b.m_directions) (hn : b2.m_vertices_number = b.m_vertices_number)
    {v c q : Nat} (hc : c ≠ EMPTY)
    (hst : b2.m_state = Function.update b.m_state v c)
    (hp : b2.m_parent = Function.update b.m_parent v v) (hvq : v ≠ q)
    (hpq : b.m_parent v ≠ q) : libsOf b2 q = (libsOf b q).erase v := by
  have hadj := adjTo_update_parent hd hp hvq hpq
  ext e
  rw [Finset.mem_erase, mem_libsOf, mem_libsOf, hn, hst, hadj, Function.update_apply]
  by_cases hes : e = v
  · subst hes; simp [hc]
  · simp [hes]

section
variable {Z : Zobrist} {BS r c v cs cv : Nat} {b0 bp b4 : FullBoard}

theorem Placed.nbrp (P : Placed Z BS r c v b0 bp b4 cs cv) (k u : Nat) :
    nbr bp k u = nbr b0 k u := nbr_congr P.dirs_p k u

theorem Placed.nbr4 (P : Placed Z BS r c v b0 bp b4 cs cv) (k u : Nat) :
    nbr b4 k u = nbr b0 k u := nbr_congr (P.track.dirs.trans P.dirs_p) k u

theorem Placed.onp (P : Placed Z BS r c v b0 bp b4 cs cv) (u : Nat) :
    onBoard bp u ↔ onBoard b0 u := onBoard_congr P.side_p P.size_p u

theorem Placed.on4 (P : Placed Z BS r c v b0 bp b4 cs cv) (u : Nat) :
    onBoard b4 u ↔ onBoard b0 u :=
  onBoard_congr (P.track.side.trans P.side_p) (P.track.size.trans P.size_p) u

theorem Placed.nv4 (P : Placed Z BS r c v b0 bp b4 cs cv) :
    b4.m_vertices_number = b0.m_vertices_number := P.track.nverts.trans P.nverts_p

theorem Placed.size4 (P : Placed Z BS r c v b0 bp b4 cs cv) :
    b4.m_board_size = b0.m_board_size := P.track.size.trans P.size_p

theorem Placed.statep (P : Placed Z BS r c v b0 bp b4 cs cv) {u : Nat} (hu : u ≠ v) :
    bp.m_state u = b0.m_state u := by
  rw [P.state_p, Function.update_noteq hu]

theorem Placed.statep_v (P : Placed Z BS r c v b0 bp b4 cs cv) : bp.m_state v = c := by
  rw [P.state_p, Function.update_same]

theorem Placed.parentp (P : Placed Z BS r c v b0 bp b4 cs cv) {u : Nat} (hu : u ≠ v) :
    bp.m_parent u = b0.m_parent u := by
  rw [P.parent_p, Function.update_noteq hu]

theorem Placed.c_ne_empty (P : Placed Z BS r c v b0 bp b4 cs cv) : c ≠ EMPTY := by
  have := P.color
  show c ≠ 2
  omega

theorem Placed.ne_v (P : Placed Z BS r c v b0 bp b4 cs cv) {u : Nat}
    (hu : b0.m_state u ≠ EMPTY) : u ≠ v := by
  rintro rfl
  exact hu P.empty_v

theorem Placed.state4_v (P : Placed Z BS r c v b0 bp b4 cs cv) : b4.m_state v = c :=
  P.track.state_v P.statep_v

theorem Placed.empty4 (P : Placed Z BS r c v b0 bp b4 cs cv) {u : Nat} (hu : u ≠ v)
    (he : b0.m_state u = EMPTY) : b4.m_state u = EMPTY := by
  rcases P.track.state_mono u with h | ⟨_, h⟩
  · rw [h, P.statep hu, he]
  · exact h

theorem Placed.friend4 (P : Placed Z BS r c v b0 bp b4 cs cv) {u : Nat}
    (hs : b0.m_state u = c) : b4.m_state u = c := by
  have hu : u ≠ v := P.ne_v (by rw [hs]; exact P.c_ne_empty)
  rcases P.track.state_mono u with h | ⟨h, _⟩
  · rw [h, P.statep hu, hs]
  · rw [P.statep hu, hs] at h
    exact absurd h.symm notc_ne

theorem Placed.state4_c (P : Placed Z BS r c v b0 bp b4 cs cv) {u : Nat}
    (hs : b4.m_state u = c) (hu : u ≠ v) : b0.m_state u = c := by
  rcases P.track.state_mono u with h | ⟨_, h⟩
  · rw [← P.statep hu, ← h, hs]
  · rw [h] at hs
    exact absurd hs.symm P.c_ne_empty

theorem Placed.notc_ne_empty (_P : Placed Z BS r c v b0 bp b4 cs cv) : notc c ≠ EMPTY := by
  have := @notc_lt c
  show notc c ≠ 2
  omega

theorem Placed.opp4 (P : Placed Z BS r c v b0 bp b4 cs cv) {u : Nat}
    (hs : b0.m_state u = notc c) :
    u ≠ v ∧ bp.m_state u = notc c ∧ (b4.m_state u = notc c ∨ b4.m_state u = EMPTY) := by
  have hu : u ≠ v := P.ne_v (by rw [hs]; exact P.notc_ne_empty)
  have hp : bp.m_state u = notc c := by rw [P.statep hu, hs]
  refine ⟨hu, hp, ?_⟩
  rcases P.track.state_mono u with h | ⟨_, h⟩
  · left; rw [h, hp]
  · right; exact h

/-- A vertex that is empty after the loop was empty before, or held a captured stone. -/
theorem Placed.empty4_inv (P : Placed Z BS r c v b0 bp b4 cs cv) {u : Nat}
    (hs : b4.m_state u = EMPTY) : u ≠ v ∧ (b0.m_state u = EMPTY ∨ b0.m_state u = notc c) := by
  have hu : u ≠ v := by
    rintro rfl
    rw [P.state4_v] at hs
    exact P.c_ne_empty hs
  refine ⟨hu, ?_⟩
  rcases P.track.state_mono u with h | ⟨h, _⟩
  · left; rw [← P.statep hu, ← h, hs]
  · right; rw [← P.statep hu, h]

/-- The root of a string of `b0` that does not contain `v`. -/
theorem Placed.root0 (P : Placed Z BS r c v b0 bp b4 cs cv) {u : Nat} (hu : onBoard b0 u)
    (hs : b0.m_state u < 2) :
    onBoard b0 (b0.m_parent u) ∧ b0.m_state (b0.m_parent u) = b0.m_state u ∧
      b0.m_parent (b0.m_parent u) = b0.m_parent u ∧ v ≠ b0.m_parent u ∧
      b0.m_parent v ≠ b0.m_parent u := by
  have ru := P.inv0.root u hu hs
  refine ⟨ru.1, ru.2.1, ru.2.2, ?_, ?_⟩
  · intro h
    have := ru.2.1
    rw [← h, P.empty_v] at this
    rw [← this] at hs
    exact absurd hs (by decide)
  · rw [P.inv0.empty_parent v P.on_v P.empty_v]
    exact fun h => P.inv0.geom.onBoard_ne_VN ru.1 h.symm

theorem Placed.libs_erase (P : Placed Z BS r c v b0 bp b4 cs cv) {u : Nat} (hu : onBoard b0 u)
    (hs : b0.m_state u < 2) :
    libsOf bp (b0.m_parent u) = (libsOf b0 (b0.m_parent u)).erase v := by
  have ru := P.root0 hu hs
  exact libsOf_place_erase P.dirs_p P.nverts_p P.c_ne_empty P.state_p P.parent_p ru.2.2.2.1
    ru.2.2.2.2

/-- The liberty counter after the placement, for a string of `b0`. -/
theorem Placed.libs_p (P : Placed Z BS r c v b0 bp b4 cs cv) (h2 : 2 ≤ b0.m_board_size)
    {u : Nat} (hu : onBoard b0 u) (hs : b0.m_state u < 2) :
    bp.m_liberties (b0.m_parent u) = ((libsOf b0 (b0.m_parent u)).erase v).card := by
  have ru := P.root0 hu hs
  have hne : b0.m_parent u ≠ v := fun h => ru.2.2.2.1 h.symm
  rw [← P.libs_erase hu hs]
  apply P.invp.libs (by rw [P.size_p]; exact h2) _ ((P.onp _).mpr ru.1)
  · rw [P.statep hne, ru.2.1]; exact hs
  · rw [P.parentp hne, ru.2.2.1]

end

section
variable {Z : Zobrist} {BS r c v cs cv : Nat} {b0 bp b4 : FullBoard}

/-- The loop takes an opposing stone off exactly when `v` was the only liberty of its
string. -/
theorem Placed.capture_iff (P : Placed Z BS r c v b0 bp b4 cs cv) {u : Nat}
    (hu : onBoard b0 u) (hs : b0.m_state u = notc c) :
    b4.m_state u = EMPTY ↔ libsOf b0 (b0.m_parent u) = {v} := by
  have g0 := P.inv0.geom
  have hs2 : b0.m_state u < 2 := by rw [hs]; exact notc_lt
  have huv := (P.opp4 hs).1
  have h2 : 2 ≤ b0.m_board_size := two_le_size g0 hu P.on_v huv
  have hun : u < bp.m_vertices_number := by rw [P.nverts_p]; exact g0.onBoard_lt hu
  have hvn : v < b0.m_vertices_number := g0.onBoard_lt P.on_v
  have hlp := P.libs_p h2 hu hs2
  constructor
  · intro h4
    obtain ⟨hz, j, hj, hpj⟩ := P.track.dead u hun (P.opp4 hs).2.1 h4
    rw [P.parentp huv] at hz hpj
    rw [hlp, Finset.card_eq_zero] at hz
    rw [P.nbrp, P.parentp (g0.nbr_ne_self P.on_v hj)] at hpj
    have hvin : v ∈ libsOf b0 (b0.m_parent u) := mem_libsOf.mpr ⟨hvn, P.empty_v, j, hj, hpj⟩
    ext e
    rw [Finset.mem_singleton]
    constructor
    · intro he
      by_contra hne
      have : e ∈ (libsOf b0 (b0.m_parent u)).erase v := Finset.mem_erase.mpr ⟨hne, he⟩
      rw [hz] at this
      exact absurd this (Finset.not_mem_empty e)
    · rintro rfl; exact hvin
  · intro hl
    have hvin : v ∈ libsOf b0 (b0.m_parent u) := by rw [hl]; exact Finset.mem_singleton_self v
    obtain ⟨_, _, j, hj, hpj⟩ := mem_libsOf.mp hvin
    have hwn : nbr b0 j v < b0.m_vertices_number := g0.nbr_lt P.on_v hj
    have hwv : nbr b0 j v ≠ v := g0.nbr_ne_self P.on_v hj
    have ru := P.inv0.root u hu hs2
    have hws : b0.m_state (nbr b0 j v) = notc c := by
      have how := P.inv0.member_onBoard ru.1 hwn hpj
      have hst := P.inv0.member_stone ru.1 hwn hpj
      rw [← (P.inv0.root _ how hst).2.1, hpj, ru.2.1, hs]
    have hzero : bp.m_liberties (bp.m_parent (nbr bp j v)) = 0 := by
      rw [P.nbrp, P.parentp hwv, hpj, hlp, hl]
      simp
    have hvis := P.track.visited j hj (by rw [P.nbrp, P.statep hwv, hws]) hzero
    rw [P.nbrp] at hvis
    rw [P.track.whole u (nbr b0 j v) hun (by rw [P.nverts_p]; exact hwn) (P.opp4 hs).2.1
      (by rw [P.parentp huv, P.parentp hwv, hpj]), hvis]

/-- The string of `v` after the loop consists of `v` and of strings of colour `c` of `b0`
that touch `v`. -/
theorem Placed.group4 (P : Placed Z BS r c v b0 bp b4 cs cv) {w : Nat} (h : group b4 v w) :
    b4.m_state w = c ∧
      (w = v ∨ ∃ k, k < 4 ∧ b0.m_state (nbr b0 k v) = c ∧ group b0 (nbr b0 k v) w) := by
  have g0 := P.inv0.geom
  induction h with
  | refl => exact ⟨P.state4_v, Or.inl rfl⟩
  | tail _ hl ih =>
    rename_i x y _
    obtain ⟨hox, hoy, ⟨j, hj, hy⟩, hst⟩ := hl
    rw [P.nbr4] at hy
    have hyc : b4.m_state y = c := by rw [hst, ih.1]
    refine ⟨hyc, ?_⟩
    by_cases hyv : y = v
    · exact Or.inl hyv
    · right
      have hy0 := P.state4_c hyc hyv
      rcases ih.2 with hx | ⟨k, hk, hkc, hg⟩
      · subst hx
        exact ⟨j, hj, by rw [← hy]; exact hy0, by rw [← hy]; exact Relation.ReflTransGen.refl⟩
      · refine ⟨k, hk, hkc, Relation.ReflTransGen.tail hg ?_⟩
        have hf : onBoard b0 (nbr b0 k v) := by
          apply P.inv0.stone_onBoard (g0.nbr_lt P.on_v hk)
          rw [hkc]; exact P.color
        have gx := group_parent P.inv0 hf (by rw [hkc]; exact P.color) hg
        exact ⟨(P.on4 x).mp hox, (P.on4 y).mp hoy, ⟨j, hj, hy⟩, by rw [hy0, gx.2.1, hkc]⟩

end

section
variable {Z : Zobrist} {BS r c v cs cv : Nat} {b0 bp b4 : FullBoard}

theorem Placed.libs0 (P : Placed Z BS r c v b0 bp b4 cs cv) (h2 : 2 ≤ b0.m_board_size)
    {u : Nat} (hu : onBoard b0 u) (hs : b0.m_state u < 2) :
    b0.m_liberties (b0.m_parent u) = (libsOf b0 (b0.m_parent u)).card := by
  have ru := P.inv0.root u hu hs
  exact P.inv0.libs h2 _ ru.1 (by rw [ru.2.1]; exact hs) ru.2.2

theorem Placed.v_lib (P : Placed Z BS r c v b0 bp b4 cs cv) {k : Nat} (hk : k < 4) :
    v ∈ libsOf b0 (b0.m_parent (nbr b0 k v)) :=
  mem_libsOf.mpr ⟨P.inv0.geom.onBoard_lt P.on_v, P.empty_v, k, hk, rfl⟩

theorem Placed.nbr_stone (P : Placed Z BS r c v b0 bp b4 cs cv) {k : Nat} (hk : k < 4)
    (hs : b0.m_state (nbr b0 k v) < 2) : onBoard b0 (nbr b0 k v) :=
  P.inv0.stone_onBoard (P.inv0.geom.nbr_lt P.on_v hk) hs

/-- An empty neighbour of `v` after the loop is a liberty of the string of `v`. -/
theorem Placed.adj4 (P : Placed Z BS r c v b0 bp b4 cs cv) {k : Nat} (hk : k < 4)
    (he : b4.m_state (nbr b0 k v) = EMPTY) : nbr b0 k v ∈ libsOf b4 (b4.m_parent v) := by
  refine mem_libsOf.mpr ⟨by rw [P.nv4]; exact P.inv0.geom.nbr_lt P.on_v hk, he, (k + 2) % 4,
    Nat.mod_lt _ (by decide), ?_⟩
  rw [P.nbr4, P.inv0.geom.nbr_opp P.on_v hk]

/-- A liberty other than `v` of a string of colour `c` next to `v` is a liberty of the
string of `v` after the loop. -/
theorem Placed.friend_lib (P : Placed Z BS r c v b0 bp b4 cs cv) {k e : Nat} (hk : k < 4)
    (hf : b0.m_state (nbr b0 k v) = c) (he : e ∈ libsOf b0 (b0.m_parent (nbr b0 k v)))
    (hev : e ≠ v) : e ∈ libsOf b4 (b4.m_parent v) := by
  have g0 := P.inv0.geom
  have hfs : b0.m_state (nbr b0 k v) < 2 := by rw [hf]; exact P.color
  have hfo := P.nbr_stone hk hfs
  have hfv : nbr b0 k v ≠ v := g0.nbr_ne_self P.on_v hk
  obtain ⟨hen, hee, j, hj, hpj⟩ := mem_libsOf.mp he
  have heo : onBoard b0 e := P.inv0.empty_onBoard hen hee
  have hwn : nbr b0 j e < b0.m_vertices_number := g0.nbr_lt heo hj
  have rf := P.inv0.root _ hfo hfs
  have hwo := P.inv0.member_onBoard rf.1 hwn hpj
  have hws := P.inv0.member_stone rf.1 hwn hpj
  have hwc : b0.m_state (nbr b0 j e) = c := by
    rw [← (P.inv0.root _ hwo hws).2.1, hpj, rf.2.1, hf]
  have hwv : nbr b0 j e ≠ v := P.ne_v (by rw [hwc]; exact P.c_ne_empty)
  have hfm := P.track.friend_mono (nbr b0 j e) (nbr b0 k v) (by rw [P.nverts_p]; exact hwn)
    (by rw [P.nverts_p]; exact g0.nbr_lt P.on_v hk) (by rw [P.statep hwv, hwc])
    (by rw [P.statep hfv, hf]) (by rw [P.parentp hwv, P.parentp hfv, hpj])
  have hv4 : onBoard b4 v := (P.on4 v).mpr P.on_v
  have hvs4 : b4.m_state v < 2 := by rw [P.state4_v]; exact P.color
  have hcl := Inv.closed4 P.inv4 hv4 hk hvs4
    (by rw [P.nbr4, P.friend4 hf, P.state4_v])
  rw [P.nbr4] at hcl
  refine mem_libsOf.mpr ⟨by rw [P.nv4]; exact hen, P.empty4 hev hee, j, hj, ?_⟩
  rw [P.nbr4, hfm, hcl]

/-- The pre-check and the loop agree: the string of the placed stone is left without a
liberty exactly when `is_suicide` says so. -/
theorem Placed.suicide_iff (P : Placed Z BS r c v b0 bp b4 cs cv) (h2 : 2 ≤ b0.m_board_size) :
    b4.m_liberties (b4.m_parent v) = 0 ↔ is_suicide b0 v c = true := by
  have g0 := P.inv0.geom
  have hv4 : onBoard b4 v := (P.on4 v).mpr P.on_v
  have hvs4 : b4.m_state v < 2 := by rw [P.state4_v]; exact P.color
  have r4 := P.inv4.root v hv4 hvs4
  have hl4 : b4.m_liberties (b4.m_parent v) = (libsOf b4 (b4.m_parent v)).card :=
    P.inv4.libs (by rw [P.size4]; exact h2) _ r4.1 (by rw [r4.2.1]; exact hvs4) r4.2.2
  rw [hl4, Finset.card_eq_zero, is_suicide_iff, no_empty_iff (P.inv0.tally h2 v P.on_v)]
  constructor
  · intro hemp
    refine ⟨?_, ?_⟩
    · intro k hk he
      have := P.adj4 hk (P.empty4 (g0.nbr_ne_self P.on_v hk) he)
      rw [hemp] at this
      exact absurd this (Finset.not_mem_empty _)
    · intro k hk
      constructor
      · intro hf
        have hfs : b0.m_state (nbr b0 k v) < 2 := by rw [hf]; exact P.color
        rw [P.libs0 h2 (P.nbr_stone hk hfs) hfs]
        by_contra hgt
        have hex : ∃ e, e ∈ libsOf b0 (b0.m_parent (nbr b0 k v)) ∧ e ≠ v := by
          by_contra hno
          push_neg at hno
          have hsub : libsOf b0 (b0.m_parent (nbr b0 k v)) ⊆ {v} :=
            fun e he => Finset.mem_singleton.mpr (hno e he)
          have := Finset.card_le_card hsub
          rw [Finset.card_singleton] at this
          omega
        obtain ⟨e, he, hev⟩ := hex
        have := P.friend_lib hk hf he hev
        rw [hemp] at this
        exact absurd this (Finset.not_mem_empty _)
      · intro ho
        have hos : b0.m_state (nbr b0 k v) < 2 := by rw [ho]; exact notc_lt
        have hoo := P.nbr_stone hk hos
        rw [P.libs0 h2 hoo hos]
        by_contra hlt
        have hle : (libsOf b0 (b0.m_parent (nbr b0 k v))).card ≤ 1 := by omega
        have hsing : libsOf b0 (b0.m_parent (nbr b0 k v)) = {v} := by
          rw [Finset.eq_singleton_iff_unique_mem]
          exact ⟨P.v_lib hk, fun x hx => Finset.card_le_one.mp hle x hx v (P.v_lib hk)⟩
        have := P.adj4 hk ((P.capture_iff hoo ho).mpr hsing)
        rw [hemp] at this
        exact absurd this (Finset.not_mem_empty _)
  · rintro ⟨hne, hall⟩
    have hnocap : ∀ u, u < b0.m_vertices_number → b0.m_state u = notc c →
        b4.m_state u ≠ EMPTY := by
      intro u hun hs h4
      have hs2 : b0.m_state u < 2 := by rw [hs]; exact notc_lt
      have huo : onBoard b0 u := P.inv0.stone_onBoard hun hs2
      have hsing := (P.capture_iff huo hs).mp h4
      have hvin : v ∈ libsOf b0 (b0.m_parent u) := by
        rw [hsing]; exact Finset.mem_singleton_self v
      obtain ⟨_, _, j, hj, hpj⟩ := mem_libsOf.mp hvin
      have ru := P.inv0.root u huo hs2
      have hwn := g0.nbr_lt P.on_v hj
      have hwo := P.inv0.member_onBoard ru.1 hwn hpj
      have hws := P.inv0.member_stone ru.1 hwn hpj
      have hwc : b0.m_state (nbr b0 j v) = notc c := by
        rw [← (P.inv0.root _ hwo hws).2.1, hpj, ru.2.1, hs]
      have := (hall j hj).2 hwc
      rw [P.libs0 h2 hwo hws, hpj, hsing, Finset.card_singleton] at this
      omega
    apply Finset.eq_empty_of_forall_not_mem
    intro e he
    obtain ⟨hen, hee, j, hj, hpj⟩ := mem_libsOf.mp he
    rw [P.nv4] at hen
    rw [P.nbr4] at hpj
    obtain ⟨hev, h0⟩ := P.empty4_inv hee
    have hee0 : b0.m_state e = EMPTY := by
      rcases h0 with h | h
      · exact h
      · exact absurd hee (hnocap e hen h)
    have heo : onBoard b0 e := P.inv0.empty_onBoard hen hee0
    have hwn : nbr b0 j e < b0.m_vertices_number := g0.nbr_lt heo hj
    have hg : group b4 v (nbr b0 j e) :=
      (group_iff P.inv4 hv4 hvs4 _).mpr ⟨by rw [P.nv4]; exact hwn, hpj⟩
    rcases (P.group4 hg).2 with hw | ⟨k, hk, hkc, hgk⟩
    · have : nbr b0 ((j + 2) % 4) v = e := by rw [← hw]; exact g0.nbr_opp heo hj
      exact hne _ (Nat.mod_lt _ (by decide)) (by rw [this]; exact hee0)
    · have hfs : b0.m_state (nbr b0 k v) < 2 := by rw [hkc]; exact P.color
      have hfo := P.nbr_stone hk hfs
      have gp := group_parent P.inv0 hfo hfs hgk
      have he_in : e ∈ libsOf b0 (b0.m_parent (nbr b0 k v)) :=
        mem_libsOf.mpr ⟨hen, hee0, j, hj, gp.2.2⟩
      have hle := (hall k hk).1 hkc
      rw [P.libs0 h2 hfo hfs] at hle
      exact hev (Finset.card_le_one.mp hle e he_in v (P.v_lib hk))

/-- On the board with a single point nothing is ever removed. -/
theorem Placed.lone (P : Placed Z BS r c v b0 bp b4 cs cv) (h1 : b0.m_board_size = 1) :
    b4.m_liberties (b4.m_parent v) ≠ 0 ∧ is_suicide b0 v c = false := by
  have hv4 : onBoard b4 v := (P.on4 v).mpr P.on_v
  have hvs4 : b4.m_state v < 2 := by rw [P.state4_v]; exact P.color
  have l4 := (P.inv4.lone (by rw [P.size4]; exact h1) v hv4).2 hvs4
  constructor
  · rw [l4.1, l4.2]; decide
  · have hn := (P.inv0.lone h1 v P.on_v).1
    have : count_liberties b0 v = 2 := by rw [count_liberties_eq, hn]
    simp [is_suicide, this]

end

section
variable {Z : Zobrist} {BS r c v cs cv : Nat} {b0 bp b4 : FullBoard}

/-- With a liberty left after the loop the counter of the string of `v` is not zero. -/
theorem Placed.alive_of_lib (P : Placed Z BS r c v b0 bp b4 cs cv) {e : Nat}
    (he : e ∈ libsOf b4 (b4.m_parent v)) : b4.m_liberties (b4.m_parent v) ≠ 0 := by
  have hv4 : onBoard b4 v := (P.on4 v).mpr P.on_v
  have hvs4 : b4.m_state v < 2 := by rw [P.state4_v]; exact P.color
  have h1 := onBoard_size_pos P.on_v
  by_cases h2 : 2 ≤ b0.m_board_size
  · have r4 := P.inv4.root v hv4 hvs4
    rw [P.inv4.libs (by rw [P.size4]; exact h2) _ r4.1 (by rw [r4.2.1]; exact hvs4) r4.2.2]
    exact Finset.card_ne_zero_of_mem he
  · exact (P.lone (by omega)).1

/-- A capture leaves the placed stone with a liberty. -/
theorem Placed.alive_of_capture (P : Placed Z BS r c v b0 bp b4 cs cv) {u : Nat}
    (hu : onBoard b0 u) (hs : b0.m_state u = notc c) (h4 : b4.m_state u = EMPTY) :
    b4.m_liberties (b4.m_parent v) ≠ 0 := by
  have g0 := P.inv0.geom
  have hs2 : b0.m_state u < 2 := by rw [hs]; exact notc_lt
  have hsing := (P.capture_iff hu hs).mp h4
  have hvin : v ∈ libsOf b0 (b0.m_parent u) := by
    rw [hsing]; exact Finset.mem_singleton_self v
  obtain ⟨_, _, j, hj, hpj⟩ := mem_libsOf.mp hvin
  have hwv : nbr b0 j v ≠ v := g0.nbr_ne_self P.on_v hj
  have huv := (P.opp4 hs).1
  have hw := P.track.whole u (nbr b0 j v) (by rw [P.nverts_p]; exact g0.onBoard_lt hu)
    (by rw [P.nverts_p]; exact g0.nbr_lt P.on_v hj) (P.opp4 hs).2.1
    (by rw [P.parentp huv, P.parentp hwv, hpj])
  exact P.alive_of_lib (P.adj4 hj (by rw [← hw, h4]))

/-- When `is_suicide` holds the loop captures nothing. -/
theorem Placed.no_capture (P : Placed Z BS r c v b0 bp b4 cs cv)
    (hsu : is_suicide b0 v c = true) {u : Nat} (hu : onBoard b0 u)
    (hs : b0.m_state u = notc c) : b4.m_state u = notc c := by
  rcases (P.opp4 hs).2.2 with h | h
  · exact h
  · exfalso
    have h1 := onBoard_size_pos P.on_v
    by_cases h2 : 2 ≤ b0.m_board_size
    · exact P.alive_of_capture hu hs h ((P.suicide_iff h2).mpr hsu)
    · have := (P.lone (by omega)).2
      rw [hsu] at this
      exact absurd this (by decide)

/-- The set counted by `captured_stones`. -/
theorem Placed.count_mem (P : Placed Z BS r c v b0 bp b4 cs cv) (u : Nat) :
    u ∈ (Finset.range bp.m_vertices_number).filter
        (fun u => bp.m_state u = notc c ∧ b4.m_state u = EMPTY) ↔
      (onBoard b0 u ∧ b0.m_state u = notc c ∧ b4.m_state u = EMPTY) := by
  rw [Finset.mem_filter, Finset.mem_range, P.nverts_p]
  constructor
  · rintro ⟨hun, hs, h4⟩
    have huv : u ≠ v := by
      rintro rfl
      rw [P.statep_v] at hs
      exact notc_ne hs.symm
    rw [P.statep huv] at hs
    exact ⟨P.inv0.stone_onBoard hun (by rw [hs]; exact notc_lt), hs, h4⟩
  · rintro ⟨hu, hs, h4⟩
    exact ⟨P.inv0.geom.onBoard_lt hu, (P.opp4 hs).2.1, h4⟩

/-- A stone of the string of `v` after the loop has colour `c`. -/
theorem Placed.member4 (P : Placed Z BS r c v b0 bp b4 cs cv) {u : Nat}
    (hun : u < b4.m_vertices_number) (hp : b4.m_parent u = b4.m_parent v) :
    b4.m_state u = c := by
  have hv4 : onBoard b4 v := (P.on4 v).mpr P.on_v
  have hvs4 : b4.m_state v < 2 := by rw [P.state4_v]; exact P.color
  have := group_parent P.inv4 hv4 hvs4 ((group_iff P.inv4 hv4 hvs4 u).mpr ⟨hun, hp⟩)
  rw [this.2.1, P.state4_v]

end

/-- The stages of `update_board` on a board that satisfies the invariant. -/
theorem update_board_placed {Z : Zobrist} {BS r c v : Nat} {b0 : FullBoard}
    (inv : Inv Z BS r b0) (hv : onBoard b0 v) (hve : b0.m_state v = EMPTY) (hc : c < 2) :
    ∃ bp b4 cs cv b2, Placed Z BS r c v b0 bp b4 cs cv ∧
      update_board Z BS b0 c v =
        some (b2, if cs = 1 ∧ (b0.m_neighbors v &&& s_eye_mask (notc c)) ≠ 0 then cv
          else NO_VERTEX) ∧
      Inv Z BS r b2 ∧
      b2.m_directions = b0.m_directions ∧ b2.m_vertices_number = b0.m_vertices_number ∧
      b2.m_side_vertices = b0.m_side_vertices ∧ b2.m_board_size = b0.m_board_size ∧
      b2.m_color_to_move = b0.m_color_to_move ∧
      (∀ u, b2.m_state u =
        if b4.m_liberties (b4.m_parent v) = 0 ∧ u < b4.m_vertices_number ∧
            b4.m_parent u = b4.m_parent v then EMPTY else b4.m_state u) := by
  obtain ⟨bp, b4, cs, cv, b2, _, invp, e_st, e_par, hfr, inv4, t4, hres, inv2, halt⟩ :=
    update_board_spec inv hv hve hc
  have P : Placed Z BS r c v b0 bp b4 cs cv :=
    ⟨inv, hv, hve, hc, invp, e_st, e_par, by rw [hfr], by rw [hfr], by rw [hfr], by rw [hfr],
      inv4, t4⟩
  have hcol : b4.m_color_to_move = b0.m_color_to_move := by rw [t4.frame, hfr]
  refine ⟨bp, b4, cs, cv, b2, P, hres, inv2, ?_⟩
  rcases halt with ⟨hl, hb⟩ | ⟨hl, l, _, hmem, rem⟩
  · have e1 : b2.m_directions = b4.m_directions := by rw [hb]; rfl
    have e2 : b2.m_vertices_number = b4.m_vertices_number := by rw [hb]; rfl
    have e3 : b2.m_side_vertices = b4.m_side_vertices := by rw [hb]; rfl
    have e4 : b2.m_board_size = b4.m_board_size := by rw [hb]; rfl
    have e5 : b2.m_color_to_move = b4.m_color_to_move := by rw [hb]; rfl
    have e6 : b2.m_state = b4.m_state := by rw [hb]; rfl
    refine ⟨e1.trans (t4.dirs.trans P.dirs_p), e2.trans P.nv4,
      e3.trans (t4.side.trans P.side_p), e4.trans P.size4, e5.trans hcol, ?_⟩
    intro u
    rw [e6, if_neg (fun h => hl h.1)]
  · have e5 : b2.m_color_to_move = b4.m_color_to_move := by rw [rem.frame]; rfl
    refine ⟨rem.rdirs.trans (t4.dirs.trans P.dirs_p), rem.rnverts.trans P.nv4,
      rem.rside.trans (t4.side.trans P.side_p), rem.rsize.trans P.size4, e5.trans hcol, ?_⟩
    intro u
    rw [rem.state_eq u]
    by_cases hin : u ∈ v :: l
    · rw [if_pos hin, if_pos ⟨hl, (hmem u).mp hin⟩]
    · rw [if_neg hin, if_neg (fun h => hin ((hmem u).mpr h.2))]
      rfl

/-- What `update_board(c, v)` does, in terms of the board before and the board after. -/
theorem update_board_obs {Z : Zobrist} {BS r c v : Nat} {b0 : FullBoard}
    (inv : Inv Z BS r b0) (hv : onBoard b0 v) (hve : b0.m_state v = EMPTY) (hc : c < 2) :
    ∃ b2 ko, update_board Z BS b0 c v = some (b2, ko) ∧ Inv Z BS r b2 ∧
      b2.m_directions = b0.m_directions ∧ b2.m_vertices_number = b0.m_vertices_number ∧
      b2.m_side_vertices = b0.m_side_vertices ∧ b2.m_board_size = b0.m_board_size ∧
      b2.m_color_to_move = b0.m_color_to_move ∧
      (∀ u, onBoard b0 u → b0.m_state u = notc c →
        (b2.m_state u = EMPTY ∨ b2.m_state u = notc c) ∧
        (b2.m_state u = EMPTY ↔ libsOf b0 (b0.m_parent u) = {v})) ∧
      (b2.m_state v = c ∨ b2.m_state v = EMPTY) ∧
      (b2.m_state v = EMPTY ↔ is_suicide b0 v c = true) ∧
      (is_suicide b0 v c = true →
        ∀ u, onBoard b0 u → b0.m_state u = notc c → b2.m_state u = notc c) ∧
      (∀ u, captured b0 b2 c u → b2.m_state v = c) ∧
      (∀ e, placedLiberty b0 c v e → b2.m_state v = c) ∧
      (∀ u, captured b0 b2 c u → (∀ w, captured b0 b2 c w → w = u) →
        (b0.m_neighbors v &&& s_eye_mask (notc c)) ≠ 0 → ko = u) ∧
      ((¬ ∃ u, captured b0 b2 c u ∧ (∀ w, captured b0 b2 c w → w = u) ∧
          (b0.m_neighbors v &&& s_eye_mask (notc c)) ≠ 0) → ko = NO_VERTEX) ∧
      (ko ≠ NO_VERTEX → captured b0 b2 c ko) := by
  obtain ⟨bp, b4, cs, cv, b2, P, hres, inv2, e1, e2, e3, e4, e5, hst2⟩ :=
    update_board_placed inv hv hve hc
  have g0 := inv.geom
  have hcn : c ≠ notc c := Ne.symm notc_ne
  have h1 := onBoard_size_pos hv
  -- opposing stones are not touched by the self-removal
  have opp2 : ∀ u, b0.m_state u = notc c → b2.m_state u = b4.m_state u := by
    intro u hs
    rw [hst2 u]
    split
    · rename_i h
      have hm := P.member4 h.2.1 h.2.2
      rcases (P.opp4 hs).2.2 with h4 | h4
      · rw [h4] at hm; exact absurd hm.symm hcn
      · rw [h4] at hm; exact absurd hm.symm P.c_ne_empty
    · rfl
  have hv2 : b2.m_state v = if b4.m_liberties (b4.m_parent v) = 0 then EMPTY else c := by
    rw [hst2 v]
    by_cases hl : b4.m_liberties (b4.m_parent v) = 0
    · rw [if_pos ⟨hl, by rw [P.nv4]; exact g0.onBoard_lt hv, rfl⟩, if_pos hl]
    · rw [if_neg (fun h => hl h.1), if_neg hl, P.state4_v]
  have hsu : b4.m_liberties (b4.m_parent v) = 0 ↔ is_suicide b0 v c = true := by
    by_cases h2 : 2 ≤ b0.m_board_size
    · exact P.suicide_iff h2
    · have := P.lone (by omega)
      constructor
      · intro h; exact absurd h this.1
      · intro h; rw [this.2] at h; exact absurd h (by decide)
  have hcap : ∀ u, captured b0 b2 c u ↔
      u ∈ (Finset.range bp.m_vertices_number).filter
        (fun u => bp.m_state u = notc c ∧ b4.m_state u = EMPTY) := by
    intro u
    rw [P.count_mem]
    constructor
    · rintro ⟨h1, h2, h3⟩; exact ⟨h1, h2, by rw [← opp2 u h2]; exact h3⟩
    · rintro ⟨h1, h2, h3⟩; exact ⟨h1, h2, by rw [opp2 u h2]; exact h3⟩
  have halive : ∀ e, e ∈ libsOf b4 (b4.m_parent v) → b2.m_state v = c := by
    intro e he
    rw [hv2, if_neg (P.alive_of_lib he)]
  refine ⟨b2, _, hres, inv2, e1, e2, e3, e4, e5, ?_, ?_, ?_, ?_, ?_, ?_, ?_, ?_, ?_⟩
  · intro u hu hs
    rw [opp2 u hs]
    refine ⟨?_, P.capture_iff hu hs⟩
    rcases (P.opp4 hs).2.2 with h | h
    · exact Or.inr h
    · exact Or.inl h
  · rw [hv2]; split
    · exact Or.inr rfl
    · exact Or.inl rfl
  · rw [hv2, ← hsu]
    constructor
    · intro h
      by_contra hl
      rw [if_neg hl] at h
      exact P.c_ne_empty h
    · intro h; rw [if_pos h]
  · intro h u hu hs
    rw [opp2 u hs]
    exact P.no_capture h hu hs
  · rintro u ⟨hu, hs, h2⟩
    rw [opp2 u hs] at h2
    rw [hv2, if_neg (P.alive_of_capture hu hs h2)]
  · rintro e ⟨hev, heo, hee, hk | ⟨k, hk, hf, hlib⟩⟩
    · obtain ⟨k, hk, rfl⟩ := hk
      exact halive _ (P.adj4 hk (P.empty4 hev hee))
    · have hfs : b0.m_state (nbr b0 k v) < 2 := by rw [hf]; exact hc
      have := (isLiberty_iff inv (P.nbr_stone hk hfs) hfs e).mp hlib
      exact halive _ (P.friend_lib hk hf this hev)
  · intro u hu huniq heye
    have hset : (Finset.range bp.m_vertices_number).filter
        (fun u => bp.m_state u = notc c ∧ b4.m_state u = EMPTY) = {u} := by
      rw [Finset.eq_singleton_iff_unique_mem]
      exact ⟨(hcap u).mp hu, fun w hw => huniq w ((hcap w).mpr hw)⟩
    have hcs : cs = 1 := by rw [P.track.count, hset, Finset.card_singleton]
    have hl := P.track.last (by omega)
    have hcvin : captured b0 b2 c cv := (hcap cv).mpr
      (Finset.mem_filter.mpr ⟨Finset.mem_range.mpr hl.1, hl.2⟩)
    rw [if_pos ⟨hcs, heye⟩]
    exact huniq cv hcvin
  · intro hno
    split
    · rename_i h
      exfalso
      obtain ⟨a, ha⟩ := Finset.card_eq_one.mp (P.track.count ▸ h.1)
      apply hno
      refine ⟨a, (hcap a).mpr (by rw [ha]; exact Finset.mem_singleton_self a), ?_, h.2⟩
      intro w hw
      have := (hcap w).mp hw
      rw [ha] at this
      exact Finset.mem_singleton.mp this
    · rfl
  · intro hko
    split at hko
    · rename_i h
      have hl := P.track.last (by omega)
      rw [if_pos h]
      exact (hcap cv).mpr (Finset.mem_filter.mpr ⟨Finset.mem_range.mpr hl.1, hl.2⟩)
    · exact absurd rfl hko

/-! ### `FastState::play_move` -/

theorem play_move_pass (Z : Zobrist) (BS : Nat) (s : FastState) (c : Nat) :
    play_move Z BS s c PASS = some
      { board := { s.board with
          m_hash := s.board.m_hash ^^^ Z.zobrist_ko_move s.m_ko_move
            ^^^ Z.zobrist_ko_move NO_VERTEX
            ^^^ (if s.board.m_color_to_move = c then ZOBRIST_BLACK_TO_MOVE else 0)
            ^^^ Z.zobrist_passes s.m_passes
            ^^^ Z.zobrist_passes (if s.m_passes + 1 > 4 then 4 else s.m_passes + 1)
          m_color_to_move := notc c }
        m_move_numbers := s.m_move_numbers + 1
        m_ko_move := NO_VERTEX
        m_last_move := PASS
        m_komi := s.m_komi
        m_handicap := s.m_handicap
        m_passes := if s.m_passes + 1 > 4 then 4 else s.m_passes + 1 } := by
  simp only [play_move, xor_hash, increment_passes, if_true]
  by_cases h1 : s.board.m_color_to_move = c <;> by_cases h2 : s.m_passes + 1 > 4 <;>
    simp [h1, h2]

theorem play_move_place (Z : Zobrist) (BS : Nat) (s : FastState) (c : Nat) (vertex : Int)
    (hv : vertex ≠ PASS) (b2 : FullBoard) (ko : Nat)
    (hres : update_board Z BS
      { s.board with m_hash := s.board.m_hash ^^^ Z.zobrist_ko_move s.m_ko_move } c
      vertex.toNat = some (b2, ko)) :
    play_move Z BS s c vertex = some
      { board := { b2 with
          m_hash := b2.m_hash ^^^ Z.zobrist_ko_move ko
            ^^^ (if b2.m_color_to_move = c then ZOBRIST_BLACK_TO_MOVE else 0)
            ^^^ Z.zobrist_passes s.m_passes ^^^ Z.zobrist_passes 0
          m_color_to_move := notc c }
        m_move_numbers := s.m_move_numbers + 1
        m_ko_move := ko
        m_last_move := vertex
        m_komi := s.m_komi
        m_handicap := s.m_handicap
        m_passes := 0 } := by
  simp only [play_move, xor_hash, if_neg hv, hres]
  by_cases h1 : b2.m_color_to_move = c <;> simp [h1]

theorem xor_game (core T K p0 P k2 B P2 : Nat) :
    (core ^^^ (T ^^^ K ^^^ p0 ^^^ P)) ^^^ K ^^^ k2 ^^^ B ^^^ P ^^^ P2 =
      core ^^^ ((T ^^^ B) ^^^ k2 ^^^ p0 ^^^ P2) := by
  have : (core ^^^ (T ^^^ K ^^^ p0 ^^^ P)) ^^^ K ^^^ k2 ^^^ B ^^^ P ^^^ P2 =
      (core ^^^ ((T ^^^ B) ^^^ k2 ^^^ p0 ^^^ P2)) ^^^ (K ^^^ K) ^^^ (P ^^^ P) := by ac_rfl
  rw [this, Nat.xor_self, Nat.xor_self, Nat.xor_zero, Nat.xor_zero]

theorem to_move_flip {t c : Nat} (ht : t < 2) (hc : c < 2) :
    (if t = BLACK then ZOBRIST_BLACK_TO_MOVE else 0)
        ^^^ (if t = c then ZOBRIST_BLACK_TO_MOVE else 0) =
      if notc c = BLACK then ZOBRIST_BLACK_TO_MOVE else 0 := by
  interval_cases t <;> interval_cases c <;> decide

/-- The invariant does not read the full hash and the side to move, except through the
hash equation. -/
theorem Inv.retag {Z : Zobrist} {BS r : Nat} {b : FullBoard} (inv : Inv Z BS r b)
    (h t r2 : Nat) (hh : h = coreHash Z b ^^^ r2) :
    Inv Z BS r2 { b with m_hash := h, m_color_to_move := t } :=
  ⟨⟨inv.geom.side_eq, inv.geom.nverts_eq, inv.geom.size_le, inv.geom.fits, inv.geom.dir0,
    inv.geom.dir1, inv.geom.dir2, inv.geom.dir3⟩, inv.border, inv.inside, inv.empty_parent,
    inv.root, inv.ring, inv.closed, inv.connected, inv.tally, inv.libs, inv.lone, inv.hash_ko,
    hh⟩

theorem init_game_ginv (Z : Zobrist) (BS : Nat) (s0 : FastState) (size : Nat) (komi : Rat)
    (hsize : size ≤ BS) (hfit : VERTICES_NUMBER BS < 65536) :
    GInv Z BS (init_game Z BS s0 size komi) := by
  obtain ⟨inv, _, hcol, _, _, _⟩ := reset_board_inv Z BS s0.board size hsize hfit
  refine ⟨?_, ?_, fun h => absurd rfl h⟩
  · have : stateHash Z (init_game Z BS s0 size komi) =
        ZOBRIST_BLACK_TO_MOVE ^^^ Z.zobrist_ko_move NO_VERTEX := by
      show (if (reset_board Z BS s0.board size).m_color_to_move = BLACK
          then ZOBRIST_BLACK_TO_MOVE else 0) ^^^ Z.zobrist_ko_move NO_VERTEX
          ^^^ Z.zobrist_passes 0 ^^^ Z.zobrist_passes 0 = _
      rw [if_pos hcol, Nat.xor_assoc _ (Z.zobrist_passes 0), Nat.xor_self, Nat.xor_zero]
    rw [this]
    exact inv
  · show (reset_board Z BS s0.board size).m_color_to_move < 2
    rw [hcol]; decide

/-- A legal move that is not a pass is a vertex that is on the board and empty. -/
theorem legal_play_vertex {Z : Zobrist} {BS : Nat} {tags : AnalyzeTags} {s : FastState}
    {c : Nat} {vertex : Int} (gi : GInv Z BS s) (hl : legal_play tags s c vertex)
    (hp : vertex ≠ PASS) :
    onBoard s.board vertex.toNat ∧ s.board.m_state vertex.toNat = EMPTY ∧
      vertex ≠ (s.m_ko_move : Int) ∧ is_suicide s.board vertex.toNat c = false ∧
      vertex = (vertex.toNat : Int) := by
  obtain ⟨hleg, hr⟩ := hl
  rcases hr with h | ⟨h0, hlt⟩
  · exact absurd h hp
  · have hres : vertex ≠ RESIGN := by
      intro h; rw [h] at h0; exact absurd h0 (by decide)
    simp only [is_move_legal, Bool.and_eq_true, Bool.or_eq_true, decide_eq_true_eq,
      Bool.not_eq_true', hp, hres, false_or] at hleg
    obtain ⟨_, ⟨hko, hemp⟩, hsu⟩ := hleg
    have hn : vertex.toNat < s.board.m_vertices_number := by omega
    exact ⟨InvX.empty_onBoard gi.board hn hemp, hemp, hko, hsu, by omega⟩

theorem xor_game2 (core T K p0 P k2 B P2 : Nat) :
    (core ^^^ ((T ^^^ K ^^^ p0 ^^^ P) ^^^ K)) ^^^ k2 ^^^ B ^^^ P ^^^ P2 =
      core ^^^ ((T ^^^ B) ^^^ k2 ^^^ p0 ^^^ P2) := by
  have : (core ^^^ ((T ^^^ K ^^^ p0 ^^^ P) ^^^ K)) ^^^ k2 ^^^ B ^^^ P ^^^ P2 =
      (core ^^^ ((T ^^^ B) ^^^ k2 ^^^ p0 ^^^ P2)) ^^^ (K ^^^ K) ^^^ (P ^^^ P) := by ac_rfl
  rw [this, Nat.xor_self, Nat.xor_self, Nat.xor_zero, Nat.xor_zero]

/-- A legal move played through `play_move` returns a state, and the state satisfies the
invariant again. -/
theorem play_move_spec {Z : Zobrist} {BS : Nat} {tags : AnalyzeTags} {s : FastState}
    {c : Nat} {vertex : Int} (gi : GInv Z BS s) (hc : c < 2)
    (hl : legal_play tags s c vertex) :
    ∃ s2, play_move Z BS s c vertex = some s2 ∧ GInv Z BS s2 ∧
      (vertex = PASS → s2.m_ko_move = NO_VERTEX) ∧
      (s2.m_ko_move ≠ NO_VERTEX → s.board.m_state s2.m_ko_move = notc c) ∧
      s2.m_passes = (if vertex = PASS then (if s.m_passes + 1 > 4 then 4 else s.m_passes + 1)
        else 0) ∧
      s2.board.m_color_to_move = notc c := by
  by_cases hp : vertex = PASS
  · subst hp
    refine ⟨_, play_move_pass Z BS s c, ⟨?_, notc_lt, fun h => absurd rfl h⟩, fun _ => rfl,
      fun h => absurd rfl h, by rw [if_pos rfl], rfl⟩
    apply Inv.retag gi.board
    rw [gi.board.hash]
    show _ = coreHash Z s.board ^^^ ((if notc c = BLACK then ZOBRIST_BLACK_TO_MOVE else 0)
      ^^^ Z.zobrist_ko_move NO_VERTEX ^^^ Z.zobrist_passes 0
      ^^^ Z.zobrist_passes (if s.m_passes + 1 > 4 then 4 else s.m_passes + 1))
    rw [← to_move_flip gi.to_move hc]
    exact xor_game _ _ _ _ _ _ _ _
  · obtain ⟨hon, hemp, _, _, _⟩ := legal_play_vertex gi hl hp
    have inv1 : Inv Z BS (stateHash Z s ^^^ Z.zobrist_ko_move s.m_ko_move)
        { s.board with m_hash := s.board.m_hash ^^^ Z.zobrist_ko_move s.m_ko_move } := by
      apply Inv.retag gi.board _ s.board.m_color_to_move
      rw [gi.board.hash, Nat.xor_assoc]
    obtain ⟨b2, ko, hres, inv2, _, _, _, _, e5, _, _, _, _, _, _, _, _, hko⟩ :=
      update_board_obs inv1 hon hemp hc
    have e5' : b2.m_color_to_move = s.board.m_color_to_move := e5
    refine ⟨_, play_move_place Z BS s c vertex hp b2 ko hres, ⟨?_, notc_lt, ?_⟩,
      fun h => absurd h hp, ?_, by rw [if_neg hp], rfl⟩
    · apply Inv.retag inv2
      rw [inv2.hash, e5']
      show _ = coreHash Z b2 ^^^ ((if notc c = BLACK then ZOBRIST_BLACK_TO_MOVE else 0)
        ^^^ Z.zobrist_ko_move ko ^^^ Z.zobrist_passes 0 ^^^ Z.zobrist_passes 0)
      rw [← to_move_flip gi.to_move hc]
      exact xor_game2 _ _ _ _ _ _ _ _
    · intro h
      exact (hko h).2.2
    · intro h
      exact (hko h).2.1

theorem Game.ginv {Z : Zobrist} {BS : Nat} {tags : AnalyzeTags} {s : FastState}
    (h : Game Z BS tags s) : GInv Z BS s := by
  induction h with
  | init s0 size komi hsize hfit => exact init_game_ginv Z BS s0 size komi hsize hfit
  | move s c vertex s2 _ hc hl hres ih =>
    obtain ⟨s3, h3, gi3, _⟩ := play_move_spec ih hc hl
    rw [hres] at h3
    cases h3
    exact gi3

/-- The full hash of a game state: the recomputation, and the pass count on top. -/
theorem GInv.full_hash {Z : Zobrist} {BS : Nat} {s : FastState} (gi : GInv Z BS s) :
    s.board.m_hash =
      compute_hash Z s.board s.m_ko_move ^^^ Z.zobrist_passes 0 ^^^ Z.zobrist_passes s.m_passes := by
  rw [gi.board.hash, compute_hash_eq, stateHash]
  by_cases h : s.board.m_color_to_move = BLACK
  · rw [if_pos h, if_pos h]; ac_rfl
  · rw [if_neg h, if_neg h, Nat.zero_xor]; ac_rfl

/-! ### `is_eye` and the eye test of `update_board` -/

theorem enclosed_iff {Z : Zobrist} {BS r : Nat} {b : FullBoard} (inv : Inv Z BS r b)
    (h2 : 2 ≤ b.m_board_size) {v c : Nat} (hv : onBoard b v) (hc : c < 2) :
    b.m_neighbors v &&& s_eye_mask c ≠ 0 ↔ enclosed b c v := by
  rw [inv.tally h2 v hv, eye_mask_iff b v hc]
  refine forall_congr' fun k => forall_congr' fun hk => ?_
  have hn := inv.geom.nbr_lt hv hk
  by_cases ho : onBoard b (nbr b k v)
  · have := inv.inside _ ho
    have h3 : ¬ 3 ≤ b.m_state (nbr b k v) := by
      have : b.m_state (nbr b k v) ≤ 2 := this
      omega
    simp [ho, h3]
  · have := (inv.border _ hn ho).1
    have h3 : 3 ≤ b.m_state (nbr b k v) := by rw [this]
    simp [ho, h3]

theorem is_eye_iff {Z : Zobrist} {BS r : Nat} {b : FullBoard} (inv : Inv Z BS r b)
    (h2 : 2 ≤ b.m_board_size) {v c : Nat} (hv : onBoard b v) (hc : c < 2) :
    is_eye b v c = true ↔
      enclosed b c v ∧
        (if diagonalsOff b v = 0 then diagonalStones b (notc c) v ≤ 1
          else diagonalStones b (notc c) v = 0) := by
  have hb := inv.geom.onBoard_bounds hv
  have hlist : [v - 1 - b.m_side_vertices, v + 1 - b.m_side_vertices,
      v - 1 + b.m_side_vertices, v + 1 + b.m_side_vertices] = diagonalsOf b v := by
    unfold diagonalsOf
    congr 1
    · omega
    · congr 1
      · omega
      · congr 1
        · omega
        · congr 1
          omega
  have hlt : ∀ d, d ∈ diagonalsOf b v → d < b.m_vertices_number := by
    intro d hd
    simp only [diagonalsOf, List.mem_cons, List.mem_singleton, List.not_mem_nil, or_false] at hd
    omega
  have hoff : ((diagonalsOf b v).filter (fun d => decide (b.m_state d = INVALID))).length =
      diagonalsOff b v := by
    unfold diagonalsOff
    congr 1
    apply List.filter_congr
    intro d hd
    by_cases ho : onBoard b d
    · have : b.m_state d ≤ 2 := inv.inside d ho
      have h3 : b.m_state d ≠ INVALID := by show b.m_state d ≠ 3; omega
      simp [ho, h3]
    · simp [ho, (inv.border d (hlt d hd) ho).1]
  have hopp : ((diagonalsOf b v).filter (fun d => decide (b.m_state d = notc c))).length =
      diagonalStones b (notc c) v := by
    unfold diagonalStones
    congr 1
    apply List.filter_congr
    intro d hd
    by_cases hs : b.m_state d = notc c
    · have ho : onBoard b d := inv.stone_onBoard (hlt d hd) (by rw [hs]; exact notc_lt)
      simp [ho, hs]
    · simp [hs]
  rw [← enclosed_iff inv h2 hv hc]
  unfold is_eye
  by_cases hm : b.m_neighbors v &&& s_eye_mask c = 0
  · simp [hm]
  · simp only [hm, if_false, hlist, hoff, hopp, ne_eq, not_false_eq_true, true_and]
    by_cases h0 : diagonalsOff b v = 0
    · simp only [h0, if_true]
      by_cases h1 : diagonalStones b (notc c) v > 1
      · simp [h1]
      · simp [h1]; omega
    · simp only [h0, if_false]
      by_cases h1 : diagonalStones b (notc c) v = 0
      · simp [h1]
      · simp [h1]

/-- The test of `is_suicide` in terms of the strings next to the vertex. -/
theorem is_suicide_strings {Z : Zobrist} {BS r : Nat} {b : FullBoard} (inv : Inv Z BS r b)
    (h2 : 2 ≤ b.m_board_size) {v c : Nat} (hv : onBoard b v) (hc : c < 2) :
    is_suicide b v c = true ↔
      (∀ k, k < 4 → b.m_state (nbr b k v) ≠ EMPTY) ∧
      (¬ ∃ k n, k < 4 ∧ b.m_state (nbr b k v) = c ∧ libCount b (nbr b k v) n ∧ 1 < n) ∧
      (¬ ∃ k n, k < 4 ∧ b.m_state (nbr b k v) = notc c ∧ libCount b (nbr b k v) n ∧ n ≤ 1) := by
  rw [is_suicide_iff, no_empty_iff (inv.tally h2 v hv)]
  have hst : ∀ k, k < 4 → b.m_state (nbr b k v) < 2 → ∀ n,
      libCount b (nbr b k v) n ↔ b.m_liberties (b.m_parent (nbr b k v)) = n := by
    intro k hk hs n
    exact libCount_iff inv h2 (inv.stone_onBoard (inv.geom.nbr_lt hv hk) hs) hs n
  constructor
  · rintro ⟨h0, hall⟩
    refine ⟨h0, ?_, ?_⟩
    · rintro ⟨k, n, hk, hs, hl, hn⟩
      have := (hall k hk).1 hs
      rw [(hst k hk (by rw [hs]; exact hc) n).mp hl] at this
      omega
    · rintro ⟨k, n, hk, hs, hl, hn⟩
      have := (hall k hk).2 hs
      rw [(hst k hk (by rw [hs]; exact notc_lt) n).mp hl] at this
      omega
  · rintro ⟨h0, h1, h2⟩
    refine ⟨h0, fun k hk => ⟨fun hs => ?_, fun hs => ?_⟩⟩
    · by_contra hgt
      exact h1 ⟨k, _, hk, hs, (hst k hk (by rw [hs]; exact hc) _).mpr rfl, by omega⟩
    · by_contra hgt
      exact h2 ⟨k, _, hk, hs, (hst k hk (by rw [hs]; exact notc_lt) _).mpr rfl, by omega⟩

/-! ### The concrete positions are reachable -/

theorem point1_reachable : Reachable exampleZ 19 point1 :=
  Reachable.reset blank 1 (by decide) (by decide)

theorem empty3_reachable : Reachable exampleZ 19 empty3 :=
  Reachable.reset blank 3 (by decide) (by decide)

theorem boardAfter_reachable {b : FullBoard} {c v : Nat} (hb : Reachable exampleZ 19 b)
    (hc : c < 2) (hv : onBoard b v) (he : b.m_state v = EMPTY) :
    Reachable exampleZ 19 (boardAfter b c v) := by
  obtain ⟨r, inv⟩ := hb.inv
  obtain ⟨b2, ko, h, _⟩ := update_board_inv inv hv he hc
  have e : boardAfter b c v = b2 := by simp [boardAfter, h]
  rw [e]
  exact Reachable.update b c v b2 ko hb hc hv he h

theorem stone1_reachable : Reachable exampleZ 19 stone1 :=
  boardAfter_reachable point1_reachable (by decide) (by decide) (by decide)

theorem stone3_reachable : Reachable exampleZ 19 stone3 :=
  boardAfter_reachable empty3_reachable (by decide) (by decide) (by decide)

theorem atari3_reachable : Reachable exampleZ 19 atari3 :=
  boardAfter_reachable stone3_reachable (by decide) (by decide) (by decide)

theorem game0_game : Game exampleZ 19 noTags game0 :=
  Game.init blankState 3 (15 / 2) (by decide) (by decide)

theorem playOn_game {s : FastState} {c : Nat} {v : Int} (hs : Game exampleZ 19 noTags s)
    (hc : c < 2) (hl : legal_play noTags s c v) : Game exampleZ 19 noTags (playOn s c v) := by
  obtain ⟨s2, h, _⟩ := play_move_spec hs.ginv hc hl
  have e : playOn s c v = s2 := by simp [playOn, h]
  rw [e]
  exact Game.move s c v s2 hs hc hl h

theorem game1_game : Game exampleZ 19 noTags game1 :=
  playOn_game game0_game (by decide) (by decide)

set_option maxRecDepth 100000 in
theorem game2_game : Game exampleZ 19 noTags game2 :=
  playOn_game game1_game (by decide) (by decide)

set_option maxRecDepth 100000 in
theorem game3_game : Game exampleZ 19 noTags game3 :=
  playOn_game game2_game (by decide) (by decide)

set_option maxRecDepth 100000 in
theorem game4_game : Game exampleZ 19 noTags game4 :=
  playOn_game game3_game (by decide) (by decide)

set_option maxRecDepth 100000 in
theorem game4_legal : legal_play noTags game4 BLACK 11 := by decide

theorem passed_game : Game exampleZ 19 noTags passed :=
  playOn_game game0_game (by decide) (by decide)

set_option maxRecDepth 100000 in
/-- In the game `game5` the capture of the corner stone has produced the ko point 6. -/
theorem game5_ko : game5.m_ko_move = 6 := by decide

/-! ## The hashes of a game -/

/-- C1: in every game started with `init_game` and continued by legal moves played through
`play_move`, the incrementally maintained position hash `m_hash_ko` equals
`compute_hash_ko` recomputed from scratch over the board; every further legal move (a
stone, with or without captures, or a pass) returns a state, and the equality holds in
that state again. -/
theorem hash_ko_consistent (Z : Zobrist) (BS : Nat) (tags : AnalyzeTags) (s : FastState)
    (hs : Game Z BS tags s) :
    s.board.m_hash_ko = compute_hash_ko Z s.board ∧
      ∀ c vertex, c < 2 → legal_play tags s c vertex →
        ∃ s2, play_move Z BS s c vertex = some s2 ∧
          s2.board.m_hash_ko = compute_hash_ko Z s2.board := by
  have gi := hs.ginv
  refine ⟨by rw [compute_hash_ko_eq]; exact gi.board.hash_ko, ?_⟩
  intro c vertex hc hl
  obtain ⟨s2, h, gi2, _⟩ := play_move_spec gi hc hl
  exact ⟨s2, h, by rw [compute_hash_ko_eq]; exact gi2.board.hash_ko⟩

theorem hash_ko_consistent_witness :
    Game exampleZ 19 noTags game4 ∧
      (game4.board.m_hash_ko = compute_hash_ko exampleZ game4.board ∧
        ∀ c vertex, c < 2 → legal_play noTags game4 c vertex →
          ∃ s2, play_move exampleZ 19 game4 c vertex = some s2 ∧
            s2.board.m_hash_ko = compute_hash_ko exampleZ s2.board) :=
  ⟨game4_game, hash_ko_consistent exampleZ 19 noTags game4 game4_game⟩

set_option maxRecDepth 100000 in
/-- C2, as stated, fails: after `init_game` on the 3x3 board and one pass by Black, the
full hash differs from `compute_hash(ko)`, because `play_move` has exchanged
`zobrist_passes[0]` for `zobrist_passes[1]` in it. -/
theorem full_hash_pass_counterexample :
    Game exampleZ 19 noTags passed ∧
      passed.board.m_hash ≠ compute_hash exampleZ passed.board passed.m_ko_move :=
  ⟨passed_game, by decide⟩

/-- C2, amended: in every game started with `init_game` and continued by legal moves played
through `play_move`, the full hash `m_hash` equals
`compute_hash(ko) XOR zobrist_passes[0] XOR zobrist_passes[m_passes]`; it is
`compute_hash(ko)` itself whenever the pass count is zero; every further legal move
returns a state, for which the relation holds again. -/
theorem full_hash_consistent (Z : Zobrist) (BS : Nat) (tags : AnalyzeTags) (s : FastState)
    (hs : Game Z BS tags s) :
    s.board.m_hash = compute_hash Z s.board s.m_ko_move ^^^ Z.zobrist_passes 0
        ^^^ Z.zobrist_passes s.m_passes ∧
      (s.m_passes = 0 → s.board.m_hash = compute_hash Z s.board s.m_ko_move) ∧
      ∀ c vertex, c < 2 → legal_play tags s c vertex →
        ∃ s2, play_move Z BS s c vertex = some s2 ∧
          s2.board.m_hash = compute_hash Z s2.board s2.m_ko_move ^^^ Z.zobrist_passes 0
            ^^^ Z.zobrist_passes s2.m_passes := by
  have gi := hs.ginv
  refine ⟨gi.full_hash, ?_, ?_⟩
  · intro h0
    rw [gi.full_hash, h0, Nat.xor_assoc, Nat.xor_self, Nat.xor_zero]
  · intro c vertex hc hl
    obtain ⟨s2, h, gi2, _⟩ := play_move_spec gi hc hl
    exact ⟨s2, h, gi2.full_hash⟩

theorem full_hash_consistent_witness :
    Game exampleZ 19 noTags passed ∧
      (passed.board.m_hash = compute_hash exampleZ passed.board passed.m_ko_move
          ^^^ exampleZ.zobrist_passes 0 ^^^ exampleZ.zobrist_passes passed.m_passes ∧
        (passed.m_passes = 0 →
          passed.board.m_hash = compute_hash exampleZ passed.board passed.m_ko_move) ∧
        ∀ c vertex, c < 2 → legal_play noTags passed c vertex →
          ∃ s2, play_move exampleZ 19 passed c vertex = some s2 ∧
            s2.board.m_hash = compute_hash exampleZ s2.board s2.m_ko_move
              ^^^ exampleZ.zobrist_passes 0 ^^^ exampleZ.zobrist_passes s2.m_passes) :=
  ⟨passed_game, full_hash_consistent exampleZ 19 noTags passed passed_game⟩

/-! ## `update_board` -/

/-- C3: on a board reachable from `reset_board` by `update_board` calls on empty on-board
vertices, `update_board(c, v)` on an empty on-board vertex `v` returns, and in the new
board every opposing stone whose string had `v` as its only liberty is EMPTY, every other
opposing stone is still in place, and `v` holds colour `c` whenever a stone was captured
or the string of the placed stone has a liberty. -/
theorem update_board_captures (Z : Zobrist) (BS : Nat) (b : FullBoard) (c v : Nat)
    (hb : Reachable Z BS b) (hc : c < 2) (hv : onBoard b v) (he : b.m_state v = EMPTY) :
    ∃ b2 ko, update_board Z BS b c v = some (b2, ko) ∧
      (∀ u, onBoard b u → b.m_state u = notc c →
        ((∀ e, isLiberty b u e ↔ e = v) → b2.m_state u = EMPTY) ∧
        (¬ (∀ e, isLiberty b u e ↔ e = v) → b2.m_state u = notc c)) ∧
      (((∃ u, captured b b2 c u) ∨ (∃ e, placedLiberty b c v e)) → b2.m_state v = c) := by
  obtain ⟨r, inv⟩ := hb.inv
  obtain ⟨b2, ko, hres, _, _, _, _, _, _, hopp, _, _, _, hcap, hlib, _, _, _⟩ :=
    update_board_obs inv hv he hc
  refine ⟨b2, ko, hres, ?_, ?_⟩
  · intro u hu hs
    have hs2 : b.m_state u < 2 := by rw [hs]; exact notc_lt
    have hiff : (∀ e, isLiberty b u e ↔ e = v) ↔ libsOf b (b.m_parent u) = {v} := by
      constructor
      · intro h
        ext e
        rw [← isLiberty_iff inv hu hs2, h, Finset.mem_singleton]
      · intro h e
        rw [isLiberty_iff inv hu hs2, h, Finset.mem_singleton]
    obtain ⟨h1, h2⟩ := hopp u hu hs
    refine ⟨fun h => h2.mpr (hiff.mp h), fun h => ?_⟩
    rcases h1 with h1 | h1
    · exact absurd (hiff.mpr (h2.mp h1)) h
    · exact h1
  · rintro (⟨u, hu⟩ | ⟨e, he2⟩)
    · exact hcap u hu
    · exact hlib e he2

theorem update_board_captures_witness :
    (Reachable exampleZ 19 atari3 ∧ BLACK < 2 ∧ onBoard atari3 11 ∧
        atari3.m_state 11 = EMPTY) ∧
      ∃ b2 ko, update_board exampleZ 19 atari3 BLACK 11 = some (b2, ko) ∧
        (∀ u, onBoard atari3 u → atari3.m_state u = notc BLACK →
          ((∀ e, isLiberty atari3 u e ↔ e = 11) → b2.m_state u = EMPTY) ∧
          (¬ (∀ e, isLiberty atari3 u e ↔ e = 11) → b2.m_state u = notc BLACK)) ∧
        (((∃ u, captured atari3 b2 BLACK u) ∨ (∃ e, placedLiberty atari3 BLACK 11 e)) →
          b2.m_state 11 = BLACK) :=
  ⟨⟨atari3_reachable, by decide, by decide, by decide⟩,
    update_board_captures exampleZ 19 atari3 BLACK 11 atari3_reachable (by decide) (by decide)
      (by decide)⟩

/-- C4: the pre-check and the mutation agree on suicide: on a reachable board, for an
empty on-board vertex `v` and a colour `c`, `is_suicide(v, c)` is true exactly when
`update_board(c, v)` takes the placed stone off again (`v` is EMPTY afterwards) and no
opposing stone was captured. -/
theorem is_suicide_agrees (Z : Zobrist) (BS : Nat) (b : FullBoard) (c v : Nat)
    (hb : Reachable Z BS b) (hc : c < 2) (hv : onBoard b v) (he : b.m_state v = EMPTY) :
    ∃ b2 ko, update_board Z BS b c v = some (b2, ko) ∧
      (is_suicide b v c = true ↔ (b2.m_state v = EMPTY ∧ ¬ ∃ u, captured b b2 c u)) := by
  obtain ⟨r, inv⟩ := hb.inv
  obtain ⟨b2, ko, hres, _, _, _, _, _, _, _, _, hsu, hkeep, _, _, _, _, _⟩ :=
    update_board_obs inv hv he hc
  refine ⟨b2, ko, hres, ?_⟩
  constructor
  · intro h
    refine ⟨hsu.mpr h, ?_⟩
    rintro ⟨u, hu, hs, h2⟩
    rw [hkeep h u hu hs] at h2
    have := @notc_lt c
    have h3 : notc c = 2 := h2
    omega
  · rintro ⟨h, _⟩
    exact hsu.mp h

theorem is_suicide_agrees_witness :
    (Reachable exampleZ 19 atari3 ∧ WHITE < 2 ∧ onBoard atari3 11 ∧
        atari3.m_state 11 = EMPTY) ∧
      ∃ b2 ko, update_board exampleZ 19 atari3 WHITE 11 = some (b2, ko) ∧
        (is_suicide atari3 11 WHITE = true ↔
          (b2.m_state 11 = EMPTY ∧ ¬ ∃ u, captured atari3 b2 WHITE u)) :=
  ⟨⟨atari3_reachable, by decide, by decide, by decide⟩,
    is_suicide_agrees exampleZ 19 atari3 WHITE 11 atari3_reachable (by decide) (by decide)
      (by decide)⟩

/-- C5: on a reachable board, for an empty on-board vertex `v` and a colour `c`,
`update_board(c, v)` returns the vertex of the captured stone if exactly one opposing
stone was captured and, before the move, all four orthogonal neighbours of `v` were
opposing stones or border; in every other case it returns `NO_VERTEX`. -/
theorem update_board_ko (Z : Zobrist) (BS : Nat) (b : FullBoard) (c v : Nat)
    (hb : Reachable Z BS b) (hc : c < 2) (hv : onBoard b v) (he : b.m_state v = EMPTY) :
    ∃ b2 ko, update_board Z BS b c v = some (b2, ko) ∧
      (∀ u, captured b b2 c u → (∀ w, captured b b2 c w → w = u) →
        enclosed b (notc c) v → ko = u) ∧
      ((¬ ∃ u, captured b b2 c u ∧ (∀ w, captured b b2 c w → w = u) ∧
          enclosed b (notc c) v) → ko = NO_VERTEX) := by
  obtain ⟨r, inv⟩ := hb.inv
  obtain ⟨b2, ko, hres, _, _, _, _, _, _, _, _, _, _, _, _, hko1, hko0, _⟩ :=
    update_board_obs inv hv he hc
  have hsize : ∀ u, captured b b2 c u → 2 ≤ b.m_board_size := by
    rintro u ⟨hu, hs, _⟩
    apply two_le_size inv.geom hu hv
    rintro rfl
    rw [he] at hs
    have := @notc_lt c
    have h3 : 2 = notc c := hs
    omega
  refine ⟨b2, ko, hres, ?_, ?_⟩
  · intro u hu huniq hen
    exact hko1 u hu huniq ((enclosed_iff inv (hsize u hu) hv notc_lt).mpr hen)
  · intro hno
    apply hko0
    rintro ⟨u, hu, huniq, heye⟩
    exact hno ⟨u, hu, huniq, (enclosed_iff inv (hsize u hu) hv notc_lt).mp heye⟩

theorem update_board_ko_witness :
    (Reachable exampleZ 19 atari3 ∧ BLACK < 2 ∧ onBoard atari3 11 ∧
        atari3.m_state 11 = EMPTY) ∧
      ∃ b2 ko, update_board exampleZ 19 atari3 BLACK 11 = some (b2, ko) ∧
        (∀ u, captured atari3 b2 BLACK u → (∀ w, captured atari3 b2 BLACK w → w = u) →
          enclosed atari3 (notc BLACK) 11 → ko = u) ∧
        ((¬ ∃ u, captured atari3 b2 BLACK u ∧ (∀ w, captured atari3 b2 BLACK w → w = u) ∧
            enclosed atari3 (notc BLACK) 11) → ko = NO_VERTEX) :=
  ⟨⟨atari3_reachable, by decide, by decide, by decide⟩,
    update_board_ko exampleZ 19 atari3 BLACK 11 atari3_reachable (by decide) (by decide)
      (by decide)⟩

/-! ## The ko rule -/

/-- C6: when a legal `play_move` in a game leaves a ko point `k`, `is_move_legal(colour, k)`
is false in the resulting state for both colours (whatever the move-restriction tags, in
particular with none); every legal reply returns a state whose ko point is no longer
`k`, and after a pass it is `NO_VERTEX`: the prohibition on `k` lasts one move. -/
theorem ko_lasts_one_move (Z : Zobrist) (BS : Nat) (tags : AnalyzeTags) (s : FastState)
    (c : Nat) (vertex : Int) (hs : Game Z BS tags s) (hc : c < 2)
    (hl : legal_play tags s c vertex) :
    ∃ s1, play_move Z BS s c vertex = some s1 ∧
      (s1.m_ko_move ≠ NO_VERTEX →
        (∀ t c2, is_move_legal t s1 c2 (s1.m_ko_move : Int) = false) ∧
        (∀ c2 v2, c2 < 2 → legal_play tags s1 c2 v2 →
          ∃ s2, play_move Z BS s1 c2 v2 = some s2 ∧ s2.m_ko_move ≠ s1.m_ko_move ∧
            (v2 = PASS → s2.m_ko_move = NO_VERTEX))) := by
  obtain ⟨s1, h1, gi1, _⟩ := play_move_spec hs.ginv hc hl
  refine ⟨s1, h1, fun hko => ⟨?_, ?_⟩⟩
  · intro t c2
    have hp : ((s1.m_ko_move : Nat) : Int) ≠ PASS := by
      have : (0 : Int) ≤ (s1.m_ko_move : Int) := Int.ofNat_nonneg _
      intro h; rw [h] at this; exact absurd this (by decide)
    have hr : ((s1.m_ko_move : Nat) : Int) ≠ RESIGN := by
      have : (0 : Int) ≤ (s1.m_ko_move : Int) := Int.ofNat_nonneg _
      intro h; rw [h] at this; exact absurd this (by decide)
    simp [is_move_legal, hp, hr]
  · intro c2 v2 hc2 hl2
    obtain ⟨s2, h2, _, hpass, hstone, _⟩ := play_move_spec gi1 hc2 hl2
    refine ⟨s2, h2, ?_, hpass⟩
    intro heq
    have hne : s2.m_ko_move ≠ NO_VERTEX := by rw [heq]; exact hko
    have h3 := hstone hne
    rw [heq, gi1.ko_empty hko] at h3
    have := @notc_lt c2
    have h4 : 2 = notc c2 := h3
    omega

theorem ko_lasts_one_move_witness :
    (Game exampleZ 19 noTags game4 ∧ BLACK < 2 ∧ legal_play noTags game4 BLACK 11) ∧
      ∃ s1, play_move exampleZ 19 game4 BLACK 11 = some s1 ∧
        (s1.m_ko_move ≠ NO_VERTEX →
          (∀ t c2, is_move_legal t s1 c2 (s1.m_ko_move : Int) = false) ∧
          (∀ c2 v2, c2 < 2 → legal_play noTags s1 c2 v2 →
            ∃ s2, play_move exampleZ 19 s1 c2 v2 = some s2 ∧ s2.m_ko_move ≠ s1.m_ko_move ∧
              (v2 = PASS → s2.m_ko_move = NO_VERTEX))) :=
  ⟨⟨game4_game, by decide, game4_legal⟩,
    ko_lasts_one_move exampleZ 19 noTags game4 BLACK 11 game4_game (by decide) game4_legal⟩

/-! ## Strings and liberties -/

/-- C7, as stated, fails on the board with a single point: after `reset_board(1)` and a
black stone on the point (vertex 4), the stone has no liberty at all, but
`m_liberties[m_parent[4]]` is 2. -/
theorem liberty_count_point_counterexample :
    (Reachable exampleZ 19 stone1 ∧ onBoard stone1 4 ∧ stone1.m_state 4 = BLACK) ∧
      stone1.m_liberties (stone1.m_parent 4) = 2 ∧ libCount stone1 4 0 ∧
      ¬ libCount stone1 4 (stone1.m_liberties (stone1.m_parent 4)) := by
  have hnone : ∀ e, ¬ isLiberty stone1 4 e := by
    rintro e ⟨hoe, hee, _⟩
    have : e = 4 := onBoard_unique (by decide) (by decide) hoe (by decide)
    rw [this] at hee
    exact absurd hee (by decide)
  have h2 : stone1.m_liberties (stone1.m_parent 4) = 2 := by decide
  refine ⟨⟨stone1_reachable, by decide, by decide⟩, h2, ⟨∅, fun e => ?_, rfl⟩, ?_⟩
  · simp [hnone e]
  · rintro ⟨L, hL, hcard⟩
    have : L = ∅ := Finset.eq_empty_of_forall_not_mem fun e he => hnone e ((hL e).mp he)
    rw [this, h2] at hcard
    exact absurd hcard (by decide)

/-- C7, amended: on every board of size at least 2 reachable from `reset_board` by
`update_board` calls on empty on-board vertices, for every stone at a vertex `v` the count
`m_liberties[m_parent[v]]` is the number of distinct empty vertices orthogonally adjacent
to a stone of the string of `v`. -/
theorem liberty_count (Z : Zobrist) (BS : Nat) (b : FullBoard) (v : Nat)
    (hb : Reachable Z BS b) (h2 : 2 ≤ b.m_board_size) (hv : onBoard b v)
    (hs : b.m_state v < 2) : libCount b v (b.m_liberties (b.m_parent v)) := by
  obtain ⟨r, inv⟩ := hb.inv
  exact (libCount_iff inv h2 hv hs _).mpr rfl

theorem liberty_count_witness :
    (Reachable exampleZ 19 atari3 ∧ 2 ≤ atari3.m_board_size ∧ onBoard atari3 6 ∧
        atari3.m_state 6 < 2) ∧
      libCount atari3 6 (atari3.m_liberties (atari3.m_parent 6)) :=
  ⟨⟨atari3_reachable, by decide, by decide, by decide⟩,
    liberty_count exampleZ 19 atari3 6 atari3_reachable (by decide) (by decide) (by decide)⟩

/-- C8: on every reachable board, for every occupied on-board vertex `v`, following
`m_next` from `v` returns to `v` after visiting, once each, exactly the vertices of the
maximal orthogonally connected same-colour group of `v`; all of them have the parent of
`v`, and `m_stones` of that parent is the number of stones of the group. -/
theorem string_ring (Z : Zobrist) (BS : Nat) (b : FullBoard) (v : Nat)
    (hb : Reachable Z BS b) (hv : onBoard b v) (hs : b.m_state v < 2) :
    ∃ l, RingAt b.m_next v l ∧ (∀ w, w ∈ v :: l ↔ group b v w) ∧
      (∀ w, w ∈ v :: l → b.m_parent w = b.m_parent v) ∧
      b.m_stones (b.m_parent v) = (v :: l).length := by
  obtain ⟨r, inv⟩ := hb.inv
  obtain ⟨l, hring, hmem, hst⟩ := inv.ring v hv hs
  refine ⟨l, hring, fun w => ?_, fun w hw => ((hmem w).mp hw).2, by rw [hst]; rfl⟩
  rw [hmem w, group_iff inv hv hs w]

theorem string_ring_witness :
    (Reachable exampleZ 19 atari3 ∧ onBoard atari3 7 ∧ atari3.m_state 7 < 2) ∧
      ∃ l, RingAt atari3.m_next 7 l ∧ (∀ w, w ∈ 7 :: l ↔ group atari3 7 w) ∧
        (∀ w, w ∈ 7 :: l → atari3.m_parent w = atari3.m_parent 7) ∧
        atari3.m_stones (atari3.m_parent 7) = (7 :: l).length :=
  ⟨⟨atari3_reachable, by decide, by decide⟩,
    string_ring exampleZ 19 atari3 7 atari3_reachable (by decide) (by decide)⟩

/-! ## The queries `is_suicide` and `is_eye` -/

/-- C9, as stated, fails on the board with a single point: after `reset_board(1)` the
point (vertex 4) has no empty neighbour and no string next to it, but
`is_suicide(4, BLACK)` is false. -/
theorem is_suicide_point_counterexample :
    (Reachable exampleZ 19 point1 ∧ onBoard point1 4 ∧ point1.m_state 4 = EMPTY) ∧
      is_suicide point1 4 BLACK = false ∧
      ((∀ k, k < 4 → point1.m_state (nbr point1 k 4) ≠ EMPTY) ∧
        (¬ ∃ k n, k < 4 ∧ point1.m_state (nbr point1 k 4) = BLACK ∧
          libCount point1 (nbr point1 k 4) n ∧ 1 < n) ∧
        (¬ ∃ k n, k < 4 ∧ point1.m_state (nbr point1 k 4) = notc BLACK ∧
          libCount point1 (nbr point1 k 4) n ∧ n ≤ 1)) := by
  have hst : ∀ k, k < 4 → point1.m_state (nbr point1 k 4) = INVALID := by decide
  refine ⟨⟨point1_reachable, by decide, by decide⟩, by decide, ?_, ?_, ?_⟩
  · intro k hk; rw [hst k hk]; decide
  · rintro ⟨k, n, hk, h, _⟩; rw [hst k hk] at h; exact absurd h (by decide)
  · rintro ⟨k, n, hk, h, _⟩; rw [hst k hk] at h; exact absurd h (by decide)

/-- C9, amended: on every reachable board of size at least 2, for an empty on-board vertex
`v` and a colour `c`, `is_suicide(v, c)` is true exactly when `v` has no empty orthogonal
neighbour, no adjacent string of colour `c` has more than one liberty, and no adjacent
string of the opposite colour has one liberty or fewer. -/
theorem is_suicide_exact (Z : Zobrist) (BS : Nat) (b : FullBoard) (c v : Nat)
    (hb : Reachable Z BS b) (h2 : 2 ≤ b.m_board_size) (hc : c < 2) (hv : onBoard b v)
    (_he : b.m_state v = EMPTY) :
    is_suicide b v c = true ↔
      (∀ k, k < 4 → b.m_state (nbr b k v) ≠ EMPTY) ∧
      (¬ ∃ k n, k < 4 ∧ b.m_state (nbr b k v) = c ∧ libCount b (nbr b k v) n ∧ 1 < n) ∧
      (¬ ∃ k n, k < 4 ∧ b.m_state (nbr b k v) = notc c ∧ libCount b (nbr b k v) n ∧
        n ≤ 1) := by
  obtain ⟨r, inv⟩ := hb.inv
  exact is_suicide_strings inv h2 hv hc

theorem is_suicide_exact_witness :
    (Reachable exampleZ 19 atari3 ∧ 2 ≤ atari3.m_board_size ∧ WHITE < 2 ∧
        onBoard atari3 11 ∧ atari3.m_state 11 = EMPTY) ∧
      (is_suicide atari3 11 WHITE = true ↔
        (∀ k, k < 4 → atari3.m_state (nbr atari3 k 11) ≠ EMPTY) ∧
        (¬ ∃ k n, k < 4 ∧ atari3.m_state (nbr atari3 k 11) = WHITE ∧
          libCount atari3 (nbr atari3 k 11) n ∧ 1 < n) ∧
        (¬ ∃ k n, k < 4 ∧ atari3.m_state (nbr atari3 k 11) = notc WHITE ∧
          libCount atari3 (nbr atari3 k 11) n ∧ n ≤ 1)) :=
  ⟨⟨atari3_reachable, by decide, by decide, by decide, by decide⟩,
    is_suicide_exact exampleZ 19 atari3 WHITE 11 atari3_reachable (by decide) (by decide)
      (by decide) (by decide)⟩

/-- C10, as stated, fails on the board with a single point: after `reset_board(1)` all
four neighbours of the point (vertex 4) are border and so are its four diagonals, none
of which holds a stone, but `is_eye(4, BLACK)` is false. -/
theorem is_eye_point_counterexample :
    (Reachable exampleZ 19 point1 ∧ onBoard point1 4) ∧
      is_eye point1 4 BLACK = false ∧
      (enclosed point1 BLACK 4 ∧
        (if diagonalsOff point1 4 = 0 then diagonalStones point1 (notc BLACK) 4 ≤ 1
          else diagonalStones point1 (notc BLACK) 4 = 0)) := by
  refine ⟨⟨point1_reachable, by decide⟩, by decide, ?_, by decide⟩
  unfold enclosed
  decide

/-- C10, amended: on every reachable board of size at least 2, for an on-board vertex `v`
and a colour `c`, `is_eye(v, c)` is true exactly when all four orthogonal neighbours of
`v` are stones of colour `c` or border, and the stones of the opposite colour on the
four diagonals of `v` number at most one when no diagonal is off the board and zero when
some diagonal is off the board. -/
theorem is_eye_exact (Z : Zobrist) (BS : Nat) (b : FullBoard) (c v : Nat)
    (hb : Reachable Z BS b) (h2 : 2 ≤ b.m_board_size) (hc : c < 2) (hv : onBoard b v) :
    is_eye b v c = true ↔
      enclosed b c v ∧
        (if diagonalsOff b v = 0 then diagonalStones b (notc c) v ≤ 1
          else diagonalStones b (notc c) v = 0) := by
  obtain ⟨r, inv⟩ := hb.inv
  exact is_eye_iff inv h2 hv hc

theorem is_eye_exact_witness :
    (Reachable exampleZ 19 atari3 ∧ 2 ≤ atari3.m_board_size ∧ BLACK < 2 ∧
        onBoard atari3 12) ∧
      (is_eye atari3 12 BLACK = true ↔
        enclosed atari3 BLACK 12 ∧
          (if diagonalsOff atari3 12 = 0 then diagonalStones atari3 (notc BLACK) 12 ≤ 1
            else diagonalStones atari3 (notc BLACK) 12 = 0)) :=
  ⟨⟨atari3_reachable, by decide, by decide, by decide⟩,
    is_eye_exact exampleZ 19 atari3 BLACK 12 atari3_reachable (by decide) (by decide)
      (by decide)⟩

/-! ## Area scoring -/

theorem foldl_product {α β γ : Type} (f : α → β → γ → α) (L2 : List γ) :
    ∀ (L1 : List β) (a : α),
      L1.foldl (fun acc i => L2.foldl (fun acc2 j => f acc2 i j) acc) a =
        (L1 ×ˢ L2).foldl (fun acc p => f acc p.1 p.2) a := by
  intro L1
  induction L1 with
  | nil => intro a; rfl
  | cons i L1 ih =>
    intro a
    rw [List.foldl_cons, ih, List.product_cons, List.foldl_append, List.foldl_map]

/-- The points of the board in the order of the loops of `compute_reach_color`. -/
theorem board_points {BS : Nat} {b : FullBoard} (g : Geom BS b) :
    ((List.range b.m_board_size ×ˢ List.range b.m_board_size).map
        (fun p => get_vertex b p.1 p.2)).Nodup ∧
      (∀ u, u ∈ (List.range b.m_board_size ×ˢ List.range b.m_board_size).map
        (fun p => get_vertex b p.1 p.2) ↔ onBoard b u) ∧
      ((List.range b.m_board_size ×ˢ List.range b.m_board_size).map
        (fun p => get_vertex b p.1 p.2)).length = b.m_board_size * b.m_board_size := by
  have hs := g.side_eq
  refine ⟨?_, ?_, ?_⟩
  · refine List.Nodup.map_on ?_ ((List.nodup_range _).product (List.nodup_range _))
    rintro ⟨i1, j1⟩ h1 ⟨i2, j2⟩ h2 e
    rw [List.mem_product, List.mem_range, List.mem_range] at h1 h2
    simp only [get_vertex] at e
    have d1 := div_mod_coords b.m_side_vertices (j1 + 1) (i1 + 1) (by omega)
    have d2 := div_mod_coords b.m_side_vertices (j2 + 1) (i2 + 1) (by omega)
    rw [e] at d1
    have e1 := d1.1.symm.trans d2.1
    have e2 := d1.2.symm.trans d2.2
    simp only [Prod.mk.injEq]
    omega
  · intro u
    simp only [List.mem_map, List.mem_product, List.mem_range, Prod.exists, get_vertex]
    constructor
    · rintro ⟨i, j, ⟨hi, hj⟩, rfl⟩
      exact (onBoard_coords (j + 1) (i + 1) (by omega)).mpr ⟨by omega, by omega, by omega, by omega⟩
    · intro hu
      obtain ⟨h1, h2, h3, h4⟩ := hu
      refine ⟨u % b.m_side_vertices - 1, u / b.m_side_vertices - 1, ⟨by omega, by omega⟩, ?_⟩
      have := Nat.div_add_mod u b.m_side_vertices
      have e1 : u / b.m_side_vertices - 1 + 1 = u / b.m_side_vertices := by omega
      have e2 : u % b.m_side_vertices - 1 + 1 = u % b.m_side_vertices := by omega
      rw [e1, e2, Nat.mul_comm]
      exact this
  · rw [List.length_map, List.length_product, List.length_range]

/-- The first loops of `compute_reach_color` over a list of vertices. -/
theorem reach_seed_fold (b : FullBoard) (color : Nat) :
    ∀ (P : List (Nat × Nat)) (r : Nat) (cnt : Nat → Bool) (q : List Nat),
      P.foldl (fun acc p => reach_seed b color acc p.1 p.2) (r, cnt, q) =
        (r + ((P.map (fun p => get_vertex b p.1 p.2)).filter
            (fun u => decide (b.m_state u = color))).length,
         fun u => cnt u || decide (u ∈ (P.map (fun p => get_vertex b p.1 p.2)).filter
            (fun u => decide (b.m_state u = color))),
         q ++ (P.map (fun p => get_vertex b p.1 p.2)).filter
            (fun u => decide (b.m_state u = color))) := by
  intro P
  induction P with
  | nil => intro r cnt q; simp
  | cons p P ih =>
    intro r cnt q
    rw [List.foldl_cons]
    by_cases hs : b.m_state (get_vertex b p.1 p.2) = color
    · have e : reach_seed b color (r, cnt, q) p.1 p.2 =
          (r + 1, Function.update cnt (get_vertex b p.1 p.2) true,
            q ++ [get_vertex b p.1 p.2]) := by
        simp [reach_seed, hs]
      rw [e, ih, List.map_cons, List.filter_cons_of_pos (by simpa using hs)]
      refine Prod.ext ?_ (Prod.ext ?_ ?_)
      · simp only [List.length_cons]; omega
      · funext u
        simp only [List.mem_cons, Function.update_apply]
        by_cases hu : u = get_vertex b p.1 p.2
        · simp [hu]
        · simp [hu]
      · simp
    · have e : reach_seed b color (r, cnt, q) p.1 p.2 = (r, cnt, q) := by
        simp [reach_seed, hs]
      rw [e, ih, List.map_cons, List.filter_cons_of_neg (by simpa using hs)]

theorem Reachable.framed {Z : Zobrist} {BS : Nat} {b : FullBoard} (h : Reachable Z BS b) :
    Framed BS b := by
  obtain ⟨r, inv⟩ := h.inv
  exact ⟨inv.geom, fun u hu ho => (inv.border u hu ho).1⟩

theorem reaches_onBoard {b : FullBoard} {c u : Nat} (h : reaches b c u) : onBoard b u := by
  obtain ⟨s, hs, _, hp⟩ := h
  cases hp with
  | refl => exact hs
  | tail _ hl => exact hl.1

theorem Framed.empty_inside {BS : Nat} {b : FullBoard} (F : Framed BS b) {u : Nat}
    (hu : u < b.m_vertices_number) (he : b.m_state u = EMPTY) : onBoard b u := by
  by_contra hno
  have := F.border u hu hno
  rw [this] at he
  exact absurd he (by decide)

theorem counted_insert (n : Nat) (cnt : Nat → Bool) {x : Nat} (hx : x < n)
    (hc : cnt x = false) :
    ((Finset.range n).filter (fun u => Function.update cnt x true u = true)).card =
      ((Finset.range n).filter (fun u => cnt u = true)).card + 1 := by
  have e : (Finset.range n).filter (fun u => Function.update cnt x true u = true) =
      insert x ((Finset.range n).filter (fun u => cnt u = true)) := by
    ext u
    simp only [Finset.mem_filter, Finset.mem_range, Finset.mem_insert, Function.update_apply]
    by_cases hu : u = x
    · subst hu; simp [hx]
    · simp [hu]
  rw [e, Finset.card_insert_of_not_mem]
  simp [hc]

/-- The seeds: every stone of the colour is counted and queued. -/
theorem reach_seeds {BS : Nat} {b : FullBoard} (F : Framed BS b) (c : Nat) :
    ∃ r cnt q, (List.range b.m_board_size).foldl
        (fun acc i => (List.range b.m_board_size).foldl
          (fun acc2 j => reach_seed b c acc2 i j) acc) (0, fun _ => false, []) = (r, cnt, q) ∧
      ReachInv b c 0 4 r cnt q ∧ q.length = r := by
  obtain ⟨hnd, hmem, _⟩ := board_points F.geom
  rw [foldl_product (reach_seed b c), reach_seed_fold]
  refine ⟨_, _, _, rfl, ?_, by simp⟩
  have hin : ∀ u, u ∈ ((List.range b.m_board_size ×ˢ List.range b.m_board_size).map
      (fun p => get_vertex b p.1 p.2)).filter (fun u => decide (b.m_state u = c)) ↔
      (onBoard b u ∧ b.m_state u = c) := by
    intro u
    rw [List.mem_filter, hmem]
    simp
  have hnd2 := hnd.filter (fun u => decide (b.m_state u = c))
  refine ⟨?_, ?_, ?_, ?_, ?_, ?_⟩
  · simp only [Bool.false_or, decide_eq_true_eq, Nat.zero_add, List.nil_append]
    rw [← List.toFinset_card_of_nodup hnd2]
    congr 1
    ext u
    simp only [List.mem_toFinset, Finset.mem_filter, Finset.mem_range]
    constructor
    · intro h
      exact ⟨F.geom.onBoard_lt ((hin u).mp h).1, h⟩
    · intro h; exact h.2
  · intro u hu
    simp only [Bool.false_or, decide_eq_true_eq] at hu
    obtain ⟨ho, hs⟩ := (hin u).mp hu
    exact ⟨u, ho, hs, Relation.ReflTransGen.refl⟩
  · intro s ho hs
    simp only [Bool.false_or, decide_eq_true_eq]
    exact (hin s).mpr ⟨ho, hs⟩
  · intro u hu
    simp only [List.nil_append] at hu
    simp only [Bool.false_or, decide_eq_true_eq]
    exact hu
  · simpa using hnd2
  · intro x hx hxq
    simp only [Bool.false_or, decide_eq_true_eq] at hx
    simp only [List.nil_append] at hxq
    exact absurd hx hxq

/-- One direction of the vertex `v` taken from the queue. -/
theorem reach_step_spec {BS : Nat} {b : FullBoard} (F : Framed BS b) {c v k r : Nat}
    {cnt : Nat → Bool} {q : List Nat} (hk : k < 4) (inv : ReachInv b c v k r cnt q)
    (hv : cnt v = true) (hvq : v ∉ q) :
    ∃ r2 cnt2 q2, reach_step b v (r, cnt, q) k = (r2, cnt2, q2) ∧
      ReachInv b c v (k + 1) r2 cnt2 q2 ∧ cnt2 v = true ∧ v ∉ q2 ∧
      q2.length + r = q.length + r2 := by
  have hvo : onBoard b v := reaches_onBoard (inv.sound v hv)
  have hn : nbr b k v < b.m_vertices_number := F.geom.nbr_lt hvo hk
  by_cases hpush : cnt (nbr b k v) = false ∧ b.m_state (nbr b k v) = EMPTY
  · obtain ⟨hc, he⟩ := hpush
    have hne : nbr b k v ≠ v := by
      intro h; rw [h, hv] at hc; exact absurd hc (by decide)
    refine ⟨r + 1, Function.update cnt (nbr b k v) true, q ++ [nbr b k v], ?_, ?_, ?_, ?_, ?_⟩
    · simp [reach_step, hc, he]
    · have hmono : ∀ u, cnt u = true → Function.update cnt (nbr b k v) true u = true := by
        intro u hu
        rw [Function.update_apply]; split
        · rfl
        · exact hu
      refine ⟨?_, ?_, ?_, ?_, ?_, ?_⟩
      · rw [counted_insert _ cnt hn hc, ← inv.count]
      · intro u hu
        rw [Function.update_apply] at hu
        split at hu
        · rename_i h
          obtain ⟨s, hs, hsc, hp⟩ := inv.sound v hv
          rw [h]
          exact ⟨s, hs, hsc, Relation.ReflTransGen.tail hp
            ⟨F.empty_inside hn he, he, k, hk, rfl⟩⟩
        · exact inv.sound u hu
      · intro s ho hs
        exact hmono s (inv.seeds s ho hs)
      · intro u hu
        rcases List.mem_append.mp hu with h | h
        · exact hmono u (inv.queued u h)
        · rw [List.mem_singleton.mp h, Function.update_same]
      · rw [List.nodup_append]
        refine ⟨inv.nodup, List.nodup_singleton _, ?_⟩
        intro a ha hb
        rw [List.mem_singleton.mp hb] at ha
        have := inv.queued _ ha
        rw [this] at hc
        exact absurd hc (by decide)
      · intro x hx hxq j hj hlt hje
        have hxn : x ≠ nbr b k v := fun h => hxq (by rw [h]; simp)
        have hxq2 : x ∉ q := fun h => hxq (List.mem_append_left _ h)
        rw [Function.update_noteq hxn] at hx
        by_cases hjk : x = v ∧ j = k
        · rw [hjk.1, hjk.2, Function.update_same]
        · apply hmono
          apply inv.closed x hx hxq2 j hj _ hje
          intro hxv
          have := hlt hxv
          have : j ≠ k := fun h => hjk ⟨hxv, h⟩
          omega
    · rw [Function.update_noteq hne.symm]; exact hv
    · intro h
      rcases List.mem_append.mp h with h | h
      · exact hvq h
      · exact hne (List.mem_singleton.mp h).symm
    · simp only [List.length_append, List.length_singleton]; omega
  · refine ⟨r, cnt, q, ?_, ?_, hv, hvq, rfl⟩
    · simp only [reach_step]
      rw [if_neg]
      intro h
      apply hpush
      simpa using h
    · refine ⟨inv.count, inv.sound, inv.seeds, inv.queued, inv.nodup, ?_⟩
      intro x hx hxq j hj hlt hje
      by_cases hjk : x = v ∧ j = k
      · rw [hjk.1, hjk.2] at hje ⊢
        by_contra hc
        exact hpush ⟨by simpa using hc, hje⟩
      · apply inv.closed x hx hxq j hj _ hje
        intro hxv
        have := hlt hxv
        have : j ≠ k := fun h => hjk ⟨hxv, h⟩
        omega

/-- One turn of the `while` loop: the four directions of the vertex taken from the queue. -/
theorem reach_pop_spec {BS : Nat} {b : FullBoard} (F : Framed BS b) {c v0 v r : Nat}
    {cnt : Nat → Bool} {q : List Nat} (inv : ReachInv b c v0 4 r cnt (v :: q)) :
    ∃ r2 cnt2 q2, (List.range 4).foldl (reach_step b v) (r, cnt, q) = (r2, cnt2, q2) ∧
      ReachInv b c v 4 r2 cnt2 q2 ∧ q2.length + r = q.length + r2 := by
  have hv : cnt v = true := inv.queued v (by simp)
  have hvq : v ∉ q := (List.nodup_cons.mp inv.nodup).1
  have inv0 : ReachInv b c v 0 r cnt q := by
    refine ⟨inv.count, inv.sound, inv.seeds, fun u hu => inv.queued u (List.mem_cons_of_mem _ hu),
      (List.nodup_cons.mp inv.nodup).2, ?_⟩
    intro x hx hxq j hj hlt hje
    have hxv : x ≠ v := fun h => absurd (hlt h) (by omega)
    exact inv.closed x hx (by simp [hxv, hxq]) j hj (fun _ => hj) hje
  obtain ⟨r1, c1, q1, e1, i1, hv1, hq1, l1⟩ := reach_step_spec F (by decide) inv0 hv hvq
  obtain ⟨r2, c2, q2, e2, i2, hv2, hq2, l2⟩ := reach_step_spec F (by decide) i1 hv1 hq1
  obtain ⟨r3, c3, q3, e3, i3, hv3, hq3, l3⟩ := reach_step_spec F (by decide) i2 hv2 hq2
  obtain ⟨r4, c4, q4, e4, i4, _, _, l4⟩ := reach_step_spec F (by decide) i3 hv3 hq3
  refine ⟨r4, c4, q4, ?_, i4, by omega⟩
  have hr : List.range 4 = [0, 1, 2, 3] := rfl
  rw [hr]
  simp only [List.foldl_cons, List.foldl_nil, e1, e2, e3, e4]

theorem reach_loop_nil (b : FullBoard) (fuel r : Nat) (cnt : Nat → Bool) :
    reach_loop b fuel (r, cnt, []) = some r := by
  cases fuel <;> rfl

/-- With the queue empty the counted vertices are those that count for the colour. -/
theorem reach_final {BS : Nat} {b : FullBoard} (F : Framed BS b) {c v0 r fuel : Nat}
    {cnt : Nat → Bool} (inv : ReachInv b c v0 4 r cnt []) :
    ∃ n, reach_loop b fuel (r, cnt, []) = some n ∧ reachCount b c n := by
  refine ⟨r, reach_loop_nil b fuel r cnt,
    (Finset.range b.m_vertices_number).filter (fun u => cnt u = true), ?_, inv.count.symm⟩
  intro u
  rw [Finset.mem_filter, Finset.mem_range]
  constructor
  · intro h; exact inv.sound u h.2
  · intro h
    refine ⟨F.geom.onBoard_lt (reaches_onBoard h), ?_⟩
    obtain ⟨s, hs, hsc, hp⟩ := h
    induction hp with
    | refl => exact inv.seeds s hs hsc
    | tail _ hl ih =>
      obtain ⟨_, he, j, hj, rfl⟩ := hl
      exact inv.closed _ ih (by simp) j hj (fun _ => hj) he

/-- The `while` loop returns, and the count is the number of vertices that count for the
colour. -/
theorem reach_loop_spec {BS : Nat} {b : FullBoard} (F : Framed BS b) (c : Nat) :
    ∀ (fuel r : Nat) (cnt : Nat → Bool) (q : List Nat) (v0 : Nat),
      ReachInv b c v0 4 r cnt q → q.length + b.m_vertices_number ≤ fuel + r →
      ∃ n, reach_loop b fuel (r, cnt, q) = some n ∧ reachCount b c n := by
  intro fuel
  induction fuel with
  | zero =>
    intro r cnt q v0 inv hb
    have hle : r ≤ b.m_vertices_number := by
      rw [inv.count]
      have := Finset.card_filter_le (Finset.range b.m_vertices_number) (fun u => cnt u = true)
      simpa using this
    cases q with
    | cons v q => simp only [List.length_cons] at hb; omega
    | nil => exact reach_final F inv
  | succ fuel ih =>
    intro r cnt q v0 inv hb
    cases q with
    | nil => exact reach_final F inv
    | cons v q =>
      obtain ⟨r2, cnt2, q2, e, inv2, hl⟩ := reach_pop_spec F inv
      simp only [List.length_cons] at hb
      obtain ⟨n, hn, hc⟩ := ih r2 cnt2 q2 v inv2 (by omega)
      exact ⟨n, by rw [reach_loop, e]; exact hn, hc⟩

/-- `compute_reach_color` returns, and returns the number of vertices that count for the
colour. -/
theorem compute_reach_color_spec {BS : Nat} {b : FullBoard} (F : Framed BS b) (c : Nat) :
    ∃ n, compute_reach_color b c = some n ∧ reachCount b c n := by
  obtain ⟨r, cnt, q, e, inv, hl⟩ := reach_seeds F c
  obtain ⟨n, hn, hc⟩ := reach_loop_spec F c b.m_vertices_number r cnt q 0 inv (by omega)
  exact ⟨n, by rw [compute_reach_color, e]; exact hn, hc⟩

theorem reachCount_unique {b : FullBoard} {c n m : Nat} (h1 : reachCount b c n)
    (h2 : reachCount b c m) : n = m := by
  obtain ⟨S, hS, rfl⟩ := h1
  obtain ⟨T, hT, rfl⟩ := h2
  have : S = T := by ext u; rw [hS, hT]
  rw [this]

theorem reaches_state {b : FullBoard} {c u : Nat} (h : reaches b c u) :
    b.m_state u = c ∨ b.m_state u = EMPTY := by
  obtain ⟨s, _, hsc, hp⟩ := h
  cases hp with
  | refl => exact Or.inl hsc
  | tail _ hl => exact Or.inr hl.2.1

theorem reaches_stone {b : FullBoard} {c u : Nat} (ho : onBoard b u) (hs : b.m_state u = c) :
    reaches b c u := ⟨u, ho, hs, Relation.ReflTransGen.refl⟩

/-- The number of points of the board. -/
theorem onBoard_card {BS : Nat} {b : FullBoard} (g : Geom BS b) :
    ((Finset.range b.m_vertices_number).filter (fun u => onBoard b u)).card =
      b.m_board_size * b.m_board_size := by
  obtain ⟨hnd, hmem, hlen⟩ := board_points g
  rw [← hlen, ← List.toFinset_card_of_nodup hnd]
  congr 1
  ext u
  rw [Finset.mem_filter, Finset.mem_range, List.mem_toFinset, hmem]
  exact ⟨fun h => h.2, fun h => ⟨g.onBoard_lt h, h⟩⟩

/-- The two reach counts and the neutral points add up to the number of points plus the
number of empty points counted for both colours. -/
theorem reach_counts_sum {Z : Zobrist} {BS r : Nat} {b : FullBoard} (inv : Inv Z BS r b)
    {nb nw nn nd : Nat} (hb : reachCount b BLACK nb) (hw : reachCount b WHITE nw)
    (hn : neutralCount b nn) (hd : sharedCount b nd) :
    nb + nw + nn = b.m_board_size * b.m_board_size + nd := by
  obtain ⟨SB, hSB, rfl⟩ := hb
  obtain ⟨SW, hSW, rfl⟩ := hw
  obtain ⟨N, hN, rfl⟩ := hn
  obtain ⟨D, hD, rfl⟩ := hd
  have hD2 : SB ∩ SW = D := by
    ext u
    rw [Finset.mem_inter, hSB, hSW, hD]
    constructor
    · rintro ⟨h1, h2⟩
      refine ⟨?_, h1, h2⟩
      rcases reaches_state h1 with e1 | e1
      · rcases reaches_state h2 with e2 | e2
        · rw [e1] at e2; exact absurd e2 (by decide)
        · exact e2
      · exact e1
    · rintro ⟨_, h1, h2⟩; exact ⟨h1, h2⟩
  have hU : (SB ∪ SW) ∪ N =
      (Finset.range b.m_vertices_number).filter (fun u => onBoard b u) := by
    ext u
    rw [Finset.mem_union, Finset.mem_union, hSB, hSW, hN, Finset.mem_filter, Finset.mem_range]
    constructor
    · rintro ((h | h) | h)
      · exact ⟨inv.geom.onBoard_lt (reaches_onBoard h), reaches_onBoard h⟩
      · exact ⟨inv.geom.onBoard_lt (reaches_onBoard h), reaches_onBoard h⟩
      · exact ⟨inv.geom.onBoard_lt h.1, h.1⟩
    · rintro ⟨_, ho⟩
      by_cases h1 : reaches b BLACK u
      · exact Or.inl (Or.inl h1)
      · by_cases h2 : reaches b WHITE u
        · exact Or.inl (Or.inr h2)
        · right
          refine ⟨ho, ?_, h1, h2⟩
          have hle : b.m_state u ≤ 2 := inv.inside u ho
          by_contra hne
          have hcase : b.m_state u = BLACK ∨ b.m_state u = WHITE := by
            have : b.m_state u ≠ 2 := hne
            show b.m_state u = 0 ∨ b.m_state u = 1
            omega
          rcases hcase with e | e
          · exact h1 (reaches_stone ho e)
          · exact h2 (reaches_stone ho e)
  have hdis : Disjoint (SB ∪ SW) N := by
    rw [Finset.disjoint_left]
    intro u hu hun
    rw [hN] at hun
    rw [Finset.mem_union, hSB, hSW] at hu
    rcases hu with h | h
    · exact hun.2.2.1 h
    · exact hun.2.2.2 h
  have h1 := Finset.card_union_add_card_inter SB SW
  have h2 := Finset.card_union_of_disjoint hdis
  rw [hU, onBoard_card inv.geom] at h2
  rw [hD2] at h1
  omega

/-! ## Text coordinates -/

/-- The text of an on-board vertex: the column letter, then the row number. -/
theorem move_to_text_vertex {b : FullBoard} {v : Nat}
    (hside : b.m_side_vertices = b.m_board_size + 2)
    (hnv : b.m_vertices_number = b.m_side_vertices * b.m_side_vertices) (hv : onBoard b v) :
    move_to_text b v =
      int_to_char (if v % b.m_side_vertices - 1 < 8 then 65 + ((v % b.m_side_vertices - 1 : Nat) : Int)
          else 65 + ((v % b.m_side_vertices - 1 : Nat) : Int) + 1)
        :: Nat.toDigits 10 (v / b.m_side_vertices - 1 + 1) := by
  obtain ⟨h1, h2, h3, h4⟩ := hv
  have hlt : v < b.m_vertices_number := by
    rw [hnv]
    have := Nat.div_add_mod v b.m_side_vertices
    have hm : v % b.m_side_vertices < b.m_side_vertices := Nat.mod_lt _ (by omega)
    have hle : b.m_side_vertices * (v / b.m_side_vertices + 1) ≤
        b.m_side_vertices * b.m_side_vertices := Nat.mul_le_mul_left _ (by omega)
    rw [Nat.mul_add, Nat.mul_one] at hle
    omega
  have hcol : Int.tmod (v : Int) (b.m_side_vertices : Int) - 1 =
      ((v % b.m_side_vertices - 1 : Nat) : Int) := by
    rw [← Int.ofNat_tmod]; omega
  have hrow : Int.tdiv (v : Int) (b.m_side_vertices : Int) - 1 + 1 =
      ((v / b.m_side_vertices - 1 + 1 : Nat) : Int) := by
    rw [← Int.ofNat_tdiv]; omega
  have hrange : (0 : Int) ≤ (v : Int) ∧ (v : Int) ≤ (b.m_vertices_number : Int) := by omega
  simp only [move_to_text, hrange, and_self, if_true, hcol, hrow]
  have e1 : (0 : Int) ≤ ((v / b.m_side_vertices - 1 + 1 : Nat) : Int) := Int.ofNat_nonneg _
  rw [if_pos e1, Int.toNat_ofNat]
  congr 2
  simp only [Nat.cast_lt_ofNat]

theorem letters_table : ∀ x : Nat, x < 25 →
    int_to_char (if x < 8 then 65 + ((x : Nat) : Int) else 65 + ((x : Nat) : Int) + 1) =
        columnLetter x ∧
      isalpha (tolower (columnLetter x)) = true ∧
      tolower (columnLetter x) ≠ 'i' ∧
      (if tolower (columnLetter x) > 'i'
        then (((tolower (columnLetter x)).toNat : Int) - 97 - 1)
        else (((tolower (columnLetter x)).toNat : Int) - 97))
        = ((x : Nat) : Int) := by
  decide

theorem digits_table : ∀ y : Nat, y < 25 →
    (((Nat.toDigits 10 (y + 1)).map tolower).head?.map isdigit = some true ∧
    stream_int ((Nat.toDigits 10 (y + 1)).map tolower) = ((y + 1 : Nat) : Int)) := by
  decide

theorem digit_not_letter {c : Char} (h : isdigit c = true) : c ≠ 'a' ∧ c ≠ 'e' := by
  constructor <;> rintro rfl <;> exact absurd h (by decide)

/-- `text_to_move` on a letter followed by a number. -/
theorem text_to_move_eval (b : FullBoard) (text : List Char) (c0 c1 : Char) (rest : List Char)
    (ht : text.map tolower = c0 :: c1 :: rest) (ha : isalpha c0 = true)
    (hd : isdigit c1 = true) (hi : c0 ≠ 'i') :
    text_to_move b text =
      if stream_int (c1 :: rest) - 1 ≥ (b.m_board_size : Int) ∨
          (if c0 > 'i' then ((c0.toNat : Int) - 97 - 1) else ((c0.toNat : Int) - 97))
            ≥ (b.m_board_size : Int)
      then (NO_VERTEX : Int)
      else (stream_int (c1 :: rest) - 1 + 1) * b.m_side_vertices +
        ((if c0 > 'i' then ((c0.toNat : Int) - 97 - 1) else ((c0.toNat : Int) - 97)) + 1) := by
  have hne := digit_not_letter hd
  have h1 : c0 :: c1 :: rest ≠ ['p', 'a', 's', 's'] := by
    intro h
    simp only [List.cons.injEq] at h
    exact hne.1 h.2.1
  have h2 : c0 :: c1 :: rest ≠ ['r', 'e', 's', 'i', 'g', 'n'] := by
    intro h
    simp only [List.cons.injEq] at h
    exact hne.2 h.2.1
  have h3 : (c0 == 'i') = false := by simpa using hi
  simp only [text_to_move, ht, h1, h2, if_false, ha, hd, h3, Bool.not_true, Bool.or_self,
    Bool.false_eq_true]

theorem text_round_trip_core {b : FullBoard} {v : Nat}
    (hside : b.m_side_vertices = b.m_board_size + 2)
    (hnv : b.m_vertices_number = b.m_side_vertices * b.m_side_vertices)
    (h25 : b.m_board_size ≤ 25) (hv : onBoard b v) :
    text_to_move b (move_to_text b v) = v := by
  have hv0 := hv
  obtain ⟨h1, h2, h3, h4⟩ := hv
  have hx : v % b.m_side_vertices - 1 < 25 := by omega
  have hy : v / b.m_side_vertices - 1 < 25 := by omega
  obtain ⟨l1, l2, l3, l4⟩ := letters_table _ hx
  obtain ⟨d1, d2⟩ := digits_table _ hy
  rw [move_to_text_vertex hside hnv hv0, l1]
  cases hD : (Nat.toDigits 10 (v / b.m_side_vertices - 1 + 1)).map tolower with
  | nil => rw [hD] at d1; exact absurd d1 (by simp)
  | cons c1 rest =>
    rw [hD] at d1 d2
    have hd : isdigit c1 = true := by simpa using d1
    rw [text_to_move_eval b _ (tolower (columnLetter (v % b.m_side_vertices - 1))) c1 rest
      (by rw [List.map_cons, hD]) l2 hd l3, d2, l4]
    have e1 : ((v / b.m_side_vertices - 1 + 1 : Nat) : Int) - 1 + 1 =
        ((v / b.m_side_vertices : Nat) : Int) := by omega
    have e2 : ((v % b.m_side_vertices - 1 : Nat) : Int) + 1 =
        ((v % b.m_side_vertices : Nat) : Int) := by omega
    rw [if_neg (by omega), e1, e2]
    exact_mod_cast Nat.div_add_mod' v b.m_side_vertices

theorem text_pass_resign (b : FullBoard) :
    text_to_move b (move_to_text b PASS) = PASS ∧
      text_to_move b (move_to_text b RESIGN) = RESIGN := by
  have hp : ¬ ((0 : Int) ≤ PASS ∧ PASS ≤ (b.m_vertices_number : Int)) := by
    rintro ⟨h, _⟩; exact absurd h (by decide)
  have hr : ¬ ((0 : Int) ≤ RESIGN ∧ RESIGN ≤ (b.m_vertices_number : Int)) := by
    rintro ⟨h, _⟩; exact absurd h (by decide)
  have e1 : move_to_text b PASS = ['p', 'a', 's', 's'] := by
    simp only [move_to_text, hp, if_false, if_true]
  have e2 : move_to_text b RESIGN = ['r', 'e', 's', 'i', 'g', 'n'] := by
    simp only [move_to_text, hr, if_false]
    rfl
  have t1 : (['p', 'a', 's', 's'] : List Char).map tolower = ['p', 'a', 's', 's'] := by decide
  have t2 : (['r', 'e', 's', 'i', 'g', 'n'] : List Char).map tolower =
      ['r', 'e', 's', 'i', 'g', 'n'] := by decide
  constructor
  · rw [e1]; simp only [text_to_move, t1, if_true]
  · rw [e2]; simp only [text_to_move, t2]
    rfl

/-- A text that starts with the letter I, in either case, is no vertex. -/
theorem text_to_move_i (b : FullBoard) (rest : List Char) :
    text_to_move b ('I' :: rest) = NO_VERTEX ∧ text_to_move b ('i' :: rest) = NO_VERTEX := by
  have t1 : tolower 'I' = 'i' := by decide
  have t2 : tolower 'i' = 'i' := by decide
  have h1 : ∀ l : List Char, 'i' :: l ≠ ['p', 'a', 's', 's'] := by
    intro l h; simp only [List.cons.injEq] at h; exact absurd h.1 (by decide)
  have h2 : ∀ l : List Char, 'i' :: l ≠ ['r', 'e', 's', 'i', 'g', 'n'] := by
    intro l h; simp only [List.cons.injEq] at h; exact absurd h.1 (by decide)
  have key : ∀ l : List Char,
      (if 'i' :: l = ['p', 'a', 's', 's'] then PASS
        else if 'i' :: l = ['r', 'e', 's', 'i', 'g', 'n'] then RESIGN
        else match 'i' :: l with
          | c0 :: c1 :: rest =>
            if (!isalpha c0 || !isdigit c1 || c0 == 'i') = true then (NO_VERTEX : Int)
            else
              if stream_int (c1 :: rest) - 1 ≥ (b.m_board_size : Int) ∨
                  (if c0 > 'i' then ((c0.toNat : Int) - 97 - 1) else ((c0.toNat : Int) - 97))
                    ≥ (b.m_board_size : Int)
              then (NO_VERTEX : Int)
              else (stream_int (c1 :: rest) - 1 + 1) * b.m_side_vertices +
                ((if c0 > 'i' then ((c0.toNat : Int) - 97 - 1)
                  else ((c0.toNat : Int) - 97)) + 1)
          | _ => (NO_VERTEX : Int)) = (NO_VERTEX : Int) := by
    intro l
    rw [if_neg (h1 l), if_neg (h2 l)]
    cases l with
    | nil => rfl
    | cons c1 r => simp
  constructor
  · simp only [text_to_move, List.map_cons, t1]
    exact key _
  · simp only [text_to_move, List.map_cons, t2]
    exact key _

/-! ## `KoState` and `GameState` -/

/-- A playable move other than a resignation returns a state, and the state satisfies
the invariant again. -/
theorem play_move_playable {Z : Zobrist} {BS : Nat} {s : FastState} {c : Nat} {vertex : Int}
    (gi : GInv Z BS s) (hc : c < 2) (hp : playable s vertex) (hr : vertex ≠ RESIGN) :
    ∃ s2, play_move Z BS s c vertex = some s2 ∧ GInv Z BS s2 ∧
      s2.m_move_numbers = s.m_move_numbers + 1 := by
  by_cases hpass : vertex = PASS
  · subst hpass
    refine ⟨_, play_move_pass Z BS s c, ⟨?_, notc_lt, fun h => absurd rfl h⟩, rfl⟩
    apply Inv.retag gi.board
    rw [gi.board.hash]
    show _ = coreHash Z s.board ^^^ ((if notc c = BLACK then ZOBRIST_BLACK_TO_MOVE else 0)
      ^^^ Z.zobrist_ko_move NO_VERTEX ^^^ Z.zobrist_passes 0
      ^^^ Z.zobrist_passes (if s.m_passes + 1 > 4 then 4 else s.m_passes + 1))
    rw [← to_move_flip gi.to_move hc]
    exact xor_game _ _ _ _ _ _ _ _
  · rcases hp with h | h | ⟨h0, hlt, hemp⟩
    · exact absurd h hpass
    · exact absurd h hr
    · have hn : vertex.toNat < s.board.m_vertices_number := by omega
      have hon : onBoard s.board vertex.toNat := InvX.empty_onBoard gi.board hn hemp
      have inv1 : Inv Z BS (stateHash Z s ^^^ Z.zobrist_ko_move s.m_ko_move)
          { s.board with m_hash := s.board.m_hash ^^^ Z.zobrist_ko_move s.m_ko_move } := by
        apply Inv.retag gi.board _ s.board.m_color_to_move
        rw [gi.board.hash, Nat.xor_assoc]
      obtain ⟨b2, ko, hres, inv2, _, _, _, _, e5, _, _, _, _, _, _, _, _, hko⟩ :=
        update_board_obs inv1 hon hemp hc
      have e5' : b2.m_color_to_move = s.board.m_color_to_move := e5
      refine ⟨_, play_move_place Z BS s c vertex hpass b2 ko hres, ⟨?_, notc_lt, ?_⟩, rfl⟩
      · apply Inv.retag inv2
        rw [inv2.hash, e5']
        show _ = coreHash Z b2 ^^^ ((if notc c = BLACK then ZOBRIST_BLACK_TO_MOVE else 0)
          ^^^ Z.zobrist_ko_move ko ^^^ Z.zobrist_passes 0 ^^^ Z.zobrist_passes 0)
        rw [← to_move_flip gi.to_move hc]
        exact xor_game2 _ _ _ _ _ _ _ _
      · intro h
        exact (hko h).2.2

theorem KoState_init_ginv (Z : Zobrist) (BS : Nat) (s0 : KoState) (size : Nat) (komi : Rat)
    (hsize : size ≤ BS) (hfit : VERTICES_NUMBER BS < 65536) :
    GInv Z BS (KoState.init_game Z BS s0 size komi).fast :=
  init_game_ginv Z BS s0.fast size komi hsize hfit

/-- A playable move played through `KoState::play_move` returns a state. -/
theorem KoState_play_move_spec {Z : Zobrist} {BS : Nat} {s : KoState} {c : Nat} {vertex : Int}
    (gi : GInv Z BS s.fast) (hc : c < 2) (hp : playable s.fast vertex) :
    ∃ s2, KoState.play_move Z BS s c vertex = some s2 ∧ GInv Z BS s2.fast ∧
      s2.m_ko_hash_history = s.m_ko_hash_history ++ [s2.fast.board.m_hash_ko] ∧
      (vertex = RESIGN → s2.fast = s.fast) ∧
      (vertex ≠ RESIGN → s2.fast.m_move_numbers = s.fast.m_move_numbers + 1) := by
  by_cases hr : vertex = RESIGN
  · refine ⟨{ fast := s.fast,
              m_ko_hash_history := s.m_ko_hash_history ++ [s.fast.board.m_hash_ko] }, ?_, gi, rfl,
      fun _ => rfl, fun h => absurd hr h⟩
    simp only [KoState.play_move, hr, ne_eq, not_true_eq_false, if_false, Option.map_some']
  · obtain ⟨f2, h2, gi2, hn⟩ := play_move_playable gi hc hp hr
    refine ⟨{ fast := f2,
              m_ko_hash_history := s.m_ko_hash_history ++ [f2.board.m_hash_ko] }, ?_, gi2, rfl,
      fun h => absurd h hr, fun _ => hn⟩
    simp only [KoState.play_move, ne_eq, hr, not_false_eq_true, if_true, h2, Option.map_some']

/-- The ko hash history of a game lists the position hashes of its boards. -/
theorem KoGame.history {Z : Zobrist} {BS : Nat} {s : KoState} {boards : List FullBoard}
    (h : KoGame Z BS s boards) :
    GInv Z BS s.fast ∧ s.m_ko_hash_history = boards.map (fun b => b.m_hash_ko) ∧
      boards.getLast? = some s.fast.board := by
  induction h with
  | init s0 size komi hsize hfit =>
    exact ⟨KoState_init_ginv Z BS s0 size komi hsize hfit, rfl, rfl⟩
  | move s boards c vertex s2 _ hc hp hres ih =>
    obtain ⟨s3, h3, gi3, hh, _⟩ := KoState_play_move_spec ih.1 hc hp
    rw [hres] at h3
    cases h3
    refine ⟨gi3, ?_, by simp⟩
    rw [hh, ih.2.1, List.map_append, List.map_singleton]

theorem super_ko_iff (s : KoState) :
    KoState.super_ko s = true ↔ s.fast.board.m_hash_ko ∈ s.m_ko_hash_history.dropLast := by
  simp only [KoState.super_ko, decide_eq_true_eq]
  rw [List.drop_one, List.tail_reverse, List.mem_reverse]

theorem resize_history_take (h : List (Option KoState)) (n : Nat) (hn : n ≤ h.length) :
    resize_history h n = h.take n := by
  simp [resize_history, Nat.sub_eq_zero_of_le hn]

theorem HInv.current_ginv {Z : Zobrist} {BS : Nat} {g : GameState} (hi : HInv Z BS g) :
    GInv Z BS g.ko.fast := by
  obtain ⟨ko, hko, _, gi⟩ := hi.snaps _ _ hi.current
  cases hko
  exact gi

theorem HInv.length {Z : Zobrist} {BS : Nat} {g : GameState} (hi : HInv Z BS g) :
    g.ko.fast.m_move_numbers < g.game_history.length := by
  by_contra h
  have := hi.current
  rw [List.get?_eq_none.mpr (by omega)] at this
  cases this

theorem GameState_init_hinv (Z : Zobrist) (BS : Nat) (g0 : GameState) (size : Nat) (komi : Rat)
    (hsize : size ≤ BS) (hfit : VERTICES_NUMBER BS < 65536) :
    HInv Z BS (GameState.init_game Z BS g0 size komi) := by
  refine ⟨rfl, ?_⟩
  intro i x hx
  cases i with
  | zero =>
    refine ⟨KoState.init_game Z BS g0.ko size komi, ?_, rfl,
      KoState_init_ginv Z BS g0.ko size komi hsize hfit⟩
    simpa [GameState.init_game] using hx.symm
  | succ i => simp [GameState.init_game] at hx

/-- The snapshots after the cut and the new entry. -/
theorem snaps_push {Z : Zobrist} {BS : Nat} {g : GameState}
    (hlen : g.ko.fast.m_move_numbers < g.game_history.length)
    (hsnaps : ∀ i x, g.game_history.get? i = some x →
      ∃ ko, x = some ko ∧ ko.fast.m_move_numbers = i ∧ GInv Z BS ko.fast)
    (ko : KoState) (m_resigned : Nat)
    (hn : ko.fast.m_move_numbers ≤ g.ko.fast.m_move_numbers + 1) (gi : GInv Z BS ko.fast) :
    HInv Z BS { ko := ko, game_history := g.game_history.take ko.fast.m_move_numbers ++ [some ko],
                m_resigned := m_resigned } := by
  have hl : (g.game_history.take ko.fast.m_move_numbers).length = ko.fast.m_move_numbers := by
    rw [List.length_take]; omega
  constructor
  · show (g.game_history.take ko.fast.m_move_numbers ++ [some ko]).get? ko.fast.m_move_numbers = _
    rw [List.get?_eq_getElem?, List.getElem?_append_right (by omega), hl, Nat.sub_self]
    rfl
  · intro i x hx
    change (g.game_history.take ko.fast.m_move_numbers ++ [some ko]).get? i = some x at hx
    rw [List.get?_eq_getElem?] at hx
    by_cases h : i < ko.fast.m_move_numbers
    · rw [List.getElem?_append_left (by omega), List.getElem?_take_of_lt h,
        ← List.get?_eq_getElem?] at hx
      exact hsnaps i x hx
    · rw [List.getElem?_append_right (by omega), hl] at hx
      have h0 : i - ko.fast.m_move_numbers = 0 := by
        by_contra h1
        obtain ⟨k, hk⟩ := Nat.exists_eq_succ_of_ne_zero h1
        rw [hk] at hx
        simp at hx
      rw [h0] at hx
      have hx' : some ko = x := by simpa using hx
      exact ⟨ko, hx'.symm, by omega, gi⟩

/-- Every playable move played through `GameState::play_move` returns a state; the
snapshots are cut after the new move number and the new position is appended.  The
current position need not be the snapshot of its move number, as after `set_to_move`. -/
theorem GameState_play_move_core {Z : Zobrist} {BS : Nat} {g : GameState} {c : Nat}
    {vertex : Int} (hlen : g.ko.fast.m_move_numbers < g.game_history.length)
    (hsnaps : ∀ i x, g.game_history.get? i = some x →
      ∃ ko, x = some ko ∧ ko.fast.m_move_numbers = i ∧ GInv Z BS ko.fast)
    (gi : GInv Z BS g.ko.fast) (hc : c < 2) (hp : playable g.ko.fast vertex) :
    ∃ g2, GameState.play_move Z BS g c vertex = some g2 ∧ HInv Z BS g2 ∧
      g2.game_history = g.game_history.take g2.ko.fast.m_move_numbers ++ [some g2.ko] ∧
      (vertex ≠ RESIGN → g2.ko.fast.m_move_numbers = g.ko.fast.m_move_numbers + 1) ∧
      (vertex = RESIGN → g2.ko = g.ko) := by
  by_cases hr : vertex = RESIGN
  · refine ⟨{ ko := g.ko,
              game_history := g.game_history.take g.ko.fast.m_move_numbers ++ [some g.ko],
              m_resigned := c }, ?_, snaps_push hlen hsnaps g.ko c (by omega) gi, rfl,
      fun h => absurd hr h, fun _ => rfl⟩
    simp only [GameState.play_move, hr, if_true, Option.map_some']
    rw [resize_history_take _ _ (by omega)]
  · obtain ⟨k2, h2, gi2, _, _, hn⟩ := KoState_play_move_spec gi hc hp
    have hn2 := hn hr
    refine ⟨{ ko := k2,
              game_history := g.game_history.take k2.fast.m_move_numbers ++ [some k2],
              m_resigned := g.m_resigned }, ?_,
      snaps_push hlen hsnaps k2 g.m_resigned (by omega) gi2, rfl,
      fun _ => hn2, fun h => absurd h hr⟩
    simp only [GameState.play_move, hr, if_false, h2, Option.map_some']
    rw [resize_history_take _ _ (by omega)]

theorem GameState_play_move_spec {Z : Zobrist} {BS : Nat} {g : GameState} {c : Nat}
    {vertex : Int} (hi : HInv Z BS g) (hc : c < 2) (hp : playable g.ko.fast vertex) :
    ∃ g2, GameState.play_move Z BS g c vertex = some g2 ∧ HInv Z BS g2 ∧
      g2.game_history = g.game_history.take g2.ko.fast.m_move_numbers ++ [some g2.ko] ∧
      (vertex ≠ RESIGN → g2.ko.fast.m_move_numbers = g.ko.fast.m_move_numbers + 1) ∧
      (vertex = RESIGN → g2.ko = g.ko) :=
  GameState_play_move_core hi.length hi.snaps hi.current_ginv hc hp

/-- The call `undo_move` returns, and the invariant holds again. -/
theorem GameState_undo_move_spec {Z : Zobrist} {BS : Nat} {g : GameState} (hi : HInv Z BS g) :
    (g.ko.fast.m_move_numbers = 0 ∧ GameState.undo_move g = some (false, g)) ∨
    (0 < g.ko.fast.m_move_numbers ∧ ∃ ko,
      g.game_history.get? (g.ko.fast.m_move_numbers - 1) = some (some ko) ∧
      ko.fast.m_move_numbers = g.ko.fast.m_move_numbers - 1 ∧
      GameState.undo_move g = some (true, { g with ko := ko }) ∧
      HInv Z BS { g with ko := ko }) := by
  have hlen := hi.length
  by_cases h0 : g.ko.fast.m_move_numbers = 0
  · left
    exact ⟨h0, by simp [GameState.undo_move, h0]⟩
  · right
    refine ⟨by omega, ?_⟩
    obtain ⟨x, hx⟩ : ∃ x, g.game_history.get? (g.ko.fast.m_move_numbers - 1) = some x :=
      ⟨_, List.get?_eq_get (by omega)⟩
    obtain ⟨ko, hko, hn, gi⟩ := hi.snaps _ _ hx
    subst hko
    refine ⟨ko, hx, hn, ?_, ?_, hi.snaps⟩
    · simp only [GameState.undo_move, Nat.le_zero, h0, if_false, hx]
    · show g.game_history.get? ko.fast.m_move_numbers = some (some ko)
      rw [hn]; exact hx

/-- The call `forward_move` returns, and the invariant holds again. -/
theorem GameState_forward_move_spec {Z : Zobrist} {BS : Nat} {g : GameState}
    (hi : HInv Z BS g) :
    (g.game_history.length ≤ g.ko.fast.m_move_numbers + 1 ∧
      GameState.forward_move g = some (false, g)) ∨
    (g.ko.fast.m_move_numbers + 1 < g.game_history.length ∧ ∃ ko,
      g.game_history.get? (g.ko.fast.m_move_numbers + 1) = some (some ko) ∧
      ko.fast.m_move_numbers = g.ko.fast.m_move_numbers + 1 ∧
      GameState.forward_move g = some (true, { g with ko := ko }) ∧
      HInv Z BS { g with ko := ko }) := by
  by_cases h0 : g.game_history.length ≤ g.ko.fast.m_move_numbers + 1
  · left
    exact ⟨h0, by simp [GameState.forward_move, h0]⟩
  · right
    refine ⟨by omega, ?_⟩
    obtain ⟨x, hx⟩ : ∃ x, g.game_history.get? (g.ko.fast.m_move_numbers + 1) = some x :=
      ⟨_, List.get?_eq_get (by omega)⟩
    obtain ⟨ko, hko, hn, gi⟩ := hi.snaps _ _ hx
    subst hko
    refine ⟨ko, hx, hn, ?_, ?_, hi.snaps⟩
    · simp only [GameState.forward_move, h0, if_false, hx]
    · show g.game_history.get? ko.fast.m_move_numbers = some (some ko)
      rw [hn]; exact hx

/-- Every state of a played game satisfies the snapshot invariant. -/
theorem Played.hinv {Z : Zobrist} {BS : Nat} {g : GameState} (h : Played Z BS g) :
    HInv Z BS g := by
  induction h with
  | init g0 size komi hsize hfit => exact GameState_init_hinv Z BS g0 size komi hsize hfit
  | move g c vertex g2 _ hc hp hres ih =>
    obtain ⟨g3, h3, hi3, _⟩ := GameState_play_move_spec ih hc hp
    rw [hres] at h3
    cases h3
    exact hi3
  | undo g r g2 _ hres ih =>
    rcases GameState_undo_move_spec ih with ⟨_, h⟩ | ⟨_, ko, _, _, h, hi⟩
    · rw [hres] at h; cases h; exact ih
    · rw [hres] at h; cases h; exact hi
  | forward g r g2 _ hres ih =>
    rcases GameState_forward_move_spec ih with ⟨_, h⟩ | ⟨_, ko, _, _, h, hi⟩
    · rw [hres] at h; cases h; exact ih
    · rw [hres] at h; cases h; exact hi

/-! ## Texts of moves: range of `text_to_move` -/

theorem char_le_iff (a b : Char) : a ≤ b ↔ a.toNat ≤ b.toNat := by
  rw [Char.le_def]
  exact Iff.rfl

theorem char_lt_iff (a b : Char) : a < b ↔ a.toNat < b.toNat := by
  rw [Char.lt_def]
  exact Iff.rfl

/-- A letter that `tolower` returns is a lower-case letter. -/
theorem tolower_alpha (x : Char) (h : isalpha (tolower x) = true) :
    97 ≤ (tolower x).toNat ∧ (tolower x).toNat ≤ 122 := by
  unfold tolower at *
  by_cases hu : 'A' ≤ x ∧ x ≤ 'Z'
  · rw [if_pos hu]
    rw [char_le_iff, char_le_iff] at hu
    have h1 : ('A' : Char).toNat = 65 := by decide
    have h2 : ('Z' : Char).toNat = 90 := by decide
    rw [h1, h2] at hu
    obtain ⟨n, hn⟩ : ∃ n, x.toNat = 65 + n := ⟨x.toNat - 65, by omega⟩
    have hn26 : n < 26 := by omega
    have key : ∀ n : Nat, n < 26 → (Char.ofNat (65 + n + 32)).toNat = 97 + n := by decide
    rw [hn, key n hn26]
    omega
  · rw [if_neg hu] at h ⊢
    simp only [isalpha, decide_eq_true_eq] at h
    rcases h with h | h
    · rw [char_le_iff, char_le_iff] at h
      exact h
    · exact absurd h hu

/-- The value of `text_to_move` is `PASS`, `RESIGN` or an index of the arrays of the
board. -/
theorem text_to_move_range {b : FullBoard} (hside : b.m_side_vertices = b.m_board_size + 2)
    (hnv : b.m_vertices_number = b.m_side_vertices * b.m_side_vertices) (text : List Char) :
    text_to_move b text = PASS ∨ text_to_move b text = RESIGN ∨
      (0 ≤ text_to_move b text ∧ text_to_move b text < (b.m_vertices_number : Int)) := by
  have hpos : (0 : Int) < (b.m_vertices_number : Int) := by
    rw [hnv, hside]; positivity
  by_cases h1 : text.map tolower = ['p', 'a', 's', 's']
  · left; simp only [text_to_move, h1, if_true]
  by_cases h2 : text.map tolower = ['r', 'e', 's', 'i', 'g', 'n']
  · right; left; simp [text_to_move, h2]
  right; right
  have hno : text_to_move b text = (NO_VERTEX : Int) →
      0 ≤ text_to_move b text ∧ text_to_move b text < (b.m_vertices_number : Int) := by
    intro h; rw [h]; exact ⟨le_refl _, hpos⟩
  cases hm : text.map tolower with
  | nil => exact hno (by simp [text_to_move, hm])
  | cons c0 t =>
    cases t with
    | nil => exact hno (by simp [text_to_move, hm])
    | cons c1 rest =>
      by_cases hc : isalpha c0 = true ∧ isdigit c1 = true ∧ c0 ≠ 'i'
      · rw [text_to_move_eval b text c0 c1 rest hm hc.1 hc.2.1 hc.2.2]
        obtain ⟨x, t2, hx⟩ : ∃ x t2, text = x :: t2 := by
          cases text with
          | nil => simp at hm
          | cons x t2 => exact ⟨x, t2, rfl⟩
        have hc0 : c0 = tolower x := by
          rw [hx, List.map_cons] at hm
          exact (List.cons.inj hm).1.symm
        have ha := tolower_alpha x (hc0 ▸ hc.1)
        rw [← hc0] at ha
        have hs : (0 : Int) ≤ stream_int (c1 :: rest) := by
          unfold stream_int; split_ifs <;> omega
        have hgt : c0 > 'i' ↔ 105 < c0.toNat := by
          show 'i' < c0 ↔ _
          rw [char_lt_iff]
          exact Iff.rfl
        have hne : c0.toNat ≠ 105 := by
          intro h
          apply hc.2.2
          rw [← Char.ofNat_toNat c0, h]
        have hside0 : (0 : Int) ≤ (b.m_side_vertices : Int) := by positivity
        by_cases h4 : c0 > 'i'
        · rw [if_pos h4]
          rw [hgt] at h4
          split_ifs with h3
          · exact ⟨le_refl _, hpos⟩
          · have hrow : stream_int (c1 :: rest) - 1 + 1 ≤ (b.m_board_size : Int) := by omega
            have hmul : (stream_int (c1 :: rest) - 1 + 1) * (b.m_side_vertices : Int) ≤
                (b.m_board_size : Int) * (b.m_side_vertices : Int) :=
              mul_le_mul_of_nonneg_right hrow hside0
            have hm0 : 0 ≤ (stream_int (c1 :: rest) - 1 + 1) * (b.m_side_vertices : Int) :=
              mul_nonneg (by omega) hside0
            rw [hnv]
            push_cast
            have hs2 : (b.m_side_vertices : Int) = (b.m_board_size : Int) + 2 := by
              rw [hside]; push_cast; rfl
            have e : (b.m_side_vertices : Int) * (b.m_side_vertices : Int) =
                (b.m_board_size : Int) * (b.m_side_vertices : Int) +
                  2 * (b.m_side_vertices : Int) := by
              rw [hs2]; ring
            have hcol : ((c0.toNat : Nat) : Int) - 97 ≤ (b.m_board_size : Int) := by omega
            constructor
            · omega
            · rw [e]; omega
        · rw [if_neg h4]
          rw [hgt] at h4
          split_ifs with h3
          · exact ⟨le_refl _, hpos⟩
          · have hrow : stream_int (c1 :: rest) - 1 + 1 ≤ (b.m_board_size : Int) := by omega
            have hmul : (stream_int (c1 :: rest) - 1 + 1) * (b.m_side_vertices : Int) ≤
                (b.m_board_size : Int) * (b.m_side_vertices : Int) :=
              mul_le_mul_of_nonneg_right hrow hside0
            have hm0 : 0 ≤ (stream_int (c1 :: rest) - 1 + 1) * (b.m_side_vertices : Int) :=
              mul_nonneg (by omega) hside0
            rw [hnv]
            push_cast
            have hs2 : (b.m_side_vertices : Int) = (b.m_board_size : Int) + 2 := by
              rw [hside]; push_cast; rfl
            have e : (b.m_side_vertices : Int) * (b.m_side_vertices : Int) =
                (b.m_board_size : Int) * (b.m_side_vertices : Int) +
                  2 * (b.m_side_vertices : Int) := by
              rw [hs2]; ring
            have hcol : ((c0.toNat : Nat) : Int) - 97 ≤ (b.m_board_size : Int) := by omega
            constructor
            · omega
            · rw [e]; omega
      · apply hno
        have hb : (!isalpha c0 || !isdigit c1 || c0 == 'i') = true := by
          by_contra hb
          apply hc
          simp only [Bool.or_eq_true, Bool.not_eq_true', beq_iff_eq, not_or,
            Bool.not_eq_false] at hb
          exact ⟨hb.1.1, hb.1.2, hb.2⟩
        simp only [text_to_move, hm, hb, if_true]
        rw [← hm, if_neg h1, if_neg h2]

/-! ## `play_text` -/

theorem xor_to_move (core T K p0 P D : Nat) :
    (core ^^^ (T ^^^ K ^^^ p0 ^^^ P)) ^^^ D = core ^^^ ((T ^^^ D) ^^^ K ^^^ p0 ^^^ P) := by
  ac_rfl

/-- The invariant of a game state holds again after `set_to_move`. -/
theorem GInv.after_set_to_move {Z : Zobrist} {BS : Nat} {s : FastState} (gi : GInv Z BS s)
    {player : Nat} (hp : player < 2) :
    GInv Z BS { s with board := set_to_move s.board player } := by
  refine ⟨?_, hp, gi.ko_empty⟩
  apply Inv.retag gi.board
  show (if s.board.m_color_to_move ≠ player then s.board.m_hash ^^^ ZOBRIST_BLACK_TO_MOVE
      else s.board.m_hash) = coreHash Z s.board ^^^
        ((if player = BLACK then ZOBRIST_BLACK_TO_MOVE else 0) ^^^ Z.zobrist_ko_move s.m_ko_move
          ^^^ Z.zobrist_passes 0 ^^^ Z.zobrist_passes s.m_passes)
  have ht := gi.to_move
  rw [gi.board.hash]
  by_cases h : s.board.m_color_to_move = player
  · rw [if_neg (by simpa using h)]
    simp only [stateHash, h]
  · rw [if_pos h]
    simp only [stateHash]
    rw [xor_to_move]
    have e : (if s.board.m_color_to_move = BLACK then ZOBRIST_BLACK_TO_MOVE else 0)
        ^^^ ZOBRIST_BLACK_TO_MOVE = (if player = BLACK then ZOBRIST_BLACK_TO_MOVE else 0) := by
      generalize s.board.m_color_to_move = t at h ht
      interval_cases t <;> interval_cases player <;> first | exact absurd rfl h | decide
    rw [e]

/-- The call of `get_vertex` in `text_to_move` on a letter followed by a number. -/
theorem text_to_move_call_eval (b : FullBoard) (text : List Char) (c0 c1 : Char)
    (rest : List Char) (ht : text.map tolower = c0 :: c1 :: rest) (ha : isalpha c0 = true)
    (hd : isdigit c1 = true) (hi : c0 ≠ 'i') :
    text_to_move_call b text =
      if stream_int (c1 :: rest) - 1 ≥ (b.m_board_size : Int) ∨
          (if c0 > 'i' then ((c0.toNat : Int) - 97 - 1) else ((c0.toNat : Int) - 97))
            ≥ (b.m_board_size : Int)
      then none
      else some ((if c0 > 'i' then ((c0.toNat : Int) - 97 - 1) else ((c0.toNat : Int) - 97)),
        stream_int (c1 :: rest) - 1) := by
  have hne := digit_not_letter hd
  have h1 : c0 :: c1 :: rest ≠ ['p', 'a', 's', 's'] := by
    intro h
    simp only [List.cons.injEq] at h
    exact hne.1 h.2.1
  have h2 : c0 :: c1 :: rest ≠ ['r', 'e', 's', 'i', 'g', 'n'] := by
    intro h
    simp only [List.cons.injEq] at h
    exact hne.2 h.2.1
  have h3 : (c0 == 'i') = false := by simpa using hi
  simp only [text_to_move_call, ht, h1, h2, if_false, ha, hd, h3, Bool.not_true, Bool.or_self,
    Bool.false_eq_true]

/-- There is no call of `get_vertex` for a text that is not a letter other than `i`
followed by a digit. -/
theorem text_to_move_call_none (b : FullBoard) (text : List Char)
    (h : ¬ ∃ c0 c1 rest, text.map tolower = c0 :: c1 :: rest ∧ isalpha c0 = true ∧
      isdigit c1 = true ∧ c0 ≠ 'i') : text_to_move_call b text = none := by
  unfold text_to_move_call
  simp only []
  split_ifs with h1 h2
  · rfl
  · rfl
  · cases hm : text.map tolower with
    | nil => rfl
    | cons c0 t =>
      cases t with
      | nil => rfl
      | cons c1 rest =>
        have hb : (!isalpha c0 || !isdigit c1 || c0 == 'i') = true := by
          by_contra hb
          apply h
          simp only [Bool.or_eq_true, Bool.not_eq_true', beq_iff_eq, not_or,
            Bool.not_eq_false] at hb
          exact ⟨c0, c1, rest, hm, hb.1.1, hb.1.2, hb.2⟩
        simp only [hb, if_true]

/-- The arguments of the call of `get_vertex` in `text_to_move`: a column of the board,
and a row of the board or the row `-1`; the value of `text_to_move` is computed from
them. -/
theorem text_to_move_call_spec (b : FullBoard) (text : List Char) (x y : Int)
    (h : text_to_move_call b text = some (x, y)) :
    0 ≤ x ∧ x < (b.m_board_size : Int) ∧ -1 ≤ y ∧ y < (b.m_board_size : Int) ∧
      text_to_move b text = (y + 1) * b.m_side_vertices + (x + 1) := by
  by_cases hex : ∃ c0 c1 rest, text.map tolower = c0 :: c1 :: rest ∧ isalpha c0 = true ∧
      isdigit c1 = true ∧ c0 ≠ 'i'
  · obtain ⟨c0, c1, rest, hm, ha, hd, hi⟩ := hex
    rw [text_to_move_call_eval b text c0 c1 rest hm ha hd hi] at h
    rw [text_to_move_eval b text c0 c1 rest hm ha hd hi]
    obtain ⟨x0, t2, hx⟩ : ∃ x0 t2, text = x0 :: t2 := by
      cases text with
      | nil => simp at hm
      | cons x0 t2 => exact ⟨x0, t2, rfl⟩
    have hc0 : c0 = tolower x0 := by
      rw [hx, List.map_cons] at hm
      exact (List.cons.inj hm).1.symm
    have hal := tolower_alpha x0 (hc0 ▸ ha)
    rw [← hc0] at hal
    have hs : (0 : Int) ≤ stream_int (c1 :: rest) := by
      unfold stream_int; split_ifs <;> omega
    have hgt : c0 > 'i' ↔ 105 < c0.toNat := by
      show 'i' < c0 ↔ _
      rw [char_lt_iff]
      exact Iff.rfl
    have hcol0 : (0 : Int) ≤
        (if c0 > 'i' then ((c0.toNat : Int) - 97 - 1) else ((c0.toNat : Int) - 97)) := by
      by_cases h4 : c0 > 'i'
      · rw [if_pos h4]
        rw [hgt] at h4
        omega
      · rw [if_neg h4]
        omega
    generalize (if c0 > 'i' then ((c0.toNat : Int) - 97 - 1) else ((c0.toNat : Int) - 97)) =
      col at h hcol0 ⊢
    by_cases h3 : stream_int (c1 :: rest) - 1 ≥ (b.m_board_size : Int) ∨
        col ≥ (b.m_board_size : Int)
    · rw [if_pos h3] at h
      cases h
    · rw [if_neg h3] at h ⊢
      cases h
      exact ⟨hcol0, by omega, by omega, by omega, rfl⟩
  · rw [text_to_move_call_none b text hex] at h
    cases h

/-- On a board with the geometry of `reset_board` the assertions of `get_vertex` hold for
a column of the board and a row that is not negative. -/
theorem get_vertex_asserts_iff {BS : Nat} {b : FullBoard} (g : Geom BS b) {x y : Int}
    (hx0 : 0 ≤ x) (hx : x < (b.m_board_size : Int)) (hy : y < (b.m_board_size : Int)) :
    get_vertex_asserts BS b x y = true ↔ 0 ≤ y := by
  have hsz : (b.m_board_size : Int) ≤ (BS : Int) := by exact_mod_cast g.size_le
  have hside : (b.m_side_vertices : Int) = (b.m_board_size : Int) + 2 := by
    rw [g.side_eq]; push_cast; rfl
  have hnv : (b.m_vertices_number : Int) =
      (b.m_side_vertices : Int) * (b.m_side_vertices : Int) := by
    rw [g.nverts_eq]; push_cast; rfl
  unfold get_vertex_asserts
  simp only [Bool.and_eq_true, decide_eq_true_eq]
  constructor
  · intro h
    exact h.1.1.1.2.1
  · intro hy0
    have hmul : (y + 1) * (b.m_side_vertices : Int) ≤
        (b.m_board_size : Int) * (b.m_side_vertices : Int) :=
      mul_le_mul_of_nonneg_right (by omega) (by omega)
    have hm0 : 0 ≤ (y + 1) * (b.m_side_vertices : Int) := mul_nonneg (by omega) (by omega)
    have e : (b.m_side_vertices : Int) * (b.m_side_vertices : Int) =
        (b.m_board_size : Int) * (b.m_side_vertices : Int) + 2 * (b.m_side_vertices : Int) := by
      rw [hside]; ring
    refine ⟨⟨⟨⟨⟨hx0, by omega⟩, hy0, by omega⟩, hx0, hx⟩, hy0, hy⟩, by omega, ?_⟩
    rw [hnv, e]
    omega

/-- The assertions of the `get_vertex` call in `text_to_move` fail for the row 0 of the
text and for no other text. -/
theorem text_to_move_checked_spec {BS : Nat} {b : FullBoard} (g : Geom BS b)
    (text : List Char) :
    (text_to_move_checked BS b text = none ↔ ∃ x, text_to_move_call b text = some (x, -1)) ∧
    (text_to_move_checked BS b text = none ∨
      text_to_move_checked BS b text = some (text_to_move b text)) := by
  have hall : (text_to_move_call b text).all
      (fun xy => get_vertex_asserts BS b xy.1 xy.2) = true ↔
      ¬ ∃ x, text_to_move_call b text = some (x, -1) := by
    cases hc : text_to_move_call b text with
    | none => exact ⟨fun _ ⟨x, h⟩ => (by cases h), fun _ => rfl⟩
    | some xy =>
      obtain ⟨x, y⟩ := xy
      obtain ⟨hx0, hx, hy1, hy, _⟩ := text_to_move_call_spec b text x y hc
      have hiff := get_vertex_asserts_iff g hx0 hx hy
      show get_vertex_asserts BS b x y = true ↔ _
      rw [hiff]
      constructor
      · rintro hy0 ⟨x2, h⟩
        have e : y = -1 := congrArg Prod.snd (Option.some.inj h)
        omega
      · intro hno
        by_contra hneg
        exact hno ⟨x, by rw [show y = -1 by omega]⟩
  unfold text_to_move_checked
  by_cases ha : (text_to_move_call b text).all
      (fun xy => get_vertex_asserts BS b xy.1 xy.2) = true
  · rw [if_pos ha]
    exact ⟨⟨fun h => (by cases h), fun h => absurd h (hall.mp ha)⟩, Or.inr rfl⟩
  · rw [if_neg ha]
    refine ⟨⟨fun _ => ?_, fun _ => rfl⟩, Or.inl rfl⟩
    by_contra hno
    exact ha (hall.mpr hno)

/-- The assertions of `get_state` hold for the vertex that `text_to_move` returns. -/
theorem get_state_asserts_text {BS : Nat} {b : FullBoard} (g : Geom BS b) (text : List Char)
    (hP : text_to_move b text ≠ PASS) (hR : text_to_move b text ≠ RESIGN) :
    get_state_asserts BS b (text_to_move b text) = true := by
  have hle : (b.m_vertices_number : Int) ≤ (VERTICES_NUMBER BS : Int) := by
    exact_mod_cast g.nverts_le
  rcases text_to_move_range g.side_eq g.nverts_eq text with h | h | ⟨h1, h2⟩
  · exact absurd h hP
  · exact absurd h hR
  · unfold get_state_asserts
    simp only [Bool.and_eq_true, decide_eq_true_eq]
    exact ⟨⟨h1, by omega⟩, h1, h2⟩

/-- What `play_text` does once the colour is known and the assertions of `text_to_move`
hold: the move is refused when the text denotes no vertex or a point that is not empty,
and played through `play_move` otherwise. -/
theorem play_text_move_spec {Z : Zobrist} {BS : Nat} {g : GameState} (hi : HInv Z BS g)
    {player : Nat} (hp : player < 2) (vertex : List Char)
    (hchk : text_to_move_checked BS g.ko.fast.board vertex =
      some (text_to_move g.ko.fast.board vertex)) :
    ((text_to_move g.ko.fast.board vertex = (NO_VERTEX : Int) ∨
        (text_to_move g.ko.fast.board vertex ≠ PASS ∧
          text_to_move g.ko.fast.board vertex ≠ RESIGN ∧
          g.ko.fast.board.m_state (text_to_move g.ko.fast.board vertex).toNat ≠ EMPTY)) ∧
      play_text_move Z BS g player vertex = some (false, g)) ∨
    (¬ (text_to_move g.ko.fast.board vertex = (NO_VERTEX : Int) ∨
        (text_to_move g.ko.fast.board vertex ≠ PASS ∧
          text_to_move g.ko.fast.board vertex ≠ RESIGN ∧
          g.ko.fast.board.m_state (text_to_move g.ko.fast.board vertex).toNat ≠ EMPTY)) ∧
      ∃ g2, play_text_move Z BS g player vertex = some (true, g2) ∧
        GameState.play_move Z BS
          { g with ko := { g.ko with fast := { g.ko.fast with
              board := set_to_move g.ko.fast.board player } } }
          player (text_to_move g.ko.fast.board vertex) = some g2) := by
  have gi := hi.current_ginv
  have hst : ¬ (text_to_move g.ko.fast.board vertex ≠ PASS ∧
      text_to_move g.ko.fast.board vertex ≠ RESIGN ∧
      get_state_asserts BS g.ko.fast.board (text_to_move g.ko.fast.board vertex) = false) := by
    rintro ⟨hP, hR, hf⟩
    rw [get_state_asserts_text gi.board.geom vertex hP hR] at hf
    cases hf
  by_cases h0 : text_to_move g.ko.fast.board vertex = (NO_VERTEX : Int)
  · left
    refine ⟨Or.inl h0, ?_⟩
    simp only [play_text_move, hchk, Option.some_bind, h0, if_true]
  by_cases h : text_to_move g.ko.fast.board vertex ≠ PASS ∧
        text_to_move g.ko.fast.board vertex ≠ RESIGN ∧
        g.ko.fast.board.m_state (text_to_move g.ko.fast.board vertex).toNat ≠ EMPTY
  · left
    refine ⟨Or.inr h, ?_⟩
    simp only [play_text_move, hchk, Option.some_bind]
    rw [if_neg h0, if_neg hst, if_pos h]
  · right
    refine ⟨fun hh => hh.elim h0 h, ?_⟩
    have hrange := text_to_move_range gi.board.geom.side_eq gi.board.geom.nverts_eq vertex
    have hplay : playable { g.ko.fast with board := set_to_move g.ko.fast.board player }
        (text_to_move g.ko.fast.board vertex) := by
      rcases hrange with h1 | h1 | ⟨h1, h2⟩
      · exact Or.inl h1
      · exact Or.inr (Or.inl h1)
      · by_cases hP : text_to_move g.ko.fast.board vertex = PASS
        · exact Or.inl hP
        by_cases hR : text_to_move g.ko.fast.board vertex = RESIGN
        · exact Or.inr (Or.inl hR)
        refine Or.inr (Or.inr ⟨h1, h2, ?_⟩)
        by_contra hne
        exact h ⟨hP, hR, hne⟩
    obtain ⟨g2, h2, _⟩ := @GameState_play_move_core Z BS
      { g with ko := { g.ko with fast := { g.ko.fast with
          board := set_to_move g.ko.fast.board player } } } player
      (text_to_move g.ko.fast.board vertex) hi.length hi.snaps (gi.after_set_to_move hp) hp hplay
    refine ⟨g2, ?_, h2⟩
    simp only [play_text_move, hchk, Option.some_bind]
    rw [if_neg h0, if_neg hst, if_neg h]
    show (GameState.play_move Z BS _ player _).map _ = _
    rw [h2]
    rfl

/-- The value of `play_text` for the colour texts of White. -/
theorem play_text_white (Z : Zobrist) (BS : Nat) (g : GameState) (color vertex : List Char)
    (hw : color.map tolower = ['w'] ∨ color.map tolower = ['w', 'h', 'i', 't', 'e']) :
    GameState.play_text Z BS g color vertex = play_text_move Z BS g WHITE vertex := by
  simp only [GameState.play_text, hw, if_true]

/-- The value of `play_text` for the colour texts of Black. -/
theorem play_text_black (Z : Zobrist) (BS : Nat) (g : GameState) (color vertex : List Char)
    (hb : color.map tolower = ['b'] ∨ color.map tolower = ['b', 'l', 'a', 'c', 'k']) :
    GameState.play_text Z BS g color vertex = play_text_move Z BS g BLACK vertex := by
  have hw : ¬ (color.map tolower = ['w'] ∨ color.map tolower = ['w', 'h', 'i', 't', 'e']) := by
    rintro (h | h) <;> rcases hb with hb | hb <;> rw [h] at hb <;> cases hb
  simp only [GameState.play_text, hw, hb, if_true, if_false]

/-- An unknown colour text is refused before the vertex text is read. -/
theorem play_text_unknown (Z : Zobrist) (BS : Nat) (g : GameState) (color vertex : List Char)
    (h : color.map tolower ≠ ['w'] ∧ color.map tolower ≠ ['w', 'h', 'i', 't', 'e'] ∧
      color.map tolower ≠ ['b'] ∧ color.map tolower ≠ ['b', 'l', 'a', 'c', 'k']) :
    GameState.play_text Z BS g color vertex = some (false, g) := by
  have hw : ¬ (color.map tolower = ['w'] ∨ color.map tolower = ['w', 'h', 'i', 't', 'e']) :=
    fun hh => hh.elim h.1 h.2.1
  have hb : ¬ (color.map tolower = ['b'] ∨ color.map tolower = ['b', 'l', 'a', 'c', 'k']) :=
    fun hh => hh.elim h.2.2.1 h.2.2.2
  simp only [GameState.play_text, hw, hb, if_false]

theorem Inv.toFramed {Z : Zobrist} {BS r : Nat} {b : FullBoard} (inv : Inv Z BS r b) :
    Framed BS b :=
  ⟨inv.geom, fun u hu ho => (inv.border u hu ho).1⟩

/-! ## Tree reuse -/

/-- The depth computed by `advance_to_new_root_state` is the difference of the move
numbers when both are below `2 ^ 31`. -/
theorem to_int_size_t_sub {a b : Nat} (ha : a < 2 ^ 31) (hb : b < 2 ^ 31) :
    to_int (size_t_sub a b) = (a : Int) - (b : Int) := by
  simp only [to_int, size_t_sub]
  norm_num at ha hb ⊢
  split_ifs <;> omega

/-- The loop of `undo_move` calls returns on the states of a played game. -/
theorem undo_times_spec {Z : Zobrist} {BS : Nat} :
    ∀ (n : Nat) (g : GameState), HInv Z BS g →
      ∃ test, undo_times n g = some test ∧ HInv Z BS test := by
  intro n
  induction n with
  | zero => intro g hi; exact ⟨g, rfl, hi⟩
  | succ n ih =>
    intro g hi
    rcases GameState_undo_move_spec hi with ⟨_, h⟩ | ⟨_, ko, _, _, h, hi2⟩
    · obtain ⟨t, ht, hit⟩ := ih g hi
      exact ⟨t, by simp only [undo_times, h, Option.some_bind]; exact ht, hit⟩
    · obtain ⟨t, ht, hit⟩ := ih _ hi2
      exact ⟨t, by simp only [undo_times, h, Option.some_bind]; exact ht, hit⟩

/-- The cases in which `advance_to_new_root_state` returns false before it touches the
tree. -/
theorem advance_refused {Node : Type} (ops : NodeOps Node) {Z : Zobrist} {BS : Nat}
    {s : UCTSearch Node} (hi : HInv Z BS s.m_root_state)
    (hcur : s.m_root_state.ko.fast.m_move_numbers < 2 ^ 31)
    (hlast : ∀ last, s.m_last_root_state = some last → last.ko.fast.m_move_numbers < 2 ^ 31)
    (h : s.m_last_root_state = none ∨ ∃ last, s.m_last_root_state = some last ∧
      (s.m_root_state.ko.fast.m_komi ≠ last.ko.fast.m_komi ∨
       s.m_root_state.ko.fast.m_move_numbers < last.ko.fast.m_move_numbers ∨
       (last.ko.fast.m_move_numbers ≤ s.m_root_state.ko.fast.m_move_numbers ∧
        (undo_times (s.m_root_state.ko.fast.m_move_numbers - last.ko.fast.m_move_numbers)
          s.m_root_state).map (fun test => test.ko.fast.board.m_hash) ≠
            some last.ko.fast.board.m_hash))) :
    advance_to_new_root_state ops Z BS s = some (false, s) := by
  cases hr : s.m_root with
  | none => simp only [advance_to_new_root_state, hr]
  | some root =>
    cases hl : s.m_last_root_state with
    | none => simp only [advance_to_new_root_state, hr, hl]
    | some last =>
      rcases h with h | ⟨last2, hl2, h⟩
      · rw [hl] at h; cases h
      rw [hl] at hl2
      cases hl2
      have hd := to_int_size_t_sub hcur (hlast last hl)
      simp only [advance_to_new_root_state, hr, hl, hd]
      by_cases hk : s.m_root_state.ko.fast.m_komi ≠ last.ko.fast.m_komi
      · rw [if_pos hk]
      rw [if_neg hk]
      by_cases hneg : (s.m_root_state.ko.fast.m_move_numbers : Int) -
          (last.ko.fast.m_move_numbers : Int) < 0
      · rw [if_pos hneg]
      rw [if_neg hneg]
      rcases h with h | h | ⟨hle, h⟩
      · exact absurd h hk
      · omega
      · have e : ((s.m_root_state.ko.fast.m_move_numbers : Int) -
            (last.ko.fast.m_move_numbers : Int)).toNat =
            s.m_root_state.ko.fast.m_move_numbers - last.ko.fast.m_move_numbers := by omega
        rw [e]
        obtain ⟨test, ht, _⟩ := undo_times_spec
          (s.m_root_state.ko.fast.m_move_numbers - last.ko.fast.m_move_numbers) _ hi
        rw [ht] at h ⊢
        have hne : last.ko.fast.board.m_hash ≠ test.ko.fast.board.m_hash := by
          intro he
          apply h
          rw [Option.map_some', he]
        simp only [hne, ne_eq, not_false_eq_true, if_true]

/-- When `advance_to_new_root_state` returns false, `update_root` installs the node made
anew, on which `count_nodes_and_clear_expand_state` has run. -/
theorem update_root_fresh {Node : Type} (ops : NodeOps Node) (Z : Zobrist) (BS : Nat)
    (NDEBUG : Bool) (s : UCTSearch Node) (hroot : NDEBUG = false → s.m_root ≠ none)
    (hadv : ∀ root, advance_to_new_root_state ops Z BS
        { s with m_playouts := 0, m_root := root } =
      some (false, { s with m_playouts := 0, m_root := root })) :
    ∃ s2, update_root ops Z BS NDEBUG s = some s2 ∧
      s2.m_root = some (ops.count_nodes_and_clear_expand_state ops.fresh).2 ∧
      s2.m_last_root_state = none ∧ s2.m_root_state = s.m_root_state ∧ s2.m_playouts = 0 := by
  cases hN : NDEBUG with
  | true =>
    have e := hadv s.m_root
    refine ⟨{ s with m_playouts := 0
                     m_root := some (ops.count_nodes_and_clear_expand_state ops.fresh).2
                     m_last_root_state := none
                     m_nodes := to_int (ops.count_nodes_and_clear_expand_state ops.fresh).1 },
      ?_, rfl, rfl, rfl, rfl⟩
    simp only [update_root, if_true, Option.some_bind]
    rw [show ({ s with m_playouts := 0 } : UCTSearch Node) =
      { s with m_playouts := 0, m_root := s.m_root } from rfl, e]
    rfl
  | false =>
    cases hr : s.m_root with
    | none => exact absurd hr (hroot hN)
    | some root =>
      have e := hadv (some (ops.count_nodes_and_clear_expand_state root).2)
      refine ⟨{ s with m_playouts := 0
                       m_root := some (ops.count_nodes_and_clear_expand_state ops.fresh).2
                       m_last_root_state := none
                       m_nodes := to_int (ops.count_nodes_and_clear_expand_state ops.fresh).1 },
        ?_, rfl, rfl, rfl, rfl⟩
      simp only [update_root, hr, Bool.false_eq_true, if_false, Option.some_bind]
      rw [e]
      rfl

/-! ## Column letters -/

set_option maxRecDepth 100000 in
/-- Up to column 189 the letter of `move_to_text` is the column letter, which is never
`I`. -/
theorem column_table : ∀ x : Nat, x < 190 →
    int_to_char (if ((x : Nat) : Int) < 8 then 65 + ((x : Nat) : Int)
      else 65 + ((x : Nat) : Int) + 1) = columnLetter x ∧ columnLetter x ≠ 'I' := by
  decide

/-! ## Concrete games for the later claims -/

theorem playOn_pass (s : FastState) (c : Nat) :
    play_move exampleZ 19 s c PASS = some (playOn s c PASS) := by
  rw [playOn, play_move_pass]
  rfl

set_option maxRecDepth 100000 in
theorem dame_game : Game exampleZ 19 noTags dame :=
  playOn_game (playOn_game game2_game (by decide) (by decide)) (by decide) (by decide)

theorem match0_played : Played exampleZ 19 match0 :=
  Played.init blankGame 3 (15 / 2) (by decide) (by decide)

theorem moveOn_played {g : GameState} {c : Nat} {v : Int} (hg : Played exampleZ 19 g)
    (hc : c < 2) (hp : playable g.ko.fast v) : Played exampleZ 19 (moveOn g c v) := by
  obtain ⟨g2, h, _⟩ := GameState_play_move_spec hg.hinv hc hp
  have e : moveOn g c v = g2 := by simp [moveOn, h]
  rw [e]
  exact Played.move g c v g2 hg hc hp h

set_option maxRecDepth 100000 in
theorem match1_played : Played exampleZ 19 match1 :=
  moveOn_played match0_played (by decide) (by decide)

set_option maxRecDepth 100000 in
theorem match2_played : Played exampleZ 19 match2 :=
  moveOn_played match1_played (by decide) (by decide)

set_option maxRecDepth 100000 in
theorem dame_reach : compute_reach_color dame.board BLACK = some 8 ∧
    compute_reach_color dame.board WHITE = some 8 ∧ dame.board.m_board_size = 3 ∧
    dame.m_passes = 2 := by
  decide

set_option maxRecDepth 100000 in
theorem match2_suicide : is_move_legal noTags match2.ko.fast WHITE 6 = false ∧
    text_to_move match2.ko.fast.board ['a', '1'] = 6 ∧
    match2.ko.fast.m_move_numbers = 2 ∧
    (GameState.play_text exampleZ 19 match2 ['w'] ['a', '1']).map
      (fun r => (r.1, r.2.ko.fast.m_move_numbers)) = some (true, 3) := by
  decide

/-! ## Claims C11 to C14: area scoring and the texts of moves -/

/-- C12, as stated, fails: after Black on `(1, 0)`, White on
`(0, 0)` and two passes on the 3x3 board, both colours reach all seven empty points, so
the two counts are 8 and 8 and no number of neutral points brings the sum to 9. -/
theorem reach_counts_counterexample : Game exampleZ 19 noTags dame ∧
    play_move exampleZ 19 game2 BLACK PASS = some (playOn game2 BLACK PASS) ∧
    play_move exampleZ 19 (playOn game2 BLACK PASS) WHITE PASS = some dame ∧
    compute_reach_color dame.board BLACK = some 8 ∧
    compute_reach_color dame.board WHITE = some 8 ∧
    dame.board.m_board_size * dame.board.m_board_size = 9 ∧
    ∀ neutral : Nat, 8 + 8 + neutral ≠ dame.board.m_board_size * dame.board.m_board_size :=
  ⟨dame_game, playOn_pass game2 BLACK, playOn_pass (playOn game2 BLACK PASS) WHITE,
    dame_reach.1, dame_reach.2.1, by rw [dame_reach.2.2.1],
    fun neutral => by rw [dame_reach.2.2.1]; omega⟩

/-- C12, amended: in every position reached after two consecutive passes,
`compute_reach_color(BLACK)` plus `compute_reach_color(WHITE)` plus the number of neutral
empty intersections equals `board_size * board_size` plus the number of empty
intersections that are counted for both colours. -/
theorem reach_counts_after_passes {Z : Zobrist} {BS : Nat} {tags : AnalyzeTags}
    {s s1 s2 : FastState} {c1 c2 : Nat} (hs : Game Z BS tags s) (hc1 : c1 < 2) (hc2 : c2 < 2)
    (h1 : play_move Z BS s c1 PASS = some s1) (h2 : play_move Z BS s1 c2 PASS = some s2) :
    ∃ nb nw nn nd, compute_reach_color s2.board BLACK = some nb ∧
      compute_reach_color s2.board WHITE = some nw ∧ neutralCount s2.board nn ∧
      sharedCount s2.board nd ∧
      nb + nw + nn = s2.board.m_board_size * s2.board.m_board_size + nd := by
  obtain ⟨t1, e1, gi1, _⟩ := play_move_playable hs.ginv hc1 (Or.inl rfl) (by decide)
  rw [h1] at e1
  cases e1
  obtain ⟨t2, e2, gi2, _⟩ := play_move_playable gi1 hc2 (Or.inl rfl) (by decide)
  rw [h2] at e2
  cases e2
  have F := gi2.board.toFramed
  obtain ⟨nb, hb, rb⟩ := compute_reach_color_spec F BLACK
  obtain ⟨nw, hw, rw⟩ := compute_reach_color_spec F WHITE
  classical
  have hn : neutralCount s2.board
      ((Finset.range s2.board.m_vertices_number).filter (fun u => onBoard s2.board u ∧
        s2.board.m_state u = EMPTY ∧ ¬ reaches s2.board BLACK u ∧
        ¬ reaches s2.board WHITE u)).card := by
    refine ⟨_, fun u => ?_, rfl⟩
    rw [Finset.mem_filter, Finset.mem_range]
    exact ⟨fun h => h.2, fun h => ⟨F.geom.onBoard_lt h.1, h⟩⟩
  have hd : sharedCount s2.board
      ((Finset.range s2.board.m_vertices_number).filter (fun u =>
        s2.board.m_state u = EMPTY ∧ reaches s2.board BLACK u ∧
        reaches s2.board WHITE u)).card := by
    refine ⟨_, fun u => ?_, rfl⟩
    rw [Finset.mem_filter, Finset.mem_range]
    exact ⟨fun h => h.2, fun h => ⟨F.geom.onBoard_lt (reaches_onBoard h.2.1), h⟩⟩
  exact ⟨nb, nw, _, _, hb, hw, hn, hd, reach_counts_sum gi2.board rb rw hn hd⟩

theorem reach_counts_after_passes_witness : Game exampleZ 19 noTags game2 ∧
    BLACK < 2 ∧ WHITE < 2 ∧
    play_move exampleZ 19 game2 BLACK PASS = some (playOn game2 BLACK PASS) ∧
    play_move exampleZ 19 (playOn game2 BLACK PASS) WHITE PASS = some dame ∧
    ∃ nb nw nn nd, compute_reach_color dame.board BLACK = some nb ∧
      compute_reach_color dame.board WHITE = some nw ∧ neutralCount dame.board nn ∧
      sharedCount dame.board nd ∧
      nb + nw + nn = dame.board.m_board_size * dame.board.m_board_size + nd :=
  ⟨game2_game, by decide, by decide, playOn_pass game2 BLACK,
    playOn_pass (playOn game2 BLACK PASS) WHITE,
    reach_counts_after_passes game2_game (by decide) (by decide) (playOn_pass game2 BLACK)
      (playOn_pass (playOn game2 BLACK PASS) WHITE)⟩

/-- C13: on a board of at most 25 columns whose side length and array length are those of
`reset_board`, `text_to_move(move_to_text(v)) = v` for every on-board vertex `v`, and the
same holds for `PASS` and for `RESIGN`. -/
theorem text_round_trip {b : FullBoard} (hside : b.m_side_vertices = b.m_board_size + 2)
    (hnv : b.m_vertices_number = b.m_side_vertices * b.m_side_vertices)
    (h25 : b.m_board_size ≤ 25) :
    (∀ v : Nat, onBoard b v → text_to_move b (move_to_text b v) = v) ∧
      text_to_move b (move_to_text b PASS) = PASS ∧
      text_to_move b (move_to_text b RESIGN) = RESIGN :=
  ⟨fun _ hv => text_round_trip_core hside hnv h25 hv, text_pass_resign b⟩

theorem text_round_trip_witness :
    empty3.m_side_vertices = empty3.m_board_size + 2 ∧
    empty3.m_vertices_number = empty3.m_side_vertices * empty3.m_side_vertices ∧
    empty3.m_board_size ≤ 25 ∧
    ((∀ v : Nat, onBoard empty3 v → text_to_move empty3 (move_to_text empty3 v) = v) ∧
      text_to_move empty3 (move_to_text empty3 PASS) = PASS ∧
      text_to_move empty3 (move_to_text empty3 RESIGN) = RESIGN) :=
  ⟨by decide, by decide, by decide, text_round_trip (by decide) (by decide) (by decide)⟩

/-- C14: on a board of at most 190 columns, for the on-board vertex with column index `x`
and row index `y`, `move_to_text` yields the column letter followed by the decimal number
`y + 1`; the column letter is `A + x` for `x < 8` and `J + (x - 8)` from column 8 on, and
is never `I`; and `text_to_move` returns `NO_VERTEX` for every text that starts with `I`
or `i`. -/
theorem move_to_text_letter {b : FullBoard} {x y : Nat}
    (hside : b.m_side_vertices = b.m_board_size + 2)
    (hnv : b.m_vertices_number = b.m_side_vertices * b.m_side_vertices)
    (h190 : b.m_board_size ≤ 190) (hx : x < b.m_board_size) (hy : y < b.m_board_size) :
    move_to_text b (get_vertex b x y) = columnLetter x :: Nat.toDigits 10 (y + 1) ∧
      columnLetter x = Char.ofNat (if x < 8 then 'A'.toNat + x else 'J'.toNat + (x - 8)) ∧
      columnLetter x ≠ 'I' ∧
      ∀ rest : List Char, text_to_move b ('I' :: rest) = NO_VERTEX ∧
        text_to_move b ('i' :: rest) = NO_VERTEX := by
  have hv : onBoard b (get_vertex b x y) :=
    (onBoard_coords (y + 1) (x + 1) (by omega)).mpr ⟨by omega, by omega, by omega, by omega⟩
  obtain ⟨d1, d2⟩ := div_mod_coords b.m_side_vertices (y + 1) (x + 1) (by omega)
  have e := move_to_text_vertex hside hnv hv
  have ex : get_vertex b x y % b.m_side_vertices - 1 = x := by
    simp only [get_vertex, d2]; omega
  have ey : get_vertex b x y / b.m_side_vertices - 1 + 1 = y + 1 := by
    simp only [get_vertex, d1]; omega
  rw [ex, ey] at e
  obtain ⟨t1, t2⟩ := column_table x (by omega)
  refine ⟨?_, ?_, t2, text_to_move_i b⟩
  · rw [e, ← t1]
    by_cases h8 : x < 8
    · rw [if_pos h8, if_pos (by omega)]
    · rw [if_neg h8, if_neg (by omega)]
  · unfold columnLetter
    congr 1
    have hA : 'A'.toNat = 65 := by decide
    have hJ : 'J'.toNat = 74 := by decide
    rw [hA, hJ]
    split_ifs <;> omega

theorem move_to_text_letter_witness :
    empty3.m_side_vertices = empty3.m_board_size + 2 ∧
    empty3.m_vertices_number = empty3.m_side_vertices * empty3.m_side_vertices ∧
    empty3.m_board_size ≤ 190 ∧ 2 < empty3.m_board_size ∧ 0 < empty3.m_board_size ∧
    (move_to_text empty3 (get_vertex empty3 2 0) = columnLetter 2 :: Nat.toDigits 10 (0 + 1) ∧
      columnLetter 2 = Char.ofNat (if 2 < 8 then 'A'.toNat + 2 else 'J'.toNat + (2 - 8)) ∧
      columnLetter 2 ≠ 'I' ∧
      ∀ rest : List Char, text_to_move empty3 ('I' :: rest) = NO_VERTEX ∧
        text_to_move empty3 ('i' :: rest) = NO_VERTEX) :=
  ⟨by decide, by decide, by decide, by decide, by decide,
    move_to_text_letter (by decide) (by decide) (by decide) (by decide) (by decide)⟩

/-! ## Claims C15 to C20: superko, snapshots, `play_text` and tree reuse -/

/-- C15: in every game started with `init_game` and continued by `play_move` calls the
ko hash history lists the ko hashes of the positions of the game, the current one last,
and `super_ko()` returns true if and only if the ko hash of the current board is the ko
hash of some earlier position, the initial one included; every playable move continues
the game. -/
theorem super_ko_history {Z : Zobrist} {BS : Nat} {s : KoState} {boards : List FullBoard}
    (h : KoGame Z BS s boards) :
    s.m_ko_hash_history = boards.map (fun b => b.m_hash_ko) ∧
      boards.getLast? = some s.fast.board ∧
      (KoState.super_ko s = true ↔
        ∃ b, b ∈ boards.dropLast ∧ b.m_hash_ko = s.fast.board.m_hash_ko) ∧
      ∀ (color : Nat) (vertex : Int), color < 2 → playable s.fast vertex →
        ∃ s2, KoState.play_move Z BS s color vertex = some s2 ∧
          KoGame Z BS s2 (boards ++ [s2.fast.board]) := by
  obtain ⟨gi, hh, hl⟩ := h.history
  refine ⟨hh, hl, ?_, ?_⟩
  · rw [super_ko_iff, hh, ← List.map_dropLast, List.mem_map]
  · intro color vertex hc hp
    obtain ⟨s2, h2, _⟩ := KoState_play_move_spec gi hc hp
    exact ⟨s2, h2, KoGame.move s boards color vertex s2 h hc hp h2⟩

/-- C16: for every `GameState` obtained from `init_game` by `play_move`, `undo_move` and
`forward_move` calls and every playable move other than a resignation, `play_move`
followed by `undo_move()` returns true and restores the `KoState` part of the state:
board contents, both hashes, ko point, pass count, last move, side to move, move number
and ko hash history. -/
theorem undo_round_trip {Z : Zobrist} {BS : Nat} {g : GameState} {color : Nat} {vertex : Int}
    (hg : Played Z BS g) (hc : color < 2) (hp : playable g.ko.fast vertex)
    (hr : vertex ≠ RESIGN) :
    ∃ g1, GameState.play_move Z BS g color vertex = some g1 ∧
      ∃ g2, GameState.undo_move g1 = some (true, g2) ∧ g2.ko = g.ko := by
  have hi := hg.hinv
  obtain ⟨g1, h1, hi1, hh, hn, _⟩ := GameState_play_move_spec hi hc hp
  have hn1 := hn hr
  refine ⟨g1, h1, ?_⟩
  rcases GameState_undo_move_spec hi1 with ⟨h0, _⟩ | ⟨_, ko, hk, _, hu, _⟩
  · omega
  · refine ⟨_, hu, ?_⟩
    have hlen := hi.length
    rw [hh, hn1, Nat.add_sub_cancel, List.get?_eq_getElem?,
      List.getElem?_append_left (by rw [List.length_take]; omega),
      List.getElem?_take_of_lt (by omega), ← List.get?_eq_getElem?, hi.current] at hk
    have e : g.ko = ko := by simpa using hk
    exact e.symm

set_option maxRecDepth 100000 in
theorem undo_round_trip_witness : Played exampleZ 19 match0 ∧ BLACK < 2 ∧
    playable match0.ko.fast 7 ∧ (7 : Int) ≠ RESIGN ∧
    ∃ g1, GameState.play_move exampleZ 19 match0 BLACK 7 = some g1 ∧
      ∃ g2, GameState.undo_move g1 = some (true, g2) ∧ g2.ko = match0.ko :=
  ⟨match0_played, by decide, by decide, by decide,
    undo_round_trip match0_played (by decide) (by decide) (by decide)⟩

/-- C17: for every `GameState` obtained from `init_game` by `play_move`, `undo_move` and
`forward_move` calls, if the move number is at least 1 then `undo_move()` followed by
`forward_move()` returns true both times and restores the state before the undo; and
after any `play_move` the call `forward_move()` returns false and changes nothing. -/
theorem redo_round_trip {Z : Zobrist} {BS : Nat} {g : GameState} (hg : Played Z BS g) :
    (1 ≤ g.ko.fast.m_move_numbers →
      ∃ g1, GameState.undo_move g = some (true, g1) ∧
        GameState.forward_move g1 = some (true, g)) ∧
    ∀ (color : Nat) (vertex : Int), color < 2 → playable g.ko.fast vertex →
      ∃ g1, GameState.play_move Z BS g color vertex = some g1 ∧
        GameState.forward_move g1 = some (false, g1) := by
  have hi := hg.hinv
  have hlen := hi.length
  constructor
  · intro h1
    rcases GameState_undo_move_spec hi with ⟨h0, _⟩ | ⟨_, ko, _, hn, hu, hi2⟩
    · omega
    · refine ⟨_, hu, ?_⟩
      rcases GameState_forward_move_spec hi2 with ⟨hle, _⟩ | ⟨_, ko2, hk2, _, hf, _⟩
      · have hle2 : g.game_history.length ≤ ko.fast.m_move_numbers + 1 := hle
        omega
      · rw [hf]
        have hk3 : g.game_history.get? (ko.fast.m_move_numbers + 1) = some (some ko2) := hk2
        have e1 : ko.fast.m_move_numbers + 1 = g.ko.fast.m_move_numbers := by omega
        rw [e1, hi.current] at hk3
        have e : g.ko = ko2 := by simpa using hk3
        rw [← e]
  · intro color vertex hc hp
    obtain ⟨g1, h1, hi1, hh, _⟩ := GameState_play_move_spec hi hc hp
    refine ⟨g1, h1, ?_⟩
    rcases GameState_forward_move_spec hi1 with ⟨_, hf⟩ | ⟨hlt, _⟩
    · exact hf
    · have hlen1 := hi1.length
      rw [hh, List.length_append, List.length_take, List.length_singleton] at hlt
      have := Nat.min_le_left g1.ko.fast.m_move_numbers g.game_history.length
      omega

set_option maxRecDepth 100000 in
theorem redo_round_trip_witness : Played exampleZ 19 match1 ∧
    ((1 ≤ match1.ko.fast.m_move_numbers →
      ∃ g1, GameState.undo_move match1 = some (true, g1) ∧
        GameState.forward_move g1 = some (true, match1)) ∧
    ∀ (color : Nat) (vertex : Int), color < 2 → playable match1.ko.fast vertex →
      ∃ g1, GameState.play_move exampleZ 19 match1 color vertex = some g1 ∧
        GameState.forward_move g1 = some (false, g1)) :=
  ⟨match1_played, redo_round_trip match1_played⟩

/-- C18: for every `GameState` obtained from `init_game` by `play_move`, `undo_move` and
`forward_move` calls, `undo_move()` returns, and returns false if and only if the move
number is 0; `forward_move()` returns, and returns false if and only if there is no
snapshot beyond the current move number; a call that returns false leaves the whole
state as it was. -/
theorem undo_forward_refusal {Z : Zobrist} {BS : Nat} {g : GameState} (hg : Played Z BS g) :
    (∃ r g2, GameState.undo_move g = some (r, g2) ∧
      (r = false ↔ g.ko.fast.m_move_numbers = 0) ∧ (r = false → g2 = g)) ∧
    (∃ r g2, GameState.forward_move g = some (r, g2) ∧
      (r = false ↔ g.game_history.length ≤ g.ko.fast.m_move_numbers + 1) ∧
      (r = false → g2 = g)) := by
  have hi := hg.hinv
  constructor
  · rcases GameState_undo_move_spec hi with ⟨h0, hu⟩ | ⟨h0, ko, _, _, hu, _⟩
    · exact ⟨false, g, hu, ⟨fun _ => h0, fun _ => rfl⟩, fun _ => rfl⟩
    · exact ⟨true, _, hu, ⟨fun h => (by cases h), fun h => (by omega)⟩, fun h => (by cases h)⟩
  · rcases GameState_forward_move_spec hi with ⟨h0, hf⟩ | ⟨h0, ko, _, _, hf, _⟩
    · exact ⟨false, g, hf, ⟨fun _ => h0, fun _ => rfl⟩, fun _ => rfl⟩
    · exact ⟨true, _, hf, ⟨fun h => (by cases h), fun h => (by omega)⟩, fun h => (by cases h)⟩

theorem undo_forward_refusal_witness : Played exampleZ 19 match0 ∧
    ((∃ r g2, GameState.undo_move match0 = some (r, g2) ∧
      (r = false ↔ match0.ko.fast.m_move_numbers = 0) ∧ (r = false → g2 = match0)) ∧
    (∃ r g2, GameState.forward_move match0 = some (r, g2) ∧
      (r = false ↔ match0.game_history.length ≤ match0.ko.fast.m_move_numbers + 1) ∧
      (r = false → g2 = match0))) :=
  ⟨match0_played, undo_forward_refusal match0_played⟩

/-- C19, as stated, fails: with black stones on `(1, 0)` and
`(0, 1)` of the 3x3 board the move of White to the corner `a1` is a suicide, which
`is_move_legal` refuses, but `play_text("w", "a1")` returns true and the game has one
move more. -/
theorem play_text_suicide_counterexample : Played exampleZ 19 match2 ∧
    text_to_move match2.ko.fast.board ['a', '1'] = 6 ∧
    is_move_legal noTags match2.ko.fast WHITE 6 = false ∧
    match2.ko.fast.m_move_numbers = 2 ∧
    (GameState.play_text exampleZ 19 match2 ['w'] ['a', '1']).map
      (fun r => (r.1, r.2.ko.fast.m_move_numbers)) = some (true, 3) :=
  ⟨match2_played, match2_suicide.2.1, match2_suicide.1, match2_suicide.2.2.1,
    match2_suicide.2.2.2⟩

/-- C19, amended: for every `GameState` obtained from `init_game` by `play_move`,
`undo_move` and `forward_move` calls, every colour text and every vertex text: if the
colour is unknown, `play_text` returns false and leaves the game state unchanged.  The
assertions of `get_vertex` inside `text_to_move` fail exactly for the texts of a letter
followed by the row 0, for which `get_vertex` is called with the row `-1`.  For every other
vertex text: if the text denotes no vertex (it cannot be read or lies beyond the board
size) or the denoted point is not empty, `play_text` returns false and leaves the game
state unchanged; in every other case, the ko point and suicides included, `play_text` with
a known colour sets the side to move, plays the move through `play_move` and returns
true. -/
theorem play_text_refusal {Z : Zobrist} {BS : Nat} {g : GameState} (hg : Played Z BS g)
    (color vertex : List Char) :
    ((color.map tolower ≠ ['w'] ∧ color.map tolower ≠ ['w', 'h', 'i', 't', 'e'] ∧
        color.map tolower ≠ ['b'] ∧ color.map tolower ≠ ['b', 'l', 'a', 'c', 'k']) →
      GameState.play_text Z BS g color vertex = some (false, g)) ∧
    (text_to_move_checked BS g.ko.fast.board vertex = none ↔
      ∃ x, text_to_move_call g.ko.fast.board vertex = some (x, -1)) ∧
    ((¬ ∃ x, text_to_move_call g.ko.fast.board vertex = some (x, -1)) →
      ((text_to_move g.ko.fast.board vertex = (NO_VERTEX : Int) ∨
        (text_to_move g.ko.fast.board vertex ≠ PASS ∧
          text_to_move g.ko.fast.board vertex ≠ RESIGN ∧
          g.ko.fast.board.m_state (text_to_move g.ko.fast.board vertex).toNat ≠ EMPTY)) →
        GameState.play_text Z BS g color vertex = some (false, g)) ∧
      (¬ (text_to_move g.ko.fast.board vertex = (NO_VERTEX : Int) ∨
        (text_to_move g.ko.fast.board vertex ≠ PASS ∧
          text_to_move g.ko.fast.board vertex ≠ RESIGN ∧
          g.ko.fast.board.m_state (text_to_move g.ko.fast.board vertex).toNat ≠ EMPTY)) →
        ∀ player,
          ((player = WHITE ∧ (color.map tolower = ['w'] ∨
              color.map tolower = ['w', 'h', 'i', 't', 'e'])) ∨
            (player = BLACK ∧ (color.map tolower = ['b'] ∨
              color.map tolower = ['b', 'l', 'a', 'c', 'k']))) →
          ∃ g2, GameState.play_move Z BS
              { g with ko := { g.ko with fast := { g.ko.fast with
                  board := set_to_move g.ko.fast.board player } } }
              player (text_to_move g.ko.fast.board vertex) = some g2 ∧
            GameState.play_text Z BS g color vertex = some (true, g2))) := by
  have hi := hg.hinv
  have gi := hi.current_ginv
  obtain ⟨hnone, hcases⟩ := text_to_move_checked_spec gi.board.geom vertex
  refine ⟨play_text_unknown Z BS g color vertex, hnone, fun hrow => ?_⟩
  have hchk : text_to_move_checked BS g.ko.fast.board vertex =
      some (text_to_move g.ko.fast.board vertex) := by
    rcases hcases with h | h
    · exact absurd (hnone.mp h) hrow
    · exact h
  constructor
  · intro href
    by_cases hw : color.map tolower = ['w'] ∨ color.map tolower = ['w', 'h', 'i', 't', 'e']
    · rw [play_text_white Z BS g color vertex hw]
      rcases play_text_move_spec hi (by decide : WHITE < 2) vertex hchk with
        ⟨_, h⟩ | ⟨h, _⟩
      · exact h
      · exact absurd href h
    · by_cases hb : color.map tolower = ['b'] ∨ color.map tolower = ['b', 'l', 'a', 'c', 'k']
      · rw [play_text_black Z BS g color vertex hb]
        rcases play_text_move_spec hi (by decide : BLACK < 2) vertex hchk with
          ⟨_, h⟩ | ⟨h, _⟩
        · exact h
        · exact absurd href h
      · exact play_text_unknown Z BS g color vertex
          ⟨fun h => hw (Or.inl h), fun h => hw (Or.inr h), fun h => hb (Or.inl h),
            fun h => hb (Or.inr h)⟩
  · intro hno player hplayer
    rcases hplayer with ⟨rfl, hw⟩ | ⟨rfl, hb⟩
    · rw [play_text_white Z BS g color vertex hw]
      rcases play_text_move_spec hi (by decide : WHITE < 2) vertex hchk with
        ⟨h, _⟩ | ⟨_, g2, h1, h2⟩
      · exact absurd h hno
      · exact ⟨g2, h2, h1⟩
    · rw [play_text_black Z BS g color vertex hb]
      rcases play_text_move_spec hi (by decide : BLACK < 2) vertex hchk with
        ⟨h, _⟩ | ⟨_, g2, h1, h2⟩
      · exact absurd h hno
      · exact ⟨g2, h2, h1⟩

set_option maxRecDepth 100000 in
/-- On the 3x3 board with black stones on `b1` and `a2`: White on `b1` is refused, and
White on `a1`, a suicide, is played through `play_move`. -/
theorem play_text_refusal_witness : Played exampleZ 19 match2 ∧
    (¬ ∃ x, text_to_move_call match2.ko.fast.board ['b', '1'] = some (x, -1)) ∧
    (¬ ∃ x, text_to_move_call match2.ko.fast.board ['a', '1'] = some (x, -1)) ∧
    GameState.play_text exampleZ 19 match2 ['w'] ['b', '1'] = some (false, match2) ∧
    ∃ g2, GameState.play_move exampleZ 19
        { match2 with ko := { match2.ko with fast := { match2.ko.fast with
            board := set_to_move match2.ko.fast.board WHITE } } }
        WHITE (text_to_move match2.ko.fast.board ['a', '1']) = some g2 ∧
      GameState.play_text exampleZ 19 match2 ['w'] ['a', '1'] = some (true, g2) :=
  have hb : text_to_move_call match2.ko.fast.board ['b', '1'] = some (1, 0) := by decide
  have ha : text_to_move_call match2.ko.fast.board ['a', '1'] = some (0, 0) := by decide
  have hb1 : ¬ ∃ x, text_to_move_call match2.ko.fast.board ['b', '1'] = some (x, -1) := by
    rintro ⟨x, h⟩
    rw [hb] at h
    have e : (0 : Int) = -1 := congrArg Prod.snd (Option.some.inj h)
    exact absurd e (by decide)
  have ha1 : ¬ ∃ x, text_to_move_call match2.ko.fast.board ['a', '1'] = some (x, -1) := by
    rintro ⟨x, h⟩
    rw [ha] at h
    have e : (0 : Int) = -1 := congrArg Prod.snd (Option.some.inj h)
    exact absurd e (by decide)
  ⟨match2_played, hb1, ha1,
    ((play_text_refusal match2_played ['w'] ['b', '1']).2.2 hb1).1 (Or.inr (by decide)),
    ((play_text_refusal match2_played ['w'] ['a', '1']).2.2 ha1).2 (by decide) WHITE
      (Or.inl ⟨rfl, Or.inl (by decide)⟩)⟩

/-- C20: let the current game be a `GameState` obtained from `init_game` by `play_move`,
`undo_move` and `forward_move` calls, with the move numbers of the current and of the
saved state below `2 ^ 31`.  If there is no saved root state, or the komi of the current
game differs from that of the saved state, or the current game has fewer moves than the
saved state, or the position obtained by undoing the extra moves of the current game has
another full hash than the saved state, then `advance_to_new_root_state` returns false
and changes nothing, and `update_root` makes the root a node made anew (on which
`count_nodes_and_clear_expand_state` has run) and clears the saved state. -/
theorem tree_reuse_refused {Node : Type} (ops : NodeOps Node) (Z : Zobrist) (BS : Nat)
    (NDEBUG : Bool) (s : UCTSearch Node) (hg : Played Z BS s.m_root_state)
    (hcur : s.m_root_state.ko.fast.m_move_numbers < 2 ^ 31)
    (hlast : ∀ last, s.m_last_root_state = some last → last.ko.fast.m_move_numbers < 2 ^ 31)
    (hroot : NDEBUG = false → s.m_root ≠ none)
    (h : s.m_last_root_state = none ∨ ∃ last, s.m_last_root_state = some last ∧
      (s.m_root_state.ko.fast.m_komi ≠ last.ko.fast.m_komi ∨
       s.m_root_state.ko.fast.m_move_numbers < last.ko.fast.m_move_numbers ∨
       (last.ko.fast.m_move_numbers ≤ s.m_root_state.ko.fast.m_move_numbers ∧
        (undo_times (s.m_root_state.ko.fast.m_move_numbers - last.ko.fast.m_move_numbers)
          s.m_root_state).map (fun test => test.ko.fast.board.m_hash) ≠
            some last.ko.fast.board.m_hash))) :
    advance_to_new_root_state ops Z BS s = some (false, s) ∧
      ∃ s2, update_root ops Z BS NDEBUG s = some s2 ∧
        s2.m_root = some (ops.count_nodes_and_clear_expand_state ops.fresh).2 ∧
        s2.m_last_root_state = none ∧ s2.m_root_state = s.m_root_state := by
  refine ⟨advance_refused ops hg.hinv hcur hlast h, ?_⟩
  obtain ⟨s2, h1, h2, h3, h4, _⟩ := update_root_fresh ops Z BS NDEBUG s hroot
    (fun root => @advance_refused Node ops Z BS { s with m_playouts := 0, m_root := root }
      hg.hinv hcur hlast h)
  exact ⟨s2, h1, h2, h3, h4⟩

set_option maxRecDepth 100000 in
theorem tree_reuse_refused_witness : Played exampleZ 19 search1.m_root_state ∧
    search1.m_root_state.ko.fast.m_move_numbers < 2 ^ 31 ∧
    match2.ko.fast.m_move_numbers < 2 ^ 31 ∧ search1.m_root ≠ none ∧
    search1.m_last_root_state = some match2 ∧
    search1.m_root_state.ko.fast.m_move_numbers < match2.ko.fast.m_move_numbers ∧
    (advance_to_new_root_state leafOps exampleZ 19 search1 = some (false, search1) ∧
      ∃ s2, update_root leafOps exampleZ 19 false search1 = some s2 ∧
        s2.m_root = some (leafOps.count_nodes_and_clear_expand_state leafOps.fresh).2 ∧
        s2.m_last_root_state = none ∧ s2.m_root_state = search1.m_root_state) :=
  ⟨match1_played, by decide, by decide, by decide, rfl, by decide,
    tree_reuse_refused leafOps exampleZ 19 false search1 match1_played (by decide)
      (fun last hl => by cases hl; decide) (fun _ => by decide)
      (Or.inr ⟨match2, rfl, Or.inr (Or.inl (by decide))⟩)⟩

/-! ## Claim C30: the neighbour tally -/

theorem count_neighbors_eq (b : FullBoard) (c v : Nat) :
    count_neighbors b c v = b.m_neighbors v / 2 ^ (4 * c) % 16 := by
  have h : NEIGHBOR_MASK = 2 ^ 4 - 1 := rfl
  have h2 : NEIGHBOR_SHIFT = 4 := rfl
  rw [count_neighbors, h, h2, Nat.and_pow_two_sub_one_eq_mod, Nat.shiftRight_eq_div_pow]

/-- The three fields of the tally recomputed from four neighbour states, none of which
is above `INVALID`. -/
theorem tally_fields (s0 s1 s2 s3 : Nat) (h0 : s0 ≤ 3) (h1 : s1 ≤ 3) (h2 : s2 ≤ 3)
    (h3 : s3 ≤ 3) :
    (weight s0 + weight s1 + weight s2 + weight s3) / 256 % 16 =
        ([s0, s1, s2, s3].filter (fun s => decide (s = EMPTY))).length ∧
      (weight s0 + weight s1 + weight s2 + weight s3) / 1 % 16 =
        ([s0, s1, s2, s3].filter (fun s => decide (s = BLACK))).length +
          ([s0, s1, s2, s3].filter (fun s => decide (s = INVALID))).length ∧
      (weight s0 + weight s1 + weight s2 + weight s3) / 16 % 16 =
        ([s0, s1, s2, s3].filter (fun s => decide (s = WHITE))).length +
          ([s0, s1, s2, s3].filter (fun s => decide (s = INVALID))).length := by
  interval_cases s0 <;> interval_cases s1 <;> interval_cases s2 <;> interval_cases s3 <;>
    decide

/-- C30: on every board of size at least 2 reachable from `reset_board` by `update_board`
calls, for every on-board vertex `v`, `count_neighbors(EMPTY, v)` is the number of empty
orthogonal neighbours of `v`, and `count_neighbors(c, v)` for `c` BLACK or WHITE is the
number of orthogonal neighbours holding colour `c` plus the number of orthogonal
neighbours that are border. -/
theorem neighbor_tally {Z : Zobrist} {BS : Nat} {b : FullBoard} {v : Nat}
    (hb : Reachable Z BS b) (h2 : 2 ≤ b.m_board_size) (hv : onBoard b v) :
    count_neighbors b EMPTY v =
        ((List.range 4).filter (fun k => decide (b.m_state (nbr b k v) = EMPTY))).length ∧
      ∀ c, c < 2 → count_neighbors b c v =
        ((List.range 4).filter (fun k => decide (b.m_state (nbr b k v) = c))).length +
          ((List.range 4).filter
            (fun k => decide (b.m_state (nbr b k v) = INVALID))).length := by
  obtain ⟨r, inv⟩ := hb.inv
  have hs : ∀ k, k < 4 → b.m_state (nbr b k v) ≤ 3 := by
    intro k hk
    have hlt := inv.geom.nbr_lt hv hk
    by_cases ho : onBoard b (nbr b k v)
    · have := inv.inside _ ho
      have e : EMPTY = 2 := rfl
      omega
    · rw [(inv.border _ hlt ho).1]
  have ht := inv.tally h2 v hv
  obtain ⟨f1, f2, f3⟩ := tally_fields _ _ _ _ (hs 0 (by decide)) (hs 1 (by decide))
    (hs 2 (by decide)) (hs 3 (by decide))
  have hr : List.range 4 = [0, 1, 2, 3] := rfl
  have hf : ∀ p : Nat → Bool, ((List.range 4).filter (fun k => p (b.m_state (nbr b k v)))).length =
      ([b.m_state (nbr b 0 v), b.m_state (nbr b 1 v), b.m_state (nbr b 2 v),
        b.m_state (nbr b 3 v)].filter p).length := by
    intro p
    rw [hr]
    simp only [List.filter]
    cases p (b.m_state (nbr b 0 v)) <;> cases p (b.m_state (nbr b 1 v)) <;>
      cases p (b.m_state (nbr b 2 v)) <;> cases p (b.m_state (nbr b 3 v)) <;> rfl
  constructor
  · rw [count_neighbors_eq, ht, tallyOf, hf (fun s => decide (s = EMPTY))]
    exact f1
  · intro c hc
    rw [count_neighbors_eq, ht, tallyOf, hf (fun s => decide (s = c)),
      hf (fun s => decide (s = INVALID))]
    interval_cases c
    · exact f2
    · exact f3

set_option maxRecDepth 100000 in
theorem neighbor_tally_witness : Reachable exampleZ 19 atari3 ∧ 2 ≤ atari3.m_board_size ∧
    onBoard atari3 6 ∧
    (count_neighbors atari3 EMPTY 6 =
        ((List.range 4).filter (fun k => decide (atari3.m_state (nbr atari3 k 6) = EMPTY))).length ∧
      ∀ c, c < 2 → count_neighbors atari3 c 6 =
        ((List.range 4).filter (fun k => decide (atari3.m_state (nbr atari3 k 6) = c))).length +
          ((List.range 4).filter
            (fun k => decide (atari3.m_state (nbr atari3 k 6) = INVALID))).length) :=
  ⟨atari3_reachable, by decide, by decide,
    neighbor_tally atari3_reachable (by decide) (by decide)⟩

/-! ## Claim C22: the uninflated child slot -/

/-- The word packed by the constructor, as a sum. -/
theorem pack_eq (vertex : Int) (policy : Nat) :
    UCTNodePointer.pack vertex policy =
      2 ^ 32 * (policy % 2 ^ 32) + 2 ^ 16 * (vertex % 2 ^ 16).toNat := by
  have hu : (vertex % 2 ^ 16).toNat < 2 ^ 16 := by
    have h1 := Int.emod_nonneg vertex (by decide : (2 ^ 16 : Int) ≠ 0)
    have h2 := Int.emod_lt_of_pos vertex (by decide : (0 : Int) < 2 ^ 16)
    omega
  have hp : policy % 2 ^ 32 < 2 ^ 32 := Nat.mod_lt _ (by decide)
  have hlt : 2 ^ 16 * (vertex % 2 ^ 16).toNat < 2 ^ 32 := by omega
  unfold UCTNodePointer.pack
  rw [Nat.shiftLeft_eq, Nat.shiftLeft_eq, Nat.mul_comm _ (2 ^ 32), Nat.mul_comm _ (2 ^ 16),
    ← Nat.mul_add_lt_is_or hlt, Nat.mod_eq_of_lt]
  omega

/-- C22: for every value `vertex` of `std::int16_t` (`PASS` and `RESIGN` included) and
every 32-bit pattern `policy`, the slot constructed from them is not inflated,
`get_move()` returns `vertex`, `get_policy()` returns the float with the bit pattern
`policy`, `get_visits()` returns 0, and `valid()` and `active()` return true. -/
theorem uninflated_round_trip (nodes : NodeTable) (vertex : Int) (policy : Nat)
    (hlo : -2 ^ 15 ≤ vertex) (hhi : vertex < 2 ^ 15) (hp : policy < 2 ^ 32) :
    UCTNodePointer.is_inflated (UCTNodePointer.pack vertex policy) = false ∧
      UCTNodePointer.get_move nodes (UCTNodePointer.pack vertex policy) = vertex ∧
      UCTNodePointer.get_policy nodes (UCTNodePointer.pack vertex policy) = policy ∧
      UCTNodePointer.get_visits nodes (UCTNodePointer.pack vertex policy) = 0 ∧
      UCTNodePointer.valid nodes (UCTNodePointer.pack vertex policy) = true ∧
      UCTNodePointer.active nodes (UCTNodePointer.pack vertex policy) = true := by
  have h1 := Int.emod_nonneg vertex (by decide : (2 ^ 16 : Int) ≠ 0)
  have h2 := Int.emod_lt_of_pos vertex (by decide : (0 : Int) < 2 ^ 16)
  have hinf : UCTNodePointer.is_inflated (UCTNodePointer.pack vertex policy) = false := by
    have e : (3 : Nat) = 2 ^ 2 - 1 := rfl
    rw [UCTNodePointer.is_inflated, e, Nat.and_pow_two_sub_one_eq_mod, pack_eq, beq_eq_false_iff_ne]
    show _ ≠ 1
    omega
  have hv : UCTNodePointer.read_vertex (UCTNodePointer.pack vertex policy) = vertex := by
    rw [UCTNodePointer.read_vertex, pack_eq, Nat.shiftRight_eq_div_pow, to_int16]
    have e : (2 ^ 32 * (policy % 2 ^ 32) + 2 ^ 16 * (vertex % 2 ^ 16).toNat) / 2 ^ 16 % 2 ^ 16 =
        (vertex % 2 ^ 16).toNat := by omega
    rw [e]
    split_ifs <;> omega
  have hpol : UCTNodePointer.read_policy (UCTNodePointer.pack vertex policy) = policy := by
    rw [UCTNodePointer.read_policy, pack_eq, Nat.shiftRight_eq_div_pow]
    omega
  refine ⟨hinf, ?_, ?_, ?_, ?_, ?_⟩
  · rw [UCTNodePointer.get_move, hinf, hv]; rfl
  · rw [UCTNodePointer.get_policy, hinf, hpol]; rfl
  · rw [UCTNodePointer.get_visits, hinf]; rfl
  · rw [UCTNodePointer.valid, hinf]; rfl
  · rw [UCTNodePointer.active, hinf]; rfl

theorem uninflated_round_trip_witness : -2 ^ 15 ≤ PASS ∧ PASS < 2 ^ 15 ∧
    1056964608 < 2 ^ 32 ∧
    (UCTNodePointer.is_inflated (UCTNodePointer.pack PASS 1056964608) = false ∧
      UCTNodePointer.get_move noNodes (UCTNodePointer.pack PASS 1056964608) = PASS ∧
      UCTNodePointer.get_policy noNodes (UCTNodePointer.pack PASS 1056964608) = 1056964608 ∧
      UCTNodePointer.get_visits noNodes (UCTNodePointer.pack PASS 1056964608) = 0 ∧
      UCTNodePointer.valid noNodes (UCTNodePointer.pack PASS 1056964608) = true ∧
      UCTNodePointer.active noNodes (UCTNodePointer.pack PASS 1056964608) = true) :=
  ⟨by decide, by decide, by decide,
    uninflated_round_trip noNodes PASS 1056964608 (by decide) (by decide) (by decide)⟩

/-! ## The evaluator cache -/

theorem NNCache.insert_present {c : NNCache} {hash : Nat} (result : Netresult)
    (h : (c.m_cache hash).isSome = true) : c.insert hash result = c := by
  simp only [NNCache.insert, h, if_true]

/-- The insertion of an absent hash: the entry is appended, and the oldest one goes when
the count is above `m_size`. -/
theorem NNCache.insert_absent {c : NNCache} {hash : Nat} (result : Netresult)
    (h : (c.m_cache hash).isSome = false) :
    (c.m_order.length + 1 ≤ c.m_size →
      c.insert hash result =
        { c with m_cache := Function.update c.m_cache hash (some result)
                 m_order := c.m_order ++ [hash]
                 m_inserts := c.m_inserts + 1 }) ∧
    (c.m_size < c.m_order.length + 1 →
      c.insert hash result =
        { c with m_cache := Function.update (Function.update c.m_cache hash (some result))
                   ((c.m_order ++ [hash]).headD 0) none
                 m_order := (c.m_order ++ [hash]).tail
                 m_inserts := c.m_inserts + 1 }) := by
  constructor
  · intro hle
    simp only [NNCache.insert, h, Bool.false_eq_true, if_false, List.length_append,
      List.length_singleton, gt_iff_lt]
    rw [if_neg (by omega)]
  · intro hlt
    simp only [NNCache.insert, h, Bool.false_eq_true, if_false, List.length_append,
      List.length_singleton, gt_iff_lt]
    rw [if_pos hlt]
    cases ho : c.m_order ++ [hash] with
    | nil => simp at ho
    | cons front rest => rfl

theorem CacheInv.of_create (size : Int) : CacheInv (NNCache.create size) :=
  ⟨fun _ => by simp [NNCache.create], List.nodup_nil, Nat.zero_le _⟩

theorem CacheInv.after_insert {c : NNCache} (inv : CacheInv c) (hash : Nat) (result : Netresult) :
    CacheInv (c.insert hash result) := by
  cases h : (c.m_cache hash).isSome with
  | true => rw [NNCache.insert_present result h]; exact inv
  | false =>
    have hn : hash ∉ c.m_order := fun hm => by
      have := (inv.keys hash).mpr hm
      rw [h] at this
      cases this
    have hnd : (c.m_order ++ [hash]).Nodup :=
      List.Nodup.append inv.nodup (List.nodup_singleton _) (by simpa using hn)
    have hkeys : ∀ k, (Function.update c.m_cache hash (some result) k).isSome = true ↔
        k ∈ c.m_order ++ [hash] := by
      intro k
      by_cases hk : k = hash
      · subst hk; simp
      · rw [Function.update_noteq hk, inv.keys]
        simp [hk]
    obtain ⟨e1, e2⟩ := NNCache.insert_absent result h
    by_cases hle : c.m_order.length + 1 ≤ c.m_size
    · rw [e1 hle]
      exact ⟨hkeys, hnd, by simpa using hle⟩
    · rw [e2 (by omega)]
      cases ho : c.m_order ++ [hash] with
      | nil => simp at ho
      | cons front rest =>
        rw [ho] at hnd hkeys
        have hf : front ∉ rest := (List.nodup_cons.mp hnd).1
        refine ⟨?_, (List.nodup_cons.mp hnd).2, ?_⟩
        · intro k
          show (Function.update (Function.update c.m_cache hash (some result)) front none k).isSome
            = true ↔ k ∈ rest
          by_cases hk : k = front
          · subst hk; simp [hf]
          · rw [Function.update_noteq hk, hkeys]
            simp [hk]
        · show rest.length ≤ c.m_size
          have hl : (c.m_order ++ [hash]).length = rest.length + 1 := by rw [ho]; rfl
          rw [List.length_append, List.length_singleton] at hl
          have := inv.bound
          omega

theorem NNCache.lookup_absent {c : NNCache} {hash : Nat} (result : Netresult)
    (h : c.m_cache hash = none) :
    c.lookup hash result = (false, result, { c with m_lookups := c.m_lookups + 1 }) := by
  simp only [NNCache.lookup, h]

theorem NNCache.lookup_present {c : NNCache} {hash : Nat} {entry : Netresult}
    (result : Netresult) (h : c.m_cache hash = some entry) :
    c.lookup hash result =
      (true, entry, { c with m_lookups := c.m_lookups + 1, m_hits := c.m_hits + 1 }) := by
  simp only [NNCache.lookup, h]

theorem NNCache.lookup_cache (c : NNCache) (hash : Nat) (result : Netresult) :
    (c.lookup hash result).2.2.m_cache = c.m_cache ∧
      (c.lookup hash result).2.2.m_order = c.m_order ∧
      (c.lookup hash result).2.2.m_size = c.m_size ∧
      (c.lookup hash result).2.2.m_inserts = c.m_inserts := by
  cases h : c.m_cache hash with
  | none => rw [NNCache.lookup_absent result h]; exact ⟨rfl, rfl, rfl, rfl⟩
  | some entry => rw [NNCache.lookup_present result h]; exact ⟨rfl, rfl, rfl, rfl⟩

theorem CacheInv.after_lookup {c : NNCache} (inv : CacheInv c) (hash : Nat) (result : Netresult) :
    CacheInv (c.lookup hash result).2.2 := by
  obtain ⟨e1, e2, e3, _⟩ := c.lookup_cache hash result
  exact ⟨fun k => by rw [e1, e2]; exact inv.keys k, by rw [e2]; exact inv.nodup,
    by rw [e2, e3]; exact inv.bound⟩

/-- The loop of `resize` keeps the deque and the map in step. -/
theorem resize_loop_spec (m_size : Nat) :
    ∀ (order : List Nat) (cache : Nat → Option Netresult),
      (∀ k, (cache k).isSome = true ↔ k ∈ order) → order.Nodup →
      (∀ k, ((NNCache.resize_loop m_size cache order).1 k).isSome = true ↔
        k ∈ (NNCache.resize_loop m_size cache order).2) ∧
      (NNCache.resize_loop m_size cache order).2.Nodup ∧
      (NNCache.resize_loop m_size cache order).2.length ≤ m_size := by
  intro order
  induction order with
  | nil => intro cache hk _; exact ⟨hk, List.nodup_nil, Nat.zero_le _⟩
  | cons front rest ih =>
    intro cache hk hnd
    by_cases hgt : (front :: rest).length > m_size
    · have e : NNCache.resize_loop m_size cache (front :: rest) =
          NNCache.resize_loop m_size (Function.update cache front none) rest := by
        simp only [NNCache.resize_loop, hgt, if_true]
      rw [e]
      have hf : front ∉ rest := (List.nodup_cons.mp hnd).1
      apply ih _ _ (List.nodup_cons.mp hnd).2
      intro k
      by_cases hkf : k = front
      · subst hkf; simp [hf]
      · rw [Function.update_noteq hkf, hk]
        simp [hkf]
    · have e : NNCache.resize_loop m_size cache (front :: rest) = (cache, front :: rest) := by
        simp only [NNCache.resize_loop, hgt, if_false]
      rw [e]
      exact ⟨hk, hnd, Nat.le_of_not_gt hgt⟩

theorem CacheInv.after_resize {c : NNCache} (inv : CacheInv c) (size : Int) :
    CacheInv (c.resize size) := by
  obtain ⟨h1, h2, h3⟩ := resize_loop_spec (size % 2 ^ 64).toNat c.m_order c.m_cache inv.keys
    inv.nodup
  exact ⟨h1, h2, h3⟩

theorem CacheInv.after_clear {c : NNCache} (_inv : CacheInv c) : CacheInv c.clear :=
  ⟨fun _ => by simp [NNCache.clear], List.nodup_nil, Nat.zero_le _⟩

theorem CacheInv.after_call {c : NNCache} (inv : CacheInv c) (call : CacheCall) :
    CacheInv (c.call call) := by
  cases call with
  | insert hash result => exact inv.after_insert hash result
  | lookup hash result => exact inv.after_lookup hash result
  | resize size => exact inv.after_resize size
  | clear => exact inv.after_clear

theorem CacheInv.after_run : ∀ (calls : List CacheCall) {c : NNCache}, CacheInv c →
    CacheInv (c.run calls)
  | [], _, inv => inv
  | call :: calls, _, inv => CacheInv.after_run calls (inv.after_call call)

theorem Cached.cache_inv {c : NNCache} (h : Cached c) : CacheInv c := by
  obtain ⟨size, calls, rfl⟩ := h
  exact CacheInv.after_run calls (CacheInv.of_create size)

/-! ## Claims C26 and C27: the evaluator cache -/

theorem resize_loop_none (m_size : Nat) (hash : Nat) :
    ∀ (order : List Nat) (cache : Nat → Option Netresult), cache hash = none →
      (NNCache.resize_loop m_size cache order).1 hash = none := by
  intro order
  induction order with
  | nil => intro cache h; exact h
  | cons front rest ih =>
    intro cache h
    by_cases hgt : (front :: rest).length > m_size
    · simp only [NNCache.resize_loop, hgt, if_true]
      apply ih
      by_cases hf : hash = front
      · subst hf; simp
      · rw [Function.update_noteq hf]; exact h
    · simp only [NNCache.resize_loop, hgt, if_false]
      exact h

/-- An insertion of another hash leaves an absent hash absent. -/
theorem insert_other_none {c : NNCache} {hash k : Nat} (result : Netresult) (hk : k ≠ hash)
    (h : c.m_cache hash = none) : (c.insert k result).m_cache hash = none := by
  cases hp : (c.m_cache k).isSome with
  | true => rw [NNCache.insert_present result hp]; exact h
  | false =>
    obtain ⟨e1, e2⟩ := NNCache.insert_absent result hp
    by_cases hle : c.m_order.length + 1 ≤ c.m_size
    · rw [e1 hle]
      show Function.update c.m_cache k (some result) hash = none
      rw [Function.update_noteq (Ne.symm hk)]; exact h
    · rw [e2 (by omega)]
      show Function.update (Function.update c.m_cache k (some result)) _ none hash = none
      by_cases hf : hash = (c.m_order ++ [k]).headD 0
      · rw [hf]; simp
      · rw [Function.update_noteq hf, Function.update_noteq (Ne.symm hk)]; exact h

/-- A hash that no call inserts stays absent. -/
theorem never_inserted (hash : Nat) : ∀ (calls : List CacheCall) (c : NNCache),
    c.m_cache hash = none → (∀ result, CacheCall.insert hash result ∉ calls) →
    (c.run calls).m_cache hash = none := by
  intro calls
  induction calls with
  | nil => intro c h _; exact h
  | cons call calls ih =>
    intro c h hno
    apply ih
    · cases call with
      | insert k result =>
        have hk : k ≠ hash := by
          rintro rfl
          exact hno result (List.mem_cons_self _ _)
        exact insert_other_none result hk h
      | lookup k result =>
        show (c.lookup k result).2.2.m_cache hash = none
        rw [(c.lookup_cache k result).1]; exact h
      | resize size => exact resize_loop_none _ hash c.m_order c.m_cache h
      | clear => rfl
    · intro result hm
      exact hno result (List.mem_cons_of_mem _ hm)

/-- The order and the map after the insertion of an absent hash. -/
theorem insert_absent_spec {c : NNCache} (inv : CacheInv c) (hash : Nat) (result : Netresult)
    (h : (c.m_cache hash).isSome = false) :
    (c.insert hash result).m_order =
        (if c.m_size < c.m_order.length + 1 then (c.m_order ++ [hash]).tail
         else c.m_order ++ [hash]) ∧
      ∀ k, (c.insert hash result).m_cache k =
        if k ∈ (c.insert hash result).m_order then
          (if k = hash then some result else c.m_cache k)
        else none := by
  have inv2 := inv.after_insert hash result
  have hn : hash ∉ c.m_order := fun hm => by
    have := (inv.keys hash).mpr hm
    rw [h] at this
    cases this
  obtain ⟨e1, e2⟩ := NNCache.insert_absent result h
  by_cases hle : c.m_order.length + 1 ≤ c.m_size
  · rw [e1 hle, if_neg (by omega)]
    refine ⟨rfl, fun k => ?_⟩
    show Function.update c.m_cache hash (some result) k = if k ∈ c.m_order ++ [hash] then _ else _
    by_cases hk : k = hash
    · subst hk; simp
    · rw [Function.update_noteq hk, if_neg hk]
      by_cases hm : k ∈ c.m_order
      · rw [if_pos (List.mem_append_left _ hm)]
      · rw [if_neg (by simp [hm, hk])]
        cases hv : c.m_cache k with
        | none => rfl
        | some v => exact absurd ((inv.keys k).mp (by rw [hv]; rfl)) hm
  · have inv3 := inv2
    rw [e2 (by omega)] at inv3 ⊢
    rw [if_pos (by omega)]
    refine ⟨rfl, fun k => ?_⟩
    show Function.update (Function.update c.m_cache hash (some result))
      ((c.m_order ++ [hash]).headD 0) none k = if k ∈ (c.m_order ++ [hash]).tail then _ else _
    have hnd : (c.m_order ++ [hash]).Nodup :=
      List.Nodup.append inv.nodup (List.nodup_singleton _) (by simpa using hn)
    cases ho : c.m_order ++ [hash] with
    | nil => simp at ho
    | cons front rest =>
      rw [ho] at hnd
      have hf : front ∉ rest := (List.nodup_cons.mp hnd).1
      show Function.update (Function.update c.m_cache hash (some result)) front none k =
        if k ∈ rest then _ else _
      by_cases hkf : k = front
      · subst hkf; rw [if_neg hf]; simp
      · rw [Function.update_noteq hkf]
        by_cases hk : k = hash
        · subst hk
          have : k ∈ c.m_order ++ [k] := by simp
          rw [ho] at this
          rw [if_pos (by simpa [hkf] using this)]; simp
        · rw [Function.update_noteq hk, if_neg hk]
          by_cases hm : k ∈ rest
          · rw [if_pos hm]
          · rw [if_neg hm]
            cases hv : c.m_cache k with
            | none => rfl
            | some v =>
              have h1 : k ∈ c.m_order := (inv.keys k).mp (by rw [hv]; rfl)
              have h2 : k ∈ c.m_order ++ [hash] := List.mem_append_left _ h1
              rw [ho] at h2
              simp [hkf, hm] at h2

/-- C26: on every cache that was constructed and then used through its member functions,
the insertion of a hash that is not present appends it to the order as the newest entry
and, if the count is then above the capacity, removes the oldest entry and no other; a
lookup, hit or miss, leaves the entries, their order and the capacity as they are; and
after an insertion the count is at most the capacity. -/
theorem cache_fifo {c : NNCache} (hc : Cached c) (hash : Nat) (result out : Netresult) :
    ((c.m_cache hash).isSome = false →
      (c.insert hash result).m_order =
        (if c.m_size < c.m_order.length + 1 then (c.m_order ++ [hash]).tail
         else c.m_order ++ [hash]) ∧
      ∀ k, (c.insert hash result).m_cache k =
        if k ∈ (c.insert hash result).m_order then
          (if k = hash then some result else c.m_cache k)
        else none) ∧
    ((c.lookup hash out).2.2.m_cache = c.m_cache ∧
      (c.lookup hash out).2.2.m_order = c.m_order ∧
      (c.lookup hash out).2.2.m_size = c.m_size) ∧
    (c.insert hash result).m_order.length ≤ (c.insert hash result).m_size ∧
    (c.insert hash result).m_size = c.m_size := by
  have inv := hc.cache_inv
  have inv2 := inv.after_insert hash result
  refine ⟨?_, ?_, inv2.bound, ?_⟩
  · intro h
    exact insert_absent_spec inv hash result h
  · obtain ⟨e1, e2, e3, _⟩ := c.lookup_cache hash out
    exact ⟨e1, e2, e3⟩
  · cases h : (c.m_cache hash).isSome with
    | true => rw [NNCache.insert_present result h]
    | false =>
      obtain ⟨e1, e2⟩ := NNCache.insert_absent result h
      by_cases hle : c.m_order.length + 1 ≤ c.m_size
      · rw [e1 hle]
      · rw [e2 (by omega)]

theorem cache2_cached : Cached cache2 :=
  ⟨2, [CacheCall.insert 10 result1, CacheCall.insert 20 result2], rfl⟩

theorem cache_fifo_witness : Cached cache2 ∧ (cache2.m_cache 30).isSome = false ∧
    (cache2.insert 30 result1).m_order =
      (if cache2.m_size < cache2.m_order.length + 1 then (cache2.m_order ++ [30]).tail
       else cache2.m_order ++ [30]) ∧
    (cache2.lookup 30 result2).2.2.m_order = cache2.m_order ∧
    (cache2.insert 30 result1).m_order.length ≤ (cache2.insert 30 result1).m_size :=
  ⟨cache2_cached, by decide,
    ((cache_fifo cache2_cached 30 result1 result2).1 (by decide)).1,
    (cache_fifo cache2_cached 30 result1 result2).2.1.2.1,
    (cache_fifo cache2_cached 30 result1 result2).2.2.1⟩

/-- C27: on every cache that was constructed and then used through its member functions
and has capacity at least 1: after `insert(h, r)` of an absent hash `h`, `lookup(h)`
returns true and yields `r`; `insert(h, r)` of a hash that is present changes nothing;
`lookup` of an absent hash returns false and leaves the output argument as it was; and a
hash is absent when no call has inserted it, and when an insertion has just evicted
it. -/
theorem cache_get_or_compute {c : NNCache} {size : Int} {calls : List CacheCall}
    (hc : c = NNCache.run (NNCache.create size) calls) (h1 : 1 ≤ c.m_size)
    (hash : Nat) (result out : Netresult) :
    ((c.m_cache hash).isSome = false →
      ((c.insert hash result).lookup hash out).1 = true ∧
      ((c.insert hash result).lookup hash out).2.1 = result) ∧
    ((c.m_cache hash).isSome = true → c.insert hash result = c) ∧
    ((c.m_cache hash).isSome = false →
      (c.lookup hash out).1 = false ∧ (c.lookup hash out).2.1 = out) ∧
    ((∀ r, CacheCall.insert hash r ∉ calls) → (c.m_cache hash).isSome = false) ∧
    ((c.m_cache hash).isSome = false → c.m_size < c.m_order.length + 1 →
      ∀ front rest, c.m_order = front :: rest →
        ((c.insert hash result).m_cache front).isSome = false ∧
        ((c.insert hash result).lookup front out).1 = false) := by
  have inv : CacheInv c := Cached.cache_inv ⟨size, calls, hc⟩
  refine ⟨?_, fun h => NNCache.insert_present result h, ?_, ?_, ?_⟩
  · intro h
    have hcf := insert_absent_spec inv hash result h
    have hmem : hash ∈ (c.insert hash result).m_order := by
      rw [hcf.1]
      split_ifs with hlt
      · cases ho : c.m_order with
        | nil => rw [ho] at hlt; simp at hlt; omega
        | cons front rest => simp
      · simp
    have hval : (c.insert hash result).m_cache hash = some result := by
      rw [hcf.2 hash, if_pos hmem, if_pos rfl]
    rw [NNCache.lookup_present out hval]
    exact ⟨rfl, rfl⟩
  · intro h
    have hn : c.m_cache hash = none := by
      cases hv : c.m_cache hash with
      | none => rfl
      | some v => rw [hv] at h; cases h
    rw [NNCache.lookup_absent out hn]
    exact ⟨rfl, rfl⟩
  · intro hno
    have := never_inserted hash calls (NNCache.create size) rfl hno
    rw [← hc] at this
    rw [this]; rfl
  · intro h hlt front rest ho
    have hcf := insert_absent_spec inv hash result h
    have hnd := inv.nodup
    rw [ho] at hnd
    have hf : front ∉ rest := (List.nodup_cons.mp hnd).1
    have hfh : front ≠ hash := by
      rintro rfl
      have := (inv.keys front).mpr (by rw [ho]; simp)
      rw [h] at this; cases this
    have hnm : front ∉ (c.insert hash result).m_order := by
      rw [hcf.1, if_pos hlt, ho]
      simp [hf, hfh]
    have hval : (c.insert hash result).m_cache front = none := by
      rw [hcf.2 front, if_neg hnm]
    rw [NNCache.lookup_absent out hval, hval]
    exact ⟨rfl, rfl⟩

theorem cache_get_or_compute_witness :
    cache2 = NNCache.run (NNCache.create 2)
      [CacheCall.insert 10 result1, CacheCall.insert 20 result2] ∧
    1 ≤ cache2.m_size ∧ (cache2.m_cache 30).isSome = false ∧
    (cache2.m_cache 10).isSome = true ∧
    (((cache2.insert 30 result1).lookup 30 result2).1 = true ∧
      ((cache2.insert 30 result1).lookup 30 result2).2.1 = result1) ∧
    cache2.insert 10 result2 = cache2 ∧
    ((cache2.lookup 30 result2).1 = false ∧ (cache2.lookup 30 result2).2.1 = result2) :=
  ⟨rfl, by decide, by decide, by decide,
    (cache_get_or_compute (rfl : cache2 = NNCache.run (NNCache.create 2)
      [CacheCall.insert 10 result1, CacheCall.insert 20 result2]) (by decide) 30 result1
      result2).1 (by decide),
    (cache_get_or_compute (rfl : cache2 = NNCache.run (NNCache.create 2)
      [CacheCall.insert 10 result1, CacheCall.insert 20 result2]) (by decide) 10 result2
      result2).2.1 (by decide),
    (cache_get_or_compute (rfl : cache2 = NNCache.run (NNCache.create 2)
      [CacheCall.insert 10 result1, CacheCall.insert 20 result2]) (by decide) 30 result1
      result2).2.2.1 (by decide)⟩

/-! ## Claim C28: `set_max_memory` -/

theorem size_t_sub_eq {a b : Nat} (ha : a < 2 ^ 64) (hb : b ≤ a) : size_t_sub a b = a - b := by
  unfold size_t_sub
  norm_num at ha ⊢
  omega

/-- The locals of `set_max_memory` when nothing wraps around. -/
theorem set_max_memory_locals (env : MemoryEnv) (max_memory : Nat) (percent : Int)
    (hmax : max_memory < 2 ^ 57) (h1 : 1 ≤ percent) (h99 : percent ≤ 99)
    (hbase : env.base_memory ≤ (if max_memory = 0 then DEFAULT_MAX_MEMORY else max_memory)) :
    size_t_sub (if max_memory = 0 then DEFAULT_MAX_MEMORY else max_memory) env.base_memory =
        searchMemory env max_memory ∧
      (searchMemory env max_memory * (percent % 2 ^ 64).toNat) % 2 ^ 64 / 100 =
        cacheBytes env max_memory percent ∧
      size_t_sub (searchMemory env max_memory) (cacheBytes env max_memory percent) =
        treeSpace env max_memory percent := by
  have heff : (if max_memory = 0 then DEFAULT_MAX_MEMORY else max_memory) < 2 ^ 57 := by
    split_ifs
    · decide
    · exact hmax
  have hs : searchMemory env max_memory < 2 ^ 57 := by
    unfold searchMemory; omega
  have hp : (percent % 2 ^ 64).toNat = percent.toNat := by
    norm_num
    omega
  have hp99 : percent.toNat ≤ 99 := by omega
  have hmul : searchMemory env max_memory * percent.toNat ≤ 2 ^ 57 * 99 :=
    Nat.mul_le_mul (Nat.le_of_lt hs) hp99
  have hc : cacheBytes env max_memory percent ≤ searchMemory env max_memory := by
    unfold cacheBytes
    apply Nat.div_le_of_le_mul
    calc searchMemory env max_memory * percent.toNat
        ≤ searchMemory env max_memory * 100 := Nat.mul_le_mul_left _ (by omega)
      _ = 100 * searchMemory env max_memory := Nat.mul_comm _ _
  refine ⟨?_, ?_, ?_⟩
  · rw [size_t_sub_eq (by norm_num at heff ⊢; omega) hbase]; rfl
  · rw [hp, Nat.mod_eq_of_lt (by norm_num at hmul ⊢; omega)]; rfl
  · rw [size_t_sub_eq (by norm_num at hs ⊢; omega) hc]; rfl

/-- C28: for a request below `2 ^ 57` bytes and a cache share from 1 to 99 percent,
`set_max_memory` returns failure with a reason and leaves `cfg_max_memory`,
`cfg_max_cache_ratio_percent`, `cfg_max_tree_size` and the cache as they are whenever the
requested maximum (the default when the request is 0) is smaller than the base memory of
the network, or the resulting cache entry count is below `MIN_CACHE_COUNT`, or the
remaining tree space is below `MIN_TREE_SPACE`; in every other case it returns success
and stores the new limits. -/
theorem set_max_memory_checks (env : MemoryEnv) (config : MemoryConfig) (max_memory : Nat)
    (percent : Int) (hmax : max_memory < 2 ^ 57) (h1 : 1 ≤ percent) (h99 : percent ≤ 99) :
    (((if max_memory = 0 then DEFAULT_MAX_MEMORY else max_memory) < env.base_memory ∨
        cacheCount env max_memory percent < MIN_CACHE_COUNT ∨
        treeSpace env max_memory percent < MIN_TREE_SPACE) →
      (set_max_memory env config max_memory percent).1.1 = false ∧
      (set_max_memory env config max_memory percent).1.2 ≠ [] ∧
      (set_max_memory env config max_memory percent).2 = config) ∧
    (¬ ((if max_memory = 0 then DEFAULT_MAX_MEMORY else max_memory) < env.base_memory ∨
        cacheCount env max_memory percent < MIN_CACHE_COUNT ∨
        treeSpace env max_memory percent < MIN_TREE_SPACE) →
      (set_max_memory env config max_memory percent).1.1 = true ∧
      (set_max_memory env config max_memory percent).2 =
        { cfg_max_memory := if max_memory = 0 then DEFAULT_MAX_MEMORY else max_memory
          cfg_max_cache_ratio_percent := percent
          cfg_max_tree_size := env.remove_overhead (treeSpace env max_memory percent)
          nn_cache := config.nn_cache.resize (cacheCount env max_memory percent) }) := by
  by_cases hb : (if max_memory = 0 then DEFAULT_MAX_MEMORY else max_memory) < env.base_memory
  · have e : set_max_memory env config max_memory percent =
        ((false, "Not enough memory for network. ".data ++
          Nat.toDigits 10 (env.base_memory / env.MiB) ++ " MiB required.".data), config) := by
      simp only [set_max_memory, hb, if_true]
    rw [e]
    refine ⟨fun _ => ⟨rfl, ?_, rfl⟩, fun h => absurd (Or.inl hb) h⟩
    intro h
    have := congrArg List.length h
    simp at this
  · obtain ⟨l1, l2, l3⟩ := set_max_memory_locals env max_memory percent hmax h1 h99
      (Nat.le_of_not_lt hb)
    by_cases hcnt : cacheCount env max_memory percent < MIN_CACHE_COUNT
    · have e : set_max_memory env config max_memory percent =
          ((false, "Not enough memory for cache.".data), config) := by
        simp only [set_max_memory, hb, if_false, l1, l2]
        rw [if_pos (show to_int (env.remove_overhead (cacheBytes env max_memory percent) /
          env.ENTRY_SIZE) < MIN_CACHE_COUNT from hcnt)]
      rw [e]
      exact ⟨fun _ => ⟨rfl, (by decide : "Not enough memory for cache.".data ≠ []), rfl⟩,
        fun h => absurd (Or.inr (Or.inl hcnt)) h⟩
    · by_cases htree : treeSpace env max_memory percent < MIN_TREE_SPACE
      · have e : set_max_memory env config max_memory percent =
            ((false, "Not enough memory for search tree.".data), config) := by
          simp only [set_max_memory, hb, if_false, l1, l2, l3]
          rw [if_neg (show ¬ to_int (env.remove_overhead (cacheBytes env max_memory percent) /
            env.ENTRY_SIZE) < MIN_CACHE_COUNT from hcnt), if_pos htree]
        rw [e]
        exact ⟨fun _ => ⟨rfl, (by decide : "Not enough memory for search tree.".data ≠ []), rfl⟩,
          fun h => absurd (Or.inr (Or.inr htree)) h⟩
      · have e : set_max_memory env config max_memory percent =
            ((true, "Setting max tree size to ".data ++
                Nat.toDigits 10 (treeSpace env max_memory percent / env.MiB) ++
                " MiB and cache size to ".data ++
                Nat.toDigits 10 (cacheBytes env max_memory percent / env.MiB) ++ " MiB.".data),
             { cfg_max_memory := if max_memory = 0 then DEFAULT_MAX_MEMORY else max_memory
               cfg_max_cache_ratio_percent := percent
               cfg_max_tree_size := env.remove_overhead (treeSpace env max_memory percent)
               nn_cache := config.nn_cache.resize (cacheCount env max_memory percent) }) := by
          simp only [set_max_memory, hb, if_false, l1, l2, l3]
          rw [if_neg (show ¬ to_int (env.remove_overhead (cacheBytes env max_memory percent) /
            env.ENTRY_SIZE) < MIN_CACHE_COUNT from hcnt), if_neg htree]
          rfl
        rw [e]
        refine ⟨fun h => ?_, fun _ => ⟨rfl, rfl⟩⟩
        rcases h with h | h | h
        · exact absurd h hb
        · exact absurd h hcnt
        · exact absurd h htree

theorem set_max_memory_checks_witness : (134217728 : Nat) < 2 ^ 57 ∧ (1 : Int) ≤ 10 ∧
    (10 : Int) ≤ 99 ∧ cacheCount env1 134217728 10 < MIN_CACHE_COUNT ∧
    (set_max_memory env1 config1 134217728 10).1.1 = false ∧
    (set_max_memory env1 config1 134217728 10).1.2 ≠ [] ∧
    (set_max_memory env1 config1 134217728 10).2 = config1 :=
  ⟨by decide, by decide, by decide, by decide,
    (set_max_memory_checks env1 config1 134217728 10 (by decide) (by decide) (by decide)).1
      (Or.inr (Or.inl (by decide)))⟩

/-! ## Tree size bookkeeping -/

theorem pack_not_inflated (vertex : Int) (policy : Nat) :
    UCTNodePointer.is_inflated (UCTNodePointer.pack vertex policy) = false := by
  have h1 := Int.emod_nonneg vertex (by decide : (2 ^ 16 : Int) ≠ 0)
  have e : (3 : Nat) = 2 ^ 2 - 1 := rfl
  rw [UCTNodePointer.is_inflated, e, Nat.and_pow_two_sub_one_eq_mod, pack_eq, beq_eq_false_iff_ne]
  show _ ≠ 1
  omega

theorem invalid_not_inflated : UCTNodePointer.is_inflated UCTNodePointer.INVALID = false := by
  decide

/-- The word `address | POINTER` of an aligned address is inflated. -/
theorem pointer_inflated {address : Nat} (h : address &&& 3 = 0) :
    UCTNodePointer.is_inflated (address ||| UCTNodePointer.POINTER) = true := by
  have e : (3 : Nat) = 2 ^ 2 - 1 := rfl
  rw [e, Nat.and_pow_two_sub_one_eq_mod] at h
  have ha : address = 2 ^ 2 * (address / 4) := by norm_num; omega
  have h1 : address ||| UCTNodePointer.POINTER = address + 1 := by
    rw [ha]
    exact (Nat.mul_add_lt_is_or (by decide : (1 : Nat) < 2 ^ 2) _).symm
  rw [UCTNodePointer.is_inflated, h1, e, Nat.and_pow_two_sub_one_eq_mod, beq_iff_eq]
  show _ = 1
  omega

/-- Counting after the word of a slot outside the list has changed. -/
theorem countP_update_not_mem (p : Nat → Bool) (d : Nat → Nat) (n x : Nat) :
    ∀ L : List Nat, n ∉ L →
      L.countP (fun s => p (Function.update d n x s)) = L.countP (fun s => p (d s)) := by
  intro L hn
  apply List.countP_congr
  intro s hs
  have : s ≠ n := fun e => hn (e ▸ hs)
  simp only [Function.update_noteq this]

/-- Counting after the word of one slot of the list has changed. -/
theorem countP_update_mem (p : Nat → Bool) (d : Nat → Nat) (n x : Nat) :
    ∀ L : List Nat, L.Nodup → n ∈ L →
      L.countP (fun s => p (Function.update d n x s)) + (if p (d n) then 1 else 0) =
        L.countP (fun s => p (d s)) + (if p x then 1 else 0) := by
  intro L
  induction L with
  | nil => intro _ h; cases h
  | cons a L ih =>
    intro hnd hm
    obtain ⟨ha, hnd2⟩ := List.nodup_cons.mp hnd
    rw [List.countP_cons, List.countP_cons]
    by_cases e : a = n
    · subst e
      rw [countP_update_not_mem p d a x L ha, Function.update_same]
      omega
    · have hm2 : n ∈ L := by
        rcases List.mem_cons.mp hm with h | h
        · exact absurd h.symm e
        · exact h
      have := ih hnd2 hm2
      rw [Function.update_noteq e]
      omega

theorem countP_erase (p : Nat → Bool) (n : Nat) : ∀ L : List Nat, n ∈ L →
    (L.erase n).countP p + (if p n then 1 else 0) = L.countP p ∧
      (L.erase n).length + 1 = L.length := by
  intro L
  induction L with
  | nil => intro h; cases h
  | cons a L ih =>
    intro hm
    by_cases e : a = n
    · subst e
      rw [List.erase_cons_head, List.countP_cons, List.length_cons]
      exact ⟨rfl, rfl⟩
    · have hm2 : n ∈ L := by
        rcases List.mem_cons.mp hm with h | h
        · exact absurd h.symm e
        · exact h
      obtain ⟨h1, h2⟩ := ih hm2
      rw [List.erase_cons_tail (by simpa using e), List.countP_cons, List.countP_cons,
        List.length_cons, List.length_cons]
      constructor <;> omega

theorem SlotInv.at_start (SP SN : Nat) :
    SlotInv SP SN ⟨0, [], fun _ => UCTNodePointer.INVALID⟩ :=
  ⟨List.nodup_nil, by simp [inflatedCount], by decide⟩

theorem SlotInv.after_construct {SP SN : Nat} {h : SlotHeap} (inv : SlotInv SP SN h)
    (slot : Nat) (vertex : Int) (policy : Nat) (hfresh : slot ∉ h.live)
    (hfit : SP * (h.live.length + 1) + SN * inflatedCount h < 2 ^ 64) :
    SlotInv SP SN (slot_construct SP h slot vertex policy) := by
  have hc : inflatedCount (slot_construct SP h slot vertex policy) = inflatedCount h := by
    show (slot :: h.live).countP (fun s => UCTNodePointer.is_inflated
      (Function.update h.m_data slot (UCTNodePointer.pack vertex policy) s)) = _
    rw [List.countP_cons, countP_update_not_mem _ _ _ _ _ hfresh, Function.update_same,
      pack_not_inflated]
    rfl
  have hs := inv.size
  have hm : SP * (h.live.length + 1) = SP * h.live.length + SP := Nat.mul_succ _ _
  have e : (slot_construct SP h slot vertex policy).m_tree_size =
      (h.m_tree_size + SP) % 2 ^ 64 := rfl
  have hlt : h.m_tree_size + SP < 2 ^ 64 := by omega
  refine ⟨List.nodup_cons.mpr ⟨hfresh, inv.nodup⟩, ?_, ?_⟩
  · rw [hc, e, Nat.mod_eq_of_lt hlt]
    show _ = SP * (h.live.length + 1) + _
    omega
  · rw [e, Nat.mod_eq_of_lt hlt]; exact hlt

theorem SlotInv.after_move_construct {SP SN : Nat} {h : SlotHeap} (inv : SlotInv SP SN h)
    (slot n : Nat) (hfresh : slot ∉ h.live) (hn : n ∈ h.live)
    (hfit : SP * (h.live.length + 1) + SN * inflatedCount h < 2 ^ 64) :
    SlotInv SP SN (slot_move_construct SP h slot n) := by
  have hne : n ≠ slot := fun e => hfresh (e ▸ hn)
  have hc : inflatedCount (slot_move_construct SP h slot n) = inflatedCount h := by
    show (slot :: h.live).countP (fun s => UCTNodePointer.is_inflated
      (Function.update (Function.update (Function.update h.m_data slot UCTNodePointer.INVALID)
        n UCTNodePointer.INVALID) slot
        (Function.update h.m_data slot UCTNodePointer.INVALID n) s)) = _
    rw [List.countP_cons, countP_update_not_mem _ _ _ _ _ hfresh, Function.update_same,
      Function.update_noteq hne]
    have h1 := countP_update_mem UCTNodePointer.is_inflated
      (Function.update h.m_data slot UCTNodePointer.INVALID) n UCTNodePointer.INVALID h.live
      inv.nodup hn
    rw [Function.update_noteq hne, invalid_not_inflated] at h1
    have h2 := countP_update_not_mem UCTNodePointer.is_inflated h.m_data slot
      UCTNodePointer.INVALID h.live hfresh
    rw [h2] at h1
    simp only [Bool.false_eq_true, if_false, Nat.add_zero] at h1
    unfold inflatedCount
    cases hp : UCTNodePointer.is_inflated (h.m_data n) with
    | true =>
      rw [hp] at h1
      simp only [if_true] at h1 ⊢
      omega
    | false =>
      rw [hp] at h1
      simp only [Bool.false_eq_true, if_false, Nat.add_zero] at h1 ⊢
      omega
  have hs := inv.size
  have hm : SP * (h.live.length + 1) = SP * h.live.length + SP := Nat.mul_succ _ _
  have e : (slot_move_construct SP h slot n).m_tree_size = (h.m_tree_size + SP) % 2 ^ 64 := rfl
  have hlt : h.m_tree_size + SP < 2 ^ 64 := by omega
  refine ⟨List.nodup_cons.mpr ⟨hfresh, inv.nodup⟩, ?_, ?_⟩
  · rw [hc, e, Nat.mod_eq_of_lt hlt]
    show _ = SP * (h.live.length + 1) + _
    omega
  · rw [e, Nat.mod_eq_of_lt hlt]; exact hlt

theorem decrement_tree_size_eq {h : SlotHeap} {size : Nat} (hle : size ≤ h.m_tree_size)
    (hlt : h.m_tree_size < 2 ^ 64) :
    decrement_tree_size h size = some { h with m_tree_size := h.m_tree_size - size } := by
  simp only [decrement_tree_size, ge_iff_le, hle, if_true, size_t_sub_eq hlt hle]

/-- A live inflated slot accounts for one node in the counter. -/
theorem SlotInv.node_le {SP SN : Nat} {h : SlotHeap} (inv : SlotInv SP SN h) {slot : Nat}
    (hslot : slot ∈ h.live) (hinf : UCTNodePointer.is_inflated (h.m_data slot) = true) :
    1 ≤ inflatedCount h ∧ 1 ≤ h.live.length ∧ SP + SN ≤ h.m_tree_size := by
  have h1 : 0 < inflatedCount h := List.countP_pos_iff.mpr ⟨slot, hslot, hinf⟩
  have h2 : 0 < h.live.length := List.length_pos_of_mem hslot
  refine ⟨h1, h2, ?_⟩
  rw [inv.size]
  have := Nat.mul_le_mul_left SP h2
  have := Nat.mul_le_mul_left SN h1
  omega

theorem SlotInv.after_move_assign {SP SN : Nat} {h : SlotHeap} (inv : SlotInv SP SN h)
    (slot n : Nat) (hslot : slot ∈ h.live) (hn : n ∈ h.live) :
    ∃ h2, slot_move_assign SN h slot n = some h2 ∧ SlotInv SP SN h2 ∧ h2.live = h.live := by
  by_cases e : slot = n
  · subst e
    have hd : Function.update (Function.update h.m_data slot UCTNodePointer.INVALID) slot
        (h.m_data slot) = h.m_data := by
      rw [Function.update_idem, Function.update_eq_self]
    refine ⟨h, ?_, inv, rfl⟩
    simp only [slot_move_assign, Function.update_same, invalid_not_inflated,
      Bool.false_eq_true, if_false, hd]
  · have hv : Function.update h.m_data n UCTNodePointer.INVALID slot = h.m_data slot :=
      Function.update_noteq e _ _
    have hcount : (h.live.countP (fun s => UCTNodePointer.is_inflated
        (Function.update (Function.update h.m_data n UCTNodePointer.INVALID) slot
          (h.m_data n) s))) +
        (if UCTNodePointer.is_inflated (h.m_data slot) then 1 else 0) = inflatedCount h := by
      have h1 := countP_update_mem UCTNodePointer.is_inflated h.m_data n
        UCTNodePointer.INVALID h.live inv.nodup hn
      have h2 := countP_update_mem UCTNodePointer.is_inflated
        (Function.update h.m_data n UCTNodePointer.INVALID) slot (h.m_data n) h.live
        inv.nodup hslot
      rw [hv] at h2
      rw [invalid_not_inflated] at h1
      simp only [Bool.false_eq_true, if_false, Nat.add_zero] at h1
      unfold inflatedCount
      omega
    cases hinf : UCTNodePointer.is_inflated (h.m_data slot) with
    | true =>
      obtain ⟨_, _, hle⟩ := inv.node_le hslot hinf
      rw [hinf] at hcount
      simp only [if_true] at hcount
      have hd := @decrement_tree_size_eq
        { h with m_data := (Function.update
            (Function.update h.m_data n UCTNodePointer.INVALID) slot (h.m_data n)) } SN
        (by show SN ≤ h.m_tree_size; omega) inv.fits
      refine ⟨{ h with m_tree_size := h.m_tree_size - SN
                       m_data := (Function.update
                         (Function.update h.m_data n UCTNodePointer.INVALID) slot (h.m_data n)) },
        ?_, ⟨inv.nodup, ?_, ?_⟩, rfl⟩
      · simp only [slot_move_assign, hv, hinf, if_true]
        exact hd
      · have hs := inv.size
        rw [← hcount, Nat.mul_succ] at hs
        dsimp only [inflatedCount]
        omega
      · show h.m_tree_size - SN < 2 ^ 64
        have := inv.fits
        omega
    | false =>
      rw [hinf] at hcount
      simp only [Bool.false_eq_true, if_false, Nat.add_zero] at hcount
      refine ⟨{ h with m_data := (Function.update
          (Function.update h.m_data n UCTNodePointer.INVALID) slot (h.m_data n)) },
        ?_, ⟨inv.nodup, ?_, inv.fits⟩, rfl⟩
      · simp only [slot_move_assign, hv, hinf, Bool.false_eq_true, if_false]
      · dsimp only [inflatedCount]
        rw [hcount]; exact inv.size

theorem SlotInv.after_release {SP SN : Nat} {h : SlotHeap} (inv : SlotInv SP SN h)
    (slot : Nat) (hslot : slot ∈ h.live)
    (hinf : UCTNodePointer.is_inflated (h.m_data slot) = true) :
    ∃ h2, slot_release SN h slot = some (h2, UCTNodePointer.read_ptr (h.m_data slot)) ∧
      SlotInv SP SN h2 ∧ h2.live = h.live ∧ inflatedCount h2 + 1 = inflatedCount h := by
  obtain ⟨_, _, hle⟩ := inv.node_le hslot hinf
  have hcount : (h.live.countP (fun s => UCTNodePointer.is_inflated
      (Function.update h.m_data slot UCTNodePointer.INVALID s))) + 1 = inflatedCount h := by
    have h1 := countP_update_mem UCTNodePointer.is_inflated h.m_data slot
      UCTNodePointer.INVALID h.live inv.nodup hslot
    rw [invalid_not_inflated, hinf] at h1
    simp only [Bool.false_eq_true, if_false, if_true, Nat.add_zero] at h1
    exact h1
  have hd := @decrement_tree_size_eq
    { h with m_data := Function.update h.m_data slot UCTNodePointer.INVALID } SN
    (by show SN ≤ h.m_tree_size; omega) inv.fits
  refine ⟨{ h with m_tree_size := h.m_tree_size - SN
                   m_data := Function.update h.m_data slot UCTNodePointer.INVALID },
    ?_, ⟨inv.nodup, ?_, ?_⟩, rfl, hcount⟩
  · simp only [slot_release, hd, Option.map_some']
  · have hs := inv.size
    rw [← hcount, Nat.mul_succ] at hs
    dsimp only [inflatedCount]
    omega
  · show h.m_tree_size - SN < 2 ^ 64
    have := inv.fits
    omega

theorem SlotInv.after_inflate {SP SN : Nat} {h : SlotHeap} (inv : SlotInv SP SN h)
    (slot address : Nat) (hslot : slot ∈ h.live) (ha : address &&& 3 = 0)
    (hfit : UCTNodePointer.is_inflated (h.m_data slot) = false →
      SP * h.live.length + SN * (inflatedCount h + 1) < 2 ^ 64) :
    ∃ h2, slot_inflate SN h slot address = some h2 ∧ SlotInv SP SN h2 ∧ h2.live = h.live ∧
      UCTNodePointer.is_inflated (h2.m_data slot) = true := by
  cases hinf : UCTNodePointer.is_inflated (h.m_data slot) with
  | true =>
    exact ⟨h, by simp only [slot_inflate, hinf, if_true], inv, rfl, hinf⟩
  | false =>
    have hcount : (h.live.countP (fun s => UCTNodePointer.is_inflated
        (Function.update h.m_data slot (address ||| UCTNodePointer.POINTER) s))) =
        inflatedCount h + 1 := by
      have h1 := countP_update_mem UCTNodePointer.is_inflated h.m_data slot
        (address ||| UCTNodePointer.POINTER) h.live inv.nodup hslot
      rw [pointer_inflated ha, hinf] at h1
      simp only [Bool.false_eq_true, if_false, if_true, Nat.add_zero] at h1
      exact h1
    have hf := hfit hinf
    have hs := inv.size
    rw [Nat.mul_succ] at hf
    have hlt : h.m_tree_size + SN < 2 ^ 64 := by omega
    refine ⟨increment_tree_size { h with m_data :=
        (Function.update h.m_data slot (address ||| UCTNodePointer.POINTER)) } SN,
      by simp only [slot_inflate, hinf, Bool.false_eq_true, if_false, ha, if_true],
      ⟨inv.nodup, ?_, ?_⟩, rfl, ?_⟩
    · dsimp only [inflatedCount, increment_tree_size]
      rw [hcount, Nat.mod_eq_of_lt hlt, Nat.mul_succ]
      omega
    · show (h.m_tree_size + SN) % 2 ^ 64 < 2 ^ 64
      exact Nat.mod_lt _ (by decide)
    · show UCTNodePointer.is_inflated
        (Function.update h.m_data slot (address ||| UCTNodePointer.POINTER) slot) = true
      rw [Function.update_same]
      exact pointer_inflated ha

theorem SlotInv.after_destroy {SP SN : Nat} {h : SlotHeap} (inv : SlotInv SP SN h)
    (slot : Nat) (hslot : slot ∈ h.live) :
    ∃ h2, slot_destroy SP SN h slot = some h2 ∧ SlotInv SP SN h2 ∧
      h2.live = h.live.erase slot := by
  obtain ⟨hc, hl⟩ := countP_erase (fun s => UCTNodePointer.is_inflated (h.m_data s)) slot
    h.live hslot
  have hs := inv.size
  have hfits := inv.fits
  rw [← hl, Nat.mul_succ] at hs
  cases hinf : UCTNodePointer.is_inflated (h.m_data slot) with
  | true =>
    rw [hinf] at hc
    simp only [if_true] at hc
    unfold inflatedCount at hs
    rw [← hc, Nat.mul_succ] at hs
    have hsz : (SP + SN) % 2 ^ 64 = SP + SN := Nat.mod_eq_of_lt (by omega)
    have hd := @decrement_tree_size_eq { h with live := h.live.erase slot } (SP + SN)
      (by show SP + SN ≤ h.m_tree_size; omega) hfits
    refine ⟨{ h with m_tree_size := h.m_tree_size - (SP + SN), live := h.live.erase slot },
      ?_, ⟨inv.nodup.erase slot, ?_, ?_⟩, rfl⟩
    · simp only [slot_destroy, hinf, if_true, hsz]
      exact hd
    · dsimp only [inflatedCount]
      omega
    · show h.m_tree_size - (SP + SN) < 2 ^ 64
      omega
  | false =>
    rw [hinf] at hc
    simp only [Bool.false_eq_true, if_false, Nat.add_zero] at hc
    unfold inflatedCount at hs
    rw [← hc] at hs
    have hd := @decrement_tree_size_eq { h with live := h.live.erase slot } SP
      (by show SP ≤ h.m_tree_size; omega) hfits
    refine ⟨{ h with m_tree_size := h.m_tree_size - SP, live := h.live.erase slot },
      ?_, ⟨inv.nodup.erase slot, ?_, ?_⟩, rfl⟩
    · simp only [slot_destroy, hinf, Bool.false_eq_true, if_false]
      exact hd
    · dsimp only [inflatedCount]
      omega
    · show h.m_tree_size - SP < 2 ^ 64
      omega

/-! ## Claim C23: tree size accounting -/

/-- Every heap of a run satisfies the invariant. -/
theorem Slots.slot_inv {SP SN : Nat} {h : SlotHeap} (hs : Slots SP SN h) :
    SlotInv SP SN h := by
  induction hs with
  | start => exact SlotInv.at_start SP SN
  | construct h slot vertex policy _ hfresh hfit ih =>
    exact ih.after_construct slot vertex policy hfresh hfit
  | move_construct h slot n _ hfresh hn hfit ih =>
    exact ih.after_move_construct slot n hfresh hn hfit
  | move_assign h slot n h2 _ hslot hn hres ih =>
    obtain ⟨h3, e, inv, _⟩ := ih.after_move_assign slot n hslot hn
    rw [hres] at e; cases e; exact inv
  | release h slot h2 address _ hslot hinf hres ih =>
    obtain ⟨h3, e, inv, _⟩ := ih.after_release slot hslot hinf
    rw [hres] at e; cases e; exact inv
  | inflate h slot address h2 _ hslot hfit hres ih =>
    by_cases ha : address &&& 3 = 0
    · obtain ⟨h3, e, inv, _⟩ := ih.after_inflate slot address hslot ha hfit
      rw [hres] at e; cases e; exact inv
    · cases hinf : UCTNodePointer.is_inflated (h.m_data slot) with
      | true =>
        simp only [slot_inflate, hinf, if_true] at hres
        cases hres; exact ih
      | false =>
        simp only [slot_inflate, hinf, Bool.false_eq_true, if_false, ha] at hres
        cases hres
  | destroy h slot h2 _ hslot hres ih =>
    obtain ⟨h3, e, inv, _⟩ := ih.after_destroy slot hslot
    rw [hres] at e; cases e; exact inv

/-- C23: in every sequential run of slot operations from the start of the program
(construct, move-construct, move-assign, inflate, release of an inflated slot, destroy),
`get_tree_size()` is `sizeof(UCTNodePointer)` times the number of live slots plus
`sizeof(UCTNode)` times the number of live slots that own an inflated node; it is 0 once
every slot has been destroyed; and the operations that decrement the counter pass its
assertion and return. -/
theorem tree_size_accounting {SP SN : Nat} {h : SlotHeap} (hs : Slots SP SN h) :
    h.m_tree_size = SP * h.live.length + SN * inflatedCount h ∧
      (h.live = [] → h.m_tree_size = 0) ∧
      (∀ slot, slot ∈ h.live → ∃ h2, slot_destroy SP SN h slot = some h2 ∧ Slots SP SN h2 ∧
        h2.live = h.live.erase slot) ∧
      (∀ slot n, slot ∈ h.live → n ∈ h.live →
        ∃ h2, slot_move_assign SN h slot n = some h2 ∧ Slots SP SN h2) ∧
      (∀ slot, slot ∈ h.live → UCTNodePointer.is_inflated (h.m_data slot) = true →
        ∃ h2 address, slot_release SN h slot = some (h2, address) ∧ Slots SP SN h2) := by
  have inv := hs.slot_inv
  refine ⟨inv.size, ?_, ?_, ?_, ?_⟩
  · intro he
    have hsz := inv.size
    rw [inflatedCount, he] at hsz
    simpa using hsz
  · intro slot hslot
    obtain ⟨h2, e, _, hl⟩ := inv.after_destroy slot hslot
    exact ⟨h2, e, Slots.destroy h slot h2 hs hslot e, hl⟩
  · intro slot n hslot hn
    obtain ⟨h2, e, _⟩ := inv.after_move_assign slot n hslot hn
    exact ⟨h2, e, Slots.move_assign h slot n h2 hs hslot hn e⟩
  · intro slot hslot hinf
    obtain ⟨h2, e, _⟩ := inv.after_release slot hslot hinf
    exact ⟨h2, _, e, Slots.release h slot h2 _ hs hslot hinf e⟩

theorem heap1_slots : Slots 8 96 heap1 :=
  Slots.construct heap0 100 PASS 1056964608 Slots.start (by decide) (by decide)

theorem heap2_slots : Slots 8 96 heap2 :=
  Slots.inflate heap1 100 4096 heap2 heap1_slots (by decide) (fun _ => by decide) rfl

theorem tree_size_accounting_witness : Slots 8 96 heap2 ∧ heap2.live = [100] ∧
    heap2.m_tree_size = 8 * heap2.live.length + 96 * inflatedCount heap2 ∧
    heap2.m_tree_size = 104 ∧
    ∃ h2, slot_destroy 8 96 heap2 100 = some h2 ∧ Slots 8 96 h2 ∧
      h2.live = heap2.live.erase 100 :=
  ⟨heap2_slots, by decide, (tree_size_accounting heap2_slots).1, by decide,
    (tree_size_accounting heap2_slots).2.2.1 100 (by decide)⟩

/-! ## Concurrent calls of `inflate` -/

theorem or_pointer {a : Nat} (h : a &&& 3 = 0) : a ||| UCTNodePointer.POINTER = a + 1 := by
  have e : (3 : Nat) = 2 ^ 2 - 1 := rfl
  rw [e, Nat.and_pow_two_sub_one_eq_mod] at h
  have ha : a = 2 ^ 2 * (a / 4) := by norm_num; omega
  rw [ha]
  exact (Nat.mul_add_lt_is_or (by decide : (1 : Nat) < 2 ^ 2) _).symm

/-- The address read back from the word made of an aligned address. -/
theorem read_ptr_pointer {a : Nat} (h : a &&& 3 = 0) (hlt : a < 2 ^ 64) :
    UCTNodePointer.read_ptr (a ||| UCTNodePointer.POINTER) = a := by
  rw [or_pointer h, UCTNodePointer.read_ptr]
  have e : (3 : Nat) = 2 ^ 2 - 1 := rfl
  rw [e, Nat.and_pow_two_sub_one_eq_mod] at h
  have em : (2 ^ 64 - 1 - 3 : Nat) = 18446744073709551612 := by decide
  have e64 : (2 ^ 64 : Nat) = 18446744073709551616 := by decide
  have e4 : (2 ^ 2 : Nat) = 4 := by decide
  rw [em]
  rw [e64] at hlt
  rw [e4] at h
  have h1 : ((a + 1) &&& 18446744073709551612) % 2 ≠ 1 := by
    rw [Ne, Nat.and_mod_two_eq_one]
    rintro ⟨_, h2⟩
    exact absurd h2 (by decide)
  have h2 : ((a + 1) &&& 18446744073709551612) / 2 % 2 ≠ 1 := by
    rw [Ne, Nat.and_div_two, Nat.and_mod_two_eq_one]
    rintro ⟨_, h2⟩
    exact absurd h2 (by decide)
  have h3 : ((a + 1) &&& 18446744073709551612) / 2 / 2 = (a + 1) / 2 / 2 := by
    rw [Nat.and_div_two, Nat.and_div_two]
    have e2 : (18446744073709551612 : Nat) / 2 / 2 = 2 ^ 62 - 1 := by decide
    rw [e2, Nat.and_pow_two_sub_one_eq_mod]
    apply Nat.mod_eq_of_lt
    have e62 : (2 ^ 62 : Nat) = 4611686018427387904 := by decide
    rw [e62]
    omega
  omega

theorem sum_map_lt {f g : Nat → Nat} {t : Nat} : ∀ (L : List Nat),
    (∀ x, x ∈ L → f x ≤ g x) → t ∈ L → f t + 1 ≤ g t →
    (L.map f).sum + 1 ≤ (L.map g).sum := by
  intro L
  induction L with
  | nil => intro _ h; cases h
  | cons a L ih =>
    intro hle hm ht
    have hall : (L.map f).sum ≤ (L.map g).sum :=
      List.sum_le_sum (fun x hx => hle x (List.mem_cons_of_mem _ hx))
    rw [List.map_cons, List.map_cons, List.sum_cons, List.sum_cons]
    rcases List.mem_cons.mp hm with h | h
    · subst h
      omega
    · have := ih (fun x hx => hle x (List.mem_cons_of_mem _ hx)) h ht
      have := hle a (List.mem_cons_self _ _)
      omega

theorem stepsLeft_mono {b1 b2 : Bool} (h : b2 = true → b1 = true) (pc : InflatePc) :
    stepsLeft b1 pc ≤ stepsLeft b2 pc := by
  cases pc <;> simp only [stepsLeft, le_refl]
  cases b2 <;> cases b1 <;> simp at h ⊢

/-- A step of one thread lowers the bound on the steps that are left. -/
theorem stepsLeftAll_step {N : Nat} {s s2 : InflateState} {t : Nat} (ht : t < N)
    (hpc : ∀ t2, t2 ≠ t → s2.pc t2 = s.pc t2)
    (hinf : UCTNodePointer.is_inflated s.m_data = true →
      UCTNodePointer.is_inflated s2.m_data = true)
    (hdec : stepsLeft (UCTNodePointer.is_inflated s2.m_data) (s2.pc t) + 1 ≤
      stepsLeft (UCTNodePointer.is_inflated s.m_data) (s.pc t)) :
    stepsLeftAll N s2 + 1 ≤ stepsLeftAll N s := by
  apply sum_map_lt (List.range N) _ (List.mem_range.mpr ht) hdec
  intro x _
  by_cases e : x = t
  · subst e; omega
  · show stepsLeft _ (s2.pc x) ≤ stepsLeft _ (s.pc x)
    rw [hpc x e]
    exact stepsLeft_mono hinf _

theorem stepsLeftAll_start (N v0 T0 : Nat) (A0 : List Nat)
    (hv0 : UCTNodePointer.is_inflated v0 = false) :
    stepsLeftAll N (inflate_start v0 T0 A0) = 5 * N := by
  have : ∀ L : List Nat, (L.map (fun _ : Nat => stepsLeft (UCTNodePointer.is_inflated v0)
      InflatePc.load)).sum = 5 * L.length := by
    intro L
    induction L with
    | nil => rfl
    | cons a L ih =>
      rw [List.map_cons, List.sum_cons, ih, List.length_cons, hv0]
      show 5 + _ = _
      omega
  have h := this (List.range N)
  rw [List.length_range] at h
  exact h

theorem InflateInv.before_steps (N SN : Nat) {v0 : Nat} (T0 : Nat) {A0 : List Nat}
    (hv0 : UCTNodePointer.is_inflated v0 = false) (hA : A0.Nodup) :
    InflateInv N SN v0 T0 A0 (inflate_start v0 T0 A0) := by
  have hn : ¬ UCTNodePointer.is_inflated (inflate_start v0 T0 A0).m_data = true := by
    show ¬ UCTNodePointer.is_inflated v0 = true
    rw [hv0]; decide
  refine { first := ?_, second := ?_, locals := ?_, held := ?_, nodup := hA, nodes := ?_ }
  · intro _
    refine ⟨rfl, rfl, fun t _ => ⟨?_, ?_, ?_⟩⟩
    · intro h; cases h
    · intro h; cases h
    · intro v2 h; cases h
  · intro h; exact absurd h hn
  · intro t _
    exact ⟨fun v h => (by cases h), fun v v2 h => (by cases h)⟩
  · intro t _ a h
    cases h
  · intro a
    constructor
    · intro h; exact Or.inl h
    · rintro (h | ⟨h, _⟩ | ⟨t, _, h⟩)
      · exact h
      · exact absurd h hn
      · cases h

/-- A step that changes the place of one thread only, and leaves it with the node it
held. -/
theorem InflateInv.set_pc {N SN v0 T0 : Nat} {A0 : List Nat} {s : InflateState}
    (inv : InflateInv N SN v0 T0 A0 s) {t : Nat} (x : InflatePc)
    (hx : heldNode x = heldNode (s.pc t))
    (hshape : ∀ a, heldNode x = some a →
      x = InflatePc.exchange v0 (a ||| UCTNodePointer.POINTER) ∨
        x = InflatePc.discard (a ||| UCTNodePointer.POINTER))
    (hold : s.pc t ≠ InflatePc.increment) (hnew : x ≠ InflatePc.increment)
    (hfirst : UCTNodePointer.is_inflated s.m_data = false →
      x ≠ InflatePc.returned ∧ ∀ v2, x ≠ InflatePc.discard v2)
    (hloc : (∀ v, x = InflatePc.allocate v → v = v0) ∧
      (∀ v v2, x = InflatePc.exchange v v2 → v = v0)) :
    InflateInv N SN v0 T0 A0 { s with pc := Function.update s.pc t x } := by
  have hpc : ∀ t2, t2 ≠ t → Function.update s.pc t x t2 = s.pc t2 :=
    fun t2 h => Function.update_noteq h _ _
  have hpt : Function.update s.pc t x t = x := Function.update_same _ _ _
  have hheld : ∀ t2, heldNode (Function.update s.pc t x t2) = heldNode (s.pc t2) := by
    intro t2
    by_cases e : t2 = t
    · subst e; rw [hpt, hx]
    · rw [hpc t2 e]
  refine { first := ?_, second := ?_, locals := ?_, held := ?_, nodup := inv.nodup,
           nodes := ?_ }
  · intro hi
    obtain ⟨h1, h2, h3⟩ := inv.first hi
    refine ⟨h1, h2, fun t2 ht2 => ?_⟩
    show Function.update s.pc t x t2 ≠ _ ∧ Function.update s.pc t x t2 ≠ _ ∧
      ∀ v2, Function.update s.pc t x t2 ≠ _
    by_cases e : t2 = t
    · subst e; rw [hpt]; exact ⟨hnew, (hfirst hi).1, (hfirst hi).2⟩
    · rw [hpc t2 e]; exact h3 t2 ht2
  · intro hi
    obtain ⟨h1, h2, h3⟩ := inv.second hi
    refine ⟨h1, h2, ?_⟩
    rcases h3 with ⟨⟨w, hw, hpw, huniq⟩, hsz⟩ | ⟨hno, hsz⟩
    · left
      have hwt : w ≠ t := fun e => hold (e ▸ hpw)
      refine ⟨⟨w, hw, ?_, ?_⟩, hsz⟩
      · show Function.update s.pc t x w = _
        rw [hpc w hwt]; exact hpw
      · intro t2 ht2 h
        have h' : Function.update s.pc t x t2 = InflatePc.increment := h
        by_cases e : t2 = t
        · subst e; rw [hpt] at h'; exact absurd h' hnew
        · rw [hpc t2 e] at h'; exact huniq t2 ht2 h'
    · right
      refine ⟨fun t2 ht2 => ?_, hsz⟩
      show Function.update s.pc t x t2 ≠ _
      by_cases e : t2 = t
      · subst e; rw [hpt]; exact hnew
      · rw [hpc t2 e]; exact hno t2 ht2
  · intro t2 ht2
    show (∀ v, Function.update s.pc t x t2 = _ → _) ∧
      (∀ v v2, Function.update s.pc t x t2 = _ → _)
    by_cases e : t2 = t
    · subst e; rw [hpt]; exact hloc
    · rw [hpc t2 e]; exact inv.locals t2 ht2
  · intro t2 ht2 a ha
    have ha' : heldNode (s.pc t2) = some a := by rw [← hheld t2]; exact ha
    obtain ⟨h1, h2, h3, h4, h5, h6⟩ := inv.held t2 ht2 a ha'
    refine ⟨h1, h2, h3, h4, ?_, ?_⟩
    · show Function.update s.pc t x t2 = _ ∨ Function.update s.pc t x t2 = _
      by_cases e : t2 = t
      · subst e
        rw [hpt]
        exact hshape a (by rw [hx]; exact ha')
      · rw [hpc t2 e]; exact h5
    · intro t3 ht3 h
      exact h6 t3 ht3 (by rw [← hheld t3]; exact h)
  · intro a
    rw [inv.nodes a]
    constructor
    · rintro (h | h | ⟨t2, ht2, h⟩)
      · exact Or.inl h
      · exact Or.inr (Or.inl h)
      · exact Or.inr (Or.inr ⟨t2, ht2, by rw [hheld t2]; exact h⟩)
    · rintro (h | h | ⟨t2, ht2, h⟩)
      · exact Or.inl h
      · exact Or.inr (Or.inl h)
      · exact Or.inr (Or.inr ⟨t2, ht2, by rw [← hheld t2]; exact h⟩)

/-- The allocation: the thread holds the new node. -/
theorem InflateInv.allocated {N SN v0 T0 : Nat} {A0 : List Nat} {s : InflateState}
    (inv : InflateInv N SN v0 T0 A0 s) {t : Nat} (ht : t < N) {v address : Nat}
    (hpc : s.pc t = InflatePc.allocate v) (ha : address &&& 3 = 0) (hlt : address < 2 ^ 64)
    (hfresh : address ∉ s.nodes) :
    InflateInv N SN v0 T0 A0
      { s with nodes := address :: s.nodes
               pc := Function.update s.pc t
                 (InflatePc.exchange v (address ||| UCTNodePointer.POINTER)) } := by
  have hv : v = v0 := (inv.locals t ht).1 v hpc
  subst hv
  have hupd : ∀ t2, t2 ≠ t → Function.update s.pc t
      (InflatePc.exchange v (address ||| UCTNodePointer.POINTER)) t2 = s.pc t2 :=
    fun t2 h => Function.update_noteq h _ _
  have hpt : Function.update s.pc t
      (InflatePc.exchange v (address ||| UCTNodePointer.POINTER)) t =
      InflatePc.exchange v (address ||| UCTNodePointer.POINTER) := Function.update_same _ _ _
  have hrp := read_ptr_pointer ha hlt
  have hnone : heldNode (s.pc t) = none := by rw [hpc]; rfl
  have hnotheld : ∀ t2, t2 < N → heldNode (s.pc t2) ≠ some address := by
    intro t2 ht2 h
    exact hfresh ((inv.nodes address).mpr (Or.inr (Or.inr ⟨t2, ht2, h⟩)))
  refine { first := ?_, second := ?_, locals := ?_, held := ?_, nodup := ?_, nodes := ?_ }
  · intro hi
    obtain ⟨h1, h2, h3⟩ := inv.first hi
    refine ⟨h1, h2, fun t2 ht2 => ?_⟩
    show Function.update s.pc t _ t2 ≠ _ ∧ Function.update s.pc t _ t2 ≠ _ ∧
      ∀ v2, Function.update s.pc t _ t2 ≠ _
    by_cases e : t2 = t
    · subst e; rw [hpt]
      exact ⟨fun h => (by cases h), fun h => (by cases h), fun v2 h => (by cases h)⟩
    · rw [hupd t2 e]; exact h3 t2 ht2
  · intro hi
    obtain ⟨h1, h2, h3⟩ := inv.second hi
    refine ⟨h1, h2, ?_⟩
    rcases h3 with ⟨⟨w, hw, hpw, huniq⟩, hsz⟩ | ⟨hno, hsz⟩
    · left
      have hwt : w ≠ t := fun e => by rw [e, hpc] at hpw; cases hpw
      refine ⟨⟨w, hw, ?_, ?_⟩, hsz⟩
      · show Function.update s.pc t _ w = _
        rw [hupd w hwt]; exact hpw
      · intro t2 ht2 h
        have h' : Function.update s.pc t _ t2 = InflatePc.increment := h
        by_cases e : t2 = t
        · subst e; rw [hpt] at h'; cases h'
        · rw [hupd t2 e] at h'; exact huniq t2 ht2 h'
    · right
      refine ⟨fun t2 ht2 => ?_, hsz⟩
      show Function.update s.pc t _ t2 ≠ _
      by_cases e : t2 = t
      · subst e; rw [hpt]; intro h; cases h
      · rw [hupd t2 e]; exact hno t2 ht2
  · intro t2 ht2
    show (∀ v, Function.update s.pc t _ t2 = _ → _) ∧
      (∀ v v2, Function.update s.pc t _ t2 = _ → _)
    by_cases e : t2 = t
    · subst e; rw [hpt]
      exact ⟨fun v h => (by cases h), fun v1 v2 h => (by cases h; rfl)⟩
    · rw [hupd t2 e]; exact inv.locals t2 ht2
  · intro t2 ht2 a hheld
    have hheld' : heldNode (Function.update s.pc t
      (InflatePc.exchange v (address ||| UCTNodePointer.POINTER)) t2) = some a := hheld
    by_cases e : t2 = t
    · subst e
      rw [hpt] at hheld'
      have ea : address = a := by
        have : some (UCTNodePointer.read_ptr (address ||| UCTNodePointer.POINTER)) = some a :=
          hheld'
        rw [hrp] at this
        exact Option.some.inj this
      subst ea
      refine ⟨ha, hlt, ?_, ?_, ?_, ?_⟩
      · exact fun h => hfresh ((inv.nodes address).mpr (Or.inl h))
      · intro hi h
        exact hfresh ((inv.nodes address).mpr (Or.inr (Or.inl ⟨hi, h⟩)))
      · left
        show Function.update s.pc t2 _ t2 = _
        rw [hpt]
      · intro t3 ht3 h
        have h' : heldNode (Function.update s.pc t2
          (InflatePc.exchange v (address ||| UCTNodePointer.POINTER)) t3) = some address := h
        by_contra e3
        rw [hupd t3 e3] at h'
        exact hnotheld t3 ht3 h'
    · rw [hupd t2 e] at hheld'
      obtain ⟨h1, h2, h3, h4, h5, h6⟩ := inv.held t2 ht2 a hheld'
      refine ⟨h1, h2, h3, h4, ?_, ?_⟩
      · show Function.update s.pc t _ t2 = _ ∨ Function.update s.pc t _ t2 = _
        rw [hupd t2 e]; exact h5
      · intro t3 ht3 h
        have h' : heldNode (Function.update s.pc t
          (InflatePc.exchange v (address ||| UCTNodePointer.POINTER)) t3) = some a := h
        by_cases e3 : t3 = t
        · subst e3
          rw [hpt] at h'
          have : some (UCTNodePointer.read_ptr (address ||| UCTNodePointer.POINTER)) = some a :=
            h'
          rw [hrp] at this
          have ea : address = a := Option.some.inj this
          subst ea
          exact absurd hheld' (hnotheld t2 ht2)
        · rw [hupd t3 e3] at h'
          exact h6 t3 ht3 h'
  · exact List.nodup_cons.mpr ⟨hfresh, inv.nodup⟩
  · intro a
    show a ∈ address :: s.nodes ↔ _
    rw [List.mem_cons, inv.nodes a]
    constructor
    · rintro (h | h | h | ⟨t2, ht2, h⟩)
      · subst h
        refine Or.inr (Or.inr ⟨t, ht, ?_⟩)
        show heldNode (Function.update s.pc t _ t) = _
        rw [hpt]
        show some (UCTNodePointer.read_ptr _) = _
        rw [hrp]
      · exact Or.inl h
      · exact Or.inr (Or.inl h)
      · have e : t2 ≠ t := fun e => by rw [e, hnone] at h; cases h
        refine Or.inr (Or.inr ⟨t2, ht2, ?_⟩)
        show heldNode (Function.update s.pc t _ t2) = _
        rw [hupd t2 e]; exact h
    · rintro (h | h | ⟨t2, ht2, h⟩)
      · exact Or.inr (Or.inl h)
      · exact Or.inr (Or.inr (Or.inl h))
      · have h' : heldNode (Function.update s.pc t
          (InflatePc.exchange v (address ||| UCTNodePointer.POINTER)) t2) = some a := h
        by_cases e : t2 = t
        · subst e
          rw [hpt] at h'
          have : some (UCTNodePointer.read_ptr (address ||| UCTNodePointer.POINTER)) = some a :=
            h'
          rw [hrp] at this
          exact Or.inl (Option.some.inj this).symm
        · rw [hupd t2 e] at h'
          exact Or.inr (Or.inr (Or.inr ⟨t2, ht2, h'⟩))

/-- The exchange that succeeds: the node of the thread is installed. -/
theorem InflateInv.installed {N SN v0 T0 : Nat} {A0 : List Nat} {s : InflateState}
    (hv0 : UCTNodePointer.is_inflated v0 = false)
    (inv : InflateInv N SN v0 T0 A0 s) {t : Nat} (ht : t < N) {v v2 : Nat}
    (hpc : s.pc t = InflatePc.exchange v v2) (hd : s.m_data = v) :
    InflateInv N SN v0 T0 A0
      { s with m_data := v2, pc := Function.update s.pc t InflatePc.increment } ∧
      UCTNodePointer.is_inflated v2 = true := by
  have hv : v = v0 := (inv.locals t ht).2 v v2 hpc
  subst hv
  have hni : UCTNodePointer.is_inflated s.m_data = false := by rw [hd]; exact hv0
  obtain ⟨f1, f2, f3⟩ := inv.first hni
  have hh : heldNode (s.pc t) = some (UCTNodePointer.read_ptr v2) := by rw [hpc]; rfl
  obtain ⟨a1, a2, a3, _, a5, a6⟩ := inv.held t ht _ hh
  have hv2 : v2 = UCTNodePointer.read_ptr v2 ||| UCTNodePointer.POINTER := by
    rcases a5 with h | h
    · rw [hpc] at h
      exact (InflatePc.exchange.inj h).2
    · rw [hpc] at h; cases h
  have hinf2 : UCTNodePointer.is_inflated v2 = true := by
    rw [hv2]; exact pointer_inflated a1
  have hupd : ∀ t2, t2 ≠ t → Function.update s.pc t InflatePc.increment t2 = s.pc t2 :=
    fun t2 h => Function.update_noteq h _ _
  have hpt : Function.update s.pc t InflatePc.increment t = InflatePc.increment :=
    Function.update_same _ _ _
  refine ⟨{ first := ?_, second := ?_, locals := ?_, held := ?_, nodup := inv.nodup,
            nodes := ?_ }, hinf2⟩
  · intro hi
    have hi' : UCTNodePointer.is_inflated v2 = false := hi
    rw [hinf2] at hi'; cases hi'
  · intro _
    refine ⟨hv2, a3, Or.inl ⟨⟨t, ht, hpt, ?_⟩, f2⟩⟩
    intro t2 ht2 h
    have h' : Function.update s.pc t InflatePc.increment t2 = InflatePc.increment := h
    by_contra e
    rw [hupd t2 e] at h'
    exact (f3 t2 ht2).1 h'
  · intro t2 ht2
    show (∀ v, Function.update s.pc t _ t2 = _ → _) ∧
      (∀ v v2, Function.update s.pc t _ t2 = _ → _)
    by_cases e : t2 = t
    · subst e; rw [hpt]
      exact ⟨fun v h => (by cases h), fun v1 v3 h => (by cases h)⟩
    · rw [hupd t2 e]; exact inv.locals t2 ht2
  · intro t2 ht2 a hheld
    have hheld' : heldNode (Function.update s.pc t InflatePc.increment t2) = some a := hheld
    have e : t2 ≠ t := fun e => by rw [e, hpt] at hheld'; cases hheld'
    rw [hupd t2 e] at hheld'
    obtain ⟨h1, h2, h3, _, h5, h6⟩ := inv.held t2 ht2 a hheld'
    refine ⟨h1, h2, h3, ?_, ?_, ?_⟩
    · intro _ h
      show False
      have h' : a = UCTNodePointer.read_ptr v2 := h
      rw [h'] at hheld'
      exact e (a6 t2 ht2 hheld')
    · show Function.update s.pc t _ t2 = _ ∨ Function.update s.pc t _ t2 = _
      rw [hupd t2 e]; exact h5
    · intro t3 ht3 h
      have h' : heldNode (Function.update s.pc t InflatePc.increment t3) = some a := h
      have e3 : t3 ≠ t := fun e3 => by rw [e3, hpt] at h'; cases h'
      rw [hupd t3 e3] at h'
      exact h6 t3 ht3 h'
  · intro a
    rw [inv.nodes a]
    constructor
    · rintro (h | ⟨h, _⟩ | ⟨t2, ht2, h⟩)
      · exact Or.inl h
      · rw [hni] at h; cases h
      · by_cases e : t2 = t
        · subst e
          rw [hh] at h
          exact Or.inr (Or.inl ⟨hinf2, (Option.some.inj h).symm⟩)
        · refine Or.inr (Or.inr ⟨t2, ht2, ?_⟩)
          show heldNode (Function.update s.pc t _ t2) = _
          rw [hupd t2 e]; exact h
    · rintro (h | ⟨_, h⟩ | ⟨t2, ht2, h⟩)
      · exact Or.inl h
      · have h' : a = UCTNodePointer.read_ptr v2 := h
        exact Or.inr (Or.inr ⟨t, ht, by rw [hh, h']⟩)
      · have h' : heldNode (Function.update s.pc t InflatePc.increment t2) = some a := h
        have e : t2 ≠ t := fun e => by rw [e, hpt] at h'; cases h'
        rw [hupd t2 e] at h'
        exact Or.inr (Or.inr ⟨t2, ht2, h'⟩)

/-- The addition to the counter by the thread whose exchange succeeded. -/
theorem InflateInv.counted {N SN v0 T0 : Nat} {A0 : List Nat} {s : InflateState}
    (inv : InflateInv N SN v0 T0 A0 s) {t : Nat} (ht : t < N)
    (hpc : s.pc t = InflatePc.increment) :
    InflateInv N SN v0 T0 A0
      { s with m_tree_size := (s.m_tree_size + SN) % 2 ^ 64
               pc := Function.update s.pc t InflatePc.returned } ∧
      UCTNodePointer.is_inflated s.m_data = true := by
  have hi : UCTNodePointer.is_inflated s.m_data = true := by
    cases h : UCTNodePointer.is_inflated s.m_data with
    | true => rfl
    | false => exact absurd hpc ((inv.first h).2.2 t ht).1
  obtain ⟨s1, s2, s3⟩ := inv.second hi
  have hupd : ∀ t2, t2 ≠ t → Function.update s.pc t InflatePc.returned t2 = s.pc t2 :=
    fun t2 h => Function.update_noteq h _ _
  have hpt : Function.update s.pc t InflatePc.returned t = InflatePc.returned :=
    Function.update_same _ _ _
  have hnone : heldNode (s.pc t) = none := by rw [hpc]; rfl
  have hheld : ∀ t2, heldNode (Function.update s.pc t InflatePc.returned t2) =
      heldNode (s.pc t2) := by
    intro t2
    by_cases e : t2 = t
    · subst e; rw [hpt, hnone]; rfl
    · rw [hupd t2 e]
  refine ⟨{ first := ?_, second := ?_, locals := ?_, held := ?_, nodup := inv.nodup,
            nodes := ?_ }, hi⟩
  · intro h
    have h' : UCTNodePointer.is_inflated s.m_data = false := h
    rw [hi] at h'; cases h'
  · intro _
    refine ⟨s1, s2, Or.inr ?_⟩
    rcases s3 with ⟨⟨w, hw, hpw, huniq⟩, hsz⟩ | ⟨hno, _⟩
    · have hwt : t = w := huniq t ht hpc
      refine ⟨fun t2 ht2 h => ?_, ?_⟩
      · have h' : Function.update s.pc t InflatePc.returned t2 = InflatePc.increment := h
        by_cases e : t2 = t
        · subst e; rw [hpt] at h'; cases h'
        · rw [hupd t2 e] at h'
          exact e ((huniq t2 ht2 h').trans hwt.symm)
      · show (s.m_tree_size + SN) % 2 ^ 64 = _
        rw [hsz]
    · exact absurd hpc (hno t ht)
  · intro t2 ht2
    show (∀ v, Function.update s.pc t _ t2 = _ → _) ∧
      (∀ v v2, Function.update s.pc t _ t2 = _ → _)
    by_cases e : t2 = t
    · subst e; rw [hpt]
      exact ⟨fun v h => (by cases h), fun v1 v3 h => (by cases h)⟩
    · rw [hupd t2 e]; exact inv.locals t2 ht2
  · intro t2 ht2 a h
    have h' : heldNode (s.pc t2) = some a := by rw [← hheld t2]; exact h
    obtain ⟨h1, h2, h3, h4, h5, h6⟩ := inv.held t2 ht2 a h'
    have e : t2 ≠ t := fun e => by rw [e, hnone] at h'; cases h'
    refine ⟨h1, h2, h3, h4, ?_, ?_⟩
    · show Function.update s.pc t _ t2 = _ ∨ Function.update s.pc t _ t2 = _
      rw [hupd t2 e]; exact h5
    · intro t3 ht3 h3'
      exact h6 t3 ht3 (by rw [← hheld t3]; exact h3')
  · intro a
    rw [inv.nodes a]
    constructor
    · rintro (h | h | ⟨t2, ht2, h⟩)
      · exact Or.inl h
      · exact Or.inr (Or.inl h)
      · exact Or.inr (Or.inr ⟨t2, ht2, by rw [hheld t2]; exact h⟩)
    · rintro (h | h | ⟨t2, ht2, h⟩)
      · exact Or.inl h
      · exact Or.inr (Or.inl h)
      · exact Or.inr (Or.inr ⟨t2, ht2, by rw [← hheld t2]; exact h⟩)

/-- The deletion of the node of a thread whose exchange failed. -/
theorem InflateInv.discarded {N SN v0 T0 : Nat} {A0 : List Nat} {s : InflateState}
    (inv : InflateInv N SN v0 T0 A0 s) {t : Nat} (ht : t < N) {v2 : Nat}
    (hpc : s.pc t = InflatePc.discard v2) :
    InflateInv N SN v0 T0 A0
      { s with nodes := s.nodes.erase (UCTNodePointer.read_ptr v2)
               pc := Function.update s.pc t InflatePc.load } ∧
      UCTNodePointer.is_inflated s.m_data = true := by
  have hi : UCTNodePointer.is_inflated s.m_data = true := by
    cases h : UCTNodePointer.is_inflated s.m_data with
    | true => rfl
    | false => exact absurd hpc (((inv.first h).2.2 t ht).2.2 v2)
  obtain ⟨s1, s2, s3⟩ := inv.second hi
  have hh : heldNode (s.pc t) = some (UCTNodePointer.read_ptr v2) := by rw [hpc]; rfl
  obtain ⟨a1, a2, a3, a4, a5, a6⟩ := inv.held t ht _ hh
  have hupd : ∀ t2, t2 ≠ t → Function.update s.pc t InflatePc.load t2 = s.pc t2 :=
    fun t2 h => Function.update_noteq h _ _
  have hpt : Function.update s.pc t InflatePc.load t = InflatePc.load :=
    Function.update_same _ _ _
  refine ⟨{ first := ?_, second := ?_, locals := ?_, held := ?_,
            nodup := inv.nodup.erase _, nodes := ?_ }, hi⟩
  · intro h
    have h' : UCTNodePointer.is_inflated s.m_data = false := h
    rw [hi] at h'; cases h'
  · intro _
    refine ⟨s1, s2, ?_⟩
    rcases s3 with ⟨⟨w, hw, hpw, huniq⟩, hsz⟩ | ⟨hno, hsz⟩
    · left
      have hwt : w ≠ t := fun e => by rw [e, hpc] at hpw; cases hpw
      refine ⟨⟨w, hw, ?_, ?_⟩, hsz⟩
      · show Function.update s.pc t _ w = _
        rw [hupd w hwt]; exact hpw
      · intro t2 ht2 h
        have h' : Function.update s.pc t InflatePc.load t2 = InflatePc.increment := h
        by_cases e : t2 = t
        · subst e; rw [hpt] at h'; cases h'
        · rw [hupd t2 e] at h'; exact huniq t2 ht2 h'
    · right
      refine ⟨fun t2 ht2 => ?_, hsz⟩
      show Function.update s.pc t _ t2 ≠ _
      by_cases e : t2 = t
      · subst e; rw [hpt]; intro h; cases h
      · rw [hupd t2 e]; exact hno t2 ht2
  · intro t2 ht2
    show (∀ v, Function.update s.pc t _ t2 = _ → _) ∧
      (∀ v v2, Function.update s.pc t _ t2 = _ → _)
    by_cases e : t2 = t
    · subst e; rw [hpt]
      exact ⟨fun v h => (by cases h), fun v1 v3 h => (by cases h)⟩
    · rw [hupd t2 e]; exact inv.locals t2 ht2
  · intro t2 ht2 a h
    have h' : heldNode (Function.update s.pc t InflatePc.load t2) = some a := h
    have e : t2 ≠ t := fun e => by rw [e, hpt] at h'; cases h'
    rw [hupd t2 e] at h'
    obtain ⟨h1, h2, h3, h4, h5, h6⟩ := inv.held t2 ht2 a h'
    refine ⟨h1, h2, h3, h4, ?_, ?_⟩
    · show Function.update s.pc t _ t2 = _ ∨ Function.update s.pc t _ t2 = _
      rw [hupd t2 e]; exact h5
    · intro t3 ht3 h3'
      have h'' : heldNode (Function.update s.pc t InflatePc.load t3) = some a := h3'
      have e3 : t3 ≠ t := fun e3 => by rw [e3, hpt] at h''; cases h''
      rw [hupd t3 e3] at h''
      exact h6 t3 ht3 h''
  · intro a
    show a ∈ s.nodes.erase (UCTNodePointer.read_ptr v2) ↔ _
    rw [inv.nodup.mem_erase_iff, inv.nodes a]
    constructor
    · rintro ⟨hne, h | h | ⟨t2, ht2, h⟩⟩
      · exact Or.inl h
      · exact Or.inr (Or.inl h)
      · have e : t2 ≠ t := by
          rintro rfl
          rw [hh] at h
          exact hne (Option.some.inj h).symm
        refine Or.inr (Or.inr ⟨t2, ht2, ?_⟩)
        show heldNode (Function.update s.pc t _ t2) = _
        rw [hupd t2 e]; exact h
    · rintro (h | h | ⟨t2, ht2, h⟩)
      · exact ⟨fun e => a3 (e ▸ h), Or.inl h⟩
      · exact ⟨fun e => a4 hi (e ▸ h.2), Or.inr (Or.inl h)⟩
      · have h' : heldNode (Function.update s.pc t InflatePc.load t2) = some a := h
        have e : t2 ≠ t := fun e => by rw [e, hpt] at h'; cases h'
        rw [hupd t2 e] at h'
        refine ⟨fun ea => e ?_, Or.inr (Or.inr ⟨t2, ht2, h'⟩)⟩
        rw [ea] at h'
        exact a6 t2 ht2 h'

/-- Every step of a thread keeps the invariant and lowers the bound on the steps left. -/
theorem InflateInv.step {N SN v0 T0 : Nat} {A0 : List Nat} {s s2 : InflateState}
    (hv0 : UCTNodePointer.is_inflated v0 = false)
    (inv : InflateInv N SN v0 T0 A0 s) {t address : Nat} (ht : t < N)
    (h : inflate_step SN s t address = some s2) :
    InflateInv N SN v0 T0 A0 s2 ∧ stepsLeftAll N s2 + 1 ≤ stepsLeftAll N s := by
  unfold inflate_step at h
  cases hpc : s.pc t with
  | load =>
    rw [hpc] at h
    cases hi : UCTNodePointer.is_inflated s.m_data with
    | true =>
      rw [hi] at h
      simp only [if_true] at h
      cases h
      refine ⟨inv.set_pc InflatePc.returned (by rw [hpc]; rfl) (fun a ha => by cases ha)
        (by rw [hpc]; intro e; cases e) (by intro e; cases e)
        (fun hn => by rw [hi] at hn; cases hn)
        ⟨fun v e => (by cases e), fun v v2 e => (by cases e)⟩, ?_⟩
      refine @stepsLeftAll_step N s _ t ht (fun t2 e => Function.update_noteq e _ _) (fun x => x) ?_
      show stepsLeft _ (Function.update s.pc t InflatePc.returned t) + 1 ≤ _
      rw [Function.update_same, hpc, hi]
      decide
    | false =>
      rw [hi] at h
      simp only [Bool.false_eq_true, if_false] at h
      cases h
      have hd : s.m_data = v0 := (inv.first hi).1
      refine ⟨inv.set_pc (InflatePc.allocate s.m_data) (by rw [hpc]; rfl)
        (fun a ha => by cases ha)
        (by rw [hpc]; intro e; cases e) (by intro e; cases e)
        (fun _ => ⟨fun e => (by cases e), fun v2 e => (by cases e)⟩)
        ⟨fun v e => (by cases e; exact hd), fun v v2 e => (by cases e)⟩, ?_⟩
      refine @stepsLeftAll_step N s _ t ht (fun t2 e => Function.update_noteq e _ _) (fun x => x) ?_
      show stepsLeft _ (Function.update s.pc t (InflatePc.allocate s.m_data) t) + 1 ≤ _
      rw [Function.update_same, hpc, hi]
      exact Nat.le_refl 5
  | allocate v =>
    rw [hpc] at h
    by_cases hc : address &&& 3 = 0 ∧ address < 2 ^ 64 ∧ address ∉ s.nodes
    · simp only [if_pos hc] at h
      cases h
      refine ⟨inv.allocated ht hpc hc.1 hc.2.1 hc.2.2, ?_⟩
      refine @stepsLeftAll_step N s _ t ht (fun t2 e => Function.update_noteq e _ _) (fun x => x) ?_
      show stepsLeft _ (Function.update s.pc t
        (InflatePc.exchange v (address ||| UCTNodePointer.POINTER)) t) + 1 ≤ _
      rw [Function.update_same, hpc]
      exact le_refl _
    · simp only [if_neg hc] at h
      cases h
  | exchange v v2 =>
    rw [hpc] at h
    by_cases hd : s.m_data = v
    · simp only [if_pos hd] at h
      cases h
      obtain ⟨inv2, hi2⟩ := inv.installed hv0 ht hpc hd
      refine ⟨inv2, ?_⟩
      refine @stepsLeftAll_step N s _ t ht (fun t2 e => Function.update_noteq e _ _) (fun _ => hi2) ?_
      show stepsLeft (UCTNodePointer.is_inflated v2)
        (Function.update s.pc t InflatePc.increment t) + 1 ≤ _
      rw [Function.update_same, hpc]
      exact (by decide : (1 : Nat) + 1 ≤ 3)
    · simp only [if_neg hd] at h
      cases h
      have hv : v = v0 := (inv.locals t ht).2 v v2 hpc
      have hi : UCTNodePointer.is_inflated s.m_data = true := by
        cases hi : UCTNodePointer.is_inflated s.m_data with
        | true => rfl
        | false => exact absurd ((inv.first hi).1.trans hv.symm) hd
      have hh : heldNode (s.pc t) = some (UCTNodePointer.read_ptr v2) := by rw [hpc]; rfl
      obtain ⟨_, _, _, _, a5, _⟩ := inv.held t ht _ hh
      have hv2 : v2 = UCTNodePointer.read_ptr v2 ||| UCTNodePointer.POINTER := by
        rcases a5 with e | e
        · rw [hpc] at e
          exact (InflatePc.exchange.inj e).2
        · rw [hpc] at e; cases e
      refine ⟨inv.set_pc (InflatePc.discard v2) (by rw [hpc]; rfl)
        (fun a ha => Or.inr (by
          have e : UCTNodePointer.read_ptr v2 = a := Option.some.inj ha
          rw [← e, ← hv2]))
        (by rw [hpc]; intro e; cases e) (by intro e; cases e)
        (fun hn => by rw [hi] at hn; cases hn)
        ⟨fun v e => (by cases e), fun v v2 e => (by cases e)⟩, ?_⟩
      refine @stepsLeftAll_step N s _ t ht (fun t2 e => Function.update_noteq e _ _) (fun x => x) ?_
      show stepsLeft _ (Function.update s.pc t (InflatePc.discard v2) t) + 1 ≤ _
      rw [Function.update_same, hpc]
      exact le_refl _
  | increment =>
    rw [hpc] at h
    cases h
    obtain ⟨inv2, hi⟩ := inv.counted ht hpc
    refine ⟨inv2, ?_⟩
    refine @stepsLeftAll_step N s _ t ht (fun t2 e => Function.update_noteq e _ _) (fun x => x) ?_
    show stepsLeft _ (Function.update s.pc t InflatePc.returned t) + 1 ≤ _
    rw [Function.update_same, hpc]
    exact le_refl _
  | discard v2 =>
    rw [hpc] at h
    cases h
    obtain ⟨inv2, hi⟩ := inv.discarded ht hpc
    refine ⟨inv2, ?_⟩
    refine @stepsLeftAll_step N s _ t ht (fun t2 e => Function.update_noteq e _ _) (fun x => x) ?_
    show stepsLeft (UCTNodePointer.is_inflated s.m_data)
      (Function.update s.pc t InflatePc.load t) + 1 ≤ _
    rw [Function.update_same, hpc, hi]
    exact le_refl _
  | returned =>
    rw [hpc] at h
    cases h

/-- The invariant after the steps of a schedule, and the bound on its length. -/
theorem inflate_run_spec {N SN v0 T0 : Nat} {A0 : List Nat}
    (hv0 : UCTNodePointer.is_inflated v0 = false) :
    ∀ (sched : List (Nat × Nat)) (s s2 : InflateState), InflateInv N SN v0 T0 A0 s →
      inflate_run N SN s sched = some s2 →
      InflateInv N SN v0 T0 A0 s2 ∧ sched.length + stepsLeftAll N s2 ≤ stepsLeftAll N s := by
  intro sched
  induction sched with
  | nil =>
    intro s s2 inv h
    cases h
    exact ⟨inv, by simp⟩
  | cons x rest ih =>
    intro s s2 inv h
    obtain ⟨t, address⟩ := x
    unfold inflate_run at h
    by_cases ht : t < N
    · rw [if_pos ht] at h
      cases hs : inflate_step SN s t address with
      | none => rw [hs] at h; cases h
      | some s1 =>
        rw [hs] at h
        obtain ⟨inv1, hm⟩ := inv.step hv0 ht hs
        obtain ⟨inv2, hm2⟩ := ih s1 s2 inv1 h
        refine ⟨inv2, ?_⟩
        rw [List.length_cons]
        omega
    · rw [if_neg ht] at h
      cases h

/-- C29: when `N` threads call `inflate` on a slot that is not inflated, then in every
interleaving of their atomic steps the run has at most `5 * N` steps; a thread that has
not returned can always take its next step (given an address for `new`); and when all
threads have returned (and there is at least one), the slot holds a pointer to a node
allocated in the run, the nodes alive are those alive at the start and this one node
(every other allocation was deleted), and the counter has grown by `sizeof(UCTNode)`
once. -/
theorem inflate_race (N SN v0 T0 : Nat) (A0 : List Nat) (sched : List (Nat × Nat))
    (s : InflateState)
    (hv0 : UCTNodePointer.is_inflated v0 = false) (hA : A0.Nodup)
    (hrun : inflate_run N SN (inflate_start v0 T0 A0) sched = some s) :
    sched.length ≤ 5 * N ∧
    (∀ t address, t < N → s.pc t ≠ InflatePc.returned →
      address &&& 3 = 0 → address < 2 ^ 64 → address ∉ s.nodes →
      (inflate_step SN s t address).isSome = true) ∧
    (0 < N → (∀ t, t < N → s.pc t = InflatePc.returned) →
      UCTNodePointer.is_inflated s.m_data = true ∧
      UCTNodePointer.read_ptr s.m_data ∉ A0 ∧
      s.nodes.Nodup ∧
      (∀ a, a ∈ s.nodes ↔ (a ∈ A0 ∨ a = UCTNodePointer.read_ptr s.m_data)) ∧
      s.m_tree_size = (T0 + SN) % 2 ^ 64) := by
  obtain ⟨inv, hm⟩ := inflate_run_spec hv0 sched _ s (InflateInv.before_steps N SN T0 hv0 hA) hrun
  rw [stepsLeftAll_start N v0 T0 A0 hv0] at hm
  refine ⟨by omega, ?_, ?_⟩
  · intro t address _ hpc h1 h2 h3
    unfold inflate_step
    cases hp : s.pc t with
    | load => simp only []; split <;> rfl
    | allocate v => simp only []; rw [if_pos ⟨h1, h2, h3⟩]; rfl
    | exchange v v2 => simp only []; split <;> rfl
    | increment => rfl
    | discard v2 => rfl
    | returned => exact absurd hp hpc
  · intro hN hall
    have hi : UCTNodePointer.is_inflated s.m_data = true := by
      cases hi : UCTNodePointer.is_inflated s.m_data with
      | true => rfl
      | false => exact absurd (hall 0 hN) ((inv.first hi).2.2 0 hN).2.1
    obtain ⟨_, s2, s3⟩ := inv.second hi
    refine ⟨hi, s2, inv.nodup, ?_, ?_⟩
    · intro a
      rw [inv.nodes a]
      constructor
      · rintro (h | ⟨_, h⟩ | ⟨t, ht, h⟩)
        · exact Or.inl h
        · exact Or.inr h
        · rw [hall t ht] at h; cases h
      · rintro (h | h)
        · exact Or.inl h
        · exact Or.inr (Or.inl ⟨hi, h⟩)
    · rcases s3 with ⟨⟨w, hw, hpw, _⟩, _⟩ | ⟨_, hsz⟩
      · rw [hall w hw] at hpw; cases hpw
      · exact hsz

/-- Three threads race for the slot of `heap1`: the node at 8192 is installed, the two
other allocations are deleted and the counter goes from 8 to 104. -/
theorem inflate_race_witness :
    UCTNodePointer.is_inflated (UCTNodePointer.pack PASS 1056964608) = false ∧
    ([] : List Nat).Nodup ∧
    inflate_run 3 96 (inflate_start (UCTNodePointer.pack PASS 1056964608) 8 []) schedule3 =
      some ((inflate_run 3 96 race0 schedule3).getD race0) ∧
    ((inflate_run 3 96 race0 schedule3).getD race0).m_data = 8193 ∧
    ((inflate_run 3 96 race0 schedule3).getD race0).nodes = [8192] ∧
    ((inflate_run 3 96 race0 schedule3).getD race0).m_tree_size = 104 ∧
    (schedule3.length ≤ 5 * 3 ∧
    (∀ t address, t < 3 → ((inflate_run 3 96 race0 schedule3).getD race0).pc t ≠
        InflatePc.returned →
      address &&& 3 = 0 → address < 2 ^ 64 →
      address ∉ ((inflate_run 3 96 race0 schedule3).getD race0).nodes →
      (inflate_step 96 ((inflate_run 3 96 race0 schedule3).getD race0) t address).isSome
        = true) ∧
    (0 < 3 → (∀ t, t < 3 → ((inflate_run 3 96 race0 schedule3).getD race0).pc t =
        InflatePc.returned) →
      UCTNodePointer.is_inflated ((inflate_run 3 96 race0 schedule3).getD race0).m_data
        = true ∧
      UCTNodePointer.read_ptr ((inflate_run 3 96 race0 schedule3).getD race0).m_data ∉
        ([] : List Nat) ∧
      ((inflate_run 3 96 race0 schedule3).getD race0).nodes.Nodup ∧
      (∀ a, a ∈ ((inflate_run 3 96 race0 schedule3).getD race0).nodes ↔
        (a ∈ ([] : List Nat) ∨
          a = UCTNodePointer.read_ptr ((inflate_run 3 96 race0 schedule3).getD race0).m_data)) ∧
      ((inflate_run 3 96 race0 schedule3).getD race0).m_tree_size = (8 + 96) % 2 ^ 64)) :=
  have hv0 : UCTNodePointer.is_inflated (UCTNodePointer.pack PASS 1056964608) = false := by
    decide
  have hrun : inflate_run 3 96 (inflate_start (UCTNodePointer.pack PASS 1056964608) 8 [])
      schedule3 = some ((inflate_run 3 96 race0 schedule3).getD race0) := by
    rfl
  ⟨hv0, List.nodup_nil, hrun, by decide, by decide, by decide,
    inflate_race 3 96 _ 8 [] schedule3 _ hv0 List.nodup_nil hrun⟩

theorem floor_le_round (r : Rat) : Int.floor r ≤ round_half_even r := by
  unfold round_half_even
  simp only []
  split_ifs <;> omega

theorem round_le_floor (r : Rat) : round_half_even r ≤ Int.floor r + 1 := by
  unfold round_half_even
  simp only []
  split_ifs <;> omega

/-- The rounding moves a number by a half at most. -/
theorem round_half_even_near (r : Rat) :
    r - 1 / 2 ≤ (round_half_even r : Rat) ∧ (round_half_even r : Rat) ≤ r + 1 / 2 := by
  have h1 := Int.floor_le r
  have h2 := Int.lt_floor_add_one r
  unfold round_half_even
  simp only []
  split_ifs with a b c
  · constructor <;> linarith
  · constructor
    · push_cast; linarith
    · push_cast; linarith
  · have : r - (Int.floor r : Rat) = 1 / 2 := le_antisymm (not_lt.mp b) (not_lt.mp a)
    constructor <;> linarith
  · have : r - (Int.floor r : Rat) = 1 / 2 := le_antisymm (not_lt.mp b) (not_lt.mp a)
    constructor
    · push_cast; linarith
    · push_cast; linarith

theorem round_half_even_intCast (n : Int) : round_half_even (n : Rat) = n := by
  unfold round_half_even
  simp only [Int.floor_intCast, sub_self]
  norm_num

theorem round_half_even_mono {r s : Rat} (h : r ≤ s) :
    round_half_even r ≤ round_half_even s := by
  have hf : Int.floor r ≤ Int.floor s := Int.floor_mono h
  rcases Nat.lt_or_ge 0 (Int.floor s - Int.floor r).toNat with hlt | hge
  · have h1 := round_le_floor r
    have h2 := floor_le_round s
    omega
  · have e : Int.floor r = Int.floor s := by omega
    unfold round_half_even
    simp only []
    rw [e]
    have hd : r - (Int.floor s : Rat) ≤ s - (Int.floor s : Rat) := by linarith
    split_ifs <;> first | omega | (exfalso; linarith)

theorem log2_spec {x : Rat} (hx : 0 < x) :
    (2 : Rat) ^ Int.log 2 x ≤ x ∧ x < (2 : Rat) ^ (Int.log 2 x + 1) := by
  have h1 := Int.zpow_log_le_self (by decide : 1 < 2) hx
  have h2 := Int.lt_zpow_succ_log_self (by decide : 1 < 2) x
  simp only [Nat.cast_ofNat] at h1 h2
  exact ⟨h1, h2⟩

theorem log2_eq {x : Rat} {e : Int} (hx : 0 < x) (hlo : (2 : Rat) ^ e ≤ x)
    (hhi : x < (2 : Rat) ^ (e + 1)) : Int.log 2 x = e := by
  have h1 : e ≤ Int.log 2 x := by
    rw [← Int.zpow_le_iff_le_log (by decide : 1 < 2) hx]
    simpa using hlo
  have h2 : Int.log 2 x < e + 1 := by
    rw [← Int.lt_zpow_iff_log_lt (by decide : 1 < 2) hx]
    simpa using hhi
  omega

theorem to_float_eq {x : Rat} (hx : 0 < x) :
    to_float x =
      (round_half_even (x * 2 ^ (23 - Int.log 2 x)) : Rat) * 2 ^ (Int.log 2 x - 23) := by
  unfold to_float
  rw [if_neg hx.ne', abs_of_pos hx]

theorem to_float_zero : to_float 0 = 0 := by
  unfold to_float
  rw [if_pos rfl]

theorem two_zpow_pos (k : Int) : (0 : Rat) < 2 ^ k := zpow_pos (by norm_num) k

theorem two_zpow_split (a b : Int) : (2 : Rat) ^ (a - b) * 2 ^ b = 2 ^ a := by
  rw [← zpow_add₀ (two_ne_zero), sub_add_cancel]

/-- The significand before the rounding lies between `2 ^ 23` and `2 ^ 24`. -/
theorem scaled_bounds {x : Rat} (hx : 0 < x) :
    (2 : Rat) ^ (23 : Int) ≤ x * 2 ^ (23 - Int.log 2 x) ∧
      x * 2 ^ (23 - Int.log 2 x) ≤ (2 : Rat) ^ (24 : Int) := by
  obtain ⟨h1, h2⟩ := log2_spec hx
  have hp := two_zpow_pos (23 - Int.log 2 x)
  constructor
  · have e := two_zpow_split 23 (Int.log 2 x)
    rw [← e, mul_comm]
    exact mul_le_mul_of_nonneg_right h1 hp.le
  · have e : (2 : Rat) ^ (Int.log 2 x + 1) * 2 ^ (23 - Int.log 2 x) = 2 ^ (24 : Int) := by
      rw [← zpow_add₀ (two_ne_zero)]
      congr 1
      omega
    rw [← e]
    exact mul_le_mul_of_nonneg_right h2.le hp.le

/-- A `float` lies in the same binade as the number that it rounds. -/
theorem to_float_bounds {x : Rat} (hx : 0 < x) :
    (2 : Rat) ^ Int.log 2 x ≤ to_float x ∧ to_float x ≤ (2 : Rat) ^ (Int.log 2 x + 1) := by
  obtain ⟨h1, h2⟩ := scaled_bounds hx
  have e23 : (2 : Rat) ^ (23 : Int) = ((8388608 : Int) : Rat) := by norm_num
  have e24 : (2 : Rat) ^ (24 : Int) = ((16777216 : Int) : Rat) := by norm_num
  have m1 := round_half_even_mono h1
  have m2 := round_half_even_mono h2
  rw [e23, round_half_even_intCast] at m1
  rw [e24, round_half_even_intCast] at m2
  have hp := two_zpow_pos (Int.log 2 x - 23)
  rw [to_float_eq hx]
  constructor
  · have e : (2 : Rat) ^ (23 : Int) * 2 ^ (Int.log 2 x - 23) = 2 ^ Int.log 2 x := by
      rw [← zpow_add₀ (two_ne_zero)]
      congr 1
      omega
    rw [← e, e23]
    exact mul_le_mul_of_nonneg_right (by exact_mod_cast m1) hp.le
  · have e : (2 : Rat) ^ (24 : Int) * 2 ^ (Int.log 2 x - 23) = 2 ^ (Int.log 2 x + 1) := by
      rw [← zpow_add₀ (two_ne_zero)]
      congr 1
      omega
    rw [← e, e24]
    exact mul_le_mul_of_nonneg_right (by exact_mod_cast m2) hp.le

theorem to_float_pos {x : Rat} (hx : 0 < x) : 0 < to_float x :=
  lt_of_lt_of_le (two_zpow_pos _) (to_float_bounds hx).1

theorem to_float_nonneg {x : Rat} (hx : 0 ≤ x) : 0 ≤ to_float x := by
  rcases eq_or_lt_of_le hx with h | h
  · rw [← h, to_float_zero]
  · exact (to_float_pos h).le

/-- The conversion to `float` keeps the order. -/
theorem to_float_mono {x y : Rat} (hx0 : 0 ≤ x) (h : x ≤ y) : to_float x ≤ to_float y := by
  rcases eq_or_lt_of_le hx0 with hx | hx
  · rw [← hx, to_float_zero]
    exact to_float_nonneg (le_trans hx0 h)
  · have hy : 0 < y := lt_of_lt_of_le hx h
    have hl : Int.log 2 x ≤ Int.log 2 y := Int.log_mono_right hx h
    rcases lt_or_eq_of_le hl with hlt | heq
    · have b1 := (to_float_bounds hx).2
      have b2 := (to_float_bounds hy).1
      have : (2 : Rat) ^ (Int.log 2 x + 1) ≤ 2 ^ Int.log 2 y :=
        zpow_le_zpow_right₀ (by norm_num) (by omega)
      linarith
    · rw [to_float_eq hx, to_float_eq hy, heq]
      have hp := two_zpow_pos (Int.log 2 y - 23)
      have hq := two_zpow_pos (23 - Int.log 2 y)
      apply mul_le_mul_of_nonneg_right _ hp.le
      have : x * 2 ^ (23 - Int.log 2 y) ≤ y * 2 ^ (23 - Int.log 2 y) :=
        mul_le_mul_of_nonneg_right h hq.le
      exact_mod_cast round_half_even_mono this

/-- Doubling commutes with the conversion to `float`. -/
theorem to_float_double {x : Rat} (hx : 0 < x) : to_float (2 * x) = 2 * to_float x := by
  obtain ⟨h1, h2⟩ := log2_spec hx
  have h2x : 0 < 2 * x := by linarith
  have el : Int.log 2 (2 * x) = Int.log 2 x + 1 := by
    apply log2_eq h2x
    · rw [zpow_add_one₀ (two_ne_zero)]; linarith
    · rw [zpow_add_one₀ (two_ne_zero) (Int.log 2 x + 1)]; linarith
  rw [to_float_eq h2x, to_float_eq hx, el]
  have e1 : 2 * x * (2 : Rat) ^ (23 - (Int.log 2 x + 1)) = x * 2 ^ (23 - Int.log 2 x) := by
    have : (2 : Rat) ^ (23 - Int.log 2 x) = 2 ^ (23 - (Int.log 2 x + 1)) * 2 := by
      rw [← zpow_add_one₀ (two_ne_zero)]
      congr 1
      omega
    rw [this]; ring
  have e2 : (2 : Rat) ^ (Int.log 2 x + 1 - 23) = 2 ^ (Int.log 2 x - 23) * 2 := by
    rw [← zpow_add_one₀ (two_ne_zero)]
    congr 1
    omega
  rw [e1, e2]; ring

/-- A power of two is a `float`. -/
theorem to_float_zpow (k : Int) : to_float ((2 : Rat) ^ k) = 2 ^ k := by
  have hx := two_zpow_pos k
  have el : Int.log 2 ((2 : Rat) ^ k) = k := by
    apply log2_eq hx (le_refl _)
    rw [zpow_add_one₀ (two_ne_zero)]; linarith
  rw [to_float_eq hx, el, mul_comm ((2 : Rat) ^ k), two_zpow_split]
  have e23 : (2 : Rat) ^ (23 : Int) = ((8388608 : Int) : Rat) := by norm_num
  rw [e23, round_half_even_intCast, ← e23, mul_comm, two_zpow_split]

theorem to_float_one : to_float 1 = 1 := by
  have := to_float_zpow 0
  simpa using this

theorem to_float_half : to_float (1 / 2) = 1 / 2 := by
  have := to_float_zpow (-1)
  norm_num at this
  exact this

theorem round_half_even_eq {r : Rat} {m : Int} (h1 : r - 1 / 2 < m)
    (h2 : (m : Rat) < r + 1 / 2) : round_half_even r = m := by
  obtain ⟨n1, n2⟩ := round_half_even_near r
  have a : (round_half_even r : Rat) < ((m + 1 : Int) : Rat) := by push_cast; linarith
  have b : ((m - 1 : Int) : Rat) < (round_half_even r : Rat) := by push_cast; linarith
  have a2 : round_half_even r < m + 1 := by exact_mod_cast a
  have b2 : m - 1 < round_half_even r := by exact_mod_cast b
  omega

/-- The `float` of a number, from its binade and the nearest significand. -/
theorem to_float_eval {x : Rat} (e m : Int) (hx : 0 < x) (hlo : (2 : Rat) ^ e ≤ x)
    (hhi : x < (2 : Rat) ^ (e + 1)) (h1 : x * 2 ^ (23 - e) - 1 / 2 < m)
    (h2 : (m : Rat) < x * 2 ^ (23 - e) + 1 / 2) : to_float x = m * 2 ^ (e - 23) := by
  rw [to_float_eq hx, log2_eq hx hlo hhi, round_half_even_eq h1 h2]

theorem float_095 : to_float (19 / 20) = 15938355 / 16777216 := by
  rw [to_float_eval (-1) 15938355 (by norm_num) (by norm_num) (by norm_num)
    (by norm_num) (by norm_num)]
  norm_num

theorem float_001 : to_float (1 / 100) = 5368709 / 536870912 := by
  rw [to_float_eval (-7) 10737418 (by norm_num) (by norm_num) (by norm_num)
    (by norm_num) (by norm_num)]
  norm_num

theorem float_0001 : to_float (1 / 1000) = 8589935 / 8589934592 := by
  rw [to_float_eval (-10) 8589935 (by norm_num) (by norm_num) (by norm_num)
    (by norm_num) (by norm_num)]
  norm_num

/-- The conversion to `float` has a relative error of `2 ^ (-24)` at most. -/
theorem to_float_error {x : Rat} (hx : 0 ≤ x) :
    x * (1 - 1 / 16777216) ≤ to_float x ∧ to_float x ≤ x * (1 + 1 / 16777216) := by
  rcases eq_or_lt_of_le hx with h0 | hpos
  · rw [← h0, to_float_zero]; norm_num
  · obtain ⟨n1, n2⟩ := round_half_even_near (x * 2 ^ (23 - Int.log 2 x))
    obtain ⟨l1, _⟩ := log2_spec hpos
    have hP := two_zpow_pos (Int.log 2 x - 23)
    have e1 : (2 : Rat) ^ (23 - Int.log 2 x) * 2 ^ (Int.log 2 x - 23) = 1 := by
      rw [← zpow_add₀ (two_ne_zero)]
      have : 23 - Int.log 2 x + (Int.log 2 x - 23) = 0 := by omega
      rw [this, zpow_zero]
    have e2 : (2 : Rat) ^ (Int.log 2 x - 23) * 8388608 = 2 ^ Int.log 2 x := by
      have := two_zpow_split (Int.log 2 x) 23
      norm_num at this
      exact this
    have ex : x * 2 ^ (23 - Int.log 2 x) * 2 ^ (Int.log 2 x - 23) = x := by
      rw [mul_assoc, e1, mul_one]
    rw [to_float_eq hpos]
    have m1 := mul_le_mul_of_nonneg_right n1 hP.le
    have m2 := mul_le_mul_of_nonneg_right n2 hP.le
    rw [sub_mul, ex] at m1
    rw [add_mul, ex] at m2
    constructor <;> nlinarith

/-- The quotient that `get_min_psa_ratio` compares, from below. -/
theorem mem_full_lower {t B : Nat} (hB : 0 < B) {c : Rat}
    (h : c * (B : Rat) ≤ (t : Rat)) :
    c * ((1 - 1 / 16777216) / (1 + 1 / 16777216)) * (1 - 1 / 16777216) ≤
      to_float (to_float t / to_float B) := by
  have hBq : (0 : Rat) < B := by exact_mod_cast hB
  have htq : (0 : Rat) ≤ t := by exact_mod_cast Nat.zero_le t
  obtain ⟨t1, _⟩ := to_float_error htq
  obtain ⟨_, b2⟩ := to_float_error hBq.le
  have hB2 := to_float_pos hBq
  have hr : (t : Rat) * (1 - 1 / 16777216) / ((B : Rat) * (1 + 1 / 16777216)) ≤
      to_float t / to_float B :=
    div_le_div₀ (to_float_nonneg htq) t1 hB2 b2
  have hr0 : 0 ≤ to_float (t : Rat) / to_float (B : Rat) :=
    div_nonneg (to_float_nonneg htq) hB2.le
  obtain ⟨q1, _⟩ := to_float_error hr0
  have hcb : c ≤ (t : Rat) / B := (le_div_iff₀ hBq).mpr h
  have e : (t : Rat) * (1 - 1 / 16777216) / ((B : Rat) * (1 + 1 / 16777216)) =
      (t : Rat) / B * ((1 - 1 / 16777216) / (1 + 1 / 16777216)) := by
    field_simp
  rw [e] at hr
  have k1 : c * ((1 - 1 / 16777216) / (1 + 1 / 16777216)) ≤
      (t : Rat) / B * ((1 - 1 / 16777216) / (1 + 1 / 16777216)) :=
    mul_le_mul_of_nonneg_right hcb (by norm_num)
  have k2 := mul_le_mul_of_nonneg_right (le_trans k1 hr)
    (by norm_num : (0 : Rat) ≤ 1 - 1 / 16777216)
  exact le_trans k2 q1

/-- The quotient that `get_min_psa_ratio` compares, from above. -/
theorem mem_full_upper {t B : Nat} (hB : 0 < B) {c : Rat}
    (h : (t : Rat) ≤ c * (B : Rat)) :
    to_float (to_float t / to_float B) ≤
      c * ((1 + 1 / 16777216) / (1 - 1 / 16777216)) * (1 + 1 / 16777216) := by
  have hBq : (0 : Rat) < B := by exact_mod_cast hB
  have htq : (0 : Rat) ≤ t := by exact_mod_cast Nat.zero_le t
  obtain ⟨_, t2⟩ := to_float_error htq
  obtain ⟨b1, _⟩ := to_float_error hBq.le
  have hB2 := to_float_pos hBq
  have hBl : (0 : Rat) < (B : Rat) * (1 - 1 / 16777216) := mul_pos hBq (by norm_num)
  have hr : to_float t / to_float B ≤
      (t : Rat) * (1 + 1 / 16777216) / ((B : Rat) * (1 - 1 / 16777216)) :=
    div_le_div₀ (mul_nonneg htq (by norm_num)) t2 hBl b1
  have hr0 : 0 ≤ to_float (t : Rat) / to_float (B : Rat) :=
    div_nonneg (to_float_nonneg htq) hB2.le
  obtain ⟨_, q2⟩ := to_float_error hr0
  have hcb : (t : Rat) / B ≤ c := (div_le_iff₀ hBq).mpr h
  have e : (t : Rat) * (1 + 1 / 16777216) / ((B : Rat) * (1 - 1 / 16777216)) =
      (t : Rat) / B * ((1 + 1 / 16777216) / (1 - 1 / 16777216)) := by
    field_simp
  rw [e] at hr
  have k1 : (t : Rat) / B * ((1 + 1 / 16777216) / (1 - 1 / 16777216)) ≤
      c * ((1 + 1 / 16777216) / (1 - 1 / 16777216)) :=
    mul_le_mul_of_nonneg_right hcb (by norm_num)
  have k2 := mul_le_mul_of_nonneg_right (le_trans hr k1)
    (by norm_num : (0 : Rat) ≤ 1 + 1 / 16777216)
  exact le_trans q2 k2

/-- At or below one half of the budget the quotient is one half at most. -/
theorem mem_full_half {t B : Nat} (hB : 0 < B) (h : 2 * t ≤ B) :
    to_float (to_float t / to_float B) ≤ 1 / 2 := by
  have hBq : (0 : Rat) < B := by exact_mod_cast hB
  have hB2 := to_float_pos hBq
  have h2 : 2 * to_float (t : Rat) ≤ to_float B := by
    rcases Nat.eq_zero_or_pos t with h0 | hpos
    · rw [h0]
      norm_num [to_float_zero]
      exact hB2.le
    · have htq : (0 : Rat) < t := by exact_mod_cast hpos
      rw [← to_float_double htq]
      apply to_float_mono (by linarith)
      exact_mod_cast h
  have hr : to_float (t : Rat) / to_float B ≤ 1 / 2 := by
    rw [div_le_iff₀ hB2]
    linarith
  have htq0 : (0 : Rat) ≤ t := by exact_mod_cast Nat.zero_le t
  have := to_float_mono (div_nonneg (to_float_nonneg htq0) hB2.le) hr
  rwa [to_float_half] at this

/-- At or above the budget the quotient is one at least. -/
theorem mem_full_full {t B : Nat} (hB : 0 < B) (h : B ≤ t) :
    1 ≤ to_float (to_float t / to_float B) := by
  have hBq : (0 : Rat) < B := by exact_mod_cast hB
  have hB2 := to_float_pos hBq
  have h2 : to_float (B : Rat) ≤ to_float t := by
    apply to_float_mono hBq.le
    exact_mod_cast h
  have hr : 1 ≤ to_float (t : Rat) / to_float B := by
    rw [le_div_iff₀ hB2]
    linarith
  have := to_float_mono (by norm_num) hr
  rwa [to_float_one] at this

/-- The tests of `get_min_psa_ratio`, by the place of the quotient. -/
theorem get_min_psa_ratio_cases {t B : Nat} (hB : 0 < B) :
    (to_float (to_float t / to_float B) ≤ 1 / 2 → get_min_psa_ratio t B = 0) ∧
    (1 / 2 < to_float (to_float t / to_float B) →
      to_float (to_float t / to_float B) ≤ to_float (19 / 20) →
      get_min_psa_ratio t B = to_float (1 / 1000)) ∧
    (to_float (19 / 20) < to_float (to_float t / to_float B) →
      to_float (to_float t / to_float B) < 1 →
      get_min_psa_ratio t B = to_float (1 / 100)) ∧
    (1 ≤ to_float (to_float t / to_float B) → get_min_psa_ratio t B = 2) := by
  have hB0 : B ≠ 0 := by omega
  have h95 : (1 : Rat) / 2 < to_float (19 / 20) := by rw [float_095]; norm_num
  have h95b : to_float (19 / 20) < (1 : Rat) := by rw [float_095]; norm_num
  unfold get_min_psa_ratio
  rw [if_neg hB0]
  simp only [gt_iff_lt, ge_iff_le]
  refine ⟨fun h => ?_, fun h1 h2 => ?_, fun h1 h2 => ?_, fun h => ?_⟩
  · rw [if_neg (not_lt.mpr h)]
  · rw [if_pos h1, if_neg (not_lt.mpr h2)]
  · rw [if_pos (lt_trans h95 h1), if_pos h1, if_neg (not_le.mpr h2)]
  · rw [if_pos (lt_of_lt_of_le (by norm_num) h), if_pos (lt_of_lt_of_le h95b h), if_pos h]

/-- A number with a significand of less than 24 bits is a `float`. -/
theorem to_float_exact (m k : Int) (hm : |m| < 2 ^ 24) :
    to_float ((m : Rat) * 2 ^ k) = (m : Rat) * 2 ^ k := by
  by_cases h0 : m = 0
  · rw [h0, Int.cast_zero, zero_mul, to_float_zero]
  have h2 : (0 : Rat) < 2 ^ k := two_zpow_pos k
  have hx : (m : Rat) * 2 ^ k ≠ 0 := mul_ne_zero (by exact_mod_cast h0) h2.ne'
  have habs : |(m : Rat) * 2 ^ k| = |(m : Rat)| * 2 ^ k := by rw [abs_mul, abs_of_pos h2]
  have hpos : 0 < |(m : Rat) * 2 ^ k| := abs_pos.mpr hx
  obtain ⟨hlo, _⟩ := log2_spec hpos
  have hmq : |(m : Rat)| < 2 ^ (24 : Int) := by
    have h : ((|m| : Int) : Rat) < ((2 ^ 24 : Int) : Rat) := Int.cast_lt.mpr hm
    rw [Int.cast_abs] at h
    norm_num at h ⊢
    exact h
  have hlt : (2 : Rat) ^ Int.log 2 |(m : Rat) * 2 ^ k| < 2 ^ (24 + k) := by
    calc (2 : Rat) ^ Int.log 2 |(m : Rat) * 2 ^ k| ≤ |(m : Rat) * 2 ^ k| := hlo
      _ = |(m : Rat)| * 2 ^ k := habs
      _ < 2 ^ (24 : Int) * 2 ^ k := mul_lt_mul_of_pos_right hmq h2
      _ = 2 ^ (24 + k) := by rw [← zpow_add₀ (two_ne_zero)]
  have he : Int.log 2 |(m : Rat) * 2 ^ k| < 24 + k :=
    (zpow_lt_zpow_iff_right₀ (by norm_num)).mp hlt
  unfold to_float
  rw [if_neg hx]
  simp only []
  generalize Int.log 2 |(m : Rat) * 2 ^ k| = e at he ⊢
  obtain ⟨N, hN⟩ : ∃ N : Nat, k + 23 - e = N := ⟨(k + 23 - e).toNat, by omega⟩
  have e1 : (m : Rat) * 2 ^ k * 2 ^ (23 - e) = ((m * 2 ^ N : Int) : Rat) := by
    rw [mul_assoc, ← zpow_add₀ (two_ne_zero), show k + (23 - e) = (N : Int) by omega,
      zpow_natCast]
    push_cast
    rfl
  rw [e1, round_half_even_intCast]
  push_cast
  rw [mul_assoc, ← zpow_natCast, ← zpow_add₀ (two_ne_zero),
    show (N : Int) + (e - 23) = k by omega]

/-- Half an odd number below `2 ^ 24` in magnitude is a `float`. -/
theorem to_float_halves (n : Int) (hn : |n| < 2 ^ 24) : to_float ((n : Rat) / 2) = n / 2 := by
  have := to_float_exact n (-1) hn
  rw [zpow_neg_one, ← div_eq_mul_inv] at this
  exact this

/-- The score of an empty board with komi 7.5 and no handicap, in single precision. -/
theorem float_komi_score :
    to_float (to_float 0 - to_float (15 / 2 + to_float 0)) = -(15 / 2) := by
  rw [to_float_zero, add_zero, zero_sub]
  have h1 : to_float (15 / 2 : Rat) = 15 / 2 := by
    have := to_float_halves 15 (abs_lt.mpr ⟨by norm_num, by norm_num⟩)
    push_cast at this
    exact this
  rw [h1]
  have := to_float_halves (-15) (abs_lt.mpr ⟨by norm_num, by norm_num⟩)
  push_cast at this
  rw [neg_div] at this
  exact this

/-- C21, amended: for every tree size `t` and positive budget `B`, with `q` the quotient
of `t` by `B` in single precision, `get_min_psa_ratio` returns 0 when `q` is at most one
half, the `float` 0.001 when `q` is above one half and at most the `float` 0.95, the
`float` 0.01 when `q` is above the `float` 0.95 and below one, and 2.0 when `q` is one or
more.  In terms of `t` and `B`: 0 when `t / B` is at most 50%, 0.001 from 50.0001% to
94.9999%, 0.01 from 95.0001% to 99.9999%, and 2.0 when `t / B` is at or above 100%. -/
theorem min_psa_ratio_thresholds (t B : Nat) (hB : 0 < B) (_ht64 : t < 2 ^ 64)
    (_hB64 : B < 2 ^ 64) :
    ((to_float (to_float t / to_float B) ≤ 1 / 2 → get_min_psa_ratio t B = 0) ∧
    (1 / 2 < to_float (to_float t / to_float B) →
      to_float (to_float t / to_float B) ≤ to_float (19 / 20) →
      get_min_psa_ratio t B = to_float (1 / 1000)) ∧
    (to_float (19 / 20) < to_float (to_float t / to_float B) →
      to_float (to_float t / to_float B) < 1 →
      get_min_psa_ratio t B = to_float (1 / 100)) ∧
    (1 ≤ to_float (to_float t / to_float B) → get_min_psa_ratio t B = 2)) ∧
    (2 * t ≤ B → get_min_psa_ratio t B = 0) ∧
    (500001 * B ≤ 1000000 * t → 1000000 * t ≤ 949999 * B →
      get_min_psa_ratio t B = to_float (1 / 1000)) ∧
    (950001 * B ≤ 1000000 * t → 1000000 * t ≤ 999999 * B →
      get_min_psa_ratio t B = to_float (1 / 100)) ∧
    (B ≤ t → get_min_psa_ratio t B = 2 ∧ (1 : Rat) < get_min_psa_ratio t B) ∧
    to_float (1 / 1000) = 8589935 / 8589934592 ∧
    to_float (1 / 100) = 5368709 / 536870912 ∧
    to_float (19 / 20) = 15938355 / 16777216 := by
  have hc := @get_min_psa_ratio_cases t B hB
  obtain ⟨c1, c2, c3, c4⟩ := hc
  refine ⟨⟨c1, c2, c3, c4⟩, fun h => c1 (mem_full_half hB h), fun h1 h2 => ?_,
    fun h1 h2 => ?_, fun h => ?_, float_0001, float_001, float_095⟩
  · have l : (500001 / 1000000 : Rat) * (B : Rat) ≤ (t : Rat) := by
      have : ((500001 * B : Nat) : Rat) ≤ ((1000000 * t : Nat) : Rat) := by exact_mod_cast h1
      push_cast at this
      linarith
    have u : (t : Rat) ≤ (949999 / 1000000 : Rat) * (B : Rat) := by
      have : ((1000000 * t : Nat) : Rat) ≤ ((949999 * B : Nat) : Rat) := by exact_mod_cast h2
      push_cast at this
      linarith
    have hl := mem_full_lower hB l
    have hu := mem_full_upper hB u
    apply c2
    · exact lt_of_lt_of_le (by norm_num) hl
    · rw [float_095]
      exact le_trans hu (by norm_num)
  · have l : (950001 / 1000000 : Rat) * (B : Rat) ≤ (t : Rat) := by
      have : ((950001 * B : Nat) : Rat) ≤ ((1000000 * t : Nat) : Rat) := by exact_mod_cast h1
      push_cast at this
      linarith
    have u : (t : Rat) ≤ (999999 / 1000000 : Rat) * (B : Rat) := by
      have : ((1000000 * t : Nat) : Rat) ≤ ((999999 * B : Nat) : Rat) := by exact_mod_cast h2
      push_cast at this
      linarith
    have hl := mem_full_lower hB l
    have hu := mem_full_upper hB u
    apply c3
    · rw [float_095]
      exact lt_of_lt_of_le (by norm_num) hl
    · exact lt_of_le_of_lt hu (by norm_num)
  · have e := c4 (mem_full_full hB h)
    rw [e]
    exact ⟨rfl, by norm_num⟩

/-- C21, as stated, fails: with `t = 1` and `B = 2` the tree is at 50% of the budget,
which the claim puts in the range from 50% up to 95%, and `get_min_psa_ratio` returns 0,
which is neither the `float` 0.001 nor the number 0.001. -/
theorem min_psa_ratio_counterexample :
    (50 : Rat) / 100 ≤ ((1 : Nat) : Rat) / ((2 : Nat) : Rat) ∧
    ((1 : Nat) : Rat) / ((2 : Nat) : Rat) < 95 / 100 ∧
    get_min_psa_ratio 1 2 = 0 ∧
    get_min_psa_ratio 1 2 ≠ to_float (1 / 1000) ∧
    get_min_psa_ratio 1 2 ≠ 1 / 1000 := by
  have h : get_min_psa_ratio 1 2 = 0 :=
    (@get_min_psa_ratio_cases 1 2 (by decide)).1 (mem_full_half (by decide) (by decide))
  refine ⟨by norm_num, by norm_num, h, ?_, ?_⟩
  · rw [h, float_0001]; norm_num
  · rw [h]; norm_num

/-- A tree of 1000 bytes with a budget of 2000 bytes: the result is 0. -/
theorem min_psa_ratio_thresholds_witness :
    0 < 2000 ∧ 1000 < 2 ^ 64 ∧ 2000 < 2 ^ 64 ∧ get_min_psa_ratio 1000 2000 = 0 :=
  ⟨by decide, by decide, by decide,
    (min_psa_ratio_thresholds 1000 2000 (by decide) (by decide) (by decide)).2.1
      (by decide)⟩

/-- The estimate of `est_playouts_left` is not negative. -/
theorem est_playouts_left_nonneg {m_playouts m_max_playouts m_max_visits root_visits
    elapsed_centiseconds time_for_move est : Int}
    (h : est_playouts_left m_playouts m_max_playouts m_max_visits root_visits
      elapsed_centiseconds time_for_move = some est) : 0 ≤ est := by
  unfold est_playouts_left at h
  simp only [] at h
  split at h
  · cases h
    exact le_max_left _ _
  · rename_i hc
    push_neg at hc
    have hp : (0 : Rat) ≤ (m_playouts : Rat) := by
      have : (0 : Int) ≤ m_playouts := by omega
      exact_mod_cast this
    have he : (0 : Rat) ≤ (elapsed_centiseconds : Rat) := by
      have : (0 : Int) ≤ elapsed_centiseconds := by omega
      exact_mod_cast this
    have ht : (0 : Rat) ≤ ((max 0 (time_for_move - elapsed_centiseconds) : Int) : Rat) := by
      exact_mod_cast le_max_left 0 (time_for_move - elapsed_centiseconds)
    have hrate := to_float_nonneg (div_nonneg (to_float_nonneg hp) (to_float_nonneg he))
    have hprod := to_float_nonneg (mul_nonneg hrate (to_float_nonneg ht))
    split at h
    · cases h
      exact le_min (le_max_left _ _) (Int.ceil_nonneg hprod)
    · cases h

/-- The first loop of `prune_non_contenders`: the greatest visit count and the greatest
lower bound among the valid children, or the values at the start. -/
theorem prune_bounds_spec (color : Nat) : ∀ (L : List RootChild) (l0 : Rat) (n0 : Int),
    l0 ≤ (prune_bounds color L (l0, n0)).1 ∧ n0 ≤ (prune_bounds color L (l0, n0)).2 ∧
    (∀ c ∈ L, c.valid = true → c.get_visits ≤ (prune_bounds color L (l0, n0)).2) ∧
    ((prune_bounds color L (l0, n0)).2 = n0 ∨
      ∃ c ∈ L, c.valid = true ∧ c.get_visits = (prune_bounds color L (l0, n0)).2) ∧
    (∀ c ∈ L, c.valid = true → 0 < c.get_visits →
      c.get_eval_lcb color ≤ (prune_bounds color L (l0, n0)).1) ∧
    ((prune_bounds color L (l0, n0)).1 = l0 ∨
      ∃ c ∈ L, c.valid = true ∧ 0 < c.get_visits ∧
        c.get_eval_lcb color = (prune_bounds color L (l0, n0)).1) := by
  intro L
  induction L with
  | nil =>
    intro l0 n0
    refine ⟨le_refl _, le_refl _, ?_, Or.inl rfl, ?_, Or.inl rfl⟩
    · intro c hc; cases hc
    · intro c hc; cases hc
  | cons node rest ih =>
    intro l0 n0
    cases hv : node.valid with
    | false =>
      have e : prune_bounds color (node :: rest) (l0, n0) = prune_bounds color rest (l0, n0) := by
        simp only [prune_bounds, hv, Bool.false_eq_true, if_false]
      rw [e]
      obtain ⟨a1, a2, a3, a4, a5, a6⟩ := ih l0 n0
      refine ⟨a1, a2, ?_, ?_, ?_, ?_⟩
      · intro c hc hcv
        rcases List.mem_cons.mp hc with rfl | hc
        · rw [hv] at hcv; cases hcv
        · exact a3 c hc hcv
      · rcases a4 with h | ⟨c, hc, h⟩
        · exact Or.inl h
        · exact Or.inr ⟨c, List.mem_cons_of_mem _ hc, h⟩
      · intro c hc hcv
        rcases List.mem_cons.mp hc with rfl | hc
        · rw [hv] at hcv; cases hcv
        · exact a5 c hc hcv
      · rcases a6 with h | ⟨c, hc, h⟩
        · exact Or.inl h
        · exact Or.inr ⟨c, List.mem_cons_of_mem _ hc, h⟩
    | true =>
      have e : prune_bounds color (node :: rest) (l0, n0) =
          prune_bounds color rest
            (if node.get_visits > 0 then max l0 (node.get_eval_lcb color) else l0,
              max n0 node.get_visits) := by
        simp only [prune_bounds, hv, if_true]
      rw [e]
      obtain ⟨a1, a2, a3, a4, a5, a6⟩ :=
        ih (if node.get_visits > 0 then max l0 (node.get_eval_lcb color) else l0)
          (max n0 node.get_visits)
      have hl : l0 ≤ (if node.get_visits > 0 then max l0 (node.get_eval_lcb color) else l0) := by
        split
        · exact le_max_left _ _
        · exact le_refl _
      refine ⟨le_trans hl a1, le_trans (le_max_left _ _) a2, ?_, ?_, ?_, ?_⟩
      · intro c hc hcv
        rcases List.mem_cons.mp hc with rfl | hc
        · exact le_trans (le_max_right _ _) a2
        · exact a3 c hc hcv
      · rcases a4 with h | ⟨c, hc, h⟩
        · rcases max_choice n0 node.get_visits with m | m
          · left; rw [h, m]
          · right
            exact ⟨node, List.mem_cons_self _ _, hv, by rw [h, m]⟩
        · exact Or.inr ⟨c, List.mem_cons_of_mem _ hc, h⟩
      · intro c hc hcv hpos
        rcases List.mem_cons.mp hc with rfl | hc
        · refine le_trans ?_ a1
          rw [if_pos hpos]
          exact le_max_right _ _
        · exact a5 c hc hcv hpos
      · rcases a6 with h | ⟨c, hc, h⟩
        · by_cases hpos : node.get_visits > 0
          · rw [if_pos hpos] at h ⊢
            rcases max_choice l0 (node.get_eval_lcb color) with m | m
            · left; rw [h, m]
            · right
              exact ⟨node, List.mem_cons_self _ _, hv, hpos, by rw [h, m]⟩
          · rw [if_neg hpos] at h ⊢
            exact Or.inl h
        · exact Or.inr ⟨c, List.mem_cons_of_mem _ hc, h⟩

/-- The second loop of `prune_non_contenders`: the calls and the count. -/
theorem prune_loop_spec (color : Nat) (lcb_max : Rat) (m : Int) (prune : Bool) :
    ∀ (L : List RootChild) (k : Nat),
    prune_loop color lcb_max m prune L k =
      (L.map (fun c => if c.valid = true ∧ prune = true
          then some (!prune_this_node color lcb_max m c) else none),
        k + L.countP (fun c => c.valid && prune_this_node color lcb_max m c)) := by
  intro L
  induction L with
  | nil => intro k; rfl
  | cons node rest ih =>
    intro k
    cases hv : node.valid with
    | false =>
      simp only [prune_loop, hv, Bool.false_eq_true, if_false, ih, List.map_cons, false_and,
        List.countP_cons, Bool.false_and, add_zero]
    | true =>
      cases hp : prune_this_node color lcb_max m node with
      | false =>
        simp only [prune_loop, hv, hp, if_true, Bool.false_eq_true, if_false, ih,
          List.map_cons, true_and, List.countP_cons, Bool.and_false, add_zero, Bool.not_false]
      | true =>
        simp only [prune_loop, hv, hp, if_true, ih, List.map_cons, true_and,
          List.countP_cons, Bool.and_true, Bool.not_true]
        congr 1
        omega

/-- The test of the second loop, in words. -/
theorem prune_this_node_iff (color : Nat) (lcb_max : Rat) (m : Int) (c : RootChild) :
    prune_this_node color lcb_max m c = true ↔
      (c.get_visits < m ∧ ¬ (0 < c.get_visits ∧ lcb_max ≤ c.get_raw_eval color)) := by
  unfold prune_this_node
  simp only [ge_iff_le, gt_iff_lt]
  by_cases hpos : 0 < c.get_visits
  · rw [if_pos hpos]
    simp only [Bool.not_eq_true', Bool.or_eq_false_iff, decide_eq_false_iff_not,
      not_le, hpos, true_and]
  · rw [if_neg hpos]
    simp only [Bool.or_false, Bool.not_eq_true', decide_eq_false_iff_not,
      not_le, hpos, false_and, not_false_eq_true, and_true]

/-- C24, amended: `prune_non_contenders` counts a valid root child as pruned (and, when
`prune` is true, calls `set_active(false)` on it) exactly when its visit count is smaller
than the greatest visit count among the valid children minus `est_playouts_left`, unless
the child has at least one visit and its raw evaluation meets or exceeds the greatest
lower confidence bound among the valid children with a visit (or 0, if that is greater:
the bound `lcb_max` is not negative, it is an upper bound of those bounds, and it is 0 or
one of them);
when `prune` is true every valid child that is not pruned is set active, and there is no
call on a child that is not valid, nor when `prune` is false. -/
theorem prune_non_contenders_spec (m_playouts m_max_playouts m_max_visits root_visits : Int)
    (children : List RootChild) (color : Nat) (elapsed_centiseconds time_for_move : Int)
    (prune : Bool) (est : Int)
    (hest : est_playouts_left m_playouts m_max_playouts m_max_visits root_visits
      elapsed_centiseconds time_for_move = some est)
    (hne : children ≠ []) (hvis : ∀ c ∈ children, 0 ≤ c.get_visits) :
    ∃ (lcb_max : Rat) (n_first : Int),
      0 ≤ lcb_max ∧ 0 ≤ n_first ∧
      (∀ c ∈ children, c.valid = true → c.get_visits ≤ n_first) ∧
      (n_first = 0 ∨ ∃ c ∈ children, c.valid = true ∧ c.get_visits = n_first) ∧
      (∀ c ∈ children, c.valid = true → 0 < c.get_visits →
        c.get_eval_lcb color ≤ lcb_max) ∧
      (lcb_max = 0 ∨ ∃ c ∈ children, c.valid = true ∧ 0 < c.get_visits ∧
        c.get_eval_lcb color = lcb_max) ∧
      (∀ c, prune_this_node color lcb_max (n_first - est) c = true ↔
        (c.get_visits < n_first - est ∧
          ¬ (0 < c.get_visits ∧ lcb_max ≤ c.get_raw_eval color))) ∧
      prune_non_contenders m_playouts m_max_playouts m_max_visits root_visits children color
          elapsed_centiseconds time_for_move prune =
        some (children.countP
            (fun c => c.valid && prune_this_node color lcb_max (n_first - est) c),
          children.map (fun c => if c.valid = true ∧ prune = true
            then some (!prune_this_node color lcb_max (n_first - est) c) else none)) := by
  obtain ⟨b1, b2, b3, b4, b5, b6⟩ := prune_bounds_spec color children 0 0
  have hest0 := est_playouts_left_nonneg hest
  refine ⟨(prune_bounds color children (0, 0)).1, (prune_bounds color children (0, 0)).2,
    b1, b2, b3, b4, b5, b6, fun c => prune_this_node_iff _ _ _ c, ?_⟩
  have hkeep : ∃ c ∈ children, ¬ ((c.valid && prune_this_node color
      (prune_bounds color children (0, 0)).1
      ((prune_bounds color children (0, 0)).2 - est) c) = true) := by
    by_cases hall : ∀ c ∈ children, c.valid = true
    · have hattained : ∃ c ∈ children, c.valid = true ∧
          c.get_visits = (prune_bounds color children (0, 0)).2 := by
        rcases b4 with h0 | h
        · cases children with
          | nil => exact absurd rfl hne
          | cons c rest =>
            have hc : c ∈ c :: rest := List.mem_cons_self _ _
            have h1 := b3 c hc (hall c hc)
            have h2 := hvis c hc
            exact ⟨c, hc, hall c hc, by omega⟩
        · exact h
      obtain ⟨c, hc, hcv, hcn⟩ := hattained
      refine ⟨c, hc, ?_⟩
      rw [Bool.and_eq_true, prune_this_node_iff]
      rintro ⟨_, h, _⟩
      omega
    · push_neg at hall
      obtain ⟨c, hc, hcv⟩ := hall
      refine ⟨c, hc, ?_⟩
      rw [Bool.and_eq_true]
      rintro ⟨h, _⟩
      exact hcv h
  have hlt : children.countP (fun c => c.valid && prune_this_node color
      (prune_bounds color children (0, 0)).1
      ((prune_bounds color children (0, 0)).2 - est) c) < children.length := by
    apply lt_of_le_of_ne (List.countP_le_length _)
    intro h
    rw [List.countP_eq_length] at h
    obtain ⟨c, hc, hn⟩ := hkeep
    exact hn (h c hc)
  unfold prune_non_contenders
  simp only [hest, prune_loop_spec, Nat.zero_add]
  rw [if_pos hlt]

/-- C24, as stated, fails: a child with one visit against a leader with 100 visits and
no playouts left has a lower bound below the bound of the leader, so the claim counts it
as pruned; its raw evaluation is above that bound, so the code does not, and sets it
active. -/
theorem prune_non_contenders_counterexample :
    est_playouts_left 0 0 0 0 0 0 = some 0 ∧
    leaderChild.valid = true ∧ otherChild.valid = true ∧
    otherChild.get_visits < leaderChild.get_visits - 0 ∧
    otherChild.get_eval_lcb BLACK < leaderChild.get_eval_lcb BLACK ∧
    prune_non_contenders 0 0 0 0 [leaderChild, otherChild] BLACK 0 0 true =
      some (0, [some true, some true]) := by
  refine ⟨by decide, rfl, rfl, by decide, ?_, ?_⟩
  · norm_num [leaderChild, otherChild]
  · norm_num [prune_non_contenders, est_playouts_left, prune_bounds, prune_loop,
      prune_this_node, leaderChild, otherChild]

/-- Three children and no playouts left: the child with a low evaluation is the one that
is pruned. -/
theorem prune_non_contenders_spec_witness :
    est_playouts_left 0 0 0 0 0 0 = some 0 ∧
    [leaderChild, otherChild, weakChild] ≠ [] ∧
    (∀ c ∈ [leaderChild, otherChild, weakChild], 0 ≤ c.get_visits) ∧
    prune_non_contenders 0 0 0 0 [leaderChild, otherChild, weakChild] BLACK 0 0 true =
      some (1, [some true, some true, some false]) ∧
    ∃ (lcb_max : Rat) (n_first : Int),
      0 ≤ lcb_max ∧ 0 ≤ n_first ∧
      (∀ c ∈ [leaderChild, otherChild, weakChild], c.valid = true →
        c.get_visits ≤ n_first) ∧
      (n_first = 0 ∨ ∃ c ∈ [leaderChild, otherChild, weakChild],
        c.valid = true ∧ c.get_visits = n_first) ∧
      (∀ c ∈ [leaderChild, otherChild, weakChild], c.valid = true → 0 < c.get_visits →
        c.get_eval_lcb BLACK ≤ lcb_max) ∧
      (lcb_max = 0 ∨ ∃ c ∈ [leaderChild, otherChild, weakChild],
        c.valid = true ∧ 0 < c.get_visits ∧ c.get_eval_lcb BLACK = lcb_max) ∧
      (∀ c, prune_this_node BLACK lcb_max (n_first - 0) c = true ↔
        (c.get_visits < n_first - 0 ∧
          ¬ (0 < c.get_visits ∧ lcb_max ≤ c.get_raw_eval BLACK))) ∧
      prune_non_contenders 0 0 0 0 [leaderChild, otherChild, weakChild] BLACK 0 0 true =
        some ([leaderChild, otherChild, weakChild].countP
            (fun c => c.valid && prune_this_node BLACK lcb_max (n_first - 0) c),
          [leaderChild, otherChild, weakChild].map (fun c => if c.valid = true ∧ true = true
            then some (!prune_this_node BLACK lcb_max (n_first - 0) c) else none)) :=
  have hest : est_playouts_left 0 0 0 0 0 0 = some 0 := by decide
  have hvis : ∀ c ∈ [leaderChild, otherChild, weakChild], 0 ≤ c.get_visits := by
    simp [leaderChild, otherChild, weakChild]
  ⟨hest, by simp, hvis,
    by norm_num [prune_non_contenders, est_playouts_left, prune_bounds, prune_loop,
      prune_this_node, leaderChild, otherChild, weakChild],
    prune_non_contenders_spec 0 0 0 0 [leaderChild, otherChild, weakChild] BLACK 0 0 true 0
      hest (by simp) hvis⟩

/-- The child that `get_no_pass_child` gives is the first one that is not a pass. -/
theorem get_no_pass_child_first (state : GameState) : ∀ (pre : List RootChild)
    (c : RootChild) (post : List RootChild), (∀ p ∈ pre, p.get_move = PASS) →
    c.get_move ≠ PASS → get_no_pass_child state (pre ++ c :: post) = some c := by
  intro pre
  induction pre with
  | nil =>
    intro c post _ hc
    unfold get_no_pass_child
    rw [List.nil_append, List.find?_cons_of_pos]
    exact decide_eq_true hc
  | cons a pre ih =>
    intro c post hpre hc
    have ha : a.get_move = PASS := hpre a (List.mem_cons_self _ _)
    have := ih c post (fun p hp => hpre p (List.mem_cons_of_mem _ hp)) hc
    unfold get_no_pass_child at this ⊢
    rw [List.cons_append, List.find?_cons_of_neg]
    · exact this
    · rw [decide_eq_true_eq]
      exact fun h => h ha

/-- There is no such child when every child is a pass. -/
theorem get_no_pass_child_none (state : GameState) : ∀ (L : List RootChild),
    (∀ c ∈ L, c.get_move = PASS) → get_no_pass_child state L = none := by
  intro L h
  unfold get_no_pass_child
  rw [List.find?_eq_none]
  intro c hc
  rw [decide_eq_true_eq]
  exact fun hn => hn (h c hc)

/-- A list with a child that is not a pass splits at the first such child. -/
theorem first_no_pass_split : ∀ (L : List RootChild), (∃ c ∈ L, c.get_move ≠ PASS) →
    ∃ pre c post, L = pre ++ c :: post ∧ (∀ p ∈ pre, p.get_move = PASS) ∧
      c.get_move ≠ PASS := by
  intro L
  induction L with
  | nil =>
    rintro ⟨c, hc, _⟩
    cases hc
  | cons a rest ih =>
    rintro ⟨c, hc, hn⟩
    by_cases ha : a.get_move = PASS
    · rcases List.mem_cons.mp hc with rfl | hc
      · exact absurd ha hn
      · obtain ⟨pre, c2, post, e, hpre, hc2⟩ := ih ⟨c, hc, hn⟩
        refine ⟨a :: pre, c2, post, by rw [e]; rfl, ?_, hc2⟩
        intro p hp
        rcases List.mem_cons.mp hp with rfl | hp
        · exact ha
        · exact hpre p hp
    · exact ⟨[], a, rest, rfl, fun p hp => (by cases hp), ha⟩

/-- The branch of `get_best_move` in which passing is on top and loses. -/
theorem get_best_move_losing_pass (ops : RootOps) (tags : AnalyzeTags)
    (cfg_lcb_min_visit_ratio : Rat) (cfg_random_cnt : Int) (m_root_state : GameState)
    (children : List RootChild) (first_child : RootChild) (score : Rat)
    (hfirst : (ranked_children ops cfg_lcb_min_visit_ratio cfg_random_cnt m_root_state
      children).head? = some first_child)
    (hpass : first_child.get_move = PASS)
    (hscore : final_score m_root_state.ko.fast = some score)
    (hloss : (if m_root_state.ko.fast.board.m_color_to_move = BLACK then 1 else -1) * score
      < 0) :
    get_best_move ops tags cfg_lcb_min_visit_ratio cfg_random_cnt false m_root_state children
        NORMAL =
      some (((get_no_pass_child m_root_state (ranked_children ops cfg_lcb_min_visit_ratio
        cfg_random_cnt m_root_state children)).map RootChild.get_move).getD PASS) := by
  unfold get_best_move
  simp only [hfirst, hscore]
  rw [if_neg (by decide : ¬ NORMAL &&& NO_PASS ≠ 0)]
  simp only [Bool.not_false, if_true]
  rw [if_pos hpass, if_pos hloss, hpass]
  cases get_no_pass_child m_root_state (ranked_children ops cfg_lcb_min_visit_ratio
    cfg_random_cnt m_root_state children) <;> rfl

/-- C25: in `get_best_move` with the NORMAL pass flag and `cfg_dumb_pass` off, whenever
the first child of the root in the final order is a pass and the area score, computed in
single precision by `final_score`, is a loss for the side to move (`relative_score` is
below `0.0f`), the move returned is the move of the first child that is not a pass if the
root has such a child, and PASS only if it has none. -/
theorem best_move_avoids_losing_pass (ops : RootOps) (tags : AnalyzeTags)
    (cfg_lcb_min_visit_ratio : Rat) (cfg_random_cnt : Int) (m_root_state : GameState)
    (children : List RootChild) (first_child : RootChild) (score : Rat)
    (hfirst : (ranked_children ops cfg_lcb_min_visit_ratio cfg_random_cnt m_root_state
      children).head? = some first_child)
    (hpass : first_child.get_move = PASS)
    (hscore : final_score m_root_state.ko.fast = some score)
    (hloss : (if m_root_state.ko.fast.board.m_color_to_move = BLACK then 1 else -1) * score
      < 0) :
    ((∃ c ∈ ranked_children ops cfg_lcb_min_visit_ratio cfg_random_cnt m_root_state children,
        c.get_move ≠ PASS) →
      ∃ pre c post,
        ranked_children ops cfg_lcb_min_visit_ratio cfg_random_cnt m_root_state children =
          pre ++ c :: post ∧
        (∀ p ∈ pre, p.get_move = PASS) ∧ c.get_move ≠ PASS ∧
        get_best_move ops tags cfg_lcb_min_visit_ratio cfg_random_cnt false m_root_state
          children NORMAL = some c.get_move) ∧
    ((∀ c ∈ ranked_children ops cfg_lcb_min_visit_ratio cfg_random_cnt m_root_state children,
        c.get_move = PASS) →
      get_best_move ops tags cfg_lcb_min_visit_ratio cfg_random_cnt false m_root_state
        children NORMAL = some PASS) ∧
    (get_best_move ops tags cfg_lcb_min_visit_ratio cfg_random_cnt false m_root_state
        children NORMAL = some PASS →
      ∀ c ∈ ranked_children ops cfg_lcb_min_visit_ratio cfg_random_cnt m_root_state children,
        c.get_move = PASS) := by
  have hbest := get_best_move_losing_pass ops tags cfg_lcb_min_visit_ratio cfg_random_cnt
    m_root_state children first_child score hfirst hpass hscore hloss
  have hsome : (∃ c ∈ ranked_children ops cfg_lcb_min_visit_ratio cfg_random_cnt m_root_state
        children, c.get_move ≠ PASS) →
      ∃ pre c post,
        ranked_children ops cfg_lcb_min_visit_ratio cfg_random_cnt m_root_state children =
          pre ++ c :: post ∧
        (∀ p ∈ pre, p.get_move = PASS) ∧ c.get_move ≠ PASS ∧
        get_best_move ops tags cfg_lcb_min_visit_ratio cfg_random_cnt false m_root_state
          children NORMAL = some c.get_move := by
    intro hex
    obtain ⟨pre, c, post, e, hpre, hc⟩ := first_no_pass_split _ hex
    refine ⟨pre, c, post, e, hpre, hc, ?_⟩
    rw [hbest, e, get_no_pass_child_first m_root_state pre c post hpre hc, Option.map_some',
      Option.getD_some]
  refine ⟨hsome, fun hall => ?_, fun hres => ?_⟩
  · rw [hbest, get_no_pass_child_none m_root_state _ hall, Option.map_none',
      Option.getD_none]
  · by_contra hn
    push_neg at hn
    obtain ⟨pre, c, post, _, _, hc, hres2⟩ := hsome hn
    rw [hres] at hres2
    exact hc (Option.some.inj hres2).symm

set_option maxRecDepth 100000 in
/-- Black to move on the empty 3x3 board with komi 7.5: a pass is on top and loses, and
the move returned is the move of the child behind it. -/
theorem best_move_avoids_losing_pass_witness :
    (ranked_children keepOrder (1 / 10) 0 match0 [passChild, leaderChild]).head? =
      some passChild ∧
    passChild.get_move = PASS ∧
    final_score match0.ko.fast = some (-(15 / 2)) ∧
    (if match0.ko.fast.board.m_color_to_move = BLACK then 1 else -1) * (-(15 / 2) : Rat) < 0 ∧
    get_best_move keepOrder noTags (1 / 10) 0 false match0 [passChild, leaderChild] NORMAL =
      some 6 :=
  have hfirst : (ranked_children keepOrder (1 / 10) 0 match0
      [passChild, leaderChild]).head? = some passChild := by
    have e : ranked_children keepOrder (1 / 10) 0 match0 [passChild, leaderChild] =
        [passChild, leaderChild] := by
      unfold ranked_children
      simp only [keepOrder, ite_self]
    rw [e]; rfl
  have hb : compute_reach_color match0.ko.fast.board BLACK = some 0 := by decide
  have hw : compute_reach_color match0.ko.fast.board WHITE = some 0 := by decide
  have hk : match0.ko.fast.m_komi = 15 / 2 := rfl
  have hh : match0.ko.fast.m_handicap = 0 := rfl
  have hscore : final_score match0.ko.fast = some (-(15 / 2)) := by
    simp only [final_score, area_score, hb, hw, hk, hh]
    norm_num
    exact float_komi_score
  have hc : match0.ko.fast.board.m_color_to_move = BLACK := by decide
  have hloss : (if match0.ko.fast.board.m_color_to_move = BLACK then 1 else -1) *
      (-(15 / 2) : Rat) < 0 := by
    rw [if_pos hc]; norm_num
  ⟨hfirst, rfl, hscore, hloss,
    by
      obtain ⟨pre, c, post, e, hpre, hc2, hres⟩ :=
        (best_move_avoids_losing_pass keepOrder noTags (1 / 10) 0 match0
          [passChild, leaderChild] passChild (-(15 / 2)) hfirst rfl hscore hloss).1
          ⟨leaderChild, by
            have e : ranked_children keepOrder (1 / 10) 0 match0 [passChild, leaderChild] =
                [passChild, leaderChild] := by
              unfold ranked_children
              simp only [keepOrder, ite_self]
            rw [e]; simp, by decide⟩
      have e2 : ranked_children keepOrder (1 / 10) 0 match0 [passChild, leaderChild] =
          [passChild, leaderChild] := by
        unfold ranked_children
        simp only [keepOrder, ite_self]
      rw [e2] at e
      rw [hres]
      cases pre with
      | nil =>
        have := (List.cons.inj e).1
        rw [← this] at hc2
        exact absurd rfl hc2
      | cons a pre =>
        cases pre with
        | nil =>
          have := (List.cons.inj (List.cons.inj e).2).1
          rw [← this]; rfl
        | cons b pre =>
          have := (List.cons.inj (List.cons.inj e).2).2
          cases pre <;> cases this⟩

/-! ## Claims C31 to C40 -/

/-- The pass counter after a call of `play_move` that returns. -/
theorem play_move_passes {Z : Zobrist} {BS : Nat} {s s2 : FastState} {c : Nat} {vertex : Int}
    (h : play_move Z BS s c vertex = some s2) :
    s2.m_passes = if vertex = PASS then min 4 (s.m_passes + 1) else 0 := by
  by_cases hp : vertex = PASS
  · subst hp
    rw [play_move_pass] at h
    cases h
    rw [if_pos rfl]
    show (if s.m_passes + 1 > 4 then 4 else s.m_passes + 1) = _
    split <;> omega
  · rw [if_neg hp]
    cases hu : update_board Z BS
        { s.board with m_hash := s.board.m_hash ^^^ Z.zobrist_ko_move s.m_ko_move } c
        vertex.toNat with
    | none =>
      have : play_move Z BS s c vertex = none := by
        simp only [play_move, xor_hash, if_neg hp, hu]
      rw [this] at h; cases h
    | some r =>
      obtain ⟨b2, ko⟩ := r
      rw [play_move_place Z BS s c vertex hp b2 ko hu] at h
      cases h
      rfl

theorem play_moves_append (Z : Zobrist) (BS : Nat) : ∀ (pre : List (Nat × Int))
    (s : FastState) (post : List (Nat × Int)),
    play_moves Z BS s (pre ++ post) =
      (play_moves Z BS s pre).bind (fun s1 => play_moves Z BS s1 post) := by
  intro pre
  induction pre with
  | nil => intro s post; rfl
  | cons m pre ih =>
    intro s post
    obtain ⟨c, v⟩ := m
    show play_moves Z BS s ((c, v) :: (pre ++ post)) = _
    simp only [play_moves]
    cases play_move Z BS s c v with
    | none => rfl
    | some s2 => exact ih s2 post

theorem trailing_passes_concat (moves : List (Nat × Int)) (c : Nat) (v : Int) :
    trailing_passes (moves ++ [(c, v)]) = if v = PASS then trailing_passes moves + 1 else 0 := by
  unfold trailing_passes
  rw [List.reverse_append, List.reverse_singleton, List.singleton_append, List.takeWhile_cons]
  by_cases h : v = PASS
  · simp [h]
  · simp [h]

/-- The last two moves are passes exactly when at least two passes end the list. -/
theorem trailing_passes_two (moves : List (Nat × Int)) :
    2 ≤ trailing_passes moves ↔ ∃ pre c1 c2, moves = pre ++ [(c1, PASS), (c2, PASS)] := by
  constructor
  · intro h
    rcases List.eq_nil_or_concat moves with rfl | ⟨L, b, rfl⟩
    · simp [trailing_passes] at h
    · obtain ⟨c2, v2⟩ := b
      rw [List.concat_eq_append] at h ⊢
      rw [trailing_passes_concat] at h
      by_cases h2 : v2 = PASS
      · rw [if_pos h2] at h
        rcases List.eq_nil_or_concat L with rfl | ⟨L2, a, rfl⟩
        · simp [trailing_passes] at h
        · obtain ⟨c1, v1⟩ := a
          rw [List.concat_eq_append] at h ⊢
          rw [trailing_passes_concat] at h
          by_cases h1 : v1 = PASS
          · exact ⟨L2, c1, c2, by rw [h1, h2, List.append_assoc]; rfl⟩
          · rw [if_neg h1] at h; omega
      · rw [if_neg h2] at h; omega
  · rintro ⟨pre, c1, c2, rfl⟩
    have e : pre ++ [(c1, PASS), (c2, PASS)] = (pre ++ [(c1, PASS)]) ++ [(c2, PASS)] := by
      rw [List.append_assoc]; rfl
    rw [e, trailing_passes_concat, if_pos rfl, trailing_passes_concat, if_pos rfl]
    omega

/-- The pass counter after a list of moves from a state without passes. -/
theorem play_moves_passes {Z : Zobrist} {BS : Nat} {s0 : FastState} (h0 : s0.m_passes = 0) :
    ∀ (moves : List (Nat × Int)) (s : FastState), play_moves Z BS s0 moves = some s →
      s.m_passes = min 4 (trailing_passes moves) := by
  intro moves
  induction moves using List.reverseRecOn with
  | nil =>
    intro s h
    cases h
    rw [h0]; rfl
  | append_singleton pre m ih =>
    intro s h
    obtain ⟨c, v⟩ := m
    rw [play_moves_append] at h
    cases h1 : play_moves Z BS s0 pre with
    | none => rw [h1] at h; cases h
    | some s1 =>
      rw [h1] at h
      have h2 : play_move Z BS s1 c v = some s := by
        simp only [Option.bind, play_moves] at h
        cases hm : play_move Z BS s1 c v with
        | none => rw [hm] at h; cases h
        | some s2 => rw [hm] at h; exact h
      rw [play_move_passes h2, ih s1 h1, trailing_passes_concat]
      split <;> omega

/-- A list of legal moves from a state of a game is played to its end. -/
theorem play_moves_legal {Z : Zobrist} {BS : Nat} {tags : AnalyzeTags} :
    ∀ (moves : List (Nat × Int)) (s : FastState), Game Z BS tags s →
      legal_moves tags Z BS s moves → ∃ s2, play_moves Z BS s moves = some s2 ∧
        Game Z BS tags s2 := by
  intro moves
  induction moves with
  | nil => intro s hs _; exact ⟨s, rfl, hs⟩
  | cons m rest ih =>
    intro s hs hl
    obtain ⟨c, v⟩ := m
    obtain ⟨hc, hlp, hrest⟩ := hl
    obtain ⟨s1, h1, _⟩ := play_move_spec hs.ginv hc hlp
    obtain ⟨s2, h2, g2⟩ := ih s1 (Game.move s c v s1 hs hc hlp h1) (hrest s1 h1)
    refine ⟨s2, ?_, g2⟩
    simp only [play_moves, h1]
    exact h2

/-- C31: for every game started with `init_game` and continued by `play_move` calls, once
the calls have returned `get_passes()` is the minimum of 4 and the number of consecutive
passes at the end of the move sequence, and it is at least 2 exactly when the last two
moves were both passes; the calls do return when every move is legal. -/
theorem passes_counter (Z : Zobrist) (BS : Nat) (tags : AnalyzeTags) (s0 : FastState)
    (size : Nat) (komi : Rat) (moves : List (Nat × Int)) :
    (∀ s, play_moves Z BS (init_game Z BS s0 size komi) moves = some s →
      s.m_passes = min 4 (trailing_passes moves) ∧
      (2 ≤ s.m_passes ↔ ∃ pre c1 c2, moves = pre ++ [(c1, PASS), (c2, PASS)])) ∧
    (size ≤ BS → VERTICES_NUMBER BS < 65536 →
      legal_moves tags Z BS (init_game Z BS s0 size komi) moves →
      ∃ s, play_moves Z BS (init_game Z BS s0 size komi) moves = some s) := by
  constructor
  · intro s h
    have hp := play_moves_passes (rfl : (init_game Z BS s0 size komi).m_passes = 0) moves s h
    refine ⟨hp, ?_⟩
    rw [hp, ← trailing_passes_two]
    omega
  · intro hsize hfit hl
    obtain ⟨s, h, _⟩ := play_moves_legal moves _ (Game.init s0 size komi hsize hfit) hl
    exact ⟨s, h⟩

/-- Two passes after `init_game` on the 3x3 board: the counter is 2. -/
theorem passes_counter_witness :
    play_moves exampleZ 19 (init_game exampleZ 19 blankState 3 (15 / 2))
        [(BLACK, PASS), (WHITE, PASS)] = some (playOn passed WHITE PASS) ∧
    (playOn passed WHITE PASS).m_passes = 2 ∧
    (playOn passed WHITE PASS).m_passes = min 4 (trailing_passes [(BLACK, PASS), (WHITE, PASS)]) ∧
    (3 ≤ 19 ∧ VERTICES_NUMBER 19 < 65536 ∧
      legal_moves noTags exampleZ 19 (init_game exampleZ 19 blankState 3 (15 / 2))
        [(BLACK, PASS), (WHITE, PASS)]) ∧
    ∃ s, play_moves exampleZ 19 (init_game exampleZ 19 blankState 3 (15 / 2))
      [(BLACK, PASS), (WHITE, PASS)] = some s :=
  have hrun : play_moves exampleZ 19 (init_game exampleZ 19 blankState 3 (15 / 2))
      [(BLACK, PASS), (WHITE, PASS)] = some (playOn passed WHITE PASS) := by
    simp only [play_moves, play_move_pass]
    rfl
  have hlegal : legal_moves noTags exampleZ 19 (init_game exampleZ 19 blankState 3 (15 / 2))
      [(BLACK, PASS), (WHITE, PASS)] :=
    ⟨by decide, ⟨by simp [is_move_legal, is_to_avoid, noTags], Or.inl rfl⟩, fun s2 _ =>
      ⟨by decide, ⟨by simp [is_move_legal, is_to_avoid, noTags], Or.inl rfl⟩,
        fun _ _ => trivial⟩⟩
  ⟨hrun, rfl,
    ((passes_counter exampleZ 19 noTags blankState 3 (15 / 2)
      [(BLACK, PASS), (WHITE, PASS)]).1 _ hrun).1,
    ⟨by decide, by decide, hlegal⟩,
    (passes_counter exampleZ 19 noTags blankState 3 (15 / 2)
      [(BLACK, PASS), (WHITE, PASS)]).2 (by decide) (by decide) hlegal⟩

/-- A valid child with the greatest visit count among the valid children passes the test
on the visits. -/
theorem leader_not_pruned {color : Nat} {children : List RootChild} {est : Int}
    (hest : 0 ≤ est) (hvis : ∀ c ∈ children, 0 ≤ c.get_visits) {c : RootChild}
    (hc : c ∈ children) (hcv : c.valid = true)
    (hmax : ∀ d ∈ children, d.valid = true → d.get_visits ≤ c.get_visits) :
    prune_this_node color (prune_bounds color children (0, 0)).1
      ((prune_bounds color children (0, 0)).2 - est) c = false := by
  obtain ⟨_, _, b3, b4, _, _⟩ := prune_bounds_spec color children 0 0
  have h1 := b3 c hc hcv
  have h2 : (prune_bounds color children (0, 0)).2 ≤ c.get_visits := by
    rcases b4 with h0 | ⟨d, hd, hdv, hdn⟩
    · rw [h0]; exact hvis c hc
    · rw [← hdn]; exact hmax d hd hdv
  cases hp : prune_this_node color (prune_bounds color children (0, 0)).1
      ((prune_bounds color children (0, 0)).2 - est) c with
  | false => rfl
  | true =>
    have := ((prune_this_node_iff _ _ _ c).mp hp).1
    omega

/-- C40: for every root with at least one child, `prune_non_contenders` returns, it does
not prune a valid child whose visit count is the greatest among the valid children (and
sets it active when `prune` is true), and the number of pruned children is smaller than
the number of children, which is what the closing assertion says. -/
theorem prune_keeps_leader (m_playouts m_max_playouts m_max_visits root_visits : Int)
    (children : List RootChild) (color : Nat) (elapsed_centiseconds time_for_move : Int)
    (prune : Bool) (est : Int)
    (hest : est_playouts_left m_playouts m_max_playouts m_max_visits root_visits
      elapsed_centiseconds time_for_move = some est)
    (hne : children ≠ []) (hvis : ∀ c ∈ children, 0 ≤ c.get_visits) :
    ∃ (count : Nat) (calls : List (Option Bool)),
      prune_non_contenders m_playouts m_max_playouts m_max_visits root_visits children color
        elapsed_centiseconds time_for_move prune = some (count, calls) ∧
      count < children.length ∧
      count = children.countP (fun c => c.valid && prune_this_node color
        (prune_bounds color children (0, 0)).1
        ((prune_bounds color children (0, 0)).2 - est) c) ∧
      calls = children.map (fun c => if c.valid = true ∧ prune = true
        then some (!prune_this_node color (prune_bounds color children (0, 0)).1
          ((prune_bounds color children (0, 0)).2 - est) c) else none) ∧
      ∀ c ∈ children, c.valid = true →
        (∀ d ∈ children, d.valid = true → d.get_visits ≤ c.get_visits) →
        prune_this_node color (prune_bounds color children (0, 0)).1
          ((prune_bounds color children (0, 0)).2 - est) c = false ∧
        (if c.valid = true ∧ prune = true
          then some (!prune_this_node color (prune_bounds color children (0, 0)).1
            ((prune_bounds color children (0, 0)).2 - est) c) else none) =
          (if prune = true then some true else none) := by
  have hest0 := est_playouts_left_nonneg hest
  have hlead : ∀ c ∈ children, c.valid = true →
      (∀ d ∈ children, d.valid = true → d.get_visits ≤ c.get_visits) →
      prune_this_node color (prune_bounds color children (0, 0)).1
        ((prune_bounds color children (0, 0)).2 - est) c = false :=
    fun c hc hcv hmax => leader_not_pruned hest0 hvis hc hcv hmax
  -- a child that is not counted: a child that is not valid, or a leader
  have hkeep : ∃ c ∈ children, ¬ ((c.valid && prune_this_node color
      (prune_bounds color children (0, 0)).1
      ((prune_bounds color children (0, 0)).2 - est) c) = true) := by
    by_cases hall : ∀ c ∈ children, c.valid = true
    · obtain ⟨_, _, b3, b4, _, _⟩ := prune_bounds_spec color children 0 0
      have hattained : ∃ c ∈ children, c.valid = true ∧
          c.get_visits = (prune_bounds color children (0, 0)).2 := by
        rcases b4 with h0 | h
        · cases children with
          | nil => exact absurd rfl hne
          | cons c rest =>
            have hc : c ∈ c :: rest := List.mem_cons_self _ _
            have h1 := b3 c hc (hall c hc)
            have h2 := hvis c hc
            exact ⟨c, hc, hall c hc, by omega⟩
        · exact h
      obtain ⟨c, hc, hcv, hcn⟩ := hattained
      refine ⟨c, hc, ?_⟩
      rw [hlead c hc hcv (fun d hd hdv => by rw [hcn]; exact b3 d hd hdv), Bool.and_false]
      exact Bool.false_ne_true
    · push_neg at hall
      obtain ⟨c, hc, hcv⟩ := hall
      refine ⟨c, hc, ?_⟩
      rw [Bool.and_eq_true]
      rintro ⟨h, _⟩
      exact hcv h
  have hlt : children.countP (fun c => c.valid && prune_this_node color
      (prune_bounds color children (0, 0)).1
      ((prune_bounds color children (0, 0)).2 - est) c) < children.length := by
    apply lt_of_le_of_ne (List.countP_le_length _)
    intro h
    rw [List.countP_eq_length] at h
    obtain ⟨c, hc, hn⟩ := hkeep
    exact hn (h c hc)
  refine ⟨_, _, ?_, hlt, rfl, rfl, ?_⟩
  · unfold prune_non_contenders
    simp only [hest, prune_loop_spec, Nat.zero_add]
    rw [if_pos hlt]
  · intro c hc hcv hmax
    have hp := hlead c hc hcv hmax
    refine ⟨hp, ?_⟩
    rw [hp]
    by_cases hpr : prune = true
    · rw [if_pos ⟨hcv, hpr⟩, if_pos hpr]; rfl
    · rw [if_neg (fun h => hpr h.2), if_neg hpr]

/-- The leader of three children is kept and one child is pruned. -/
theorem prune_keeps_leader_witness :
    est_playouts_left 0 0 0 0 0 0 = some 0 ∧
    [leaderChild, otherChild, weakChild] ≠ [] ∧
    (∀ c ∈ [leaderChild, otherChild, weakChild], 0 ≤ c.get_visits) ∧
    ∃ (count : Nat) (calls : List (Option Bool)),
      prune_non_contenders 0 0 0 0 [leaderChild, otherChild, weakChild] BLACK 0 0 true =
        some (count, calls) ∧
      count < [leaderChild, otherChild, weakChild].length :=
  have hest : est_playouts_left 0 0 0 0 0 0 = some 0 := by decide
  have hvis : ∀ c ∈ [leaderChild, otherChild, weakChild], 0 ≤ c.get_visits := by
    simp [leaderChild, otherChild, weakChild]
  ⟨hest, by simp, hvis,
    match prune_keeps_leader 0 0 0 0 [leaderChild, otherChild, weakChild] BLACK 0 0 true 0
      hest (by simp) hvis with
    | ⟨count, calls, h1, h2, _⟩ => ⟨count, calls, h1, h2⟩⟩

set_option maxRecDepth 100000 in
/-- C33, on the 3x3 board after a pass by Black: White is to move, passing is legal and
wins by the komi, the first child of the root is a visited move on vertex 6 with the raw
evaluation 0.6, and no child has a raw evaluation above the relative score 7.5; the claim
gives PASS, and `get_best_move` returns the move on vertex 6. -/
theorem best_move_plays_on_when_winning :
    passedMatch.ko.fast.m_last_move = PASS ∧
    is_move_legal noTags passedMatch.ko.fast passedMatch.ko.fast.board.m_color_to_move PASS
      = true ∧
    ranked_children keepOrder (1 / 10) 0 passedMatch [leaderChild, passChild] =
      [leaderChild, passChild] ∧
    leaderChild.get_move ≠ PASS ∧
    final_score passedMatch.ko.fast = some (-(15 / 2)) ∧
    (0 : Rat) < (if passedMatch.ko.fast.board.m_color_to_move = BLACK then 1 else -1) *
      (-(15 / 2)) ∧
    (∀ c ∈ [leaderChild, passChild],
      ¬ (c.get_raw_eval passedMatch.ko.fast.board.m_color_to_move >
        (if passedMatch.ko.fast.board.m_color_to_move = BLACK then 1 else -1) *
          (-(15 / 2) : Rat))) ∧
    get_best_move keepOrder noTags (1 / 10) 0 false passedMatch [leaderChild, passChild]
      NORMAL = some 6 ∧
    (6 : Int) ≠ PASS := by
  have hranked : ranked_children keepOrder (1 / 10) 0 passedMatch [leaderChild, passChild] =
      [leaderChild, passChild] := by
    unfold ranked_children
    simp only [keepOrder, ite_self]
  have hb : compute_reach_color passedMatch.ko.fast.board BLACK = some 0 := by decide
  have hw : compute_reach_color passedMatch.ko.fast.board WHITE = some 0 := by decide
  have hk : passedMatch.ko.fast.m_komi = 15 / 2 := rfl
  have hh : passedMatch.ko.fast.m_handicap = 0 := rfl
  have hscore : final_score passedMatch.ko.fast = some (-(15 / 2)) := by
    simp only [final_score, area_score, hb, hw, hk, hh]
    norm_num
    exact float_komi_score
  have hc : passedMatch.ko.fast.board.m_color_to_move = WHITE := by decide
  have hcb : ¬ passedMatch.ko.fast.board.m_color_to_move = BLACK := by rw [hc]; decide
  have hlast : passedMatch.ko.fast.m_last_move = PASS := by decide
  have hlegal : is_move_legal noTags passedMatch.ko.fast
      passedMatch.ko.fast.board.m_color_to_move PASS = true := by decide
  have hnp : get_no_pass_child passedMatch [leaderChild, passChild] = some leaderChild := by
    unfold get_no_pass_child
    rw [List.find?_cons_of_pos]
    decide
  refine ⟨hlast, hlegal, hranked, by decide, hscore, ?_, ?_, ?_, by decide⟩
  · rw [if_neg hcb]; norm_num
  · intro c hcm
    rw [if_neg hcb]
    simp only [List.mem_cons, List.mem_singleton, List.not_mem_nil, or_false] at hcm
    rcases hcm with rfl | rfl
    · norm_num [leaderChild]
    · norm_num [passChild]
  · unfold get_best_move
    simp only [hranked, List.head?_cons, hscore, hnp]
    rw [if_neg (by decide : ¬ NORMAL &&& NO_PASS ≠ 0)]
    simp only [Bool.not_false, if_true]
    rw [if_neg (by decide : ¬ leaderChild.get_move = PASS), if_pos hlast, hlegal]
    simp only [Bool.not_true, Bool.false_eq_true, if_false, if_neg hcb]
    norm_num [leaderChild]

set_option maxRecDepth 100000 in
/-- C36, on the 3x3 board with the text `a0`: `text_to_move` calls `get_vertex(0, -1)`,
whose assertion on the row fails; without the assertions the result is the vertex 1, which
is a border vertex and none of PASS, RESIGN and NO_VERTEX. -/
theorem text_to_move_row_zero :
    text_to_move_call empty3 ['a', '0'] = some (0, -1) ∧
    get_vertex_asserts 19 empty3 0 (-1) = false ∧
    text_to_move empty3 ['a', '0'] = 1 ∧
    ¬ onBoard empty3 1 ∧
    (1 : Int) ≠ PASS ∧ (1 : Int) ≠ RESIGN ∧ (1 : Int) ≠ (NO_VERTEX : Int) := by
  refine ⟨by decide, by decide, by decide, by decide, by decide, by decide, by decide⟩

set_option maxRecDepth 1000000 in
/-- C37, on the 7x7 board: `place_fixed_handicap(2)` returns true and `get_handicap()` is
2; the snapshot that `clear_game_history` has just stored still holds the handicap 0, so
after a pass by White, which keeps the handicap 2, `undo_move` and `rewind` both bring
back the handicap 0. -/
theorem handicap_lost_on_undo :
    (GameState.place_fixed_handicap exampleZ 19 match7 2).map Prod.fst = some true ∧
    handicap7.ko.fast.m_handicap = 2 ∧
    handicap7.game_history.map (fun x => x.map (fun ko => ko.fast.m_handicap)) = [some 0] ∧
    (GameState.play_move exampleZ 19 handicap7 WHITE PASS).map
      (fun g => g.ko.fast.m_handicap) = some 2 ∧
    ((GameState.play_move exampleZ 19 handicap7 WHITE PASS).bind GameState.undo_move).map
      (fun r => (r.1, r.2.ko.fast.m_handicap)) = some (true, 0) ∧
    ((GameState.play_move exampleZ 19 handicap7 WHITE PASS).bind GameState.rewind).map
      (fun g => g.ko.fast.m_handicap) = some 0 := by
  refine ⟨by decide, by decide, by decide, by decide, by decide, by decide⟩

theorem NavInv.of_single (g : GameState) (ko : KoState) (hm : g.ko.fast.m_move_numbers = 0)
    (hh : g.game_history = [some ko]) (hk : ko.fast.m_move_numbers = 0) : NavInv g := by
  refine ⟨by rw [hm, hh]; exact Nat.zero_lt_one, ?_⟩
  intro i hi
  rw [hh] at hi ⊢
  have : i = 0 := by
    have : i < 1 := hi
    omega
  subst this
  exact ⟨ko, rfl, hk⟩

/-- The move number after `KoState::play_move`. -/
theorem KoState_play_move_number {Z : Zobrist} {BS : Nat} {s s2 : KoState} {c : Nat}
    {vertex : Int} (h : KoState.play_move Z BS s c vertex = some s2) :
    s2.fast.m_move_numbers =
      if vertex = RESIGN then s.fast.m_move_numbers else s.fast.m_move_numbers + 1 := by
  unfold KoState.play_move at h
  by_cases hr : vertex = RESIGN
  · subst hr
    simp only [ne_eq, not_true_eq_false, if_false, Option.map_some'] at h
    cases h
    rfl
  · rw [if_neg hr]
    simp only [ne_eq, hr, not_false_eq_true, if_true] at h
    cases hp : LeelaZero.play_move Z BS s.fast c vertex with
    | none => rw [hp] at h; cases h
    | some f =>
      rw [hp] at h
      simp only [Option.map_some'] at h
      cases h
      show f.m_move_numbers = _
      by_cases hpass : vertex = PASS
      · subst hpass
        rw [play_move_pass] at hp
        cases hp
        rfl
      · cases hu : update_board Z BS
            { s.fast.board with
              m_hash := s.fast.board.m_hash ^^^ Z.zobrist_ko_move s.fast.m_ko_move } c
            vertex.toNat with
        | none =>
          have : LeelaZero.play_move Z BS s.fast c vertex = none := by
            simp only [LeelaZero.play_move, xor_hash, if_neg hpass, hu]
          rw [this] at hp; cases hp
        | some r =>
          obtain ⟨b2, ko⟩ := r
          rw [play_move_place Z BS s.fast c vertex hpass b2 ko hu] at hp
          cases hp
          rfl

/-- The snapshots after `play_move`, with the snapshot of the new position at the end. -/
theorem NavInv.pushed {g : GameState} (inv : NavInv g) (ko : KoState)
    (hle : ko.fast.m_move_numbers ≤ g.game_history.length) (r : Nat) :
    NavInv { ko := ko, game_history :=
      resize_history g.game_history ko.fast.m_move_numbers ++ [some ko], m_resigned := r } := by
  have hres : resize_history g.game_history ko.fast.m_move_numbers =
      g.game_history.take ko.fast.m_move_numbers := by
    unfold resize_history
    rw [Nat.sub_eq_zero_of_le hle, List.replicate_zero, List.append_nil]
  have hlen : (g.game_history.take ko.fast.m_move_numbers).length = ko.fast.m_move_numbers := by
    rw [List.length_take]; exact Nat.min_eq_left hle
  refine ⟨?_, ?_⟩
  · show ko.fast.m_move_numbers < (resize_history _ _ ++ [some ko]).length
    rw [hres, List.length_append, hlen, List.length_singleton]
    exact Nat.lt_succ_self _
  · intro i hi
    have hi' : i < (resize_history g.game_history ko.fast.m_move_numbers ++ [some ko]).length :=
      hi
    rw [hres, List.length_append, hlen, List.length_singleton] at hi'
    show ∃ k, (resize_history g.game_history ko.fast.m_move_numbers ++ [some ko]).get? i =
      some (some k) ∧ _
    rw [hres, List.get?_eq_getElem?]
    by_cases hlt : i < ko.fast.m_move_numbers
    · rw [List.getElem?_append_left (by rw [hlen]; exact hlt), List.getElem?_take_of_lt hlt]
      obtain ⟨k, hk, hn⟩ := inv.snaps i (by omega)
      rw [List.get?_eq_getElem?] at hk
      exact ⟨k, hk, hn⟩
    · have e : i = ko.fast.m_move_numbers := by omega
      rw [List.getElem?_append_right (by rw [hlen]; omega), hlen, e, Nat.sub_self]
      exact ⟨ko, rfl, rfl⟩

theorem NavInv.after_play_move {Z : Zobrist} {BS : Nat} {g g2 : GameState} {c : Nat}
    {vertex : Int} (inv : NavInv g) (h : GameState.play_move Z BS g c vertex = some g2) :
    NavInv g2 := by
  unfold GameState.play_move at h
  by_cases hr : vertex = RESIGN
  · subst hr
    simp only [if_true, Option.map_some'] at h
    cases h
    exact inv.pushed g.ko (Nat.le_of_lt inv.index) c
  · simp only [if_neg hr] at h
    cases hk : KoState.play_move Z BS g.ko c vertex with
    | none => rw [hk] at h; cases h
    | some ko =>
      rw [hk] at h
      simp only [Option.map_some'] at h
      cases h
      have hn := KoState_play_move_number hk
      rw [if_neg hr] at hn
      exact inv.pushed ko (by rw [hn]; exact inv.index) g.m_resigned

theorem NavInv.after_undo {g g2 : GameState} {r : Bool} (inv : NavInv g)
    (h : GameState.undo_move g = some (r, g2)) : NavInv g2 := by
  unfold GameState.undo_move at h
  by_cases h0 : g.ko.fast.m_move_numbers ≤ 0
  · rw [if_pos h0] at h
    cases h
    exact inv
  · rw [if_neg h0] at h
    obtain ⟨ko, hk, hn⟩ := inv.snaps (g.ko.fast.m_move_numbers - 1)
      (by have := inv.index; omega)
    rw [hk] at h
    cases h
    exact ⟨by show ko.fast.m_move_numbers < g.game_history.length
              rw [hn]; have := inv.index; omega, inv.snaps⟩

theorem NavInv.after_forward {g g2 : GameState} {r : Bool} (inv : NavInv g)
    (h : GameState.forward_move g = some (r, g2)) : NavInv g2 := by
  unfold GameState.forward_move at h
  by_cases h0 : g.game_history.length ≤ g.ko.fast.m_move_numbers + 1
  · rw [if_pos h0] at h
    cases h
    exact inv
  · rw [if_neg h0] at h
    obtain ⟨ko, hk, hn⟩ := inv.snaps (g.ko.fast.m_move_numbers + 1) (by omega)
    rw [hk] at h
    cases h
    exact ⟨by show ko.fast.m_move_numbers < g.game_history.length
              rw [hn]; omega, inv.snaps⟩

theorem NavInv.after_rewind {g g2 : GameState} (inv : NavInv g)
    (h : GameState.rewind g = some g2) : NavInv g2 := by
  unfold GameState.rewind at h
  obtain ⟨ko, hk, hn⟩ := inv.snaps 0 (by have := inv.index; omega)
  rw [hk] at h
  cases h
  exact ⟨by show ko.fast.m_move_numbers < g.game_history.length
            rw [hn]; have := inv.index; omega, inv.snaps⟩

theorem NavInv.after_play_text {Z : Zobrist} {BS : Nat} {g g2 : GameState}
    {color vertex : List Char} {r : Bool} (inv : NavInv g)
    (h : GameState.play_text Z BS g color vertex = some (r, g2)) : NavInv g2 := by
  have key : ∀ player, play_text_move Z BS g player vertex = some (r, g2) → NavInv g2 := by
    intro player hp
    unfold play_text_move at hp
    cases hc : text_to_move_checked BS g.ko.fast.board vertex with
    | none =>
      rw [hc] at hp
      cases hp
    | some move =>
      rw [hc, Option.some_bind] at hp
      by_cases h0 : move = (NO_VERTEX : Int)
      · rw [if_pos h0] at hp
        cases hp
        exact inv
      rw [if_neg h0] at hp
      by_cases h1 : move ≠ PASS ∧ move ≠ RESIGN ∧
          get_state_asserts BS g.ko.fast.board move = false
      · rw [if_pos h1] at hp
        cases hp
      rw [if_neg h1] at hp
      by_cases h2 : move ≠ PASS ∧ move ≠ RESIGN ∧ g.ko.fast.board.m_state move.toNat ≠ EMPTY
      · rw [if_pos h2] at hp
        cases hp
        exact inv
      rw [if_neg h2] at hp
      cases hm : GameState.play_move Z BS
          { g with ko := { g.ko with fast := { g.ko.fast with
              board := set_to_move g.ko.fast.board player } } }
          (set_to_move g.ko.fast.board player).m_color_to_move move with
      | none =>
        simp only [hm, Option.map_none'] at hp
        cases hp
      | some g3 =>
        simp only [hm, Option.map_some'] at hp
        cases hp
        have inv1 : NavInv { g with ko := { g.ko with fast := { g.ko.fast with
            board := set_to_move g.ko.fast.board player } } } := ⟨inv.index, inv.snaps⟩
        exact inv1.after_play_move hm
  unfold GameState.play_text at h
  simp only [] at h
  split at h
  · exact key _ h
  · split at h
    · exact key _ h
    · cases h
      exact inv

theorem NavInv.after_place_fixed_handicap {Z : Zobrist} {BS : Nat} {g g2 : GameState}
    {handicap : Int} {r : Bool} (inv : NavInv g)
    (h : GameState.place_fixed_handicap Z BS g handicap = some (r, g2)) : NavInv g2 := by
  unfold GameState.place_fixed_handicap at h
  cases hv : g.valid_handicap handicap with
  | false =>
    rw [hv] at h
    simp only [Bool.not_false, if_true] at h
    cases h
    exact inv
  | true =>
    rw [hv] at h
    simp only [Bool.not_true, Bool.false_eq_true, if_false] at h
    rw [Option.map_eq_some'] at h
    obtain ⟨g10, _, e⟩ := h
    cases e
    exact NavInv.of_single _ _ rfl rfl rfl

/-- The invariant of the snapshots holds after every operation. -/
theorem Navigated.nav_inv {Z : Zobrist} {BS : Nat} {g : GameState} (h : Navigated Z BS g) :
    NavInv g := by
  induction h with
  | init g0 size komi => exact NavInv.of_single _ _ rfl rfl rfl
  | move g color vertex g2 _ hres ih => exact ih.after_play_move hres
  | text g color vertex r g2 _ hres ih => exact ih.after_play_text hres
  | undo g r g2 _ hres ih => exact ih.after_undo hres
  | forward g r g2 _ hres ih => exact ih.after_forward hres
  | rewind g g2 _ hres ih => exact ih.after_rewind hres
  | clear g _ _ => exact NavInv.of_single _ _ rfl rfl rfl
  | handicap g handicap r g2 _ hres ih => exact ih.after_place_fixed_handicap hres
  | reset g _ _ => exact NavInv.of_single _ _ rfl rfl rfl

/-- C38: after `init_game` and any calls of `play_move` (a resignation included),
`play_text`, `undo_move`, `forward_move`, `rewind`, `clear_game_history`,
`place_fixed_handicap` and `reset_game`, the move number is smaller than the number of
stored snapshots; `get_past_board(k)` for every `k` from 0 to the move number passes its
assertions and returns the board of the snapshot with the move number less `k`; and
`undo_move`, `forward_move` and `rewind` find the snapshot that they restore. -/
theorem history_index (Z : Zobrist) (BS : Nat) (g : GameState) (h : Navigated Z BS g) :
    g.ko.fast.m_move_numbers < g.game_history.length ∧
    (∀ k : Int, 0 ≤ k → k ≤ (g.ko.fast.m_move_numbers : Int) →
      ∃ ko, g.game_history.get? (g.ko.fast.m_move_numbers - k.toNat) = some (some ko) ∧
        ko.fast.m_move_numbers = g.ko.fast.m_move_numbers - k.toNat ∧
        g.get_past_board k = some ko.fast.board) ∧
    (∃ r g2, g.undo_move = some (r, g2)) ∧
    (∃ r g2, g.forward_move = some (r, g2)) ∧
    (∃ g2, g.rewind = some g2) := by
  have inv := h.nav_inv
  have hidx := inv.index
  refine ⟨hidx, ?_, ?_, ?_, ?_⟩
  · intro k hk0 hkm
    obtain ⟨ko, hko, hn⟩ := inv.snaps (g.ko.fast.m_move_numbers - k.toNat) (by omega)
    refine ⟨ko, hko, hn, ?_⟩
    unfold GameState.get_past_board
    have h1 : k ≥ 0 ∧ k.toNat % 2 ^ 32 ≤ g.ko.fast.m_move_numbers := by
      refine ⟨hk0, le_trans (Nat.mod_le _ _) ?_⟩
      omega
    rw [if_pos h1, if_pos (by omega : g.ko.fast.m_move_numbers + 1 ≤ g.game_history.length),
      hko]
  · unfold GameState.undo_move
    by_cases h0 : g.ko.fast.m_move_numbers ≤ 0
    · rw [if_pos h0]; exact ⟨_, _, rfl⟩
    · rw [if_neg h0]
      obtain ⟨ko, hko, _⟩ := inv.snaps (g.ko.fast.m_move_numbers - 1) (by omega)
      rw [hko]; exact ⟨_, _, rfl⟩
  · unfold GameState.forward_move
    by_cases h0 : g.game_history.length ≤ g.ko.fast.m_move_numbers + 1
    · rw [if_pos h0]; exact ⟨_, _, rfl⟩
    · rw [if_neg h0]
      obtain ⟨ko, hko, _⟩ := inv.snaps (g.ko.fast.m_move_numbers + 1) (by omega)
      rw [hko]; exact ⟨_, _, rfl⟩
  · unfold GameState.rewind
    obtain ⟨ko, hko, _⟩ := inv.snaps 0 (by omega)
    rw [hko]; exact ⟨_, rfl⟩

set_option maxRecDepth 1000000 in
theorem handicap7_navigated : Navigated exampleZ 19 handicap7 := by
  have h1 : (GameState.place_fixed_handicap exampleZ 19 match7 2).map Prod.fst = some true := by
    decide
  cases hp : GameState.place_fixed_handicap exampleZ 19 match7 2 with
  | none => rw [hp] at h1; cases h1
  | some r =>
    obtain ⟨r1, r2⟩ := r
    have e : handicap7 = r2 := by
      unfold handicap7
      rw [hp]; rfl
    rw [e]
    exact Navigated.handicap match7 2 r1 r2 (Navigated.init blankGame 7 (15 / 2)) hp

/-- The game on the 7x7 board after two handicap stones: the move number is 0 and there
is one snapshot. -/
theorem history_index_witness :
    Navigated exampleZ 19 handicap7 ∧
    handicap7.ko.fast.m_move_numbers < handicap7.game_history.length ∧
    ∃ ko, handicap7.game_history.get? (handicap7.ko.fast.m_move_numbers - (0 : Int).toNat) =
        some (some ko) ∧
      ko.fast.m_move_numbers = handicap7.ko.fast.m_move_numbers - (0 : Int).toNat ∧
      handicap7.get_past_board 0 = some ko.fast.board :=
  ⟨handicap7_navigated, (history_index exampleZ 19 handicap7 handicap7_navigated).1,
    (history_index exampleZ 19 handicap7 handicap7_navigated).2.1 0 (le_refl _)
      (Int.ofNat_nonneg _)⟩

/-- The log of the first part of `play_simulation`: the virtual loss, and the creation of
the children if it was tried. -/
theorem simulation_expand_log {Tree : Type} {ops : SimOps Tree} {cfg_max_tree_size : Nat}
    {current_state : GameState} {node : Nat} {tree tree3 : Tree} {log log3 : List SimCall}
    {result : SearchResult}
    (h : simulation_expand ops cfg_max_tree_size current_state node tree log =
      some (result, tree3, log3)) :
    ∃ created, (created = [] ∨ created = [SimCall.create_children node]) ∧
      log3 = log ++ (SimCall.virtual_loss node :: created) := by
  unfold simulation_expand at h
  simp only [] at h
  split at h
  · split at h
    · rw [Option.map_eq_some'] at h
      obtain ⟨score, _, e⟩ := h
      cases e
      exact ⟨[], Or.inl rfl, rfl⟩
    · cases h
      exact ⟨[SimCall.create_children node], Or.inr rfl, by
        rw [List.append_assoc]; rfl⟩
  · cases h
    exact ⟨[], Or.inl rfl, rfl⟩

/-- C32: in `play_simulation`, when the node has children and no result yet, the move of
the selected child is not a pass and `super_ko()` holds after the move has been played on
`current_state`, the function returns the result that is not valid; the calls that it has
made on the nodes are the virtual loss on the node, the creation of its children if that
was tried, the selection, `invalidate()` on the selected child and the undoing of the
virtual loss on the node: there is no call of `update` and no simulation of the child. -/
theorem superko_child_invalidated {Tree : Type} (ops : SimOps Tree) (Z : Zobrist) (BS : Nat)
    (cfg_max_tree_size root fuel : Nat) (current_state : GameState) (node : Nat) (tree : Tree)
    (log : List SimCall) (result : SearchResult) (tree3 : Tree) (log3 : List SimCall)
    (state1 : GameState)
    (hexp : simulation_expand ops cfg_max_tree_size current_state node tree log =
      some (result, tree3, log3))
    (hchildren : ops.has_children tree3 node = true) (hinvalid : result.m_valid = false)
    (hmove : ops.get_move
      (ops.uct_select_child tree3 node current_state.ko.fast.board.m_color_to_move
        (decide (node = root))).2
      (ops.uct_select_child tree3 node current_state.ko.fast.board.m_color_to_move
        (decide (node = root))).1 ≠ PASS)
    (hplay : GameState.play_move Z BS current_state
      current_state.ko.fast.board.m_color_to_move
      (ops.get_move
        (ops.uct_select_child tree3 node current_state.ko.fast.board.m_color_to_move
          (decide (node = root))).2
        (ops.uct_select_child tree3 node current_state.ko.fast.board.m_color_to_move
          (decide (node = root))).1) = some state1)
    (hko : state1.ko.super_ko = true) :
    result.m_valid = false ∧
    ∃ created, (created = [] ∨ created = [SimCall.create_children node]) ∧
      play_simulation ops Z BS cfg_max_tree_size root (fuel + 1) current_state node tree log =
        some (result, state1,
          ops.virtual_loss_undo
            (ops.invalidate
              (ops.uct_select_child tree3 node current_state.ko.fast.board.m_color_to_move
                (decide (node = root))).2
              (ops.uct_select_child tree3 node current_state.ko.fast.board.m_color_to_move
                (decide (node = root))).1) node,
          log ++ (SimCall.virtual_loss node :: created ++
            [SimCall.uct_select_child node,
             SimCall.invalidate
              (ops.uct_select_child tree3 node current_state.ko.fast.board.m_color_to_move
                (decide (node = root))).1,
             SimCall.virtual_loss_undo node])) := by
  obtain ⟨created, hc, hlog⟩ := simulation_expand_log hexp
  refine ⟨hinvalid, created, hc, ?_⟩
  unfold play_simulation
  simp only [hexp, hchildren, hinvalid, Bool.not_false, Bool.and_self, if_true, hplay]
  rw [if_pos ⟨hmove, hko⟩]
  simp only [Option.map_some', simulation_finish, hinvalid, Bool.false_eq_true, if_false]
  rw [hlog]
  simp only [List.append_assoc, List.cons_append, List.nil_append, List.singleton_append]

theorem moveOn_some {g : GameState} {c : Nat} {v : Int}
    (h : (GameState.play_move exampleZ 19 g c v).isSome = true) :
    GameState.play_move exampleZ 19 g c v = some (moveOn g c v) := by
  unfold moveOn
  cases hp : GameState.play_move exampleZ 19 g c v with
  | none => rw [hp] at h; cases h
  | some g2 => rfl

set_option maxRecDepth 1000000 in
/-- On the 2x2 board the move on vertex 5 brings back the position after the first move:
the child 1 with that move is invalidated and the simulation of the node 0 returns the
result that is not valid. -/
theorem superko_child_invalidated_witness :
    simulation_expand cycleOps 1000 cycle2x2 0 [] [] =
      some (SearchResult.invalid, [], [SimCall.virtual_loss 0]) ∧
    GameState.play_move exampleZ 19 cycle2x2 cycle2x2.ko.fast.board.m_color_to_move 5 =
      some (moveOn cycle2x2 BLACK 5) ∧
    (moveOn cycle2x2 BLACK 5).ko.super_ko = true ∧
    is_move_legal noTags cycle2x2.ko.fast BLACK 5 = true ∧
    ∃ created, (created = [] ∨ created = [SimCall.create_children 0]) ∧
      play_simulation cycleOps exampleZ 19 1000 0 1 cycle2x2 0 [] [] =
        some (SearchResult.invalid, moveOn cycle2x2 BLACK 5, [1],
          [] ++ (SimCall.virtual_loss 0 :: created ++
            [SimCall.uct_select_child 0, SimCall.invalidate 1,
             SimCall.virtual_loss_undo 0])) :=
  have hexp : simulation_expand cycleOps 1000 cycle2x2 0 [] [] =
      some (SearchResult.invalid, [], [SimCall.virtual_loss 0]) := rfl
  have hcol : cycle2x2.ko.fast.board.m_color_to_move = BLACK := by decide!
  have hplay : GameState.play_move exampleZ 19 cycle2x2
      cycle2x2.ko.fast.board.m_color_to_move 5 = some (moveOn cycle2x2 BLACK 5) := by
    rw [hcol]
    exact moveOn_some (by decide!)
  have hko : (moveOn cycle2x2 BLACK 5).ko.super_ko = true := by decide!
  ⟨hexp, hplay, hko, by decide!,
    (superko_child_invalidated cycleOps exampleZ 19 1000 0 0 cycle2x2 0 [] []
      SearchResult.invalid [] [SimCall.virtual_loss 0] (moveOn cycle2x2 BLACK 5)
      hexp rfl rfl (by decide) hplay hko).2⟩

/-! ### Liberties of the strings after `update_board` -/

section
variable {Z : Zobrist} {BS r c v cs cv : Nat} {b0 bp b4 : FullBoard}

/-- A string of the opposing colour that the loop leaves on the board keeps a liberty. -/
theorem Placed.opp_alive (P : Placed Z BS r c v b0 bp b4 cs cv) {u : Nat} (hu : onBoard b0 u)
    (hs : b0.m_state u = notc c) (h4 : b4.m_state u = notc c)
    (hal : ∃ e, isLiberty b0 u e) : (libsOf b4 (b4.m_parent u)).Nonempty := by
  have g0 := P.inv0.geom
  have hs2 : b0.m_state u < 2 := by rw [hs]; exact notc_lt
  have huv := (P.opp4 hs).1
  have hun : u < bp.m_vertices_number := by rw [P.nverts_p]; exact g0.onBoard_lt hu
  obtain ⟨e0, he0⟩ := hal
  have he0 := (isLiberty_iff P.inv0 hu hs2 e0).mp he0
  have hne : libsOf b0 (b0.m_parent u) ≠ {v} := by
    intro h
    have := (P.capture_iff hu hs).mpr h
    rw [h4] at this
    exact P.notc_ne_empty this
  obtain ⟨e, he, hev⟩ : ∃ e, e ∈ libsOf b0 (b0.m_parent u) ∧ e ≠ v := by
    by_contra hno
    push_neg at hno
    apply hne
    rw [Finset.eq_singleton_iff_unique_mem]
    exact ⟨by rw [← hno e0 he0]; exact he0, hno⟩
  obtain ⟨hen, hee, j, hj, hpj⟩ := mem_libsOf.mp he
  have heo : onBoard b0 e := P.inv0.empty_onBoard hen hee
  have hwn : nbr b0 j e < b0.m_vertices_number := g0.nbr_lt heo hj
  have ru := P.inv0.root u hu hs2
  have hwo := P.inv0.member_onBoard ru.1 hwn hpj
  have hws := P.inv0.member_stone ru.1 hwn hpj
  have hwc : b0.m_state (nbr b0 j e) = notc c := by
    rw [← (P.inv0.root _ hwo hws).2.1, hpj, ru.2.1, hs]
  have hwv := (P.opp4 hwc).1
  have hw4 : b4.m_state (nbr b0 j e) = notc c := by
    rw [← P.track.whole u (nbr b0 j e) hun (by rw [P.nverts_p]; exact hwn) (P.opp4 hs).2.1
      (by rw [P.parentp huv, P.parentp hwv, hpj]), h4]
  have ku := (P.track.opp_keep u hun h4).1
  have kw := (P.track.opp_keep _ (by rw [P.nverts_p]; exact hwn) hw4).1
  refine ⟨e, mem_libsOf.mpr ⟨by rw [P.nv4]; exact hen, P.empty4 hev hee, j, hj, ?_⟩⟩
  rw [P.nbr4, kw, ku, P.parentp hwv, P.parentp huv, hpj]

/-- A string of colour `c` that the loop has not merged with the string of `v` keeps a
liberty. -/
theorem Placed.friend_alive (P : Placed Z BS r c v b0 bp b4 cs cv) {u : Nat}
    (hu : onBoard b0 u) (hs : b0.m_state u = c) (hpv : b4.m_parent u ≠ b4.m_parent v)
    (hal : ∃ e, isLiberty b0 u e) : (libsOf b4 (b4.m_parent u)).Nonempty := by
  have g0 := P.inv0.geom
  have hs2 : b0.m_state u < 2 := by rw [hs]; exact P.color
  have huv : u ≠ v := P.ne_v (by rw [hs]; exact P.c_ne_empty)
  have hun : u < bp.m_vertices_number := by rw [P.nverts_p]; exact g0.onBoard_lt hu
  obtain ⟨e, he⟩ := hal
  have he := (isLiberty_iff P.inv0 hu hs2 e).mp he
  obtain ⟨hen, hee, j, hj, hpj⟩ := mem_libsOf.mp he
  have heo : onBoard b0 e := P.inv0.empty_onBoard hen hee
  have hwn : nbr b0 j e < b0.m_vertices_number := g0.nbr_lt heo hj
  have ru := P.inv0.root u hu hs2
  have hwo := P.inv0.member_onBoard ru.1 hwn hpj
  have hws := P.inv0.member_stone ru.1 hwn hpj
  have hwc : b0.m_state (nbr b0 j e) = c := by
    rw [← (P.inv0.root _ hwo hws).2.1, hpj, ru.2.1, hs]
  have hwv : nbr b0 j e ≠ v := P.ne_v (by rw [hwc]; exact P.c_ne_empty)
  have hfm := P.track.friend_mono (nbr b0 j e) u (by rw [P.nverts_p]; exact hwn) hun
    (by rw [P.statep hwv, hwc]) (by rw [P.statep huv, hs])
    (by rw [P.parentp hwv, P.parentp huv, hpj])
  have hev : e ≠ v := by
    intro h
    rw [h] at hfm hwc
    have hv4 : onBoard b4 v := (P.on4 v).mpr P.on_v
    have hvs4 : b4.m_state v < 2 := by rw [P.state4_v]; exact P.color
    have hcl := Inv.closed4 P.inv4 hv4 hj hvs4 (by rw [P.nbr4, P.friend4 hwc, P.state4_v])
    rw [P.nbr4] at hcl
    exact hpv (by rw [← hfm, hcl])
  refine ⟨e, mem_libsOf.mpr ⟨by rw [P.nv4]; exact hen, P.empty4 hev hee, j, hj, ?_⟩⟩
  rw [P.nbr4, hfm]

/-- With a counter that is not zero the string of `v` has a liberty after the loop. -/
theorem Placed.self_alive (P : Placed Z BS r c v b0 bp b4 cs cv) (h2 : 2 ≤ b0.m_board_size)
    (hl : b4.m_liberties (b4.m_parent v) ≠ 0) : (libsOf b4 (b4.m_parent v)).Nonempty := by
  have hv4 : onBoard b4 v := (P.on4 v).mpr P.on_v
  have hvs4 : b4.m_state v < 2 := by rw [P.state4_v]; exact P.color
  have r4 := P.inv4.root v hv4 hvs4
  rw [P.inv4.libs (by rw [P.size4]; exact h2) _ r4.1 (by rw [r4.2.1]; exact hvs4) r4.2.2] at hl
  exact Finset.card_pos.mp (Nat.pos_of_ne_zero hl)

/-- After the loop every string has a liberty, the string of `v` apart when its counter is
zero. -/
theorem Placed.alive4 (P : Placed Z BS r c v b0 bp b4 cs cv) (h2 : 2 ≤ b0.m_board_size)
    (hal : Alive b0) {u : Nat} (hu : onBoard b0 u) (hs : b4.m_state u < 2)
    (hkeep : ¬ (b4.m_liberties (b4.m_parent v) = 0 ∧ b4.m_parent u = b4.m_parent v)) :
    (libsOf b4 (b4.m_parent u)).Nonempty := by
  by_cases hpv : b4.m_parent u = b4.m_parent v
  · rw [hpv]
    exact P.self_alive h2 (fun h => hkeep ⟨h, hpv⟩)
  · have huv : u ≠ v := fun h => hpv (by rw [h])
    have h0 : b0.m_state u = b4.m_state u := by
      rcases P.track.state_mono u with h | ⟨_, h⟩
      · rw [h, P.statep huv]
      · rw [h] at hs; exact absurd hs (by decide)
    have hs0 : b0.m_state u < 2 := by rw [h0]; exact hs
    by_cases hc : b0.m_state u = c
    · exact P.friend_alive hu hc hpv (hal u hu hs0)
    · have hn : b0.m_state u = notc c := by
        have := P.color
        unfold notc
        split <;> omega
      exact P.opp_alive hu hn (by rw [← h0]; exact hn) (hal u hu hs0)

/-- A liberty after the loop is a liberty on the board that `update_board` returns, for a
string that the self-removal leaves on the board. -/
theorem Placed.liberty_kept (P : Placed Z BS r c v b0 bp b4 cs cv) {b2 : FullBoard}
    (hd : b2.m_directions = b0.m_directions) (hside : b2.m_side_vertices = b0.m_side_vertices)
    (hsize : b2.m_board_size = b0.m_board_size)
    (hst : ∀ u, b2.m_state u =
      if b4.m_liberties (b4.m_parent v) = 0 ∧ u < b4.m_vertices_number ∧
          b4.m_parent u = b4.m_parent v then EMPTY else b4.m_state u)
    {u e : Nat} (hu : onBoard b0 u) (hs : b4.m_state u < 2)
    (hkeep : ¬ (b4.m_liberties (b4.m_parent v) = 0 ∧ b4.m_parent u = b4.m_parent v))
    (he : e ∈ libsOf b4 (b4.m_parent u)) : isLiberty b2 u e := by
  have hu4 : onBoard b4 u := (P.on4 u).mpr hu
  have hon : ∀ w, onBoard b2 w ↔ onBoard b4 w := fun w =>
    (onBoard_congr hside hsize w).trans (P.on4 w).symm
  have hnb : ∀ k w, nbr b2 k w = nbr b4 k w := fun k w => by
    rw [nbr_congr hd, P.nbr4]
  have keep : ∀ w, b4.m_parent w = b4.m_parent u → b2.m_state w = b4.m_state w := by
    intro w hw
    rw [hst w, if_neg]
    intro h
    exact hkeep ⟨h.1, by rw [← hw]; exact h.2.2⟩
  have hgr : ∀ w, group b4 u w → group b2 u w := by
    intro w hg
    induction hg with
    | refl => exact Relation.ReflTransGen.refl
    | tail hxy hl ih =>
      rename_i x y
      have gx := group_parent P.inv4 hu4 hs hxy
      have gy := group_parent P.inv4 hu4 hs (Relation.ReflTransGen.tail hxy hl)
      obtain ⟨hox, hoy, ⟨k, hk, hy⟩, hsame⟩ := hl
      refine Relation.ReflTransGen.tail ih
        ⟨(hon x).mpr hox, (hon y).mpr hoy, ⟨k, hk, by rw [hnb]; exact hy⟩, ?_⟩
      rw [keep x gx.2.2, keep y gy.2.2, hsame]
  obtain ⟨hoe, hee, w, k, hg, hk, hw⟩ := (isLiberty_iff P.inv4 hu4 hs e).mpr he
  refine ⟨(hon e).mpr hoe, ?_, w, k, hgr w hg, hk, by rw [hnb]; exact hw⟩
  rw [hst e]
  split
  · rfl
  · exact hee

end

/-- On a board of size at least 2 `update_board` leaves every string with a liberty when
every string had one before. -/
theorem update_board_alive {Z : Zobrist} {BS r c v : Nat} {b0 : FullBoard}
    (inv : Inv Z BS r b0) (h2 : 2 ≤ b0.m_board_size) (hal : Alive b0) (hv : onBoard b0 v)
    (hve : b0.m_state v = EMPTY) (hc : c < 2) :
    ∃ b2 ko, update_board Z BS b0 c v = some (b2, ko) ∧ Alive b2 := by
  obtain ⟨bp, b4, cs, cv, b2, P, hres, inv2, e1, e2, e3, e4, e5, hst2⟩ :=
    update_board_placed inv hv hve hc
  refine ⟨b2, _, hres, ?_⟩
  intro u hu hs
  have hu0 : onBoard b0 u := (onBoard_congr e3 e4 u).mp hu
  have hun : u < b4.m_vertices_number := by rw [P.nv4]; exact inv.geom.onBoard_lt hu0
  have hkeep : ¬ (b4.m_liberties (b4.m_parent v) = 0 ∧ b4.m_parent u = b4.m_parent v) := by
    intro h
    rw [hst2 u, if_pos ⟨h.1, hun, h.2⟩] at hs
    exact absurd hs (by decide)
  have hs4 : b4.m_state u < 2 := by
    rw [hst2 u, if_neg (fun h => hkeep ⟨h.1, h.2.2⟩)] at hs
    exact hs
  obtain ⟨e, he⟩ := P.alive4 h2 hal hu0 hs4 hkeep
  exact ⟨e, P.liberty_kept e1 e3 e4 hst2 hu0 hs4 hkeep he⟩

/-- On a reachable board of size at least 2 every string has a liberty. -/
theorem Reachable.alive {Z : Zobrist} {BS : Nat} {b : FullBoard} (h : Reachable Z BS b)
    (h2 : 2 ≤ b.m_board_size) : Alive b := by
  induction h with
  | reset b0 size hsize hfit =>
    intro u hu hs
    have := (reset_board_inv Z BS b0 size hsize hfit).2.2.2.2.2 u hu
    rw [this] at hs
    exact absurd hs (by decide)
  | update b c v b2 ko hb hc hon he hres ih =>
    obtain ⟨r, inv⟩ := hb.inv
    obtain ⟨b3, ko3, h3, _, _, _, _, e4, _⟩ := update_board_obs inv hon he hc
    rw [hres] at h3
    cases h3
    have h2b : 2 ≤ b.m_board_size := by rw [← e4]; exact h2
    obtain ⟨b5, ko5, h5, hal⟩ := update_board_alive inv h2b (ih h2b) hon he hc
    rw [hres] at h5
    cases h5
    exact hal

/-- C34, as stated, fails on the board with a single point: `update_board(BLACK, 4)` on
the board of `reset_board(1)` leaves the black stone on the point, with the counter 2, and
the stone has no adjacent empty vertex. -/
theorem strings_keep_liberty_counterexample :
    (Reachable exampleZ 19 point1 ∧ onBoard point1 4 ∧ point1.m_state 4 = EMPTY) ∧
      (update_board exampleZ 19 point1 BLACK 4).map Prod.fst = some stone1 ∧
      onBoard stone1 4 ∧ stone1.m_state 4 = BLACK ∧
      stone1.m_liberties (stone1.m_parent 4) = 2 ∧ ¬ ∃ e, isLiberty stone1 4 e := by
  obtain ⟨r, inv⟩ := point1_reachable.inv
  obtain ⟨b2, ko, h, _⟩ :=
    @update_board_inv exampleZ 19 r BLACK 4 point1 inv (by decide) (by decide) (by decide)
  refine ⟨⟨point1_reachable, by decide, by decide⟩, by simp [stone1, boardAfter, h],
    by decide, by decide, by decide, ?_⟩
  rintro ⟨e, hoe, hee, _⟩
  have : e = 4 := onBoard_unique (by decide) (by decide) hoe (by decide)
  rw [this] at hee
  exact absurd hee (by decide)

/-- C34, amended: after every `update_board` call on an empty on-board vertex of a
reachable board of size at least 2, every stone on the board belongs to a string that has
a liberty, an empty on-board vertex next to a stone of the string, and the liberty counter
of the string is not zero. -/
theorem strings_keep_liberty (Z : Zobrist) (BS : Nat) (b : FullBoard) (color vertex : Nat)
    (hb : Reachable Z BS b) (h2 : 2 ≤ b.m_board_size) (hcolor : color < 2)
    (hon : onBoard b vertex) (hempty : b.m_state vertex = EMPTY) :
    ∃ b2 ko, update_board Z BS b color vertex = some (b2, ko) ∧
      ∀ u, onBoard b2 u → b2.m_state u < 2 →
        (∃ e, isLiberty b2 u e) ∧ b2.m_liberties (b2.m_parent u) ≠ 0 := by
  obtain ⟨r, inv⟩ := hb.inv
  obtain ⟨b2, ko, hres, inv2, _, _, _, e4, _⟩ := update_board_obs inv hon hempty hcolor
  have hr2 : Reachable Z BS b2 := Reachable.update b color vertex b2 ko hb hcolor hon hempty hres
  have h22 : 2 ≤ b2.m_board_size := by rw [e4]; exact h2
  refine ⟨b2, ko, hres, fun u hu hs => ?_⟩
  obtain ⟨e, he⟩ := hr2.alive h22 u hu hs
  refine ⟨⟨e, he⟩, ?_⟩
  have ru := inv2.root u hu hs
  rw [inv2.libs h22 _ ru.1 (by rw [ru.2.1]; exact hs) ru.2.2]
  exact Finset.card_ne_zero_of_mem ((isLiberty_iff inv2 hu hs e).mp he)

set_option maxRecDepth 100000 in
theorem strings_keep_liberty_witness :
    (Reachable exampleZ 19 atari3 ∧ 2 ≤ atari3.m_board_size ∧ BLACK < 2 ∧
        onBoard atari3 11 ∧ atari3.m_state 11 = EMPTY) ∧
      ∃ b2 ko, update_board exampleZ 19 atari3 BLACK 11 = some (b2, ko) ∧
        ∀ u, onBoard b2 u → b2.m_state u < 2 →
          (∃ e, isLiberty b2 u e) ∧ b2.m_liberties (b2.m_parent u) ≠ 0 :=
  ⟨⟨atari3_reachable, by decide, by decide, by decide, by decide⟩,
    strings_keep_liberty exampleZ 19 atari3 BLACK 11 atari3_reachable (by decide) (by decide)
      (by decide) (by decide)⟩

/-! ### The assertions of `update_board` -/

/-- The assertions of the last part of `update_board` hold when a string without a liberty
comes with no capture, and a single capture into an eye leaves an empty vertex on which
the opponent may play. -/
theorem update_finish_checked_eq {Z : Zobrist} {BS c v eye cs cv : Nat} {b : FullBoard}
    (h1 : b.m_liberties (b.m_parent v) = 0 → cs = 0)
    (h2 : cs = 1 → eye ≠ 0 → b.m_state cv = EMPTY ∧ is_suicide b cv (notc c) = false) :
    update_finish_checked Z BS c v eye (b, cs, cv) = update_finish Z BS c v eye (b, cs, cv) := by
  by_cases hl : b.m_liberties (b.m_parent v) = 0
  · have h0 := h1 hl
    simp only [update_finish_checked, update_finish, hl, h0, if_true]
    generalize Option.map Prod.fst (remove_vertices_string Z BS _ v) = o
    cases o with
    | none => rfl
    | some b7 => simp
  · by_cases hk : cs = 1 ∧ eye ≠ 0
    · have hh := h2 hk.1 hk.2
      simp only [update_finish_checked, update_finish, hl, if_false, hk, hh.1, ne_eq,
        not_false_eq_true, and_self, if_true]
      rw [if_pos]
      exact ⟨trivial, hh.2⟩
    · simp only [update_finish_checked, update_finish, hl, if_false, hk]

section
variable {Z : Zobrist} {BS r c v cs cv : Nat} {b0 bp b4 : FullBoard}

/-- A string of `v` without a liberty after the loop: nothing has been captured. -/
theorem Placed.captures_alive (P : Placed Z BS r c v b0 bp b4 cs cv)
    (hl : b4.m_liberties (b4.m_parent v) = 0) : cs = 0 := by
  by_contra hne
  have hpos : 0 < ((Finset.range bp.m_vertices_number).filter
      (fun u => bp.m_state u = notc c ∧ b4.m_state u = EMPTY)).card := by
    rw [← P.track.count]; omega
  obtain ⟨u, hu⟩ := Finset.card_pos.mp hpos
  obtain ⟨ho, hs, h4⟩ := (P.count_mem u).mp hu
  exact P.alive_of_capture ho hs h4 hl

/-- With a single captured stone, every captured stone is `captured_vtx`. -/
theorem Placed.captured_unique (P : Placed Z BS r c v b0 bp b4 cs cv) (h1 : cs = 1) {u : Nat}
    (hu : onBoard b0 u) (hs : b0.m_state u = notc c) (h4 : b4.m_state u = EMPTY) : u = cv := by
  have hcard := P.track.count
  rw [h1] at hcard
  obtain ⟨a, ha⟩ := Finset.card_eq_one.mp hcard.symm
  obtain ⟨hcn, hcs, hc4⟩ := P.track.last (by omega)
  have hcv : cv ≠ v := by
    intro h
    rw [h, P.statep_v] at hcs
    exact notc_ne hcs.symm
  have m1 : u ∈ ({a} : Finset Nat) := by
    rw [← ha]; exact (P.count_mem u).mpr ⟨hu, hs, h4⟩
  have m2 : cv ∈ ({a} : Finset Nat) := by
    rw [← ha, Finset.mem_filter, Finset.mem_range]
    exact ⟨hcn, hcs, hc4⟩
  rw [Finset.mem_singleton] at m1 m2
  rw [m1, m2]

/-- A single capture into an eye: the captured vertex is next to `v`, and the stone on `v`
is a string of its own whose only liberty is the captured vertex, so that the opponent may
play there. -/
theorem Placed.ko_open (P : Placed Z BS r c v b0 bp b4 cs cv) (h1 : cs = 1)
    (heye : b0.m_neighbors v &&& s_eye_mask (notc c) ≠ 0) :
    b4.m_state cv = EMPTY ∧ is_suicide b4 cv (notc c) = false := by
  have g0 := P.inv0.geom
  obtain ⟨hcn, hcs, hc4⟩ := P.track.last (by omega)
  rw [P.nverts_p] at hcn
  have hcv : cv ≠ v := by
    intro h
    rw [h, P.statep_v] at hcs
    exact notc_ne hcs.symm
  rw [P.statep hcv] at hcs
  have hco : onBoard b0 cv := P.inv0.stone_onBoard hcn (by rw [hcs]; exact notc_lt)
  have h2 : 2 ≤ b0.m_board_size := two_le_size g0 hco P.on_v hcv
  have hv4 : onBoard b4 v := (P.on4 v).mpr P.on_v
  have hvs4 : b4.m_state v < 2 := by rw [P.state4_v]; exact P.color
  have henc := (enclosed_iff P.inv0 h2 P.on_v (@notc_lt c)).mp heye
  -- the neighbours of `v` do not hold its colour
  have hnc : ∀ k, k < 4 → b0.m_state (nbr b0 k v) ≠ c := by
    intro k hk hsc
    rcases henc k hk with ⟨_, h⟩ | h
    · rw [hsc] at h; exact notc_ne h.symm
    · exact h (P.nbr_stone hk (by rw [hsc]; exact P.color))
  -- an empty neighbour of `v` after the loop is the captured vertex
  have hnb : ∀ k, k < 4 → b4.m_state (nbr b0 k v) = EMPTY → nbr b0 k v = cv := by
    intro k hk he
    rcases henc k hk with ⟨ho, h⟩ | h
    · exact P.captured_unique h1 ho h he
    · have hn : nbr b0 k v < b4.m_vertices_number := by
        rw [P.nv4]; exact g0.nbr_lt P.on_v hk
      exact absurd ((P.on4 _).mp (P.inv4.empty_onBoard hn he)) h
  -- the liberties of the string of `v`
  have hsub : libsOf b4 (b4.m_parent v) ⊆ {cv} := by
    intro e he
    rw [Finset.mem_singleton]
    obtain ⟨hoe, hee, w, k, hg, hk, hw⟩ := (isLiberty_iff P.inv4 hv4 hvs4 e).mpr he
    rw [P.nbr4] at hw
    have hwv : w = v := by
      rcases (P.group4 hg).2 with h | ⟨j, hj, hsc, _⟩
      · exact h
      · exact absurd hsc (hnc j hj)
    rw [hwv] at hw
    rw [← hw] at hee ⊢
    exact hnb k hk hee
  have r4 := P.inv4.root v hv4 hvs4
  have hle : b4.m_liberties (b4.m_parent v) ≤ 1 := by
    rw [P.inv4.libs (by rw [P.size4]; exact h2) _ r4.1 (by rw [r4.2.1]; exact hvs4) r4.2.2]
    exact (Finset.card_le_card hsub).trans (by rw [Finset.card_singleton])
  -- the captured vertex is next to `v`
  obtain ⟨_, j, hj, hpj⟩ := P.track.dead cv (by rw [P.nverts_p]; exact hcn)
    (by rw [P.statep hcv]; exact hcs) hc4
  rw [P.nbrp] at hpj
  have hwv : nbr b0 j v ≠ v := g0.nbr_ne_self P.on_v hj
  rw [P.parentp hwv, P.parentp hcv] at hpj
  have hwn : nbr b0 j v < b0.m_vertices_number := g0.nbr_lt P.on_v hj
  have rc := P.inv0.root cv hco (by rw [hcs]; exact notc_lt)
  have hwo := P.inv0.member_onBoard rc.1 hwn hpj
  have hws := P.inv0.member_stone rc.1 hwn hpj
  have hwc : b0.m_state (nbr b0 j v) = notc c := by
    rw [← (P.inv0.root _ hwo hws).2.1, hpj, rc.2.1, hcs]
  have hw4 : b4.m_state (nbr b0 j v) = EMPTY := by
    rw [← P.track.whole cv (nbr b0 j v) (by rw [P.nverts_p]; exact hcn)
      (by rw [P.nverts_p]; exact hwn) (by rw [P.statep hcv]; exact hcs)
      (by rw [P.parentp hcv, P.parentp hwv, hpj]), hc4]
  have hadj : nbr b0 j v = cv := hnb j hj hw4
  have hback : nbr b4 ((j + 2) % 4) cv = v := by
    rw [P.nbr4, ← hadj]; exact g0.nbr_opp P.on_v hj
  refine ⟨hc4, ?_⟩
  cases hsu : is_suicide b4 cv (notc c) with
  | false => rfl
  | true =>
    exfalso
    have hk := ((is_suicide_iff b4 cv (notc c)).mp hsu).2 ((j + 2) % 4)
      (Nat.mod_lt _ (by decide))
    rw [hback] at hk
    have hnn : notc (notc c) = c := by
      have := P.color
      unfold notc
      split <;> split <;> omega
    have := hk.2 (by rw [P.state4_v, hnn])
    omega

end

/-- The stages of `update_board` with its assertions, on a board that satisfies the
invariant: no assertion fails. -/
theorem update_board_checked_spec {Z : Zobrist} {BS r c v : Nat} {b0 : FullBoard}
    (inv : Inv Z BS r b0) (hv : onBoard b0 v) (hve : b0.m_state v = EMPTY) (hc : c < 2) :
    update_board_checked Z BS b0 c v = update_board Z BS b0 c v ∧
    ∃ bp b4 cs cv b2, Placed Z BS r c v b0 bp b4 cs cv ∧
      update_board Z BS b0 c v =
        some (b2, if cs = 1 ∧ (b0.m_neighbors v &&& s_eye_mask (notc c)) ≠ 0 then cv
          else NO_VERTEX) ∧
      (b4.m_liberties (b4.m_parent v) ≠ 0 → b2 = update_books Z c v cs b4) := by
  obtain ⟨bp, hbp, invp, e_st, e_par, e_nb, hfr⟩ := update_place_spec inv hv hve hc
  have hvp : onBoard bp v := (onBoard_congr (by rw [hfr]) (by rw [hfr]) v).mpr hv
  have hvs : bp.m_state v = c := by rw [e_st]; simp
  obtain ⟨b4, cs, cv, hcap, inv4, t4⟩ := update_captures_spec invp hc hvp hvs
  have hv4 : onBoard b4 v := (onBoard_congr t4.side t4.size v).mpr hvp
  obtain ⟨b2, hfin, inv2, halt⟩ := @update_finish_spec Z BS r c v cs cv
    (b0.m_neighbors v &&& s_eye_mask (notc c)) b4 inv4 hc hv4 (t4.state_v hvs)
  have P : Placed Z BS r c v b0 bp b4 cs cv :=
    ⟨inv, hv, hve, hc, invp, e_st, e_par, by rw [hfr], by rw [hfr], by rw [hfr], by rw [hfr],
      inv4, t4⟩
  have hu : update_board Z BS b0 c v =
      some (b2, if cs = 1 ∧ (b0.m_neighbors v &&& s_eye_mask (notc c)) ≠ 0 then cv
        else NO_VERTEX) := by
    simp only [update_board, hbp, hcap, e_nb, hfin]
  refine ⟨?_, bp, b4, cs, cv, b2, P, hu, ?_⟩
  · rw [hu]
    simp only [update_board_checked, hve, ne_eq, not_true_eq_false, if_false, hbp, hcap, e_nb]
    rw [update_finish_checked_eq P.captures_alive (fun h1 he => P.ko_open h1 he)]
    exact hfin
  · intro hl
    rcases halt with ⟨_, h⟩ | ⟨h, _⟩
    · exact h
    · exact absurd h hl

/-- C39: on a reachable board, `update_board` on an empty on-board vertex passes all its
assertions: the embedding with the assertions returns what the embedding without them
returns, and that is a board and a ko vertex.  When the placed stone has been taken off
again, no opposing stone has been captured; a ko vertex that is returned is empty, and
`is_suicide(ko vertex, opposite colour)` is false. -/
theorem update_board_asserts (Z : Zobrist) (BS : Nat) (b : FullBoard) (color vertex : Nat)
    (hb : Reachable Z BS b) (hcolor : color < 2) (hon : onBoard b vertex)
    (hempty : b.m_state vertex = EMPTY) :
    update_board_checked Z BS b color vertex = update_board Z BS b color vertex ∧
    ∃ b2 ko, update_board_checked Z BS b color vertex = some (b2, ko) ∧
      (b2.m_state vertex = EMPTY →
        ∀ u, onBoard b u → b.m_state u = notc color → b2.m_state u = notc color) ∧
      (ko ≠ NO_VERTEX → b2.m_state ko = EMPTY ∧ is_suicide b2 ko (notc color) = false) := by
  obtain ⟨r, inv⟩ := hb.inv
  obtain ⟨heq, bp, b4, cs, cv, b2, P, hres, hbooks⟩ :=
    update_board_checked_spec inv hon hempty hcolor
  obtain ⟨b3, ko3, h3, _, _, _, _, _, _, _, _, hsui, hkeep, _⟩ :=
    update_board_obs inv hon hempty hcolor
  rw [hres] at h3
  cases h3
  refine ⟨heq, b2, _, by rw [heq, hres], fun h => hkeep (hsui.mp h), ?_⟩
  intro hko
  by_cases hk : cs = 1 ∧ (b.m_neighbors vertex &&& s_eye_mask (notc color)) ≠ 0
  · rw [if_pos hk]
    have hl : b4.m_liberties (b4.m_parent vertex) ≠ 0 := fun h => by
      have := P.captures_alive h
      omega
    rw [hbooks hl]
    exact P.ko_open hk.1 hk.2
  · rw [if_neg hk] at hko
    exact absurd rfl hko

set_option maxRecDepth 100000 in
theorem update_board_asserts_witness :
    (Reachable exampleZ 19 atari3 ∧ BLACK < 2 ∧ onBoard atari3 11 ∧
        atari3.m_state 11 = EMPTY) ∧
      update_board_checked exampleZ 19 atari3 BLACK 11 = update_board exampleZ 19 atari3 BLACK 11 ∧
      ∃ b2 ko, update_board_checked exampleZ 19 atari3 BLACK 11 = some (b2, ko) ∧
        (b2.m_state 11 = EMPTY →
          ∀ u, onBoard atari3 u → atari3.m_state u = notc BLACK → b2.m_state u = notc BLACK) ∧
        (ko ≠ NO_VERTEX → b2.m_state ko = EMPTY ∧ is_suicide b2 ko (notc BLACK) = false) :=
  ⟨⟨atari3_reachable, by decide, by decide, by decide⟩,
    update_board_asserts exampleZ 19 atari3 BLACK 11 atari3_reachable (by decide) (by decide)
      (by decide)⟩

/-! ## Claim C11: the area score in single precision -/

/-- A playable move continues a `KoState` game. -/
theorem koOn_game {s s2 : KoState} {boards boards2 : List FullBoard} {c : Nat} {v : Int}
    (h : KoGame exampleZ 19 s boards) (hc : c < 2) (hp : playable s.fast v)
    (hs : s2 = koOn s c v) (hb : boards2 = boards ++ [s2.fast.board]) :
    KoGame exampleZ 19 s2 boards2 := by
  obtain ⟨gi, _, _⟩ := h.history
  obtain ⟨s3, h3, _⟩ := KoState_play_move_spec gi hc hp
  have e : s2 = s3 := by rw [hs]; simp [koOn, h3]
  rw [hb, e]
  exact KoGame.move s boards c v s3 h hc hp h3

theorem ko0_game : KoGame exampleZ 19 ko0 [ko0.fast.board] :=
  KoGame.init blankKo 2 (15 / 2) (by decide) (by decide)

theorem ko1_game : KoGame exampleZ 19 ko1 [ko0.fast.board, ko1.fast.board] :=
  koOn_game ko0_game (by decide : BLACK < 2) (by decide! : playable ko0.fast 5) rfl rfl

theorem ko2_game : KoGame exampleZ 19 ko2 [ko0.fast.board, ko1.fast.board, ko2.fast.board] :=
  koOn_game ko1_game (by decide : WHITE < 2) (by decide! : playable ko1.fast 6) rfl rfl

theorem ko3_game : KoGame exampleZ 19 ko3
    [ko0.fast.board, ko1.fast.board, ko2.fast.board, ko3.fast.board] :=
  koOn_game ko2_game (by decide : BLACK < 2) (by decide! : playable ko2.fast 9) rfl rfl

theorem ko4_game : KoGame exampleZ 19 ko4
    [ko0.fast.board, ko1.fast.board, ko2.fast.board, ko3.fast.board, ko4.fast.board] :=
  koOn_game ko3_game (by decide : WHITE < 2) (by decide! : playable ko3.fast 10) rfl rfl

theorem ko5_game : KoGame exampleZ 19 ko5
    [ko0.fast.board, ko1.fast.board, ko2.fast.board, ko3.fast.board, ko4.fast.board,
      ko5.fast.board] :=
  koOn_game ko4_game (by decide : BLACK < 2) (by decide! : playable ko4.fast 5) rfl rfl

theorem ko6_game : KoGame exampleZ 19 ko6
    [ko0.fast.board, ko1.fast.board, ko2.fast.board, ko3.fast.board, ko4.fast.board,
      ko5.fast.board, ko6.fast.board] :=
  koOn_game ko5_game (by decide : WHITE < 2) (by decide! : playable ko5.fast 9) rfl rfl

theorem ko7_game : KoGame exampleZ 19 ko7
    [ko0.fast.board, ko1.fast.board, ko2.fast.board, ko3.fast.board, ko4.fast.board,
      ko5.fast.board, ko6.fast.board, ko7.fast.board] :=
  koOn_game ko6_game (by decide : BLACK < 2) (by decide! : playable ko6.fast 5) rfl rfl

/-- Seven moves on the 2x2 board: the last one brings back the position after the first
move, vertex by vertex, and `super_ko()` is true; after the third move no earlier position
has the ko hash of the board and `super_ko()` is false. -/
theorem super_ko_history_witness :
    KoGame exampleZ 19 ko7
      [ko0.fast.board, ko1.fast.board, ko2.fast.board, ko3.fast.board, ko4.fast.board,
        ko5.fast.board, ko6.fast.board, ko7.fast.board] ∧
    (∀ v, v < 16 → ko7.fast.board.m_state v = ko1.fast.board.m_state v) ∧
    KoState.super_ko ko7 = true ∧
    (∃ b, b ∈ [ko0.fast.board, ko1.fast.board, ko2.fast.board, ko3.fast.board,
        ko4.fast.board, ko5.fast.board, ko6.fast.board, ko7.fast.board].dropLast ∧
      b.m_hash_ko = ko7.fast.board.m_hash_ko) ∧
    ko7.m_ko_hash_history =
      [ko0.fast.board, ko1.fast.board, ko2.fast.board, ko3.fast.board, ko4.fast.board,
        ko5.fast.board, ko6.fast.board, ko7.fast.board].map (fun b => b.m_hash_ko) ∧
    KoGame exampleZ 19 ko3
      [ko0.fast.board, ko1.fast.board, ko2.fast.board, ko3.fast.board] ∧
    KoState.super_ko ko3 = false ∧
    ¬ ∃ b, b ∈ [ko0.fast.board, ko1.fast.board, ko2.fast.board, ko3.fast.board].dropLast ∧
      b.m_hash_ko = ko3.fast.board.m_hash_ko :=
  have h7 : KoState.super_ko ko7 = true := by decide!
  have h3 : KoState.super_ko ko3 = false := by decide!
  ⟨ko7_game, by decide!, h7, (super_ko_history ko7_game).2.2.1.mp h7,
    (super_ko_history ko7_game).1, ko3_game, h3,
    fun h => absurd ((super_ko_history ko3_game).2.2.1.mpr h) (by rw [h3]; decide)⟩

end LeelaZero
